import Mathlib

/-!
Susa `svd`: a shallow embedding of `src/svd.cpp`.

The routine is embedded statement by statement as a state transformer.

* Arithmetic is taken over an arbitrary linearly ordered field `α` together with a
  square-root function `sqrt : α → α` passed as a parameter; the real-number model is the
  instance `α = ℝ`, `sqrt = Real.sqrt`.  The casts `(float)` and `(double)` are the identity
  in this model, and `fabs` is the absolute value.
* All `int` variables of the source are integers (`Int`).  A statement is a function
  `St α → St α` on the program state; statements are put together by the combinators
  `block` (sequence), `cond`/`whenever` (`if`), `loopUp`/`loopDown` (`for`), whose
  iteration count is computed from the loop bounds.
* The containers are unbounded tables together with a shape; an element access outside the
  shape reads or writes the table cell of that index and raises the ghost flag `oob`.
* A division whose divisor is zero raises the ghost flag `dz` (the quotient is then the
  field convention `x / 0 = 0`).  The two quotients computed inside `_susa_svd_pythag`
  are not recorded in `dz`.
* The remaining ghost fields (`log`, `iters`, `stalled`) record the log lines written, the number
  of executed bodies of the iteration loop, and the indices `k` whose iteration budget ran out.
-/

namespace Susa

/-! ## The matrix container -/

/-- Modelled from the spec: the generic matrix container of the library (its source is not
part of the verified files).  It supports `no_rows()`/`no_cols()`, element access by
`(row, col)`, a single-index accessor for vector-shaped matrices, in-place `resize` and
copy-assignment.  `val` is the unbounded backing table; `rows`, `cols` the current shape. -/
structure Mat (α : Type) where
  rows : Nat
  cols : Nat
  val : Int → Int → α

/-- Whether `(i, j)` is inside the current shape of `M`. -/
def Mat.inb {α : Type} (M : Mat α) (i j : Int) : Bool :=
  decide (0 ≤ i ∧ i < M.rows ∧ 0 ≤ j ∧ j < M.cols)

/-- Whether the single index `i` is inside the current storage of `M`. -/
def Mat.inb1 {α : Type} (M : Mat α) (i : Int) : Bool :=
  decide (0 ≤ i ∧ i < (M.rows : Int) * M.cols)

/-- Assignment `M(i,j) = v`. -/
def Mat.set {α : Type} (M : Mat α) (i j : Int) (v : α) : Mat α :=
  { M with val := fun a b => if a = i ∧ b = j then v else M.val a b }

/-- Modelled from the spec: `M.resize(r, c)` changes the shape; the contents after a resize
are left unspecified (the table is kept as it was). -/
def Mat.resize {α : Type} (M : Mat α) (r c : Int) : Mat α :=
  { M with rows := r.toNat, cols := c.toNat }

/-! ## Statement combinators -/

/-- Auxiliary of `forUp`: run `body i`, `body (i+1)`, … `cnt` times. -/
def forUpAux {σ : Type} (body : Int → σ → σ) : Nat → Int → σ → σ
  | 0, _, s => s
  | t + 1, i, s => forUpAux body t (i + 1) (body i s)

/-- The loop `for (i = lo; i < hi; i++) body`. -/
def forUp {σ : Type} (lo hi : Int) (body : Int → σ → σ) (s : σ) : σ :=
  forUpAux body (hi - lo).toNat lo s

/-- Auxiliary of `forDown`: run `body i`, `body (i-1)`, … `cnt` times. -/
def forDownAux {σ : Type} (body : Int → σ → σ) : Nat → Int → σ → σ
  | 0, _, s => s
  | t + 1, i, s => forDownAux body t (i - 1) (body i s)

/-- The loop `for (i = hi; i >= lo; i--) body`. -/
def forDown {σ : Type} (hi lo : Int) (body : Int → σ → σ) (s : σ) : σ :=
  forDownAux body (hi + 1 - lo).toNat hi s

/-- The sequence `{ s₁; s₂; …; sₙ }` of statements. -/
@[irreducible] def block {σ : Type} (l : List (σ → σ)) (s : σ) : σ := l.foldl (fun s f => f s) s

/-- The statement `if (c) t else e`. -/
@[irreducible] def cond {σ : Type} (c : σ → Prop) [DecidablePred c] (t e : σ → σ) (s : σ) : σ :=
  if c s then t s else e s

/-- The statement `if (c) t`. -/
@[irreducible] def whenever {σ : Type} (c : σ → Prop) [DecidablePred c] (t : σ → σ) (s : σ) : σ :=
  if c s then t s else s

/-- The statement `for (i = lo; i < hi; i++) body`, the bounds being read in the state at
loop entry (no loop body of the routine assigns a variable its own bounds mention). -/
@[irreducible] def loopUp {σ : Type} (lo hi : σ → Int) (body : Int → σ → σ) (s : σ) : σ :=
  forUp (lo s) (hi s) body s

/-- The statement `for (i = hi; i >= lo; i--) body`. -/
@[irreducible] def loopDown {σ : Type} (hi lo : σ → Int) (body : Int → σ → σ) (s : σ) : σ :=
  forDown (hi s) (lo s) body s

/-! ## Preprocessor definitions and the Pythagorean-sum helper -/

section Arith

variable {α : Type} [LinearOrderedField α]

/-- The preprocessor definition `MAX(x,y) ((x)>(y)?(x):(y))` (line 28). -/
def MAX (x y : α) : α := if x > y then x else y

/-- The preprocessor definition `SIGN(a, b) ((b) >= 0.0 ? fabs(a) : -fabs(a))` (line 29). -/
def SIGN (a b : α) : α := if b ≥ 0 then |a| else -|a|

/-- The body of `_susa_svd_pythag` with the division operator as a parameter `quot`. -/
def pythagWith (quot : α → α → α) (sqrt : α → α) (a b : α) : α :=
  let at_ := |a|
  let bt := |b|
  let bat := quot bt at_
  let abt := quot at_ bt
  if at_ > bt then at_ * sqrt (1 + bat * bat)
  else if bt > 0 then bt * sqrt (1 + abt * abt)
  else 0

/-- The function `_susa_svd_pythag` (lines 31–47). -/
def _susa_svd_pythag (sqrt : α → α) (a b : α) : α :=
  pythagWith (fun x y => x / y) sqrt a b

end Arith

/-! ## The program state -/

/-- The variables of `svd`: the three output containers, the scratch vector `rv1`, the
scalar locals that live across statements, and the ghost fields. -/
structure St (α : Type) where
  U : Mat α
  S : Mat α
  V : Mat α
  rv1 : Mat α
  anorm : α
  g : α
  scale : α
  c : α
  f : α
  h : α
  s : α
  x : α
  y : α
  z : α
  l : Int
  nm : Int
  flag : Int
  oob : Bool
  dz : Bool
  log : List String
  iters : Nat
  stalled : List Int

section Access

variable {α : Type}

/-- Record an access to `mat_arg_u(i,j)`. -/
def St.ckU (st : St α) (i j : Int) : St α := { st with oob := st.oob || !st.U.inb i j }

/-- Record an access to `mat_arg_v(i,j)`. -/
def St.ckV (st : St α) (i j : Int) : St α := { st with oob := st.oob || !st.V.inb i j }

/-- Record an access to `mat_arg_s(i)`. -/
def St.ckS (st : St α) (i : Int) : St α := { st with oob := st.oob || !st.S.inb1 i }

/-- Record an access to `rv1(i)`. -/
def St.ckR (st : St α) (i : Int) : St α := { st with oob := st.oob || !st.rv1.inb1 i }

/-- The assignment `mat_arg_u(i,j) = v`. -/
def St.wrU (st : St α) (i j : Int) (v : α) : St α := { st.ckU i j with U := st.U.set i j v }

/-- The assignment `mat_arg_v(i,j) = v`. -/
def St.wrV (st : St α) (i j : Int) (v : α) : St α := { st.ckV i j with V := st.V.set i j v }

/-- The assignment `mat_arg_s(i) = v`. -/
def St.wrS (st : St α) (i : Int) (v : α) : St α := { st.ckS i with S := st.S.set i 0 v }

/-- The assignment `rv1(i) = v`. -/
def St.wrR (st : St α) (i : Int) (v : α) : St α := { st.ckR i with rv1 := st.rv1.set i 0 v }

/-- The value of `mat_arg_u(i,j)`. -/
def St.u (st : St α) (i j : Int) : α := st.U.val i j

/-- The value of `mat_arg_v(i,j)`. -/
def St.v (st : St α) (i j : Int) : α := st.V.val i j

/-- The value of `mat_arg_s(i)`. -/
def St.w (st : St α) (i : Int) : α := st.S.val i 0

/-- The value of `rv1(i)`. -/
def St.r (st : St α) (i : Int) : α := st.rv1.val i 0

end Access

/-! ## Phase 1: Householder reduction to bidiagonal form (lines 74–146) -/

section Phases

variable {α : Type} [LinearOrderedField α]

/-- Record a division by `d`. -/
def St.dv (st : St α) (d : α) : St α := { st with dz := st.dz || decide (d = 0) }

/-- The left-hand reduction of step `i` (lines 80–109). -/
def leftReduce (sqrt : α → α) (m n i : Int) : St α → St α :=
  whenever (fun _ => i < m) (block [
    -- for (k = i; k < m; k++) scale += fabs(U(k,i));
    loopUp (fun _ => i) (fun _ => m) (fun k st =>
      { st.ckU k i with scale := st.scale + |st.u k i| }),
    whenever (fun st => st.scale ≠ 0) (block [
      loopUp (fun _ => i) (fun _ => m) (fun k => block [
        fun st => (st.dv st.scale).wrU k i (st.u k i / st.scale),
        fun st => { st.ckU k i with s := st.s + st.u k i * st.u k i }]),
      fun st => { st.ckU i i with f := st.u i i },
      fun st => { st with g := -SIGN (sqrt st.s) st.f },
      fun st => { st with h := st.f * st.g - st.s },
      fun st => st.wrU i i (st.f - st.g),
      whenever (fun _ => i ≠ n - 1) (
        loopUp (fun st => st.l) (fun _ => n) (fun j => block [
          fun st => { st with s := 0 },
          loopUp (fun _ => i) (fun _ => m) (fun k st =>
            { (st.ckU k i).ckU k j with s := st.s + st.u k i * st.u k j }),
          fun st => { st.dv st.h with f := st.s / st.h },
          loopUp (fun _ => i) (fun _ => m) (fun k st =>
            (st.ckU k i).wrU k j (st.u k j + st.f * st.u k i))])),
      loopUp (fun _ => i) (fun _ => m) (fun k st => st.wrU k i (st.u k i * st.scale))])])

/-- The right-hand reduction of step `i` (lines 114–144). -/
def rightReduce (sqrt : α → α) (m n i : Int) : St α → St α :=
  whenever (fun _ => i < m ∧ i ≠ n - 1) (block [
    loopUp (fun st => st.l) (fun _ => n) (fun k st =>
      { st.ckU i k with scale := st.scale + |st.u i k| }),
    whenever (fun st => st.scale ≠ 0) (block [
      loopUp (fun st => st.l) (fun _ => n) (fun k => block [
        fun st => (st.dv st.scale).wrU i k (st.u i k / st.scale),
        fun st => { st.ckU i k with s := st.s + st.u i k * st.u i k }]),
      fun st => { st.ckU i st.l with f := st.u i st.l },
      fun st => { st with g := -SIGN (sqrt st.s) st.f },
      fun st => { st with h := st.f * st.g - st.s },
      fun st => st.wrU i st.l (st.f - st.g),
      loopUp (fun st => st.l) (fun _ => n) (fun k st =>
        ((st.dv st.h).ckU i k).wrR k (st.u i k / st.h)),
      whenever (fun _ => i ≠ m - 1) (
        loopUp (fun st => st.l) (fun _ => m) (fun j => block [
          fun st => { st with s := 0 },
          loopUp (fun st => st.l) (fun _ => n) (fun k st =>
            { (st.ckU j k).ckU i k with s := st.s + st.u j k * st.u i k }),
          loopUp (fun st => st.l) (fun _ => n) (fun k st =>
            (st.ckR k).wrU j k (st.u j k + st.s * st.r k))])),
      loopUp (fun st => st.l) (fun _ => n) (fun k st => st.wrU i k (st.u i k * st.scale))])])

/-- The body of the bidiagonalization loop for column `i` (lines 76–145). -/
def bidiagStep (sqrt : α → α) (m n i : Int) : St α → St α :=
  block [
    fun st => { st with l := i + 1 },
    fun st => st.wrR i (st.scale * st.g),
    fun st => { st with g := 0, s := 0, scale := 0 },
    leftReduce sqrt m n i,
    fun st => st.wrS i (st.scale * st.g),
    fun st => { st with g := 0, s := 0, scale := 0 },
    rightReduce sqrt m n i,
    fun st => { (st.ckS i).ckR i with anorm := MAX st.anorm (|st.w i| + |st.r i|) }]

/-- Phase 1, `for (i = 0; i < n; i++)` (lines 74–146). -/
def bidiagonalize (sqrt : α → α) (m n : Int) : St α → St α :=
  loopUp (fun _ => 0) (fun _ => n) (bidiagStep sqrt m n)

/-! ## Phase 2: accumulation of the right-hand transformation (lines 149–172) -/

/-- The body of the right-hand accumulation loop for index `i` (lines 151–171). -/
def accumRightStep (n i : Int) : St α → St α :=
  block [
    whenever (fun _ => i < n - 1) (block [
      whenever (fun st => st.g ≠ 0) (block [
        loopUp (fun st => st.l) (fun _ => n) (fun j st =>
          ((((st.ckU i j).ckU i st.l).dv (st.u i st.l)).dv st.g).wrV j i
            ((st.u i j / st.u i st.l) / st.g)),
        loopUp (fun st => st.l) (fun _ => n) (fun j => block [
          fun st => { st with s := 0 },
          loopUp (fun st => st.l) (fun _ => n) (fun k st =>
            { (st.ckU i k).ckV k j with s := st.s + st.u i k * st.v k j }),
          loopUp (fun st => st.l) (fun _ => n) (fun k st =>
            (st.ckV k i).wrV k j (st.v k j + st.s * st.v k i))])]),
      -- mat_arg_v(i,j) = mat_arg_v(j,i) = 0.0;
      loopUp (fun st => st.l) (fun _ => n) (fun j st => (st.wrV j i 0).wrV i j 0)]),
    fun st => st.wrV i i 1,
    fun st => { st.ckR i with g := st.r i },
    fun st => { st with l := i }]

/-- Phase 2, `for (i = n - 1; i >= 0; i--)` (lines 149–172). -/
def accumRight (n : Int) : St α → St α :=
  loopDown (fun _ => n - 1) (fun _ => 0) (accumRightStep n)

/-! ## Phase 3: accumulation of the left-hand transformation (lines 175–205) -/

/-- The body of the left-hand accumulation loop for index `i` (lines 177–204). -/
def accumLeftStep (m n i : Int) : St α → St α :=
  block [
    fun st => { st with l := i + 1 },
    fun st => { st.ckS i with g := st.w i },
    whenever (fun _ => i < n - 1) (
      loopUp (fun st => st.l) (fun _ => n) (fun j st => st.wrU i j 0)),
    cond (fun st => st.g ≠ 0)
      (block [
        fun st => { st.dv st.g with g := 1 / st.g },
        whenever (fun _ => i ≠ n - 1) (
          loopUp (fun st => st.l) (fun _ => n) (fun j => block [
            fun st => { st with s := 0 },
            loopUp (fun st => st.l) (fun _ => m) (fun k st =>
              { (st.ckU k i).ckU k j with s := st.s + st.u k i * st.u k j }),
            fun st => { (st.ckU i i).dv (st.u i i) with f := (st.s / st.u i i) * st.g },
            loopUp (fun _ => i) (fun _ => m) (fun k st =>
              (st.ckU k i).wrU k j (st.u k j + st.f * st.u k i))])),
        loopUp (fun _ => i) (fun _ => m) (fun j st => st.wrU j i (st.u j i * st.g))])
      (loopUp (fun _ => i) (fun _ => m) (fun j st => st.wrU j i 0)),
    -- ++mat_arg_u(i,i);
    fun st => st.wrU i i (st.u i i + 1)]

/-- Phase 3, `for (i = n - 1; i >= 0; i--)` (lines 175–205). -/
def accumLeft (m n : Int) : St α → St α :=
  loopDown (fun _ => n - 1) (fun _ => 0) (accumLeftStep m n)

/-! ## Phase 4: diagonalization of the bidiagonal form (lines 208–323) -/

/-- The splitting test `for (l = k; l >= 0; l--)` (lines 213–222), entered with the current
value of `l`; the first argument counts the values `l, l-1, …, 0` that remain to be visited. -/
def scan : Nat → St α → St α
  | 0, st => st
  | t + 1, st =>
    let st : St α := { st with nm := st.l - 1 }
    let st : St α := st.ckR st.l
    if |st.r st.l| + st.anorm = st.anorm then
      { st with flag := 0 }
    else
      let st : St α := st.ckS st.nm
      if |st.w st.nm| + st.anorm = st.anorm then st
      else scan t { st with l := st.l - 1 }

/-- The rotation of the columns `a` and `b` of `U` (lines 238–244 and 311–317). -/
def rotU (m a b : Int) : St α → St α :=
  loopUp (fun _ => 0) (fun _ => m) (fun j => block [
    fun st => { st.ckU j a with y := st.u j a },
    fun st => { st.ckU j b with z := st.u j b },
    fun st => st.wrU j a (st.y * st.c + st.z * st.s),
    fun st => st.wrU j b (st.z * st.c - st.y * st.s)])

/-- The rotation of the columns `a` and `b` of `V` (lines 294–300). -/
def rotV (n a b : Int) : St α → St α :=
  loopUp (fun _ => 0) (fun _ => n) (fun jj => block [
    fun st => { st.ckV jj a with x := st.v jj a },
    fun st => { st.ckV jj b with z := st.v jj b },
    fun st => st.wrV jj a (st.x * st.c + st.z * st.s),
    fun st => st.wrV jj b (st.z * st.c - st.x * st.s)])

/-- The cancellation sweep, executed when `flag` is set (lines 225–246). -/
def cancel (sqrt : α → α) (m k : Int) : St α → St α :=
  block [
    fun st => { st with c := 0 },
    fun st => { st with s := 1 },
    loopUp (fun st => st.l) (fun _ => k + 1) (fun i => block [
      fun st => { st.ckR i with f := st.s * st.r i },
      whenever (fun st => |st.f| + st.anorm ≠ st.anorm) (block [
        fun st => { st.ckS i with g := st.w i },
        fun st => { st with h := _susa_svd_pythag sqrt st.f st.g },
        fun st => st.wrS i st.h,
        fun st => { st.dv st.h with h := 1 / st.h },
        fun st => { st with c := st.g * st.h },
        fun st => { st with s := -st.f * st.h },
        fun st => rotU m st.nm i st])])]

/-- The sign normalisation at convergence (lines 252–257). -/
def signFix (n k : Int) : St α → St α :=
  whenever (fun st => st.z < 0) (block [
    fun st => st.wrS k (-st.z),
    loopUp (fun _ => 0) (fun _ => n) (fun j st => st.wrV j k (-st.v j k))])

/-- The shift from the bottom 2 × 2 minor (lines 268–275). -/
def shift (sqrt : α → α) (k : Int) : St α → St α :=
  block [
    fun st => { st.ckS st.l with x := st.w st.l },
    fun st => { st with nm := k - 1 },
    fun st => { st.ckS st.nm with y := st.w st.nm },
    fun st => { st.ckR st.nm with g := st.r st.nm },
    fun st => { st.ckR k with h := st.r k },
    fun st => { st.dv (2 * st.h * st.y) with
      f := ((st.y - st.z) * (st.y + st.z) + (st.g - st.h) * (st.g + st.h))
            / (2 * st.h * st.y) },
    fun st => { st with g := _susa_svd_pythag sqrt st.f 1 },
    fun st => { (st.dv (st.f + SIGN st.g st.f)).dv st.x with
      f := ((st.x - st.z) * (st.x + st.z)
            + st.h * ((st.y / (st.f + SIGN st.g st.f)) - st.h)) / st.x }]

/-- The first rotation pair of the QR step for index `j`, with `i = j + 1`: the statements
before the rotation of `V` (lines 281–293). -/
def qrFirst (sqrt : α → α) (j : Int) : St α → St α :=
  block [
    fun st => { st.ckR (j + 1) with g := st.r (j + 1) },
    fun st => { st.ckS (j + 1) with y := st.w (j + 1) },
    fun st => { st with h := st.s * st.g },
    fun st => { st with g := st.c * st.g },
    fun st => { st with z := _susa_svd_pythag sqrt st.f st.h },
    fun st => st.wrR j st.z,
    fun st => { st.dv st.z with c := st.f / st.z },
    fun st => { st.dv st.z with s := st.h / st.z },
    fun st => { st with f := st.x * st.c + st.g * st.s },
    fun st => { st with g := st.g * st.c - st.x * st.s },
    fun st => { st with h := st.y * st.s },
    fun st => { st with y := st.y * st.c }]

/-- The second rotation pair of the QR step for index `j`: the statements between the
rotation of `V` and the rotation of `U` (lines 301–310). -/
def qrSecond (sqrt : α → α) (j : Int) : St α → St α :=
  block [
    fun st => { st with z := _susa_svd_pythag sqrt st.f st.h },
    fun st => st.wrS j st.z,
    whenever (fun st => st.z ≠ 0) (block [
      fun st => { st.dv st.z with z := 1 / st.z },
      fun st => { st with c := st.f * st.z },
      fun st => { st with s := st.h * st.z }]),
    fun st => { st with f := (st.c * st.g) + (st.s * st.y) },
    fun st => { st with x := (st.c * st.y) - (st.s * st.g) }]

/-- The body of the QR transformation loop for index `j`, with `i = j + 1`
(lines 281–317). -/
def qrStep (sqrt : α → α) (m n j : Int) : St α → St α :=
  block [
    qrFirst sqrt j,
    rotV n j (j + 1),
    qrSecond sqrt j,
    rotU m j (j + 1)]

/-- The next QR transformation (lines 278–321). -/
def qrSweep (sqrt : α → α) (m n k : Int) : St α → St α :=
  block [
    fun st => { st with c := 1, s := 1 },
    loopUp (fun st => st.l) (fun st => st.nm + 1) (qrStep sqrt m n),
    fun st => st.wrR st.l 0,
    fun st => st.wrR k st.f,
    fun st => st.wrS k st.x]

/-- The statements of the iteration body up to the convergence test (lines 212–249). -/
def iterHead (sqrt : α → α) (m k : Int) : St α → St α :=
  block [
    fun st => { st with iters := st.iters + 1 },
    fun st => { st with flag := 1 },
    fun st => { st with l := k },
    scan (k + 1).toNat,
    whenever (fun st => st.flag ≠ 0) (cancel sqrt m k),
    fun st => { st.ckS k with z := st.w k }]

/-- How the body of the iteration loop ends: it falls through to the next iteration,
leaves the loop by `break`, or leaves the function by `return v`. -/
inductive Ctl where
  | next : Ctl
  | brk : Ctl
  | ret : Int → Ctl
  deriving DecidableEq, Repr

/-- The body of `for (its = 0; its < 30; its++)` (lines 212–321). -/
def iterBody (sqrt : α → α) (m n k its : Int) (st : St α) : St α × Ctl :=
  let st : St α := iterHead sqrt m k st
  if st.l = k then
    (signFix n k st, Ctl.brk)
  else if its ≥ 30 then
    ({ st with log := st.log ++ ["No convergence."] }, Ctl.ret 0)
  else
    (block [shift sqrt k, qrSweep sqrt m n k] st, Ctl.next)

/-- The loop `for (its = …; its < 30; its++)` for the singular value `k`; the first
argument is the number `30 - its` of iterations that remain.  The result carries the value
of a `return` executed inside the loop, if any. -/
def itsLoop (sqrt : α → α) (m n k : Int) : Nat → Int → St α → St α × Option Int
  | 0, _, st => ({ st with stalled := k :: st.stalled }, none)
  | t + 1, its, st =>
    match iterBody sqrt m n k its st with
    | (st, Ctl.next) => itsLoop sqrt m n k t (its + 1) st
    | (st, Ctl.brk) => (st, none)
    | (st, Ctl.ret v) => (st, some v)

/-- The loop `for (k = …; k >= 0; k--)` over the singular values (lines 208–323); the
first argument is the number `k + 1` of values that remain. -/
def diagLoop (sqrt : α → α) (m n : Int) : Nat → Int → St α → St α × Option Int
  | 0, _, st => (st, none)
  | t + 1, k, st =>
    match itsLoop sqrt m n k 30 0 st with
    | (st, some v) => (st, some v)
    | (st, none) => diagLoop sqrt m n t (k - 1) st

/-- Phase 4 (lines 208–323). -/
def diagonalize (sqrt : α → α) (m n : Int) (st : St α) : St α × Option Int :=
  diagLoop sqrt m n n.toNat (n - 1) st

/-! ## The routine `svd` (lines 50–326) -/

/-- The result of a call: the returned status and the final state of the outputs. -/
structure Ret (α : Type) where
  code : Int
  out : St α

/-- The state after the declarations and the three statements of lines 60–71: `rv1` is a
fresh `n × 1` matrix (with contents `scratch`), `mat_arg_u` is a copy of `mat_arg_a`, and
`mat_arg_s`, `mat_arg_v` are resized to `p × 1` and `p × p`. -/
def svdInit (mat_arg_a mat_arg_s mat_arg_v : Mat α) (scratch : Int → Int → α) : St α :=
  let m : Int := mat_arg_a.rows
  let n : Int := mat_arg_a.cols
  let p : Int := if m > n then n else m
  { U := mat_arg_a
    S := mat_arg_s.resize p 1
    V := mat_arg_v.resize p p
    rv1 := { rows := n.toNat, cols := 1, val := scratch }
    anorm := 0, g := 0, scale := 0
    c := 0, f := 0, h := 0, s := 0, x := 0, y := 0, z := 0
    l := 0, nm := 0, flag := 0
    oob := false, dz := false, log := [], iters := 0, stalled := [] }

/-- The function `svd` (lines 50–326).  `mat_arg_u` is overwritten by the copy-assignment of
line 69, so only the incoming `mat_arg_s` and `mat_arg_v` (whose contents a resize leaves
unspecified) and the contents `scratch` of the fresh `rv1` are inputs besides `mat_arg_a`.
The locals declared without initialiser (`c f h s x y z`, `l`, `nm`, `flag`) start at zero;
each is assigned before its first use. -/
def svd (sqrt : α → α) (mat_arg_a mat_arg_s mat_arg_v : Mat α) (scratch : Int → Int → α) :
    Ret α :=
  let m : Int := mat_arg_a.rows
  let n : Int := mat_arg_a.cols
  let st : St α := svdInit mat_arg_a mat_arg_s mat_arg_v scratch
  let st : St α := block [bidiagonalize sqrt m n, accumRight n, accumLeft m n] st
  match diagonalize sqrt m n st with
  | (st, some v) => { code := v, out := st }
  | (st, none) => { code := 0, out := st }

end Phases

/-! ## Specification vocabulary -/

section Vocabulary

variable {σ : Type}

/-- A statement `f` respects the relation `R` when every run of `f` is a step of `R`. -/
def Pres (R : σ → σ → Prop) (f : σ → σ) : Prop := ∀ s, R s (f s)

/-- A reflexive and transitive relation on states. -/
structure PreOrd (R : σ → σ → Prop) : Prop where
  refl : ∀ s, R s s
  trans : ∀ a b c, R a b → R b c → R a c

end Vocabulary

/-- The structural relation between the state before and after a statement: the shapes of
the four containers, the log and the list of stalled indices are unchanged, the ghost flags
`oob` and `dz` are never reset, and the iteration counter is unchanged. -/
def Frame {α : Type} (st st' : St α) : Prop :=
  st'.U.rows = st.U.rows ∧ st'.U.cols = st.U.cols ∧
  st'.S.rows = st.S.rows ∧ st'.S.cols = st.S.cols ∧
  st'.V.rows = st.V.rows ∧ st'.V.cols = st.V.cols ∧
  st'.rv1.rows = st.rv1.rows ∧ st'.rv1.cols = st.rv1.cols ∧
  (st.oob = true → st'.oob = true) ∧ (st.dz = true → st'.dz = true) ∧
  st'.log = st.log ∧ st'.stalled = st.stalled ∧ st'.iters = st.iters

/-- The structural relation across the loops of phase 4: as `Frame`, except that indices may
have been added in front of the list of stalled indices and the iteration counter may have
grown. -/
def FrameD {α : Type} (st st' : St α) : Prop :=
  st'.U.rows = st.U.rows ∧ st'.U.cols = st.U.cols ∧
  st'.S.rows = st.S.rows ∧ st'.S.cols = st.S.cols ∧
  st'.V.rows = st.V.rows ∧ st'.V.cols = st.V.cols ∧
  st'.rv1.rows = st.rv1.rows ∧ st'.rv1.cols = st.rv1.cols ∧
  (st.oob = true → st'.oob = true) ∧ (st.dz = true → st'.dz = true) ∧
  st'.log = st.log ∧ (∃ ks, st'.stalled = ks ++ st.stalled) ∧ st.iters ≤ st'.iters

/-- The relation between the states before and after a statement that assigns at most the
container `U`, the scalars `y`, `z` and the ghost flag `oob`. -/
def OnlyU {α : Type} (st st' : St α) : Prop :=
  st'.S = st.S ∧ st'.V = st.V ∧ st'.rv1 = st.rv1 ∧ st'.anorm = st.anorm ∧ st'.g = st.g ∧
  st'.scale = st.scale ∧ st'.c = st.c ∧ st'.f = st.f ∧ st'.h = st.h ∧ st'.s = st.s ∧
  st'.x = st.x ∧ st'.l = st.l ∧ st'.nm = st.nm ∧ st'.flag = st.flag ∧ st'.dz = st.dz

/-- The relation between the states before and after a statement that assigns at most the
container `V`, the scalars `x`, `z` and the ghost flag `oob`. -/
def OnlyV {α : Type} (st st' : St α) : Prop :=
  st'.U = st.U ∧ st'.S = st.S ∧ st'.rv1 = st.rv1 ∧ st'.anorm = st.anorm ∧ st'.g = st.g ∧
  st'.scale = st.scale ∧ st'.c = st.c ∧ st'.f = st.f ∧ st'.h = st.h ∧ st'.s = st.s ∧
  st'.y = st.y ∧ st'.l = st.l ∧ st'.nm = st.nm ∧ st'.flag = st.flag ∧ st'.dz = st.dz

/-- The relation kept by the cancellation sweep: no division by zero is recorded, `rv1`, `V`,
`anorm`, `l` and `nm` are not assigned, and no nonzero entry of `S` becomes zero. -/
def CancelRel {α : Type} [LinearOrderedField α] (st st' : St α) : Prop :=
  st'.dz = st.dz ∧ st'.rv1 = st.rv1 ∧ st'.V = st.V ∧ st'.anorm = st.anorm ∧
  st'.l = st.l ∧ st'.nm = st.nm ∧ ∀ i, st.w i ≠ 0 → st'.w i ≠ 0

/-- The relation between the states before and after a statement that records no division by
zero. -/
def SameDz {α : Type} (st st' : St α) : Prop := st'.dz = st.dz

/-- The relation between the states before and after a statement that assigns neither the
scratch vector `rv1` nor `l`. -/
def SameRL {α : Type} (st st' : St α) : Prop := st'.rv1 = st.rv1 ∧ st'.l = st.l

/-- The sum `f lo + f (lo+1) + … + f (hi-1)` accumulated by a loop `for (k = lo; k < hi; k++)`. -/
def sumUp {α : Type} [LinearOrderedField α] (lo hi : Int) (f : Int → α) : α :=
  ∑ t in Finset.range (hi - lo).toNat, f (lo + t)

/-- A statement `f` respects the relation `R` from every state that satisfies `I`. -/
def PresOn {σ : Type} (I : σ → Prop) (R : σ → σ → Prop) (f : σ → σ) : Prop :=
  ∀ s, I s → R s (f s)

/-- The state predicate `I` is kept along every step of the relation `R`. -/
def Stable {σ : Type} (I : σ → Prop) (R : σ → σ → Prop) : Prop :=
  ∀ s t, I s → R s t → I t

/-- The relation kept by the loops that apply a Householder reflection in phase 1 (lines
97–104 and 129–139), with `rb` and `cb` the first row and the first column they may touch: the
scalars `h`, `scale`, `g`, the container `S` and `l` are not assigned; the rows of `U` before
`rb`, the columns of `U` before `cb` and the entries of `rv1` before `cb` are not assigned; no
division by zero is recorded when `h` is not zero. -/
def HRel {α : Type} [LinearOrderedField α] (rb cb : Int) (st st' : St α) : Prop :=
  st'.h = st.h ∧ st'.scale = st.scale ∧ st'.g = st.g ∧ st'.S = st.S ∧ st'.l = st.l ∧
  (st.h ≠ 0 → st'.dz = st.dz) ∧
  (∀ a c, a < rb → st'.u a c = st.u a c) ∧
  (∀ a c, c < cb → st'.u a c = st.u a c) ∧
  (∀ a, a < cb → st'.r a = st.r a)

/-- The relation kept by the guarded statements of step `i` of the right-hand accumulation
(lines 153–168): `U`, `S`, `rv1`, `g` and `l` are not assigned, and no division by zero is
recorded when the pivot `U(i,l)` is not zero whenever `g` is not zero. -/
def ARel {α : Type} [LinearOrderedField α] (i : Int) (st st' : St α) : Prop :=
  st'.U = st.U ∧ st'.S = st.S ∧ st'.rv1 = st.rv1 ∧ st'.g = st.g ∧ st'.l = st.l ∧
  ((st.g ≠ 0 → st.u i st.l ≠ 0) → st'.dz = st.dz)

/-- The relation kept by the statements of step `i` of the left-hand accumulation that come
before the final scaling of column `i` (lines 180–195): `S`, `l` and `g` are not assigned, the
rows of `U` above `i` and the pivot `U(i,i)` are not assigned, and no division by zero is
recorded when the pivot is not zero. -/
def LRel {α : Type} [LinearOrderedField α] (i : Int) (st st' : St α) : Prop :=
  st'.S = st.S ∧ st'.l = st.l ∧ st'.g = st.g ∧
  (∀ a c, a < i → st'.u a c = st.u a c) ∧ st'.u i i = st.u i i ∧
  (st.u i i ≠ 0 → st'.dz = st.dz)

/-- The relation kept by the loops that only assign entries of `U` in the rows from `i` on:
`S` and the record of divisions by zero are unchanged, as are the rows of `U` above `i`. -/
def PRel {α : Type} [LinearOrderedField α] (i : Int) (st st' : St α) : Prop :=
  st'.S = st.S ∧ st'.dz = st.dz ∧ (∀ a c, a < i → st'.u a c = st.u a c)

/-- The entries of `M` inside the square `0 ≤ a, b < p` are those of the diagonal matrix with
the diagonal `e`. -/
def IsDiag {α : Type} [LinearOrderedField α] (p : Int) (e : Int → α) (M : Mat α) : Prop :=
  ∀ a b, 0 ≤ a → a < p → 0 ≤ b → b < p → M.val a b = if a = b then e a else 0

/-- The relation between the states before and after a statement that assigns at most the
scalars `s` and `f`, and records no division by zero. -/
def KeepAll {α : Type} (st st' : St α) : Prop :=
  st'.U = st.U ∧ st'.S = st.S ∧ st'.V = st.V ∧ st'.rv1 = st.rv1 ∧ st'.anorm = st.anorm ∧
  st'.g = st.g ∧ st'.scale = st.scale ∧ st'.h = st.h ∧ st'.l = st.l ∧ st'.dz = st.dz

/-- The relation between the states before and after a statement that does not assign the
container `V`. -/
def SameV {α : Type} (st st' : St α) : Prop := st'.V = st.V

/-- The relation between the states before and after a statement that assigns none of the
containers `U`, `S` and `rv1`. -/
def SameUSR {α : Type} (st st' : St α) : Prop :=
  st'.U = st.U ∧ st'.S = st.S ∧ st'.rv1 = st.rv1

/-- The relation between the states before and after a statement that assigns none of the
containers `S`, `V` and `rv1`. -/
def SameSVR {α : Type} (st st' : St α) : Prop :=
  st'.S = st.S ∧ st'.V = st.V ∧ st'.rv1 = st.rv1

/-! ## Householder reflections and the bidiagonal factorisation -/

/-- The Householder reflection `I - 2·u·uᵀ/(uᵀu)` with the vector `u` on the index range
`[lo, hi)` (the identity when `u` is zero there), applied to the rows of `M`. -/
def hhL {α : Type} [LinearOrderedField α] (lo hi : Int) (u : Int → α) (M : Int → Int → α) :
    Int → Int → α :=
  fun k j => if lo ≤ k ∧ k < hi then
      M k j + (-2 / sumUp lo hi (fun r => u r * u r)) * u k * sumUp lo hi (fun r => u r * M r j)
    else M k j

/-- The Householder reflection with the vector `v` on the index range `[lo, hi)`, applied to
the columns of `M`. -/
def hhR {α : Type} [LinearOrderedField α] (lo hi : Int) (v : Int → α) (M : Int → Int → α) :
    Int → Int → α :=
  fun k j => if lo ≤ j ∧ j < hi then
      M k j + (-2 / sumUp lo hi (fun c => v c * v c)) * v j * sumUp lo hi (fun c => M k c * v c)
    else M k j

/-- The sum `Σ_{lo ≤ t < n} X(a, t - sh)·w(t)·Y(b, t)`: with `sh = 0` the entry `(a, b)` of
`X·diag(w)·Yᵀ`, with `sh = 1` that of `X·N·Yᵀ` for the matrix `N` with superdiagonal `w`. -/
def bil {α : Type} [LinearOrderedField α] (lo n : Int) (w : Int → α) (sh : Int)
    (X Y : Int → Int → α) (a b : Int) : α :=
  sumUp lo n (fun t => X a (t - sh) * w t * Y b t)

/-- Entry `(a, b)` of `U·B·Vᵀ`, where `B` is the `n × n` upper-bidiagonal matrix with the
diagonal `S(0..n-1)` and the superdiagonal `rv1(1..n-1)`. -/
def bidiagRecon {α : Type} [LinearOrderedField α] (st : St α) (n : Int) (a b : Int) : α :=
  bil 0 n st.w 0 st.u st.v a b + bil 1 n st.r 1 st.u st.v a b

/-- The `m × n` matrix that step `i` of the bidiagonalisation works on, completed by the part
already reduced: inside the shape, the entries with a row or column index before `i` are those
of the bidiagonal form (the diagonal in `S`, the superdiagonal in `rv1`, its entry `(i-1, i)`
still pending in `scale·g`), the others are those of `U`; outside the shape it is zero. -/
def Wbar {α : Type} [LinearOrderedField α] (m n : Int) (st : St α) (i : Int) :
    Int → Int → α :=
  fun k j =>
    if 0 ≤ k ∧ k < m ∧ 0 ≤ j ∧ j < n then
      if k < i ∨ j < i then
        if j = k then st.w k
        else if j = k + 1 then (if j = i then st.scale * st.g else st.r j)
        else 0
      else st.u k j
    else 0

/-- The reflections of the steps `0, …, i-1` of the bidiagonalisation, read from `U`, applied
around `M`: `L₀·R₀·(L₁·R₁·(… M …))`, the left-hand one of step `a` having the vector
`U(a..m-1, a)` and the right-hand one the vector `U(a, a+1..n-1)`. -/
def conjH {α : Type} [LinearOrderedField α] (m n : Int) (st : St α) :
    Nat → (Int → Int → α) → Int → Int → α
  | 0, M => M
  | i + 1, M =>
    conjH m n st i (hhL i m (fun r => st.u r i) (hhR (i + 1) n (fun c => st.u i c) M))

/-- The `m × n` matrix with ones on the diagonal. -/
def Emat {α : Type} [LinearOrderedField α] (n : Int) : Int → Int → α :=
  fun k j => if k = j ∧ 0 ≤ j ∧ j < n then 1 else 0

/-- The product `L_{n-t}·…·L_{n-1}·E` of the last `t` left-hand reflections read from `U`. -/
def Uhat {α : Type} [LinearOrderedField α] (m n : Int) (st : St α) :
    Nat → Int → Int → α
  | 0 => Emat n
  | t + 1 => hhL (n - 1 - t) m (fun r => st.u r (n - 1 - t)) (Uhat m n st t)

/-- The product `R_{n-t}·…·R_{n-1}·I` of the last `t` right-hand reflections read from `U`. -/
def Vhat {α : Type} [LinearOrderedField α] (n : Int) (st : St α) :
    Nat → Int → Int → α
  | 0 => Emat n
  | t + 1 => hhL (n - t) n (fun c => st.u (n - 1 - t) c) (Vhat n st t)

/-! ## The splitting scan over doubles that may be NaN -/

/-- A `double` that is a number or NaN.  Rounding and the infinities are not modelled: the
numbers are those of the field `α`. -/
inductive Fp (α : Type) where
  | num : α → Fp α
  | nan : Fp α

/-- The function `fabs` on doubles: `fabs(NaN)` is NaN. -/
def Fp.fabs {α : Type} [LinearOrderedField α] : Fp α → Fp α
  | Fp.num x => Fp.num |x|
  | Fp.nan => Fp.nan

/-- The sum of two doubles: NaN when an operand is NaN. -/
def Fp.add {α : Type} [LinearOrderedField α] : Fp α → Fp α → Fp α
  | Fp.num x, Fp.num y => Fp.num (x + y)
  | _, _ => Fp.nan

/-- The comparison `==` of two doubles: false when an operand is NaN. -/
def Fp.eq {α : Type} [LinearOrderedField α] : Fp α → Fp α → Bool
  | Fp.num x, Fp.num y => decide (x = y)
  | _, _ => false

/-- The splitting scan (lines 213–222), as `scan`, with the tests
`fabs(rv1(l)) + anorm == anorm` and `fabs(S(nm)) + anorm == anorm` evaluated on doubles that
may be NaN. -/
def scanNaN {α : Type} [LinearOrderedField α] : Nat → St (Fp α) → St (Fp α)
  | 0, st => st
  | t + 1, st =>
    let st : St (Fp α) := { st with nm := st.l - 1 }
    let st : St (Fp α) := st.ckR st.l
    if Fp.eq (Fp.add (Fp.fabs (st.r st.l)) st.anorm) st.anorm = true then
      { st with flag := 0 }
    else
      let st : St (Fp α) := st.ckS st.nm
      if Fp.eq (Fp.add (Fp.fabs (st.w st.nm)) st.anorm) st.anorm = true then st
      else scanNaN t { st with l := st.l - 1 }

/-- The relation between the states before and after a statement that assigns neither `g` nor
`scale`. -/
def SameGS {α : Type} (st st' : St α) : Prop := st'.g = st.g ∧ st'.scale = st.scale

/-- The relation between the states before and after a statement that does not assign the
container `S`. -/
def SameS {α : Type} (st st' : St α) : Prop := st'.S = st.S

/-! # Proofs -/

/-! ## Generic facts about the statement combinators -/

section Comb

variable {σ : Type}

theorem forUpAux_succ_last (body : Int → σ → σ) (t : Nat) (i : Int) (s : σ) :
    forUpAux body (t + 1) i s = body (i + t) (forUpAux body t i s) := by
  induction t generalizing i s with
  | zero => simp [forUpAux]
  | succ t ih =>
    rw [forUpAux, ih (i + 1) (body i s)]
    have : i + 1 + (t : Int) = i + ((t + 1 : Nat) : Int) := by push_cast; ring
    rw [this]
    rfl

theorem forUp_of_le {lo hi : Int} (h : hi ≤ lo) (body : Int → σ → σ) (s : σ) :
    forUp lo hi body s = s := by
  have : (hi - lo).toNat = 0 := by omega
  simp [forUp, this, forUpAux]

theorem forUp_succ_right {lo hi : Int} (h : lo ≤ hi) (body : Int → σ → σ) (s : σ) :
    forUp lo (hi + 1) body s = body hi (forUp lo hi body s) := by
  have e : (hi + 1 - lo).toNat = (hi - lo).toNat + 1 := by omega
  have e2 : lo + ((hi - lo).toNat : Int) = hi := by omega
  rw [forUp, e, forUpAux_succ_last, e2]
  rfl

theorem forUp_first {lo hi : Int} (h : lo < hi) (body : Int → σ → σ) (s : σ) :
    forUp lo hi body s = forUp (lo + 1) hi body (body lo s) := by
  have e : (hi - lo).toNat = (hi - (lo + 1)).toNat + 1 := by omega
  rw [forUp, e, forUpAux]
  rfl

/-- Invariant rule for `forUp`. -/
theorem forUp_inv {lo hi : Int} (hle : lo ≤ hi) (body : Int → σ → σ) (P : Int → σ → Prop)
    (s : σ) (h0 : P lo s)
    (hstep : ∀ i s, lo ≤ i → i < hi → P i s → P (i + 1) (body i s)) :
    P hi (forUp lo hi body s) := by
  obtain ⟨t, rfl⟩ : ∃ t : Nat, hi = lo + t := ⟨(hi - lo).toNat, by omega⟩
  induction t with
  | zero => simpa [forUp_of_le] using h0
  | succ t ih =>
    have e : lo + ((t + 1 : Nat) : Int) = (lo + t) + 1 := by push_cast; ring
    rw [e, forUp_succ_right (by omega)]
    apply hstep _ _ (by omega) (by omega)
    exact ih (by omega) (fun i s h1 h2 => hstep i s h1 (by omega))

theorem forUp_split {lo mid hi : Int} (h1 : lo ≤ mid) (h2 : mid ≤ hi) (body : Int → σ → σ)
    (s : σ) : forUp lo hi body s = forUp mid hi body (forUp lo mid body s) := by
  obtain ⟨t, rfl⟩ : ∃ t : Nat, hi = mid + t := ⟨(hi - mid).toNat, by omega⟩
  induction t with
  | zero => simp [forUp_of_le (le_refl mid)]
  | succ t ih =>
    have e : mid + ((t + 1 : Nat) : Int) = (mid + t) + 1 := by push_cast; ring
    rw [e, forUp_succ_right (by omega), forUp_succ_right (by omega), ih (by omega)]

theorem forDownAux_succ_last (body : Int → σ → σ) (t : Nat) (i : Int) (s : σ) :
    forDownAux body (t + 1) i s = body (i - t) (forDownAux body t i s) := by
  induction t generalizing i s with
  | zero => simp [forDownAux]
  | succ t ih =>
    rw [forDownAux, ih (i - 1) (body i s)]
    have : i - 1 - (t : Int) = i - ((t + 1 : Nat) : Int) := by push_cast; ring
    rw [this]
    rfl

theorem forDown_of_lt {hi lo : Int} (h : hi < lo) (body : Int → σ → σ) (s : σ) :
    forDown hi lo body s = s := by
  have : (hi + 1 - lo).toNat = 0 := by omega
  simp [forDown, this, forDownAux]

theorem forDown_first {hi lo : Int} (h : lo ≤ hi) (body : Int → σ → σ) (s : σ) :
    forDown hi lo body s = forDown (hi - 1) lo body (body hi s) := by
  have e : (hi + 1 - lo).toNat = (hi - 1 + 1 - lo).toNat + 1 := by omega
  rw [forDown, e, forDownAux]
  rfl

theorem forDown_succ_last {hi lo : Int} (h : lo ≤ hi + 1) (body : Int → σ → σ) (s : σ) :
    forDown hi (lo - 1) body s = body (lo - 1) (forDown hi lo body s) := by
  have e : (hi + 1 - (lo - 1)).toNat = (hi + 1 - lo).toNat + 1 := by omega
  have e2 : hi - ((hi + 1 - lo).toNat : Int) = lo - 1 := by omega
  rw [forDown, e, forDownAux_succ_last, e2]
  rfl

/-- Invariant rule for `forDown`: `P i` holds when the indices above `i` have been done. -/
theorem forDown_inv {hi lo : Int} (hle : lo ≤ hi + 1) (body : Int → σ → σ)
    (P : Int → σ → Prop) (s : σ) (h0 : P hi s)
    (hstep : ∀ i s, lo ≤ i → i ≤ hi → P i s → P (i - 1) (body i s)) :
    P (lo - 1) (forDown hi lo body s) := by
  obtain ⟨t, rfl⟩ : ∃ t : Nat, lo = hi + 1 - t := ⟨(hi + 1 - lo).toNat, by omega⟩
  induction t with
  | zero =>
    rw [forDown_of_lt (by omega)]
    simpa using h0
  | succ t ih =>
    have e : hi + 1 - ((t + 1 : Nat) : Int) = (hi + 1 - t) - 1 := by push_cast; ring
    rw [e, forDown_succ_last (by omega)]
    apply hstep _ _ (by omega) (by omega)
    exact ih (by omega) (fun i s h1 h2 => hstep i s (by omega) h2)

@[simp] theorem block_nil (s : σ) : block ([] : List (σ → σ)) s = s := by
  unfold block; rfl

@[simp] theorem block_cons (f : σ → σ) (l : List (σ → σ)) (s : σ) :
    block (f :: l) s = block l (f s) := by
  unfold block; rfl

theorem whenever_eq (c : σ → Prop) [DecidablePred c] (t : σ → σ) (s : σ) :
    whenever c t s = if c s then t s else s := by
  unfold Susa.whenever; rfl

theorem cond_eq (c : σ → Prop) [DecidablePred c] (t e : σ → σ) (s : σ) :
    cond c t e s = if c s then t s else e s := by
  unfold Susa.cond; rfl

theorem whenever_pos {c : σ → Prop} [DecidablePred c] {t : σ → σ} {s : σ} (h : c s) :
    whenever c t s = t s := by
  unfold Susa.whenever; exact if_pos h

theorem whenever_neg {c : σ → Prop} [DecidablePred c] {t : σ → σ} {s : σ} (h : ¬ c s) :
    whenever c t s = s := by
  unfold Susa.whenever; exact if_neg h

theorem cond_pos {c : σ → Prop} [DecidablePred c] {t e : σ → σ} {s : σ} (h : c s) :
    cond c t e s = t s := by
  unfold Susa.cond; exact if_pos h

theorem cond_neg {c : σ → Prop} [DecidablePred c] {t e : σ → σ} {s : σ} (h : ¬ c s) :
    cond c t e s = e s := by
  unfold Susa.cond; exact if_neg h

theorem loopUp_eq (lo hi : σ → Int) (body : Int → σ → σ) (s : σ) :
    loopUp lo hi body s = forUp (lo s) (hi s) body s := by
  unfold loopUp; rfl

theorem loopDown_eq (hi lo : σ → Int) (body : Int → σ → σ) (s : σ) :
    loopDown hi lo body s = forDown (hi s) (lo s) body s := by
  unfold loopDown; rfl

variable {R : σ → σ → Prop}

theorem Pres_nil (hR : PreOrd R) : Pres R (block ([] : List (σ → σ))) := fun s => by
  rw [block_nil]; exact hR.refl s

theorem Pres_cons (hR : PreOrd R) {f : σ → σ} {l : List (σ → σ)} (hf : Pres R f)
    (hl : Pres R (block l)) : Pres R (block (f :: l)) :=
  fun s => by rw [block_cons]; exact hR.trans _ _ _ (hf s) (hl (f s))

theorem Pres_whenever (hR : PreOrd R) {c : σ → Prop} [DecidablePred c] {t : σ → σ}
    (ht : Pres R t) : Pres R (whenever c t) := by
  intro s
  unfold Susa.whenever
  split
  · exact ht s
  · exact hR.refl s

theorem Pres_cond {c : σ → Prop} [DecidablePred c] {t e : σ → σ}
    (ht : Pres R t) (he : Pres R e) : Pres R (cond c t e) := by
  intro s
  unfold Susa.cond
  split
  · exact ht s
  · exact he s

theorem Pres_forUpAux (hR : PreOrd R) {body : Int → σ → σ} (hb : ∀ i, Pres R (body i))
    (t : Nat) (i : Int) (s : σ) : R s (forUpAux body t i s) := by
  induction t generalizing i s with
  | zero => exact hR.refl s
  | succ t ih => exact hR.trans _ _ _ (hb i s) (ih (i + 1) (body i s))

theorem Pres_forDownAux (hR : PreOrd R) {body : Int → σ → σ} (hb : ∀ i, Pres R (body i))
    (t : Nat) (i : Int) (s : σ) : R s (forDownAux body t i s) := by
  induction t generalizing i s with
  | zero => exact hR.refl s
  | succ t ih => exact hR.trans _ _ _ (hb i s) (ih (i - 1) (body i s))

theorem Pres_loopUp (hR : PreOrd R) {lo hi : σ → Int} {body : Int → σ → σ}
    (hb : ∀ i, Pres R (body i)) : Pres R (loopUp lo hi body) :=
  fun s => by rw [loopUp_eq]; exact Pres_forUpAux hR hb _ _ s

theorem Pres_loopDown (hR : PreOrd R) {hi lo : σ → Int} {body : Int → σ → σ}
    (hb : ∀ i, Pres R (body i)) : Pres R (loopDown hi lo body) :=
  fun s => by rw [loopDown_eq]; exact Pres_forDownAux hR hb _ _ s

end Comb

section SumLemmas

variable {α : Type} [LinearOrderedField α]

theorem sumUp_of_le {lo hi : Int} (h : hi ≤ lo) (f : Int → α) : sumUp lo hi f = 0 := by
  have : (hi - lo).toNat = 0 := by omega
  simp [sumUp, this]

theorem sumUp_succ {lo hi : Int} (h : lo ≤ hi) (f : Int → α) :
    sumUp lo (hi + 1) f = sumUp lo hi f + f hi := by
  have e : (hi + 1 - lo).toNat = (hi - lo).toNat + 1 := by omega
  have e2 : lo + ((hi - lo).toNat : Int) = hi := by omega
  unfold sumUp
  rw [e, Finset.sum_range_succ, e2]

theorem sumUp_congr {lo hi : Int} {f g : Int → α} (h : ∀ k, lo ≤ k → k < hi → f k = g k) :
    sumUp lo hi f = sumUp lo hi g := by
  unfold sumUp
  apply Finset.sum_congr rfl
  intro t ht
  rw [Finset.mem_range] at ht
  exact h _ (by omega) (by omega)

theorem sumUp_nonneg {lo hi : Int} {f : Int → α} (h : ∀ k, lo ≤ k → k < hi → 0 ≤ f k) :
    0 ≤ sumUp lo hi f := by
  unfold sumUp
  apply Finset.sum_nonneg
  intro t ht
  rw [Finset.mem_range] at ht
  exact h _ (by omega) (by omega)

theorem sumUp_eq_zero {lo hi : Int} {f : Int → α} (h : ∀ k, lo ≤ k → k < hi → 0 ≤ f k)
    (h0 : sumUp lo hi f = 0) : ∀ k, lo ≤ k → k < hi → f k = 0 := by
  intro k hk1 hk2
  unfold sumUp at h0
  have := (Finset.sum_eq_zero_iff_of_nonneg (fun t ht => by
    rw [Finset.mem_range] at ht
    exact h _ (by omega) (by omega))).mp h0 (k - lo).toNat (by
      rw [Finset.mem_range]; omega)
  have e : lo + ((k - lo).toNat : Int) = k := by omega
  rwa [e] at this

theorem sumUp_zero {lo hi : Int} {f : Int → α} (h : ∀ k, lo ≤ k → k < hi → f k = 0) :
    sumUp lo hi f = 0 := by
  unfold sumUp
  apply Finset.sum_eq_zero
  intro t ht
  rw [Finset.mem_range] at ht
  exact h _ (by omega) (by omega)

theorem sumUp_mul_left (lo hi : Int) (c : α) (f : Int → α) :
    sumUp lo hi (fun k => c * f k) = c * sumUp lo hi f := by
  unfold sumUp
  rw [Finset.mul_sum]

end SumLemmas

section PythagLemmas

/-- Factoring a positive magnitude out of a Pythagorean sum. -/
theorem factor_sqrt (p q : ℝ) (hp : 0 < p) :
    p * Real.sqrt (1 + (q / p) * (q / p)) = Real.sqrt (p ^ 2 + q ^ 2) := by
  have h1 : p = Real.sqrt (p ^ 2) := by
    rw [Real.sqrt_sq hp.le]
  have h2 : p ^ 2 + q ^ 2 = p ^ 2 * (1 + (q / p) * (q / p)) := by
    field_simp
    ring
  rw [h2, Real.sqrt_mul (sq_nonneg p), ← h1]

/-- The value of the Pythagorean sum, for any division operator that agrees with the field
division on nonzero divisors. -/
theorem pythagWith_eq (quot : ℝ → ℝ → ℝ) (hq : ∀ x y, y ≠ 0 → quot x y = x / y) (a b : ℝ) :
    pythagWith quot Real.sqrt a b = Real.sqrt (a ^ 2 + b ^ 2) := by
  unfold pythagWith
  simp only
  by_cases h1 : |a| > |b|
  · have ha : 0 < |a| := lt_of_le_of_lt (abs_nonneg b) h1
    rw [if_pos h1, hq _ _ ha.ne', factor_sqrt _ _ ha, sq_abs, sq_abs]
  · rw [if_neg h1]
    by_cases h2 : |b| > 0
    · rw [if_pos h2, hq _ _ h2.ne', factor_sqrt _ _ h2, sq_abs, sq_abs, add_comm]
    · rw [if_neg h2]
      have hb : b = 0 := by
        by_contra hb
        exact h2 (abs_pos.mpr hb)
      have ha : a = 0 := by
        by_contra ha
        apply h1
        rw [hb, abs_zero]
        exact abs_pos.mpr ha
      simp [ha, hb]

theorem pythag_eq (a b : ℝ) : _susa_svd_pythag Real.sqrt a b = Real.sqrt (a ^ 2 + b ^ 2) :=
  pythagWith_eq _ (fun _ _ _ => rfl) a b

theorem pythag_nonneg (a b : ℝ) : 0 ≤ _susa_svd_pythag Real.sqrt a b := by
  rw [pythag_eq]; exact Real.sqrt_nonneg _

theorem pythag_pos_left (a b : ℝ) (ha : a ≠ 0) : 0 < _susa_svd_pythag Real.sqrt a b := by
  rw [pythag_eq]
  apply Real.sqrt_pos.mpr
  have := sq_nonneg b
  have := pow_pos (abs_pos.mpr ha) 2
  rw [sq_abs] at this
  linarith

theorem pythag_pos_right (a b : ℝ) (hb : b ≠ 0) : 0 < _susa_svd_pythag Real.sqrt a b := by
  rw [pythag_eq]
  apply Real.sqrt_pos.mpr
  have := sq_nonneg a
  have := pow_pos (abs_pos.mpr hb) 2
  rw [sq_abs] at this
  linarith

theorem pythag_sq (a b : ℝ) :
    _susa_svd_pythag Real.sqrt a b * _susa_svd_pythag Real.sqrt a b = a ^ 2 + b ^ 2 := by
  rw [pythag_eq]
  exact Real.mul_self_sqrt (by positivity)

theorem pythag_eq_zero (a b : ℝ) (h : _susa_svd_pythag Real.sqrt a b = 0) : a = 0 ∧ b = 0 := by
  constructor
  · by_contra ha
    exact (pythag_pos_left a b ha).ne' h
  · by_contra hb
    exact (pythag_pos_right a b hb).ne' h

end PythagLemmas

section PythagClaim

/-- C9 (Pythagorean-sum helper): `_susa_svd_pythag(a, b) = sqrt(a² + b²)` for all real `a`, `b`;
it is `|a|·sqrt(1+(b/a)²)` when `|a| > |b|`, `|b|·sqrt(1+(a/b)²)` when `|a| ≤ |b|` and
`|b| > 0`, and `0` when `a = b = 0`; and the result is the same for every division operator
`quot` that agrees with the division on nonzero divisors, so the quotient whose divisor is
zero does not affect it. -/
theorem pythag_contract (quot : ℝ → ℝ → ℝ) (hq : ∀ x y, y ≠ 0 → quot x y = x / y) (a b : ℝ) :
    pythagWith quot Real.sqrt a b = _susa_svd_pythag Real.sqrt a b ∧
    _susa_svd_pythag Real.sqrt a b = Real.sqrt (a ^ 2 + b ^ 2) ∧
    (|a| > |b| → _susa_svd_pythag Real.sqrt a b = |a| * Real.sqrt (1 + (b / a) ^ 2)) ∧
    (|a| ≤ |b| → |b| > 0 → _susa_svd_pythag Real.sqrt a b = |b| * Real.sqrt (1 + (a / b) ^ 2)) ∧
    (a = 0 → b = 0 → _susa_svd_pythag Real.sqrt a b = 0) := by
  refine ⟨?_, pythag_eq a b, ?_, ?_, ?_⟩
  · rw [pythagWith_eq quot hq, pythag_eq]
  · intro h
    have ha : 0 < |a| := lt_of_le_of_lt (abs_nonneg b) h
    have e : (b / a) ^ 2 = (|b| / |a|) * (|b| / |a|) := by
      rw [← abs_div, ← sq, sq_abs]
    rw [pythag_eq, e, factor_sqrt _ _ ha, sq_abs, sq_abs]
  · intro _ h
    have e : (a / b) ^ 2 = (|a| / |b|) * (|a| / |b|) := by
      rw [← abs_div, ← sq, sq_abs]
    rw [pythag_eq, e, factor_sqrt _ _ h, sq_abs, sq_abs, add_comm]
  · intro ha hb
    rw [pythag_eq, ha, hb]
    simp

theorem pythag_contract_witness :
    (∀ x y : ℝ, y ≠ 0 → (fun u v : ℝ => u / v) x y = x / y) ∧
    (pythagWith (fun u v : ℝ => u / v) Real.sqrt 3 4 = _susa_svd_pythag Real.sqrt 3 4 ∧
    _susa_svd_pythag Real.sqrt 3 4 = Real.sqrt (3 ^ 2 + 4 ^ 2) ∧
    (|(3 : ℝ)| > |(4 : ℝ)| →
      _susa_svd_pythag Real.sqrt 3 4 = |(3 : ℝ)| * Real.sqrt (1 + (4 / 3) ^ 2)) ∧
    (|(3 : ℝ)| ≤ |(4 : ℝ)| → |(4 : ℝ)| > 0 →
      _susa_svd_pythag Real.sqrt 3 4 = |(4 : ℝ)| * Real.sqrt (1 + (3 / 4) ^ 2)) ∧
    ((3 : ℝ) = 0 → (4 : ℝ) = 0 → _susa_svd_pythag Real.sqrt 3 4 = 0)) :=
  ⟨fun _ _ _ => rfl, pythag_contract (fun u v : ℝ => u / v) (fun _ _ _ => rfl) 3 4⟩

end PythagClaim

section FrameLemmas

variable {α : Type} [LinearOrderedField α]

omit [LinearOrderedField α] in
theorem Frame_preOrd : PreOrd (Frame : St α → St α → Prop) where
  refl := fun s => by simp [Frame]
  trans := fun a b c h1 h2 => by
    obtain ⟨a1, a2, a3, a4, a5, a6, a7, a8, a9, a10, a11, a12, a13⟩ := h1
    obtain ⟨b1, b2, b3, b4, b5, b6, b7, b8, b9, b10, b11, b12, b13⟩ := h2
    refine ⟨?_, ?_, ?_, ?_, ?_, ?_, ?_, ?_, ?_, ?_, ?_, ?_, ?_⟩ <;> first | omega | simp_all

omit [LinearOrderedField α] in
theorem FrameD_preOrd : PreOrd (FrameD : St α → St α → Prop) where
  refl := fun s => by simp [FrameD]
  trans := fun a b c h1 h2 => by
    obtain ⟨a1, a2, a3, a4, a5, a6, a7, a8, a9, a10, a11, ⟨k1, a12⟩, a13⟩ := h1
    obtain ⟨b1, b2, b3, b4, b5, b6, b7, b8, b9, b10, b11, ⟨k2, b12⟩, b13⟩ := h2
    refine ⟨?_, ?_, ?_, ?_, ?_, ?_, ?_, ?_, ?_, ?_, ?_, ⟨k2 ++ k1, ?_⟩, ?_⟩ <;>
      first | omega | simp_all

omit [LinearOrderedField α] in
theorem Frame_toD {a b : St α} (h : Frame a b) : FrameD a b := by
  obtain ⟨a1, a2, a3, a4, a5, a6, a7, a8, a9, a10, a11, a12, a13⟩ := h
  exact ⟨a1, a2, a3, a4, a5, a6, a7, a8, a9, a10, a11, ⟨[], by simp [a12]⟩, le_of_eq a13.symm⟩

omit [LinearOrderedField α] in
theorem Frame_toD_incr {a b : St α} (h : Frame { a with iters := a.iters + 1 } b) :
    FrameD a b := by
  obtain ⟨a1, a2, a3, a4, a5, a6, a7, a8, a9, a10, a11, a12, a13⟩ := h
  exact ⟨a1, a2, a3, a4, a5, a6, a7, a8, a9, a10, a11, ⟨[], by simp [a12]⟩,
    by simp only at a13; omega⟩

theorem leftReduce_frame (sqrt : α → α) (m n i : Int) :
    Pres Frame (leftReduce sqrt m n i) := by
  unfold leftReduce
  repeat' first
    | apply Pres_nil Frame_preOrd
    | apply Pres_cons Frame_preOrd
    | apply Pres_whenever Frame_preOrd
    | apply Pres_loopUp Frame_preOrd
    | (intro st; simp +contextual [Frame, St.ckU, St.ckV, St.ckS, St.ckR, St.wrU, St.wrV,
        St.wrS, St.wrR, St.dv, Mat.set])
    | intro _

theorem rightReduce_frame (sqrt : α → α) (m n i : Int) :
    Pres Frame (rightReduce sqrt m n i) := by
  unfold rightReduce
  repeat' first
    | apply Pres_nil Frame_preOrd
    | apply Pres_cons Frame_preOrd
    | apply Pres_whenever Frame_preOrd
    | apply Pres_loopUp Frame_preOrd
    | (intro st; simp +contextual [Frame, St.ckU, St.ckV, St.ckS, St.ckR, St.wrU, St.wrV,
        St.wrS, St.wrR, St.dv, Mat.set])
    | intro _

theorem bidiagStep_frame (sqrt : α → α) (m n i : Int) :
    Pres Frame (bidiagStep sqrt m n i) := by
  unfold bidiagStep
  repeat' first
    | exact leftReduce_frame sqrt m n i
    | exact rightReduce_frame sqrt m n i
    | apply Pres_nil Frame_preOrd
    | apply Pres_cons Frame_preOrd
    | (intro st; simp +contextual [Frame, St.ckU, St.ckV, St.ckS, St.ckR, St.wrU, St.wrV,
        St.wrS, St.wrR, St.dv, Mat.set])

theorem bidiagonalize_frame (sqrt : α → α) (m n : Int) :
    Pres Frame (bidiagonalize sqrt m n) :=
  Pres_loopUp Frame_preOrd (bidiagStep_frame sqrt m n)

theorem accumRightStep_frame (n i : Int) : Pres Frame (accumRightStep n i : St α → St α) := by
  unfold accumRightStep
  repeat' first
    | apply Pres_nil Frame_preOrd
    | apply Pres_cons Frame_preOrd
    | apply Pres_whenever Frame_preOrd
    | apply Pres_loopUp Frame_preOrd
    | (intro st; simp +contextual [Frame, St.ckU, St.ckV, St.ckS, St.ckR, St.wrU, St.wrV,
        St.wrS, St.wrR, St.dv, Mat.set])
    | intro _

theorem accumRight_frame (n : Int) : Pres Frame (accumRight n : St α → St α) :=
  Pres_loopDown Frame_preOrd (accumRightStep_frame n)

theorem accumLeftStep_frame (m n i : Int) :
    Pres Frame (accumLeftStep m n i : St α → St α) := by
  unfold accumLeftStep
  repeat' first
    | apply Pres_nil Frame_preOrd
    | apply Pres_cons Frame_preOrd
    | apply Pres_whenever Frame_preOrd
    | apply Pres_cond
    | apply Pres_loopUp Frame_preOrd
    | (intro st; simp +contextual [Frame, St.ckU, St.ckV, St.ckS, St.ckR, St.wrU, St.wrV,
        St.wrS, St.wrR, St.dv, Mat.set])
    | intro _

theorem accumLeft_frame (m n : Int) : Pres Frame (accumLeft m n : St α → St α) :=
  Pres_loopDown Frame_preOrd (accumLeftStep_frame m n)

theorem scan_frame (t : Nat) : Pres Frame (scan t : St α → St α) := by
  induction t with
  | zero => intro st; exact Frame_preOrd.refl st
  | succ t ih =>
    intro st
    unfold scan
    simp only
    split
    · simp +contextual [Frame, St.ckR]
    · split
      · simp +contextual [Frame, St.ckR, St.ckS]
      · refine Frame_preOrd.trans _ _ _ ?_ (ih _)
        simp +contextual [Frame, St.ckR, St.ckS]

theorem rotU_frame (m a b : Int) : Pres Frame (rotU m a b : St α → St α) := by
  unfold rotU
  repeat' first
    | apply Pres_nil Frame_preOrd
    | apply Pres_cons Frame_preOrd
    | apply Pres_loopUp Frame_preOrd
    | (intro st; simp +contextual [Frame, St.ckU, St.ckV, St.ckS, St.ckR, St.wrU, St.wrV,
        St.wrS, St.wrR, St.dv, Mat.set])
    | intro _

theorem rotV_frame (n a b : Int) : Pres Frame (rotV n a b : St α → St α) := by
  unfold rotV
  repeat' first
    | apply Pres_nil Frame_preOrd
    | apply Pres_cons Frame_preOrd
    | apply Pres_loopUp Frame_preOrd
    | (intro st; simp +contextual [Frame, St.ckU, St.ckV, St.ckS, St.ckR, St.wrU, St.wrV,
        St.wrS, St.wrR, St.dv, Mat.set])
    | intro _

theorem cancel_frame (sqrt : α → α) (m k : Int) : Pres Frame (cancel sqrt m k) := by
  unfold cancel
  repeat' first
    | exact fun st => rotU_frame m _ _ st
    | apply Pres_nil Frame_preOrd
    | apply Pres_cons Frame_preOrd
    | apply Pres_whenever Frame_preOrd
    | apply Pres_loopUp Frame_preOrd
    | (intro st; simp +contextual [Frame, St.ckU, St.ckV, St.ckS, St.ckR, St.wrU, St.wrV,
        St.wrS, St.wrR, St.dv, Mat.set])
    | intro _

theorem signFix_frame (n k : Int) : Pres Frame (signFix n k : St α → St α) := by
  unfold signFix
  repeat' first
    | apply Pres_nil Frame_preOrd
    | apply Pres_cons Frame_preOrd
    | apply Pres_whenever Frame_preOrd
    | apply Pres_loopUp Frame_preOrd
    | (intro st; simp +contextual [Frame, St.ckU, St.ckV, St.ckS, St.ckR, St.wrU, St.wrV,
        St.wrS, St.wrR, St.dv, Mat.set])
    | intro _

theorem shift_frame (sqrt : α → α) (k : Int) : Pres Frame (shift sqrt k) := by
  unfold shift
  repeat' first
    | apply Pres_nil Frame_preOrd
    | apply Pres_cons Frame_preOrd
    | (intro st; simp +contextual [Frame, St.ckU, St.ckV, St.ckS, St.ckR, St.wrU, St.wrV,
        St.wrS, St.wrR, St.dv, Mat.set])

theorem qrFirst_frame (sqrt : α → α) (j : Int) : Pres Frame (qrFirst sqrt j) := by
  unfold qrFirst
  repeat' first
    | apply Pres_nil Frame_preOrd
    | apply Pres_cons Frame_preOrd
    | (intro st; simp +contextual [Frame, St.ckU, St.ckV, St.ckS, St.ckR, St.wrU, St.wrV,
        St.wrS, St.wrR, St.dv, Mat.set])

theorem qrSecond_frame (sqrt : α → α) (j : Int) : Pres Frame (qrSecond sqrt j) := by
  unfold qrSecond
  repeat' first
    | apply Pres_nil Frame_preOrd
    | apply Pres_cons Frame_preOrd
    | apply Pres_whenever Frame_preOrd
    | (intro st; simp +contextual [Frame, St.ckU, St.ckV, St.ckS, St.ckR, St.wrU, St.wrV,
        St.wrS, St.wrR, St.dv, Mat.set])

theorem qrStep_frame (sqrt : α → α) (m n j : Int) : Pres Frame (qrStep sqrt m n j) :=
  Pres_cons Frame_preOrd (qrFirst_frame sqrt j)
    (Pres_cons Frame_preOrd (rotV_frame n j (j + 1))
      (Pres_cons Frame_preOrd (qrSecond_frame sqrt j)
        (Pres_cons Frame_preOrd (rotU_frame m j (j + 1)) (Pres_nil Frame_preOrd))))

theorem qrSweep_frame (sqrt : α → α) (m n k : Int) : Pres Frame (qrSweep sqrt m n k) := by
  unfold qrSweep
  repeat' first
    | exact qrStep_frame sqrt m n
    | apply Pres_nil Frame_preOrd
    | apply Pres_cons Frame_preOrd
    | apply Pres_loopUp Frame_preOrd
    | (intro st; simp +contextual [Frame, St.ckU, St.ckV, St.ckS, St.ckR, St.wrU, St.wrV,
        St.wrS, St.wrR, St.dv, Mat.set])

theorem iterHead_frame (sqrt : α → α) (m k : Int) (st : St α) :
    Frame { st with iters := st.iters + 1 } (iterHead sqrt m k st) := by
  have h : Pres Frame (block [
      (fun st => { st with flag := 1 } : St α → St α),
      fun st => { st with l := k },
      scan (k + 1).toNat,
      whenever (fun st => st.flag ≠ 0) (cancel sqrt m k),
      fun st => { st.ckS k with z := st.w k }]) := by
    repeat' first
      | exact scan_frame _
      | exact cancel_frame sqrt m k
      | apply Pres_nil Frame_preOrd
      | apply Pres_cons Frame_preOrd
      | apply Pres_whenever Frame_preOrd
      | (intro st; simp +contextual [Frame, St.ckU, St.ckV, St.ckS, St.ckR, St.wrU, St.wrV,
          St.wrS, St.wrR, St.dv, Mat.set])
  unfold iterHead
  rw [block_cons]
  exact h _

/-- The body of the iteration loop, whatever the counter: the shapes are kept, the flags are
not reset, one iteration is counted, and the log grows by at most one line. -/
theorem iterBody_count (sqrt : α → α) (m n k its : Int) (st : St α) :
    (iterBody sqrt m n k its st).1.iters = st.iters + 1 := by
  have h1 := iterHead_frame sqrt m k st
  unfold iterBody
  generalize iterHead sqrt m k st = st1 at h1 ⊢
  simp only
  by_cases hl : st1.l = k
  · rw [if_pos hl]
    have := signFix_frame n k st1
    exact (this.2.2.2.2.2.2.2.2.2.2.2.2).trans h1.2.2.2.2.2.2.2.2.2.2.2.2
  · rw [if_neg hl]
    by_cases h30 : its ≥ 30
    · rw [if_pos h30]
      exact h1.2.2.2.2.2.2.2.2.2.2.2.2
    · rw [if_neg h30]
      have : Frame st1 (block [shift sqrt k, qrSweep sqrt m n k] st1) :=
        Pres_cons Frame_preOrd (shift_frame sqrt k)
          (Pres_cons Frame_preOrd (qrSweep_frame sqrt m n k) (Pres_nil Frame_preOrd)) _
      exact (this.2.2.2.2.2.2.2.2.2.2.2.2).trans h1.2.2.2.2.2.2.2.2.2.2.2.2

/-- The `return` inside the iteration loop is dead code: with `its < 30` the body keeps the
frame (in particular the log) and ends by `break` or falls through. -/
theorem iterBody_frame (sqrt : α → α) (m n k its : Int) (hits : its < 30) (st : St α) :
    Frame { st with iters := st.iters + 1 } (iterBody sqrt m n k its st).1 ∧
      ((iterBody sqrt m n k its st).2 = Ctl.next ∨ (iterBody sqrt m n k its st).2 = Ctl.brk) := by
  have h1 := iterHead_frame sqrt m k st
  unfold iterBody
  generalize iterHead sqrt m k st = st1 at h1 ⊢
  simp only
  by_cases hl : st1.l = k
  · rw [if_pos hl]
    exact ⟨Frame_preOrd.trans _ _ _ h1 (signFix_frame n k _), Or.inr rfl⟩
  · rw [if_neg hl, if_neg (by omega)]
    refine ⟨Frame_preOrd.trans _ _ _ h1 ?_, Or.inl rfl⟩
    exact Pres_cons Frame_preOrd (shift_frame sqrt k)
      (Pres_cons Frame_preOrd (qrSweep_frame sqrt m n k) (Pres_nil Frame_preOrd)) _

theorem itsLoop_frame (sqrt : α → α) (m n k : Int) (t : Nat) (its : Int)
    (hits : its + t = 30) (st : St α) :
    FrameD st (itsLoop sqrt m n k t its st).1 ∧ (itsLoop sqrt m n k t its st).2 = none := by
  induction t generalizing its st with
  | zero =>
    simp only [itsLoop, and_true]
    refine ⟨rfl, rfl, rfl, rfl, rfl, rfl, rfl, rfl, id, id, rfl, ⟨[k], rfl⟩, le_refl _⟩
  | succ t ih =>
    have hb := iterBody_frame sqrt m n k its (by omega) st
    unfold itsLoop
    rcases hc : iterBody sqrt m n k its st with ⟨st1, c⟩
    rw [hc] at hb
    rcases hb with ⟨hf, hcase | hcase⟩ <;> simp only at hcase <;> subst hcase <;> simp only
    · have := ih (its + 1) (by push_cast at hits ⊢; omega) st1
      exact ⟨FrameD_preOrd.trans _ _ _ (Frame_toD_incr hf) this.1, this.2⟩
    · exact ⟨(Frame_toD_incr hf), trivial⟩

/-- At most `t` bodies are executed by the iteration loop started with `t` rounds left. -/
theorem itsLoop_count (sqrt : α → α) (m n k : Int) (t : Nat) (its : Int) (st : St α) :
    (itsLoop sqrt m n k t its st).1.iters ≤ st.iters + t := by
  induction t generalizing its st with
  | zero => simp [itsLoop]
  | succ t ih =>
    have hb := iterBody_count sqrt m n k its st
    unfold itsLoop
    rcases hc : iterBody sqrt m n k its st with ⟨st1, c⟩
    rw [hc] at hb
    simp only at hb
    cases c with
    | next =>
      simp only
      have := ih (its + 1) st1
      omega
    | brk => simp only; omega
    | ret v => simp only; omega

theorem diagLoop_frame (sqrt : α → α) (m n : Int) (t : Nat) (k : Int) (st : St α) :
    FrameD st (diagLoop sqrt m n t k st).1 ∧ (diagLoop sqrt m n t k st).2 = none := by
  induction t generalizing k st with
  | zero => exact ⟨FrameD_preOrd.refl st, rfl⟩
  | succ t ih =>
    have hb := itsLoop_frame sqrt m n k 30 0 (by norm_num) st
    unfold diagLoop
    rcases hc : itsLoop sqrt m n k 30 0 st with ⟨st1, c⟩
    rw [hc] at hb
    obtain ⟨hf, hcase⟩ := hb
    simp only at hcase
    subst hcase
    simp only
    exact ⟨FrameD_preOrd.trans _ _ _ hf (ih (k - 1) st1).1, (ih (k - 1) st1).2⟩

/-- At most `30 * t` bodies of the iteration loop are executed for `t` indices `k`. -/
theorem diagLoop_count (sqrt : α → α) (m n : Int) (t : Nat) (k : Int) (st : St α) :
    (diagLoop sqrt m n t k st).1.iters ≤ st.iters + 30 * t := by
  induction t generalizing k st with
  | zero => simp [diagLoop]
  | succ t ih =>
    have hb := itsLoop_count sqrt m n k 30 0 st
    unfold diagLoop
    rcases hc : itsLoop sqrt m n k 30 0 st with ⟨st1, c⟩
    rw [hc] at hb
    simp only at hb
    cases c with
    | some v => simp only; omega
    | none =>
      simp only
      have := ih (k - 1) st1
      omega

/-- The state before phase 4 of a call. -/
theorem phases123_frame (sqrt : α → α) (m n : Int) (st : St α) :
    Frame st (block [bidiagonalize sqrt m n, accumRight n, accumLeft m n] st) :=
  Pres_cons Frame_preOrd (bidiagonalize_frame sqrt m n)
    (Pres_cons Frame_preOrd (accumRight_frame n)
      (Pres_cons Frame_preOrd (accumLeft_frame m n) (Pres_nil Frame_preOrd))) st

/-- The whole call keeps the frame of the initial state, and ends at the final `return`. -/
theorem svd_frame (sqrt : α → α) (A S V : Mat α) (R : Int → Int → α) :
    FrameD (svdInit A S V R) (svd sqrt A S V R).out ∧ (svd sqrt A S V R).code = 0 := by
  unfold svd
  simp only
  have h1 := phases123_frame sqrt A.rows A.cols (svdInit A S V R)
  have h2 := diagLoop_frame sqrt A.rows A.cols (A.cols : Int).toNat ((A.cols : Int) - 1)
    (block [bidiagonalize sqrt A.rows A.cols, accumRight A.cols, accumLeft A.rows A.cols]
      (svdInit A S V R))
  unfold diagonalize
  rcases hc : diagLoop sqrt A.rows A.cols (A.cols : Int).toNat ((A.cols : Int) - 1)
    (block [bidiagonalize sqrt A.rows A.cols, accumRight A.cols, accumLeft A.rows A.cols]
      (svdInit A S V R)) with ⟨st1, c⟩
  rw [hc] at h2
  obtain ⟨hf, hcase⟩ := h2
  simp only at hcase
  subst hcase
  exact ⟨FrameD_preOrd.trans _ _ _ (Frame_toD h1) hf, rfl⟩

/-- The number of executed bodies of the iteration loop in a whole call. -/
theorem svd_count (sqrt : α → α) (A S V : Mat α) (R : Int → Int → α) :
    (svd sqrt A S V R).out.iters ≤ 30 * A.cols := by
  have h1 := phases123_frame sqrt A.rows A.cols (svdInit A S V R)
  have h2 := diagLoop_count sqrt A.rows A.cols (A.cols : Int).toNat ((A.cols : Int) - 1)
    (block [bidiagonalize sqrt A.rows A.cols, accumRight A.cols, accumLeft A.rows A.cols]
      (svdInit A S V R))
  have h3 : (block [bidiagonalize sqrt A.rows A.cols, accumRight A.cols, accumLeft A.rows A.cols]
      (svdInit A S V R)).iters = 0 := h1.2.2.2.2.2.2.2.2.2.2.2.2
  unfold svd
  simp only
  unfold diagonalize
  rcases hc : diagLoop sqrt A.rows A.cols (A.cols : Int).toNat ((A.cols : Int) - 1)
    (block [bidiagonalize sqrt A.rows A.cols, accumRight A.cols, accumLeft A.rows A.cols]
      (svdInit A S V R)) with ⟨st1, c⟩
  rw [hc, h3] at h2
  simp only [Int.toNat_ofNat] at h2
  cases c <;> simp only <;> omega

end FrameLemmas

section Structural

variable {α : Type} [LinearOrderedField α]

/-- The state on return is the state left by the diagonalisation loops. -/
theorem svd_out_eq (sqrt : α → α) (A S V : Mat α) (R : Int → Int → α) :
    (svd sqrt A S V R).out =
      (diagonalize sqrt A.rows A.cols
        (block [bidiagonalize sqrt A.rows A.cols, accumRight A.cols, accumLeft A.rows A.cols]
          (svdInit A S V R))).1 := by
  unfold svd
  simp only
  rcases diagonalize sqrt A.rows A.cols
    (block [bidiagonalize sqrt A.rows A.cols, accumRight A.cols, accumLeft A.rows A.cols]
      (svdInit A S V R)) with ⟨st1, c⟩
  cases c <;> rfl

/-- Step `i` of the bidiagonalisation raises `oob` when `i` is not an index of `S`. -/
theorem bidiagStep_oob (sqrt : α → α) (m n i : Int) (st : St α)
    (h : (st.S.rows : Int) * st.S.cols ≤ i) : (bidiagStep sqrt m n i st).oob = true := by
  unfold bidiagStep
  simp only [block_cons, block_nil]
  have hpre : Pres Frame (block [
      (fun st => { st with l := i + 1 } : St α → St α),
      fun st => st.wrR i (st.scale * st.g),
      fun st => { st with g := 0, s := 0, scale := 0 },
      leftReduce sqrt m n i]) := by
    repeat' first
      | exact leftReduce_frame sqrt m n i
      | apply Pres_nil Frame_preOrd
      | apply Pres_cons Frame_preOrd
      | (intro st; simp +contextual [Frame, St.ckU, St.ckV, St.ckS, St.ckR, St.wrU, St.wrV,
          St.wrS, St.wrR, St.dv, Mat.set])
  have h1 := hpre st
  simp only [block_cons, block_nil] at h1
  generalize leftReduce sqrt m n i _ = s1 at h1 ⊢
  have hs : (s1.wrS i (s1.scale * s1.g)).oob = true := by
    have e1 : s1.S.rows = st.S.rows := h1.2.2.1
    have e2 : s1.S.cols = st.S.cols := h1.2.2.2.1
    simp only [St.wrS, St.ckS, Mat.inb1, e1, e2]
    simp
    exact Or.inr (Or.inr h)
  have h2 := rightReduce_frame sqrt m n i
    { s1.wrS i (s1.scale * s1.g) with g := 0, s := 0, scale := 0 }
  have h3 := h2.2.2.2.2.2.2.2.2.1 hs
  simp only [St.ckS, St.ckR]
  simp [h3]

/-- A wide input (fewer rows than columns) makes the bidiagonalisation index `S` outside its
bounds: step `i = m` stores into `S(m)` while `S` has `m` elements. -/
theorem bidiagonalize_oob (sqrt : α → α) (m n : Int) (st : St α) (hm : 0 ≤ m) (hmn : m < n)
    (h : (st.S.rows : Int) * st.S.cols ≤ m) : (bidiagonalize sqrt m n st).oob = true := by
  unfold bidiagonalize
  rw [loopUp_eq, forUp_split hm (le_of_lt hmn), forUp_first hmn]
  have h1 : Frame st (forUp 0 m (bidiagStep sqrt m n) st) :=
    Pres_forUpAux Frame_preOrd (bidiagStep_frame sqrt m n) _ _ _
  generalize forUp 0 m (bidiagStep sqrt m n) st = s1 at h1 ⊢
  have e1 : s1.S.rows = st.S.rows := h1.2.2.1
  have e2 : s1.S.cols = st.S.cols := h1.2.2.2.1
  have h2 := bidiagStep_oob sqrt m n m s1 (by rw [e1, e2]; exact h)
  have h3 : Frame (bidiagStep sqrt m n m s1)
      (forUp (m + 1) n (bidiagStep sqrt m n) (bidiagStep sqrt m n m s1)) :=
    Pres_forUpAux Frame_preOrd (bidiagStep_frame sqrt m n) _ _ _
  exact h3.2.2.2.2.2.2.2.2.1 h2

/-- The diagonalisation loops keep the frame. -/
theorem diagonalize_frame (sqrt : α → α) (m n : Int) (st : St α) :
    FrameD st (diagonalize sqrt m n st).1 :=
  (diagLoop_frame sqrt m n _ _ st).1

theorem svd_oob_of_wide (sqrt : α → α) (A S V : Mat α) (R : Int → Int → α)
    (h : A.rows < A.cols) : (svd sqrt A S V R).out.oob = true := by
  rw [svd_out_eq]
  refine (diagonalize_frame sqrt _ _ _).2.2.2.2.2.2.2.2.1 ?_
  simp only [block_cons, block_nil]
  refine (accumLeft_frame _ _ _).2.2.2.2.2.2.2.2.1 ?_
  refine (accumRight_frame _ _).2.2.2.2.2.2.2.2.1 ?_
  apply bidiagonalize_oob sqrt _ _ _ (by omega) (by omega)
  have : ¬ ((A.rows : Int) > A.cols) := by omega
  simp [svdInit, Mat.resize, this]

/-- The shapes of the containers on return. -/
theorem svd_shapes_aux (sqrt : α → α) (A S V : Mat α) (R : Int → Int → α) :
    (svd sqrt A S V R).out.U.rows = A.rows ∧ (svd sqrt A S V R).out.U.cols = A.cols ∧
    (svd sqrt A S V R).out.S.rows = min A.rows A.cols ∧ (svd sqrt A S V R).out.S.cols = 1 ∧
    (svd sqrt A S V R).out.V.rows = min A.rows A.cols ∧
    (svd sqrt A S V R).out.V.cols = min A.rows A.cols := by
  obtain ⟨a1, a2, a3, a4, a5, a6, -⟩ := (svd_frame sqrt A S V R).1
  rw [a1, a2, a3, a4, a5, a6]
  have hp : (if (A.rows : Int) > A.cols then (A.cols : Int) else A.rows).toNat
      = min A.rows A.cols := by
    split <;> omega
  simp only [svdInit, Mat.resize, hp]
  simp

end Structural

section ScanLemmas

variable {α : Type} [LinearOrderedField α]

/-- The splitting scan (lines 213–222) run for at most `t` rounds: it only assigns `l`, `nm`
and `flag` (and the ghost flag `oob`); it stops either at the test of `rv1(l)`, clearing
`flag`, or at the test of `S(l-1)`, or after `t` rounds; every index it has passed has both
`rv1(j)` and `S(j-1)` not numerically zero. -/
theorem scan_spec (t : Nat) (st : St α) :
    (scan t st).U = st.U ∧ (scan t st).S = st.S ∧ (scan t st).V = st.V ∧
    (scan t st).rv1 = st.rv1 ∧ (scan t st).anorm = st.anorm ∧ (scan t st).dz = st.dz ∧
    (scan t st).l ≤ st.l ∧
    (((scan t st).flag = 0 ∧ st.l - t < (scan t st).l ∧ (scan t st).nm = (scan t st).l - 1 ∧
        |st.r (scan t st).l| + st.anorm = st.anorm) ∨
      ((scan t st).flag = st.flag ∧ st.l - t < (scan t st).l ∧
        (scan t st).nm = (scan t st).l - 1 ∧
        |st.r (scan t st).l| + st.anorm ≠ st.anorm ∧
        |st.w ((scan t st).l - 1)| + st.anorm = st.anorm) ∨
      ((scan t st).flag = st.flag ∧ (scan t st).l = st.l - t)) ∧
    (∀ j, (scan t st).l < j → j ≤ st.l →
      |st.r j| + st.anorm ≠ st.anorm ∧ |st.w (j - 1)| + st.anorm ≠ st.anorm) := by
  induction t generalizing st with
  | zero =>
    refine ⟨rfl, rfl, rfl, rfl, rfl, rfl, le_refl _, Or.inr (Or.inr ⟨rfl, by simp [scan]⟩), ?_⟩
    intro j h1 h2
    simp only [scan] at h1
    omega
  | succ t ih =>
    unfold scan
    simp only [St.ckR, St.ckS, St.r, St.w]
    by_cases h1 : |st.rv1.val st.l 0| + st.anorm = st.anorm
    · rw [if_pos h1]
      refine ⟨rfl, rfl, rfl, rfl, rfl, rfl, le_refl _, Or.inl ⟨rfl, ?_, rfl, h1⟩, ?_⟩
      · simp only; push_cast; omega
      · intro j h2 h3
        simp only at h2
        omega
    · rw [if_neg h1]
      by_cases h2 : |st.S.val (st.l - 1) 0| + st.anorm = st.anorm
      · rw [if_pos h2]
        refine ⟨rfl, rfl, rfl, rfl, rfl, rfl, le_refl _,
          Or.inr (Or.inl ⟨rfl, ?_, rfl, h1, h2⟩), ?_⟩
        · simp only; push_cast; omega
        · intro j h3 h4
          simp only at h3
          omega
      · rw [if_neg h2]
        obtain ⟨a1, a2, a3, a4, a5, a6, a7, a8, a9⟩ := ih
          { U := st.U, S := st.S, V := st.V, rv1 := st.rv1, anorm := st.anorm, g := st.g,
            scale := st.scale, c := st.c, f := st.f, h := st.h, s := st.s, x := st.x,
            y := st.y, z := st.z, l := st.l - 1, nm := st.l - 1, flag := st.flag,
            oob := (st.oob || !st.rv1.inb1 st.l) || !st.S.inb1 (st.l - 1), dz := st.dz,
            log := st.log, iters := st.iters, stalled := st.stalled }
        dsimp only [St.r, St.w] at a7 a8 a9
        refine ⟨a1, a2, a3, a4, a5, a6, by omega, ?_, ?_⟩
        · rcases a8 with ⟨b1, b2, b3, b4⟩ | ⟨b1, b2, b3, b4, b5⟩ | ⟨b1, b2⟩
          · exact Or.inl ⟨b1, by push_cast; omega, b3, b4⟩
          · exact Or.inr (Or.inl ⟨b1, by push_cast; omega, b3, b4, b5⟩)
          · exact Or.inr (Or.inr ⟨b1, by push_cast; omega⟩)
        · intro j h3 h4
          by_cases hj : j = st.l
          · subst hj
            exact ⟨h1, h2⟩
          · exact a9 j h3 (by omega)

/-- The statements of an iteration up to the convergence test form the scan, the guarded
cancellation sweep and the assignment of `z`. -/
theorem iterHead_eq (sqrt : α → α) (m k : Int) (st : St α) :
    iterHead sqrt m k st =
      (fun st : St α => { st.ckS k with z := st.w k })
        (whenever (fun st => st.flag ≠ 0) (cancel sqrt m k)
          (scan (k + 1).toNat { st with iters := st.iters + 1, flag := 1, l := k })) := by
  unfold iterHead
  simp only [block_cons, block_nil]

end ScanLemmas

section RotLemmas

variable {α : Type} [LinearOrderedField α]

omit [LinearOrderedField α] in
theorem OnlyU_preOrd : PreOrd (OnlyU : St α → St α → Prop) where
  refl := fun s => by simp [OnlyU]
  trans := fun a b c h1 h2 => by
    obtain ⟨a1, a2, a3, a4, a5, a6, a7, a8, a9, a10, a11, a12, a13, a14, a15⟩ := h1
    obtain ⟨b1, b2, b3, b4, b5, b6, b7, b8, b9, b10, b11, b12, b13, b14, b15⟩ := h2
    exact ⟨b1.trans a1, b2.trans a2, b3.trans a3, b4.trans a4, b5.trans a5, b6.trans a6,
      b7.trans a7, b8.trans a8, b9.trans a9, b10.trans a10, b11.trans a11, b12.trans a12,
      b13.trans a13, b14.trans a14, b15.trans a15⟩

omit [LinearOrderedField α] in
theorem OnlyV_preOrd : PreOrd (OnlyV : St α → St α → Prop) where
  refl := fun s => by simp [OnlyV]
  trans := fun a b c h1 h2 => by
    obtain ⟨a1, a2, a3, a4, a5, a6, a7, a8, a9, a10, a11, a12, a13, a14, a15⟩ := h1
    obtain ⟨b1, b2, b3, b4, b5, b6, b7, b8, b9, b10, b11, b12, b13, b14, b15⟩ := h2
    exact ⟨b1.trans a1, b2.trans a2, b3.trans a3, b4.trans a4, b5.trans a5, b6.trans a6,
      b7.trans a7, b8.trans a8, b9.trans a9, b10.trans a10, b11.trans a11, b12.trans a12,
      b13.trans a13, b14.trans a14, b15.trans a15⟩

/-- The rotation of two columns of `U` assigns only `U`, `y` and `z`. -/
theorem rotU_only (m a b : Int) : Pres OnlyU (rotU m a b : St α → St α) := by
  unfold rotU
  repeat' first
    | apply Pres_nil OnlyU_preOrd
    | apply Pres_cons OnlyU_preOrd
    | apply Pres_loopUp OnlyU_preOrd
    | (intro st; simp +contextual [OnlyU, St.ckU, St.wrU, Mat.set]; done)
    | intro _

/-- The rotation of two columns of `V` assigns only `V`, `x` and `z`. -/
theorem rotV_only (n a b : Int) : Pres OnlyV (rotV n a b : St α → St α) := by
  unfold rotV
  repeat' first
    | apply Pres_nil OnlyV_preOrd
    | apply Pres_cons OnlyV_preOrd
    | apply Pres_loopUp OnlyV_preOrd
    | (intro st; simp +contextual [OnlyV, St.ckV, St.wrV, Mat.set]; done)
    | intro _

end RotLemmas

section CancelClaim

variable {α : Type} [LinearOrderedField α]

/-- C12, amended (splitting flag and cancellation sweep): an inner iteration runs the scan
from `flag = 1`, `l = k`, then the cancellation sweep under the guard `flag ≠ 0`.  After the
scan `flag` is `0` exactly when the scan stopped at an index `l ≥ 0` because `rv1(l)` was
numerically zero, and in that case the sweep is skipped; when `flag` is still set and the scan
stopped at an index `l ≥ 0`, it stopped because `S(l-1)` was numerically zero (and `rv1(l)` was
not), and in that case the sweep is run. -/
theorem cancellation_guard (sqrt : α → α) (m k : Int) (st : St α) :
    iterHead sqrt m k st =
      (fun st : St α => { st.ckS k with z := st.w k })
        (whenever (fun st => st.flag ≠ 0) (cancel sqrt m k)
          (scan (k + 1).toNat { st with iters := st.iters + 1, flag := 1, l := k })) ∧
    ((scan (k + 1).toNat { st with iters := st.iters + 1, flag := 1, l := k }).flag = 0 ↔
      0 ≤ (scan (k + 1).toNat { st with iters := st.iters + 1, flag := 1, l := k }).l ∧
      |st.r (scan (k + 1).toNat { st with iters := st.iters + 1, flag := 1, l := k }).l|
        + st.anorm = st.anorm) ∧
    ((scan (k + 1).toNat { st with iters := st.iters + 1, flag := 1, l := k }).flag ≠ 0 →
      0 ≤ (scan (k + 1).toNat { st with iters := st.iters + 1, flag := 1, l := k }).l →
      |st.r (scan (k + 1).toNat { st with iters := st.iters + 1, flag := 1, l := k }).l|
        + st.anorm ≠ st.anorm ∧
      |st.w ((scan (k + 1).toNat { st with iters := st.iters + 1, flag := 1, l := k }).l - 1)|
        + st.anorm = st.anorm) ∧
    ((scan (k + 1).toNat { st with iters := st.iters + 1, flag := 1, l := k }).flag = 0 →
      whenever (fun st => st.flag ≠ 0) (cancel sqrt m k)
          (scan (k + 1).toNat { st with iters := st.iters + 1, flag := 1, l := k }) =
        scan (k + 1).toNat { st with iters := st.iters + 1, flag := 1, l := k }) ∧
    ((scan (k + 1).toNat { st with iters := st.iters + 1, flag := 1, l := k }).flag ≠ 0 →
      whenever (fun st => st.flag ≠ 0) (cancel sqrt m k)
          (scan (k + 1).toNat { st with iters := st.iters + 1, flag := 1, l := k }) =
        cancel sqrt m k
          (scan (k + 1).toNat { st with iters := st.iters + 1, flag := 1, l := k })) := by
  obtain ⟨-, -, -, -, -, -, h7, h8, -⟩ :=
    scan_spec (k + 1).toNat { st with iters := st.iters + 1, flag := 1, l := k }
  generalize hs : scan (k + 1).toNat { st with iters := st.iters + 1, flag := 1, l := k } = s1
    at h7 h8
  dsimp only [St.r, St.w] at h7 h8
  refine ⟨?_, ?_, ?_, ?_, ?_⟩
  · unfold iterHead
    simp only [block_cons, block_nil]
    rw [← hs]
  · constructor
    · intro hf
      rcases h8 with ⟨-, b2, -, b4⟩ | ⟨b1, -⟩ | ⟨b1, -⟩
      · exact ⟨by omega, b4⟩
      · rw [hf] at b1; exact absurd b1 (by norm_num)
      · rw [hf] at b1; exact absurd b1 (by norm_num)
    · rintro ⟨h0, hz⟩
      rcases h8 with ⟨b1, -⟩ | ⟨-, -, -, b4, -⟩ | ⟨-, b2⟩
      · exact b1
      · exact absurd hz b4
      · omega
  · intro hf h0
    rcases h8 with ⟨b1, -⟩ | ⟨-, -, -, b4, b5⟩ | ⟨-, b2⟩
    · exact absurd b1 hf
    · exact ⟨b4, b5⟩
    · omega
  · intro hf
    rw [whenever_eq, if_neg (by simp [hf])]
  · intro hf
    rw [whenever_eq, if_pos hf]

/-- C12 as stated fails: in this state (`k = 1`, `rv1 = (0, 3)`, `S = (0, 4)`, `anorm = 7`)
the scan stops at `l = 1` because `S(0)` is numerically zero while `rv1(1)` is not; `flag`
is still `1`, and the cancellation sweep is run: it replaces `S(1) = 4` by
`pythag(3, 4) = 5`. -/
theorem cancellation_runs_after_zero_diagonal :
    |(3 : ℝ)| + 7 ≠ 7 ∧ |(0 : ℝ)| + 7 = 7 ∧
    (iterHead Real.sqrt 2 1
      (St.mk (Mat.mk 2 2 (fun i j => if i = j then 1 else 0))
        (Mat.mk 2 1 (fun i _ => if i = 1 then 4 else 0))
        (Mat.mk 2 2 (fun i j => if i = j then 1 else 0))
        (Mat.mk 2 1 (fun i _ => if i = 1 then 3 else 0))
        7 0 0 0 0 0 0 0 0 0 0 0 0 false false [] 0 [] : St ℝ)).l = 1 ∧
    (iterHead Real.sqrt 2 1
      (St.mk (Mat.mk 2 2 (fun i j => if i = j then 1 else 0))
        (Mat.mk 2 1 (fun i _ => if i = 1 then 4 else 0))
        (Mat.mk 2 2 (fun i j => if i = j then 1 else 0))
        (Mat.mk 2 1 (fun i _ => if i = 1 then 3 else 0))
        7 0 0 0 0 0 0 0 0 0 0 0 0 false false [] 0 [] : St ℝ)).flag = 1 ∧
    (iterHead Real.sqrt 2 1
      (St.mk (Mat.mk 2 2 (fun i j => if i = j then 1 else 0))
        (Mat.mk 2 1 (fun i _ => if i = 1 then 4 else 0))
        (Mat.mk 2 2 (fun i j => if i = j then 1 else 0))
        (Mat.mk 2 1 (fun i _ => if i = 1 then 3 else 0))
        7 0 0 0 0 0 0 0 0 0 0 0 0 false false [] 0 [] : St ℝ)).w 1 = 5 := by
  have e : ((1 : Int) + 1).toNat = 2 := by decide
  have h5 : _susa_svd_pythag Real.sqrt 3 4 = 5 := by
    rw [pythag_eq, show ((3 : ℝ) ^ 2 + 4 ^ 2) = 5 ^ 2 by norm_num, Real.sqrt_sq (by norm_num)]
  refine ⟨by norm_num, by norm_num, ?_⟩
  unfold iterHead
  simp only [block_cons, block_nil]
  rw [e]
  simp only [scan, St.ckR, St.ckS, St.r, St.w]
  norm_num
  rw [whenever_eq]
  simp only [ne_eq, one_ne_zero, not_false_eq_true, ↓reduceIte]
  unfold cancel
  simp only [block_cons, block_nil, loopUp_eq]
  rw [forUp_first (by norm_num), forUp_of_le (by norm_num)]
  simp only [block_cons, block_nil, whenever_eq, St.ckR, St.ckS, St.r, St.w, St.wrS, St.dv]
  norm_num
  obtain ⟨a1, -, -, -, -, -, -, -, -, -, -, a12, -, a14, -⟩ := rotU_only 2 0 1
    ({ U := { rows := 2, cols := 2, val := fun i j => if i = j then 1 else 0 },
       S := ({ rows := 2, cols := 1, val := fun i _ => if i = 1 then 4 else 0 } : Mat ℝ).set 1 0
          (_susa_svd_pythag Real.sqrt 3 4),
       V := { rows := 2, cols := 2, val := fun i j => if i = j then 1 else 0 },
       rv1 := { rows := 2, cols := 1, val := fun i _ => if i = 1 then 3 else 0 }, anorm := 7,
       g := 4, scale := 0,
       c := 4 * (_susa_svd_pythag Real.sqrt 3 4)⁻¹, f := 3,
       h := (_susa_svd_pythag Real.sqrt 3 4)⁻¹,
       s := -(3 * (_susa_svd_pythag Real.sqrt 3 4)⁻¹), x := 0, y := 0, z := 0, l := 1, nm := 0,
       flag := 1,
       oob := !({ rows := 2, cols := 1, val := fun i _ => if i = 1 then 3 else 0 } :
                Mat ℝ).inb1 1 ||
             !({ rows := 2, cols := 1, val := fun i _ => if i = 1 then 4 else 0 } :
                Mat ℝ).inb1 0 ||
             !({ rows := 2, cols := 1, val := fun i _ => if i = 1 then 3 else 0 } :
                Mat ℝ).inb1 1 ||
             !({ rows := 2, cols := 1, val := fun i _ => if i = 1 then 4 else 0 } :
                Mat ℝ).inb1 1,
       dz := decide (_susa_svd_pythag Real.sqrt 3 4 = 0), log := [], iters := 1,
       stalled := [] } : St ℝ)
  rw [a1, a12, a14]
  simp [Mat.set, h5]

end CancelClaim

section SignFixLemmas

variable {α : Type} [LinearOrderedField α]

/-- The loop that negates column `k` of `V` (lines 255–256). -/
theorem negCol_spec (n k : Int) (st : St α) :
    (loopUp (fun _ => 0) (fun _ => n) (fun j (st : St α) => st.wrV j k (-st.v j k)) st).U = st.U ∧
    (loopUp (fun _ => 0) (fun _ => n) (fun j (st : St α) => st.wrV j k (-st.v j k)) st).S = st.S ∧
    ∀ a b, (loopUp (fun _ => 0) (fun _ => n)
        (fun j (st : St α) => st.wrV j k (-st.v j k)) st).v a b =
      if b = k ∧ 0 ≤ a ∧ a < n then -st.v a b else st.v a b := by
  rw [loopUp_eq]
  by_cases hn : n ≤ 0
  · rw [forUp_of_le hn]
    refine ⟨rfl, rfl, fun a b => ?_⟩
    rw [if_neg (by omega)]
  · have := forUp_inv (le_of_lt (not_le.mp hn))
      (fun j (st : St α) => st.wrV j k (-st.v j k))
      (fun j s => s.U = st.U ∧ s.S = st.S ∧
        ∀ a b, s.v a b = if b = k ∧ 0 ≤ a ∧ a < j then -st.v a b else st.v a b)
      st ⟨rfl, rfl, fun a b => by rw [if_neg (by omega)]⟩
      (by
        rintro i s h0 - ⟨hU, hS, hV⟩
        refine ⟨hU, hS, fun a b => ?_⟩
        simp only [St.wrV, St.ckV, St.v, Mat.set] at hV ⊢
        by_cases hab : a = i ∧ b = k
        · obtain ⟨rfl, rfl⟩ := hab
          rw [if_pos ⟨rfl, rfl⟩, hV, if_neg (by omega), if_pos (by omega)]
        · rw [if_neg hab, hV]
          by_cases hb : b = k
          · have : a ≠ i := fun h => hab ⟨h, hb⟩
            by_cases h1 : 0 ≤ a ∧ a < i
            · rw [if_pos ⟨hb, h1⟩, if_pos ⟨hb, by omega⟩]
            · rw [if_neg (fun h => h1 h.2), if_neg (fun h => h1 ⟨h.2.1, by omega⟩)]
          · rw [if_neg (fun h => hb h.1), if_neg (fun h => hb h.1)])
    exact this

/-- What the sign-normalisation step does when the value is negative. -/
theorem signFix_neg (n k : Int) (st : St α) (hz : st.z < 0) :
    (signFix n k st).U = st.U ∧
    (∀ i, (signFix n k st).w i = if i = k then -st.z else st.w i) ∧
    ∀ a b, (signFix n k st).v a b = if b = k ∧ 0 ≤ a ∧ a < n then -st.v a b else st.v a b := by
  unfold signFix
  rw [whenever_eq, if_pos hz, block_cons, block_cons, block_nil]
  obtain ⟨h1, h2, h3⟩ := negCol_spec n k (st.wrS k (-st.z))
  refine ⟨h1, fun i => ?_, h3⟩
  simp only [St.w] at *
  rw [h2]
  simp [St.wrS, St.ckS, Mat.set]

end SignFixLemmas

section SignFixClaim

variable {α : Type} [LinearOrderedField α]

end SignFixClaim

section StructuralClaims

variable {α : Type} [LinearOrderedField α]

/-- C4 (shape contract): on return `U` has the shape of the input, `m×n`, `S` has shape `p×1`
and `V` has shape `p×p` with `p = min(m,n)`.  The routine never resizes `U`, so for `m < n`
the output `U` is `m×n` and not `m×p`; for `m ≥ n` the three shapes are the claimed ones. -/
theorem svd_output_shapes (sqrt : α → α) (A S V : Mat α) (R : Int → Int → α) :
    (svd sqrt A S V R).out.U.rows = A.rows ∧ (svd sqrt A S V R).out.U.cols = A.cols ∧
    (svd sqrt A S V R).out.S.rows = min A.rows A.cols ∧ (svd sqrt A S V R).out.S.cols = 1 ∧
    (svd sqrt A S V R).out.V.rows = min A.rows A.cols ∧
    (svd sqrt A S V R).out.V.cols = min A.rows A.cols :=
  svd_shapes_aux sqrt A S V R

/-- C5 (non-convergence handling): the iteration loop of an index `k`, run with its budget of
30 rounds from any state, never takes the `return` of the non-convergence check and leaves the
log as it was; a whole call therefore never writes a log line.  The check `its >= 30` sits
inside the loop `its < 30` and is dead. -/
theorem svd_never_logs (sqrt : α → α) (A S V : Mat α) (R : Int → Int → α) :
    (∀ (m n k : Int) (st : St α),
        (itsLoop sqrt m n k 30 0 st).2 = none ∧ (itsLoop sqrt m n k 30 0 st).1.log = st.log) ∧
      (svd sqrt A S V R).out.log = [] := by
  refine ⟨fun m n k st => ?_, ?_⟩
  · have h := itsLoop_frame sqrt m n k 30 0 (by norm_num) st
    exact ⟨h.2, h.1.2.2.2.2.2.2.2.2.2.2.1⟩
  · have h := (svd_frame sqrt A S V R).1
    rw [h.2.2.2.2.2.2.2.2.2.2.1]
    rfl

/-- C6 (status code): every call returns the integer `0`. -/
theorem svd_returns_zero (sqrt : α → α) (A S V : Mat α) (R : Int → Int → α) :
    (svd sqrt A S V R).code = 0 :=
  (svd_frame sqrt A S V R).2

/-- C10 (index safety) fails for wide inputs: when the input has fewer rows than columns, some
element access of the call lies outside the bounds of its container (step `i = m` of the
bidiagonalisation stores into `S(m)`, and `S` has `p = m` elements). -/
theorem svd_wide_input_out_of_bounds (sqrt : α → α) (A S V : Mat α) (R : Int → Int → α)
    (h : A.rows < A.cols) : (svd sqrt A S V R).out.oob = true :=
  svd_oob_of_wide sqrt A S V R h

theorem svd_wide_input_out_of_bounds_witness :
    (1 : Nat) < 2 ∧
      (svd Real.sqrt (Mat.mk 1 2 (fun _ j => if j = 0 then 1 else 2))
        (Mat.mk 0 0 (fun _ _ => 0)) (Mat.mk 0 0 (fun _ _ => 0)) (fun _ _ => 0)).out.oob = true :=
  ⟨by decide, svd_wide_input_out_of_bounds Real.sqrt _ _ _ _ (by decide)⟩

/-- C16 (bounded iteration): the iteration loop of an index `k` executes its body at most 30
times, from any state, and a whole call executes at most `30·n` bodies.  (Every loop of the
routine is a counted loop, so the call terminates.) -/
theorem svd_iteration_bound (sqrt : α → α) (A S V : Mat α) (R : Int → Int → α) :
    (∀ (m n k : Int) (st : St α), (itsLoop sqrt m n k 30 0 st).1.iters ≤ st.iters + 30) ∧
      (svd sqrt A S V R).out.iters ≤ 30 * A.cols :=
  ⟨fun m n k st => itsLoop_count sqrt m n k 30 0 st, svd_count sqrt A S V R⟩

end StructuralClaims

section DiagLemmas

/-- In exact arithmetic a value is "numerically zero" exactly when it is zero. -/
theorem numzero_iff (x a : ℝ) : |x| + a = a ↔ x = 0 := by
  constructor
  · intro h
    have : |x| = 0 := by linarith
    exact abs_eq_zero.mp this
  · rintro rfl
    simp

theorem Pres_whenever_guard {σ : Type} {R : σ → σ → Prop} (hR : PreOrd R) {c : σ → Prop}
    [DecidablePred c] {t : σ → σ} (ht : ∀ s, c s → R s (t s)) : Pres R (whenever c t) := by
  intro s
  rw [whenever_eq]
  split
  · exact ht s ‹_›
  · exact hR.refl s

theorem CancelRel_preOrd : PreOrd (CancelRel : St ℝ → St ℝ → Prop) where
  refl := fun s => ⟨rfl, rfl, rfl, rfl, rfl, rfl, fun _ h => h⟩
  trans := fun a b c h1 h2 => by
    obtain ⟨a1, a2, a3, a4, a5, a6, a7⟩ := h1
    obtain ⟨b1, b2, b3, b4, b5, b6, b7⟩ := h2
    exact ⟨b1.trans a1, b2.trans a2, b3.trans a3, b4.trans a4, b5.trans a5, b6.trans a6,
      fun i h => b7 i (a7 i h)⟩

theorem SameDz_preOrd {α : Type} : PreOrd (SameDz : St α → St α → Prop) where
  refl := fun _ => rfl
  trans := fun _ _ _ h1 h2 => Eq.trans h2 h1

theorem CancelRel_of_OnlyU {X Y : St ℝ} (h : OnlyU X Y) : CancelRel X Y := by
  obtain ⟨a1, a2, a3, a4, -, -, -, -, -, -, -, a12, a13, -, a15⟩ := h
  refine ⟨a15, a3, a2, a4, a12, a13, fun i hi => ?_⟩
  simp only [St.w] at hi ⊢
  rw [a1]
  exact hi

/-- One guarded rotation of the cancellation sweep (lines 232–244): the divisor
`h = pythag(f, g)` is positive because `f` is not zero. -/
theorem cancelRot_keeps (m i : Int) (s : St ℝ) (hf : |s.f| + s.anorm ≠ s.anorm) :
    CancelRel s (block [
        (fun st => { st.ckS i with g := st.w i } : St ℝ → St ℝ),
        fun st => { st with h := _susa_svd_pythag Real.sqrt st.f st.g },
        fun st => st.wrS i st.h,
        fun st => { st.dv st.h with h := 1 / st.h },
        fun st => { st with c := st.g * st.h },
        fun st => { st with s := -st.f * st.h },
        fun st => rotU m st.nm i st] s) := by
  have hf0 : s.f ≠ 0 := fun h => hf ((numzero_iff _ _).mpr h)
  have hp := pythag_pos_left s.f (s.w i) hf0
  simp only [block_cons, block_nil]
  refine CancelRel_preOrd.trans _ _ _ ?_ (CancelRel_of_OnlyU (rotU_only _ _ _ _))
  refine ⟨?_, rfl, rfl, rfl, rfl, rfl, ?_⟩
  · simp [St.dv, St.wrS, St.ckS, hp.ne']
  · intro j hj
    simp only [St.dv, St.wrS, St.ckS, Mat.set, St.w] at hj ⊢
    by_cases h : j = i
    · simp only [h, true_and, if_true]
      exact hp.ne'
    · simp [h, hj]

/-- The cancellation sweep records no division by zero and keeps the nonzero entries of `S`
nonzero. -/
theorem cancel_keeps (m k : Int) : Pres CancelRel (cancel Real.sqrt m k) := by
  unfold cancel
  apply Pres_cons CancelRel_preOrd
  · intro st; exact ⟨rfl, rfl, rfl, rfl, rfl, rfl, fun _ h => h⟩
  apply Pres_cons CancelRel_preOrd
  · intro st; exact ⟨rfl, rfl, rfl, rfl, rfl, rfl, fun _ h => h⟩
  apply Pres_cons CancelRel_preOrd
  · apply Pres_loopUp CancelRel_preOrd
    intro i
    apply Pres_cons CancelRel_preOrd
    · intro st; exact ⟨rfl, rfl, rfl, rfl, rfl, rfl, fun _ h => h⟩
    apply Pres_cons CancelRel_preOrd
    · exact Pres_whenever_guard CancelRel_preOrd (fun s hs => cancelRot_keeps m i s hs)
    · exact Pres_nil CancelRel_preOrd
  · exact Pres_nil CancelRel_preOrd

theorem sign_add_ne (f g : ℝ) (hg : 0 < g) : f + SIGN g f ≠ 0 := by
  unfold SIGN
  split
  · rename_i h
    rw [abs_of_pos hg]
    have : 0 ≤ f := h
    linarith
  · rename_i h
    rw [abs_of_pos hg]
    have : f < 0 := not_le.mp h
    linarith

/-- The shift computation (lines 268–275) divides by `2·h·y`, by `f + SIGN(g, f)` and by `x`;
none of them is zero when `rv1(k)`, `S(k-1)` and `S(l)` are not zero. -/
theorem shift_keeps (k : Int) (s : St ℝ) (h1 : s.r k ≠ 0) (h2 : s.w (k - 1) ≠ 0)
    (h3 : s.w s.l ≠ 0) :
    (shift Real.sqrt k s).dz = s.dz ∧ (shift Real.sqrt k s).rv1 = s.rv1 ∧
    (shift Real.sqrt k s).S = s.S ∧ (shift Real.sqrt k s).l = s.l ∧
    (shift Real.sqrt k s).nm = k - 1 := by
  unfold shift
  simp only [block_cons, block_nil, St.dv, St.ckS, St.ckR, St.w, St.r] at *
  refine ⟨?_, trivial, trivial, trivial, trivial⟩
  have e1 : 2 * s.rv1.val k 0 * s.S.val (k - 1) 0 ≠ 0 :=
    mul_ne_zero (mul_ne_zero two_ne_zero h1) h2
  have e2 := sign_add_ne
    (((s.S.val (k - 1) 0 - s.z) * (s.S.val (k - 1) 0 + s.z) +
      (s.rv1.val (k - 1) 0 - s.rv1.val k 0) * (s.rv1.val (k - 1) 0 + s.rv1.val k 0)) /
      (2 * s.rv1.val k 0 * s.S.val (k - 1) 0))
    (_susa_svd_pythag Real.sqrt
      (((s.S.val (k - 1) 0 - s.z) * (s.S.val (k - 1) 0 + s.z) +
      (s.rv1.val (k - 1) 0 - s.rv1.val k 0) * (s.rv1.val (k - 1) 0 + s.rv1.val k 0)) /
      (2 * s.rv1.val k 0 * s.S.val (k - 1) 0)) 1)
    (pythag_pos_right _ _ one_ne_zero)
  simp only [decide_eq_false e1, decide_eq_false e2, decide_eq_false h3, Bool.or_false]

/-- The first rotation pair of a QR step: the divisor `z = pythag(f, h)` is positive when
`h = s·rv1(j+1)` is not zero, and then `c² + s² = 1`. -/
theorem qrFirst_keeps (j : Int) (s : St ℝ) (h : s.s * s.r (j + 1) ≠ 0) :
    (qrFirst Real.sqrt j s).dz = s.dz ∧ (qrFirst Real.sqrt j s).S = s.S ∧
    (qrFirst Real.sqrt j s).U = s.U ∧ (qrFirst Real.sqrt j s).V = s.V ∧
    (qrFirst Real.sqrt j s).l = s.l ∧ (qrFirst Real.sqrt j s).nm = s.nm ∧
    (∀ i, i ≠ j → (qrFirst Real.sqrt j s).r i = s.r i) ∧
    (qrFirst Real.sqrt j s).c ^ 2 + (qrFirst Real.sqrt j s).s ^ 2 = 1 ∧
    0 < _susa_svd_pythag Real.sqrt s.f (s.s * s.r (j + 1)) ∧
    (s.w (j + 1) ≠ 0 → (qrFirst Real.sqrt j s).h ≠ 0) := by
  have hp := pythag_pos_right s.f _ h
  have hsq := pythag_sq s.f (s.s * s.r (j + 1))
  unfold qrFirst
  simp only [block_cons, block_nil, St.dv, St.ckS, St.ckR, St.wrR, St.w, St.r, Mat.set] at *
  refine ⟨?_, trivial, trivial, trivial, trivial, trivial, ?_, ?_, hp, ?_⟩
  · simp only [decide_eq_false hp.ne', Bool.or_false]
  · intro i hi
    simp [hi]
  · field_simp
    nlinarith [hsq]
  · intro hw
    exact mul_ne_zero hw (div_ne_zero h hp.ne')

/-- The second rotation pair of a QR step: the division by `z` is guarded; `c² + s² = 1` is
kept, whether the pair is recomputed or not; `s` is not zero afterwards when `h` is not
zero. -/
theorem qrSecond_keeps (j : Int) (s : St ℝ) :
    (qrSecond Real.sqrt j s).dz = s.dz ∧ (qrSecond Real.sqrt j s).rv1 = s.rv1 ∧
    (qrSecond Real.sqrt j s).U = s.U ∧ (qrSecond Real.sqrt j s).V = s.V ∧
    (qrSecond Real.sqrt j s).l = s.l ∧ (qrSecond Real.sqrt j s).nm = s.nm ∧
    (∀ i, i ≠ j → (qrSecond Real.sqrt j s).w i = s.w i) ∧
    (s.h ≠ 0 → (qrSecond Real.sqrt j s).s ≠ 0) ∧
    (s.c ^ 2 + s.s ^ 2 = 1 → (qrSecond Real.sqrt j s).c ^ 2 + (qrSecond Real.sqrt j s).s ^ 2 = 1)
    := by
  have hsq := pythag_sq s.f s.h
  unfold qrSecond
  simp only [block_cons, whenever_eq, St.wrS, St.ckS]
  by_cases hz : _susa_svd_pythag Real.sqrt s.f s.h = 0
  · rw [if_neg (by simpa using hz)]
    simp only [block_nil, St.w, Mat.set]
    refine ⟨trivial, trivial, trivial, trivial, trivial, trivial, ?_, ?_, fun h => h⟩
    · intro i hi
      simp [hi]
    · intro hh
      exact absurd hz (pythag_pos_right _ _ hh).ne'
  · rw [if_pos (by simpa using hz)]
    simp only [block_cons, block_nil, St.w, St.dv, Mat.set]
    refine ⟨?_, trivial, trivial, trivial, trivial, trivial, ?_, ?_, ?_⟩
    · simp only [decide_eq_false hz, Bool.or_false]
    · intro i hi
      simp [hi]
    · intro hh
      exact mul_ne_zero hh (one_div_ne_zero hz)
    · intro _
      field_simp
      nlinarith [hsq]

/-- One step of the QR sweep: no division by zero when `s` and `rv1(j+1)` are not zero; only
the entries `j` of `rv1` and `S` are assigned; `s` stays nonzero when `S(j+1)` is not zero. -/
theorem qrStep_keeps (m n j : Int) (s : St ℝ) (hs : s.s ≠ 0) (hr : s.r (j + 1) ≠ 0) :
    (qrStep Real.sqrt m n j s).dz = s.dz ∧ (qrStep Real.sqrt m n j s).l = s.l ∧
    (qrStep Real.sqrt m n j s).nm = s.nm ∧
    (∀ i, i ≠ j → (qrStep Real.sqrt m n j s).r i = s.r i) ∧
    (∀ i, i ≠ j → (qrStep Real.sqrt m n j s).w i = s.w i) ∧
    (s.w (j + 1) ≠ 0 → (qrStep Real.sqrt m n j s).s ≠ 0) ∧
    (qrStep Real.sqrt m n j s).c ^ 2 + (qrStep Real.sqrt m n j s).s ^ 2 = 1 := by
  unfold qrStep
  simp only [block_cons, block_nil]
  obtain ⟨a1, a2, -, -, a5, a6, a7, a8, -, a10⟩ := qrFirst_keeps j s (mul_ne_zero hs hr)
  generalize qrFirst Real.sqrt j s = s1 at *
  obtain ⟨-, b2, b3, -, -, -, b7, b8, b9, b10, -, b12, b13, -, b15⟩ := rotV_only n j (j + 1) s1
  generalize rotV n j (j + 1) s1 = s2 at *
  obtain ⟨c1, c2, -, -, c5, c6, c7, c8, c9⟩ := qrSecond_keeps j s2
  generalize qrSecond Real.sqrt j s2 = s3 at *
  obtain ⟨d1, -, d3, -, -, -, d7, -, -, d10, -, d12, d13, -, d15⟩ := rotU_only m j (j + 1) s3
  generalize rotU m j (j + 1) s3 = s4 at *
  refine ⟨?_, ?_, ?_, ?_, ?_, ?_, ?_⟩
  · rw [d15, c1, b15, a1]
  · rw [d12, c5, b12, a5]
  · rw [d13, c6, b13, a6]
  · intro i hi
    simp only [St.r] at a7 ⊢
    rw [d3, c2, b3]
    exact a7 i hi
  · intro i hi
    simp only [St.w] at c7 ⊢
    rw [d1]
    rw [c7 i hi, b2, a2]
  · intro hw
    rw [d10]
    apply c8
    rw [b9]
    exact a10 hw
  · rw [d7, d10]
    apply c9
    rw [b7, b10]
    exact a8

/-- The loop of the QR sweep from `lo` to `hi - 1`: no division by zero when `s` is not zero at
entry, `rv1(i)` is not zero for `lo < i ≤ hi` and `S(i)` is not zero for `lo < i < hi`. -/
theorem qrLoop_keeps (m n lo hi : Int) (s : St ℝ) (hs : s.s ≠ 0)
    (hr : ∀ i, lo < i → i ≤ hi → s.r i ≠ 0) (hw : ∀ i, lo < i → i < hi → s.w i ≠ 0) :
    (forUp lo hi (qrStep Real.sqrt m n) s).dz = s.dz ∧
    (forUp lo hi (qrStep Real.sqrt m n) s).l = s.l ∧
    (forUp lo hi (qrStep Real.sqrt m n) s).nm = s.nm := by
  by_cases hle : hi ≤ lo
  · rw [forUp_of_le hle]
    exact ⟨rfl, rfl, rfl⟩
  · have h := forUp_inv (le_of_lt (not_le.mp hle)) (qrStep Real.sqrt m n)
      (fun j t => t.dz = s.dz ∧ t.l = s.l ∧ t.nm = s.nm ∧ (j < hi → t.s ≠ 0) ∧
        (∀ i, j ≤ i → t.r i = s.r i) ∧ (∀ i, j ≤ i → t.w i = s.w i))
      s ⟨rfl, rfl, rfl, fun _ => hs, fun _ _ => rfl, fun _ _ => rfl⟩
      (by
        rintro j t h0 h1 ⟨e1, e2, e3, e4, e5, e6⟩
        have hr1 : t.r (j + 1) ≠ 0 := by
          rw [e5 (j + 1) (by omega)]
          exact hr (j + 1) (by omega) (by omega)
        obtain ⟨f1, f2, f3, f4, f5, f6, -⟩ := qrStep_keeps m n j t (e4 h1) hr1
        refine ⟨f1.trans e1, f2.trans e2, f3.trans e3, ?_, ?_, ?_⟩
        · intro hj
          apply f6
          rw [e6 (j + 1) (by omega)]
          exact hw (j + 1) (by omega) hj
        · intro i hi
          rw [f4 i (by omega), e5 i (by omega)]
        · intro i hi
          rw [f5 i (by omega), e6 i (by omega)])
    exact ⟨h.1, h.2.1, h.2.2.1⟩

/-- The QR transformation (lines 278–321) records no division by zero when `nm = k - 1`,
`rv1(i)` is not zero for `l < i ≤ k` and `S(i)` is not zero for `l < i < k`. -/
theorem qrSweep_keeps (m n k : Int) (s : St ℝ) (hnm : s.nm = k - 1)
    (hr : ∀ i, s.l < i → i ≤ k → s.r i ≠ 0) (hw : ∀ i, s.l < i → i < k → s.w i ≠ 0) :
    (qrSweep Real.sqrt m n k s).dz = s.dz := by
  unfold qrSweep
  simp only [block_cons, block_nil, loopUp_eq]
  have e : ({ s with c := 1, s := 1 } : St ℝ).nm + 1 = k := by
    show s.nm + 1 = k
    omega
  obtain ⟨h1, -, -⟩ := qrLoop_keeps m n s.l k { s with c := 1, s := 1 } one_ne_zero hr hw
  simp only [St.wrR, St.wrS, St.ckR, St.ckS]
  rw [e]
  exact h1

theorem signFix_sameDz {α : Type} [LinearOrderedField α] (n k : Int) :
    Pres SameDz (signFix n k : St α → St α) := by
  unfold signFix
  repeat' first
    | apply Pres_nil SameDz_preOrd
    | apply Pres_cons SameDz_preOrd
    | apply Pres_whenever SameDz_preOrd
    | apply Pres_loopUp SameDz_preOrd
    | (intro st; simp [SameDz, St.wrS, St.wrV, St.ckS, St.ckV]; done)
    | intro _

/-- After the scan and the cancellation sweep: no division by zero has been recorded, `l ≤ k`,
and for every index `j` with `l < j ≤ k` both `rv1(j)` and `S(j-1)` are not zero. -/
theorem iterHead_keeps (m k : Int) (st : St ℝ) :
    (iterHead Real.sqrt m k st).dz = st.dz ∧ (iterHead Real.sqrt m k st).l ≤ k ∧
    ∀ j, (iterHead Real.sqrt m k st).l < j → j ≤ k →
      (iterHead Real.sqrt m k st).r j ≠ 0 ∧ (iterHead Real.sqrt m k st).w (j - 1) ≠ 0 := by
  rw [iterHead_eq]
  obtain ⟨-, a2, -, a4, a5, a6, a7, -, a9⟩ :=
    scan_spec (k + 1).toNat { st with iters := st.iters + 1, flag := 1, l := k }
  generalize scan (k + 1).toNat { st with iters := st.iters + 1, flag := 1, l := k } = s1 at *
  obtain ⟨b1, b2, -, -, b5, -, b7⟩ :=
    @Pres_whenever (St ℝ) CancelRel CancelRel_preOrd (fun st => st.flag ≠ 0) _
      (cancel Real.sqrt m k) (cancel_keeps m k) s1
  generalize whenever (fun st => st.flag ≠ 0) (cancel Real.sqrt m k) s1 = s2 at *
  dsimp only [St.ckS, St.r, St.w] at *
  refine ⟨b1.trans a6, by omega, fun j h1 h2 => ?_⟩
  obtain ⟨c1, c2⟩ := a9 j (by omega) h2
  constructor
  · rw [b2, a4]
    exact fun h => c1 ((numzero_iff _ _).mpr h)
  · apply b7
    rw [a2]
    exact fun h => c2 ((numzero_iff _ _).mpr h)

/-- The body of the iteration loop records no division by zero, from any state. -/
theorem iterBody_dz (m n k its : Int) (st : St ℝ) :
    (iterBody Real.sqrt m n k its st).1.dz = st.dz := by
  obtain ⟨h1, h2, h3⟩ := iterHead_keeps m k st
  unfold iterBody
  generalize iterHead Real.sqrt m k st = st1 at *
  simp only
  by_cases hl : st1.l = k
  · rw [if_pos hl]
    exact (signFix_sameDz n k st1).trans h1
  · rw [if_neg hl]
    by_cases h30 : its ≥ 30
    · rw [if_pos h30]
      exact h1
    · rw [if_neg h30]
      simp only [block_cons, block_nil]
      have hlt : st1.l < k := lt_of_le_of_ne h2 hl
      obtain ⟨a1, a2, a3, a4, a5⟩ := shift_keeps k st1 (h3 k hlt (le_refl k)).1
        (h3 k hlt (le_refl k)).2
        (by have := (h3 (st1.l + 1) (by omega) (by omega)).2
            rwa [add_sub_cancel_right] at this)
      have := qrSweep_keeps m n k (shift Real.sqrt k st1) a5
        (fun i hi1 hi2 => by
          simp only [St.r]
          rw [a2]
          exact (h3 i (by omega) hi2).1)
        (fun i hi1 hi2 => by
          simp only [St.w]
          rw [a3]
          have := (h3 (i + 1) (by omega) (by omega)).2
          rwa [add_sub_cancel_right] at this)
      rw [this, a1, h1]

theorem itsLoop_dz (m n k : Int) (t : Nat) (its : Int) (st : St ℝ) :
    (itsLoop Real.sqrt m n k t its st).1.dz = st.dz := by
  induction t generalizing its st with
  | zero => simp [itsLoop]
  | succ t ih =>
    have hb := iterBody_dz m n k its st
    unfold itsLoop
    rcases hc : iterBody Real.sqrt m n k its st with ⟨st1, c⟩
    rw [hc] at hb
    simp only at hb
    cases c with
    | next => simp only; rw [ih, hb]
    | brk => simp only; exact hb
    | ret v => simp only; exact hb

theorem diagLoop_dz (m n : Int) (t : Nat) (k : Int) (st : St ℝ) :
    (diagLoop Real.sqrt m n t k st).1.dz = st.dz := by
  induction t generalizing k st with
  | zero => simp [diagLoop]
  | succ t ih =>
    have hb := itsLoop_dz m n k 30 0 st
    unfold diagLoop
    rcases hc : itsLoop Real.sqrt m n k 30 0 st with ⟨st1, c⟩
    rw [hc] at hb
    simp only at hb
    cases c with
    | some v => simp only; exact hb
    | none => simp only; rw [ih, hb]

end DiagLemmas

section DiagClaim

/-- C18 (no division by zero in the diagonalization): over the reals, the body of the
iteration loop records no division by zero, from any state and for any index `k` (this covers
the divisor `h = pythag(f, g)` of the cancellation sweep, the divisors `2·h·y`,
`f + SIGN(g, f)` and `x` of the shift, and the divisors `z` of the QR sweep); hence neither do
the diagonalisation loops nor phase 4 of a call.  In a QR step whose `h = s·rv1(j+1)` is not
zero the first divisor `z = pythag(f, h)` is positive and the first rotation pair has
`c² + s² = 1`; the second pair, recomputed under the guard `if (z)` or left as it was, keeps
`c² + s² = 1`. -/
theorem diagonalization_divisions (m n : Int) :
    (∀ (k its : Int) (st : St ℝ), (iterBody Real.sqrt m n k its st).1.dz = st.dz) ∧
    (∀ st : St ℝ, (diagonalize Real.sqrt m n st).1.dz = st.dz) ∧
    (∀ (A S V : Mat ℝ) (R : Int → Int → ℝ), (svd Real.sqrt A S V R).out.dz =
      (block [bidiagonalize Real.sqrt A.rows A.cols, accumRight A.cols,
        accumLeft A.rows A.cols] (svdInit A S V R)).dz) ∧
    (∀ (j : Int) (st : St ℝ), st.s * st.r (j + 1) ≠ 0 →
      0 < _susa_svd_pythag Real.sqrt st.f (st.s * st.r (j + 1)) ∧
      (qrFirst Real.sqrt j st).c ^ 2 + (qrFirst Real.sqrt j st).s ^ 2 = 1) ∧
    (∀ (j : Int) (st : St ℝ), st.c ^ 2 + st.s ^ 2 = 1 →
      (qrSecond Real.sqrt j st).c ^ 2 + (qrSecond Real.sqrt j st).s ^ 2 = 1) := by
  refine ⟨fun k its st => iterBody_dz m n k its st, fun st => diagLoop_dz m n _ _ st,
    fun A S V R => ?_, fun j st h => ?_, fun j st h => ?_⟩
  · rw [svd_out_eq]
    exact diagLoop_dz _ _ _ _ _
  · obtain ⟨-, -, -, -, -, -, -, a8, a9, -⟩ := qrFirst_keeps j st h
    exact ⟨a9, a8⟩
  · exact (qrSecond_keeps j st).2.2.2.2.2.2.2.2 h

end DiagClaim

section RZeroLemmas

variable {α : Type} [LinearOrderedField α]

omit [LinearOrderedField α] in
theorem SameRL_preOrd : PreOrd (SameRL : St α → St α → Prop) where
  refl := fun _ => ⟨rfl, rfl⟩
  trans := fun _ _ _ h1 h2 => ⟨h2.1.trans h1.1, h2.2.trans h1.2⟩

theorem leftReduce_sameRL (sqrt : α → α) (m n i : Int) :
    Pres SameRL (leftReduce sqrt m n i) := by
  unfold leftReduce
  repeat' first
    | apply Pres_nil SameRL_preOrd
    | apply Pres_cons SameRL_preOrd
    | apply Pres_whenever SameRL_preOrd
    | apply Pres_loopUp SameRL_preOrd
    | (intro st; simp [SameRL, St.ckU, St.wrU, St.dv]; done)
    | intro _

omit [LinearOrderedField α] in
theorem SameRL_of_OnlyU {a b : St α} (h : OnlyU a b) : SameRL a b :=
  ⟨h.2.2.1, h.2.2.2.2.2.2.2.2.2.2.2.1⟩

theorem cancel_sameRL (sqrt : α → α) (m k : Int) : Pres SameRL (cancel sqrt m k) := by
  unfold cancel
  repeat' first
    | exact fun st => SameRL_of_OnlyU (rotU_only m _ _ st)
    | apply Pres_nil SameRL_preOrd
    | apply Pres_cons SameRL_preOrd
    | apply Pres_whenever SameRL_preOrd
    | apply Pres_loopUp SameRL_preOrd
    | (intro st; simp [SameRL, St.ckR, St.ckS, St.wrS, St.dv]; done)
    | intro _

theorem signFix_sameRL (n k : Int) : Pres SameRL (signFix n k : St α → St α) := by
  unfold signFix
  repeat' first
    | apply Pres_nil SameRL_preOrd
    | apply Pres_cons SameRL_preOrd
    | apply Pres_whenever SameRL_preOrd
    | apply Pres_loopUp SameRL_preOrd
    | (intro st; simp [SameRL, St.wrS, St.wrV, St.ckS, St.ckV]; done)
    | intro _

end RZeroLemmas

section RZeroClaim

variable {α : Type} [LinearOrderedField α]

end RZeroClaim

section NaNScan

variable {α : Type} [LinearOrderedField α]

/-- On numbers the test of the scan over doubles is the test of `scan`. -/
theorem Fp_test_num (x a : α) :
    Fp.eq (Fp.add (Fp.fabs (Fp.num x)) (Fp.num a)) (Fp.num a) = decide (|x| + a = a) := rfl

/-- When `anorm` is NaN no test of the scan holds. -/
theorem Fp_test_nan (x : Fp α) : Fp.eq (Fp.add (Fp.fabs x) Fp.nan) Fp.nan = false := by
  cases x <;> rfl

/-- With `anorm` NaN the scan over doubles never stops at a test: it runs all its rounds,
decrements `l` each time and leaves `flag` as it was. -/
theorem scanNaN_of_nan (t : Nat) (st : St (Fp α)) (h : st.anorm = Fp.nan) :
    (scanNaN t st).l = st.l - t ∧ (scanNaN t st).flag = st.flag ∧
    (scanNaN t st).anorm = Fp.nan ∧ (0 < t → (scanNaN t st).nm = st.l - t) := by
  induction t generalizing st with
  | zero => exact ⟨by simp [scanNaN], rfl, h, fun h => absurd h (lt_irrefl 0)⟩
  | succ t ih =>
    unfold scanNaN
    simp only [St.ckR, St.ckS, St.r, St.w, h, Fp_test_nan, Bool.false_eq_true, if_false]
    obtain ⟨a1, a2, a3, a4⟩ := ih
      { U := st.U, S := st.S, V := st.V, rv1 := st.rv1, anorm := Fp.nan, g := st.g,
        scale := st.scale, c := st.c, f := st.f, h := st.h, s := st.s, x := st.x, y := st.y,
        z := st.z, l := st.l - 1, nm := st.l - 1, flag := st.flag,
        oob := (st.oob || !st.rv1.inb1 st.l) || !st.S.inb1 (st.l - 1), dz := st.dz,
        log := st.log, iters := st.iters, stalled := st.stalled } rfl
    refine ⟨by rw [a1]; push_cast; ring, a2, a3, fun _ => ?_⟩
    by_cases ht : 0 < t
    · rw [a4 ht]; push_cast; ring
    · have : t = 0 := by omega
      subst this
      simp [scanNaN]

end NaNScan

section NaNClaim

end NaNClaim

section DefectClaims

variable {α : Type} [LinearOrderedField α]

/-- C1 (reconstruction), the defect behind its failure: the cancellation sweep (lines
225–246) never assigns the scratch vector `rv1`.  The algorithm the routine was adopted from
replaces `rv1(i)` by `c·rv1(i)` in each round of this sweep; without it the superdiagonal
used by the following shift and QR sweep is stale whenever the sweep runs with `l < k`. -/
theorem cancellation_leaves_rv1 (sqrt : α → α) (m k : Int) (st : St α) :
    (cancel sqrt m k st).rv1 = st.rv1 :=
  (cancel_sameRL sqrt m k st).1

/-- C3 (non-negativity), the defect behind its failure: when the last allowed round
(`its = 29`) of the iteration loop for index `k` does not find `l == k`, the loop ends without
a `return` and without a log line, the index is left unconverged, and `S(k)` is the value `x`
stored by line 321 of the last QR sweep; its sign is not tested. -/
theorem exhausted_budget_keeps_sign (sqrt : α → α) (m n k : Int) (st : St α)
    (h : (iterHead sqrt m k st).l ≠ k) :
    (itsLoop sqrt m n k 1 29 st).2 = none ∧
    (itsLoop sqrt m n k 1 29 st).1.stalled = k :: st.stalled ∧
    (itsLoop sqrt m n k 1 29 st).1.log = st.log ∧
    (itsLoop sqrt m n k 1 29 st).1.w k = (itsLoop sqrt m n k 1 29 st).1.x := by
  have h1 := iterHead_frame sqrt m k st
  unfold itsLoop iterBody
  generalize iterHead sqrt m k st = st1 at h h1
  simp only [if_neg h, show ¬ ((29 : Int) ≥ 30) by norm_num, if_false, itsLoop]
  have h2 : Frame st1 (block [shift sqrt k, qrSweep sqrt m n k] st1) :=
    Pres_cons Frame_preOrd (shift_frame sqrt k)
      (Pres_cons Frame_preOrd (qrSweep_frame sqrt m n k) (Pres_nil Frame_preOrd)) _
  refine ⟨trivial, ?_, ?_, ?_⟩
  · rw [h2.2.2.2.2.2.2.2.2.2.2.2.1, h1.2.2.2.2.2.2.2.2.2.2.2.1]
  · rw [h2.2.2.2.2.2.2.2.2.2.2.1, h1.2.2.2.2.2.2.2.2.2.2.1]
  · simp only [block_cons, block_nil]
    unfold qrSweep
    simp [block_cons, block_nil, St.wrS, St.wrR, St.ckS, St.ckR, St.w, Mat.set]

theorem exhausted_budget_keeps_sign_witness :
    (iterHead (fun x : ℚ => x) 2 1
      (St.mk (Mat.mk 2 2 (fun _ _ => 1)) (Mat.mk 2 1 (fun _ _ => 1))
        (Mat.mk 2 2 (fun _ _ => 1)) (Mat.mk 2 1 (fun i _ => if i = 1 then 1 else 0))
        1 0 0 0 0 0 0 0 0 0 0 0 0 false false [] 29 [] : St ℚ)).l ≠ 1 ∧
    (itsLoop (fun x : ℚ => x) 2 2 1 1 29
      (St.mk (Mat.mk 2 2 (fun _ _ => 1)) (Mat.mk 2 1 (fun _ _ => 1))
        (Mat.mk 2 2 (fun _ _ => 1)) (Mat.mk 2 1 (fun i _ => if i = 1 then 1 else 0))
        1 0 0 0 0 0 0 0 0 0 0 0 0 false false [] 29 [] : St ℚ)).1.stalled = [1] := by
  have e : ((1 : Int) + 1).toNat = 2 := by decide
  have hl : (iterHead (fun x : ℚ => x) 2 1
      (St.mk (Mat.mk 2 2 (fun _ _ => 1)) (Mat.mk 2 1 (fun _ _ => 1))
        (Mat.mk 2 2 (fun _ _ => 1)) (Mat.mk 2 1 (fun i _ => if i = 1 then 1 else 0))
        1 0 0 0 0 0 0 0 0 0 0 0 0 false false [] 29 [] : St ℚ)).l ≠ 1 := by
    rw [iterHead_eq, e]
    simp [scan, St.ckR, St.ckS, St.r, St.w, whenever_eq]
  exact ⟨hl, (exhausted_budget_keeps_sign (fun x : ℚ => x) 2 2 1 _ hl).2.1⟩

end DefectClaims

section HouseLoops

variable {α : Type} [LinearOrderedField α]

/-- The loop that accumulates `scale` over a column of `U` (lines 82–83). -/
theorem colScale_spec (i m : Int) (st : St α) :
    ∃ o, loopUp (fun _ => i) (fun _ => m)
        (fun k (st : St α) => { st.ckU k i with scale := st.scale + |st.u k i| }) st =
      { st with scale := st.scale + sumUp i m (fun k => |st.u k i|), oob := o } := by
  rw [loopUp_eq]
  by_cases hle : m ≤ i
  · rw [forUp_of_le hle, sumUp_of_le hle, add_zero]
    exact ⟨st.oob, rfl⟩
  · exact forUp_inv (le_of_lt (not_le.mp hle))
      (fun k (st : St α) => { st.ckU k i with scale := st.scale + |st.u k i| })
      (fun k t => ∃ o,
        t = { st with scale := st.scale + sumUp i k (fun k => |st.u k i|), oob := o })
      st ⟨st.oob, by rw [sumUp_of_le (le_refl i), add_zero]⟩
      (by
        rintro k t h0 - ⟨o, rfl⟩
        refine ⟨o || !st.U.inb k i, ?_⟩
        rw [sumUp_succ h0]
        simp only [St.ckU, St.u, add_assoc])

/-- The loop that accumulates `scale` over a row of `U` (lines 116–117). -/
theorem rowScale_spec (i n : Int) (st : St α) :
    ∃ o, loopUp (fun st => st.l) (fun _ => n)
        (fun k (st : St α) => { st.ckU i k with scale := st.scale + |st.u i k| }) st =
      { st with scale := st.scale + sumUp st.l n (fun k => |st.u i k|), oob := o } := by
  rw [loopUp_eq]
  by_cases hle : n ≤ st.l
  · rw [forUp_of_le hle, sumUp_of_le hle, add_zero]
    exact ⟨st.oob, rfl⟩
  · exact forUp_inv (le_of_lt (not_le.mp hle))
      (fun k (st : St α) => { st.ckU i k with scale := st.scale + |st.u i k| })
      (fun k t => ∃ o,
        t = { st with scale := st.scale + sumUp st.l k (fun k => |st.u i k|), oob := o })
      st ⟨st.oob, by rw [sumUp_of_le (le_refl st.l), add_zero]⟩
      (by
        rintro k t h0 - ⟨o, rfl⟩
        refine ⟨o || !st.U.inb i k, ?_⟩
        rw [sumUp_succ h0]
        simp only [St.ckU, St.u, add_assoc])

/-- The loop that divides a column of `U` by `scale` and accumulates the sum of the squares
of the new entries (lines 86–90). -/
theorem colNorm_spec (i m : Int) (st : St α) (hsc : st.scale ≠ 0) :
    ∃ o, loopUp (fun _ => i) (fun _ => m) (fun k => block [
          fun (st : St α) => (st.dv st.scale).wrU k i (st.u k i / st.scale),
          fun (st : St α) => { st.ckU k i with s := st.s + st.u k i * st.u k i }]) st =
      { st with
        U := { st.U with val := fun a b =>
                if b = i ∧ i ≤ a ∧ a < m then st.U.val a b / st.scale else st.U.val a b },
        s := st.s + sumUp i m (fun k => (st.u k i / st.scale) * (st.u k i / st.scale)),
        oob := o } := by
  rw [loopUp_eq]
  by_cases hle : m ≤ i
  · rw [forUp_of_le hle, sumUp_of_le hle, add_zero]
    refine ⟨st.oob, ?_⟩
    have e : (fun a b => if b = i ∧ i ≤ a ∧ a < m then st.U.val a b / st.scale
        else st.U.val a b) = st.U.val := by
      funext a b
      rw [if_neg (by omega)]
    rw [e]
  · have h := forUp_inv (le_of_lt (not_le.mp hle))
      (fun k => block [
          fun (st : St α) => (st.dv st.scale).wrU k i (st.u k i / st.scale),
          fun (st : St α) => { st.ckU k i with s := st.s + st.u k i * st.u k i }])
      (fun k t => ∃ o, t = { st with
        U := { st.U with val := fun a b =>
                if b = i ∧ i ≤ a ∧ a < k then st.U.val a b / st.scale else st.U.val a b },
        s := st.s + sumUp i k (fun k => (st.u k i / st.scale) * (st.u k i / st.scale)),
        oob := o })
      st ⟨st.oob, by
        rw [sumUp_of_le (le_refl i), add_zero]
        have e : (fun a b => if b = i ∧ i ≤ a ∧ a < i then st.U.val a b / st.scale
            else st.U.val a b) = st.U.val := by
          funext a b
          rw [if_neg (by omega)]
        rw [e]⟩
      (by
        rintro k t h0 - ⟨o, rfl⟩
        refine ⟨(o || !st.U.inb k i) || !st.U.inb k i, ?_⟩
        rw [sumUp_succ h0]
        simp only [block_cons, block_nil, St.dv, St.wrU, St.ckU, St.u, Mat.set, Mat.inb,
          decide_eq_false hsc, Bool.or_false]
        have hk : ¬ (k < k) := lt_irrefl k
        simp only [hk, and_false, if_false, and_self, if_true, add_assoc]
        congr 2
        funext a b
        by_cases hab : a = k ∧ b = i
        · obtain ⟨rfl, rfl⟩ := hab
          simp [h0]
        · rw [if_neg hab]
          by_cases hb : b = i ∧ i ≤ a ∧ a < k
          · rw [if_pos hb, if_pos ⟨hb.1, hb.2.1, by omega⟩]
          · rw [if_neg hb, if_neg]
            rintro ⟨h1, h2, h3⟩
            have : a ≠ k := fun e => hab ⟨e, h1⟩
            exact hb ⟨h1, h2, by omega⟩)
    exact h

omit [LinearOrderedField α] in
theorem SameGS_preOrd : PreOrd (SameGS : St α → St α → Prop) where
  refl := fun _ => ⟨rfl, rfl⟩
  trans := fun _ _ _ h1 h2 => ⟨h2.1.trans h1.1, h2.2.trans h1.2⟩

omit [LinearOrderedField α] in
theorem SameS_preOrd : PreOrd (SameS : St α → St α → Prop) where
  refl := fun _ => rfl
  trans := fun _ _ _ h1 h2 => Eq.trans h2 h1

/-- The statements of the left-hand reduction after the assignment of `g` (lines 93–107)
assign neither `g` nor `scale`. -/
theorem leftTail_sameGS (m n i : Int) :
    Pres SameGS (block [
      (fun st => { st with h := st.f * st.g - st.s } : St α → St α),
      fun st => st.wrU i i (st.f - st.g),
      whenever (fun _ => i ≠ n - 1) (
        loopUp (fun st => st.l) (fun _ => n) (fun j => block [
          fun st => { st with s := 0 },
          loopUp (fun _ => i) (fun _ => m) (fun k st =>
            { (st.ckU k i).ckU k j with s := st.s + st.u k i * st.u k j }),
          fun st => { st.dv st.h with f := st.s / st.h },
          loopUp (fun _ => i) (fun _ => m) (fun k st =>
            (st.ckU k i).wrU k j (st.u k j + st.f * st.u k i))])),
      loopUp (fun _ => i) (fun _ => m) (fun k st => st.wrU k i (st.u k i * st.scale))]) := by
  repeat' first
    | apply Pres_nil SameGS_preOrd
    | apply Pres_cons SameGS_preOrd
    | apply Pres_whenever SameGS_preOrd
    | apply Pres_loopUp SameGS_preOrd
    | (intro st; simp [SameGS, St.ckU, St.wrU, St.dv]; done)
    | intro _

theorem rightReduce_sameS (sqrt : α → α) (m n i : Int) :
    Pres SameS (rightReduce sqrt m n i) := by
  unfold rightReduce
  repeat' first
    | apply Pres_nil SameS_preOrd
    | apply Pres_cons SameS_preOrd
    | apply Pres_whenever SameS_preOrd
    | apply Pres_loopUp SameS_preOrd
    | (intro st; simp [SameS, St.ckU, St.wrU, St.wrR, St.ckR, St.dv]; done)
    | intro _

end HouseLoops

section LeftReduce

/-- The algebra of the Householder scalar: undoing the scaling of the sub-column. -/
theorem house_scale (sc N p : ℝ) (hsc : 0 < sc) (hN : 0 ≤ N) :
    sc * -SIGN (Real.sqrt (1 / sc ^ 2 * N)) (p / sc) =
      -(if p ≥ 0 then 1 else -1) * Real.sqrt N := by
  have hsqrt : Real.sqrt (1 / sc ^ 2 * N) = Real.sqrt N / sc := by
    rw [one_div, inv_mul_eq_div, Real.sqrt_div hN, Real.sqrt_sq hsc.le]
  rw [hsqrt]
  unfold SIGN
  have hfs : (p / sc ≥ 0) ↔ (p ≥ 0) := by
    constructor
    · intro h
      by_contra hneg
      have : p / sc < 0 := div_neg_of_neg_of_pos (not_le.mp hneg) hsc
      linarith
    · intro h
      exact div_nonneg h hsc.le
  have habs : |Real.sqrt N / sc| = Real.sqrt N / sc :=
    abs_of_nonneg (div_nonneg (Real.sqrt_nonneg _) hsc.le)
  by_cases hp : p ≥ 0
  · rw [if_pos (hfs.mpr hp), if_pos hp, habs]
    field_simp
    ring
  · rw [if_neg (fun h => hp (hfs.mp h)), if_neg hp, habs]
    field_simp

/-- The sum of the squares of a sub-column divided by `sc`. -/
theorem sumUp_div_sq (i m : Int) (f : Int → ℝ) (sc : ℝ) (hsc : sc ≠ 0) :
    sumUp i m (fun k => f k / sc * (f k / sc)) = 1 / sc ^ 2 * sumUp i m (fun k => f k ^ 2) := by
  rw [← sumUp_mul_left]
  apply sumUp_congr
  intro k _ _
  field_simp
  ring

/-- The value `scale·g` left by the left-hand reduction of step `i < m`, started with
`scale = s = g = 0`: minus the sign of the pivot times the Euclidean norm of the sub-column. -/
theorem leftReduce_val (m n i : Int) (Y : St ℝ) (him : i < m) (h1 : Y.scale = 0)
    (h2 : Y.s = 0) (h3 : Y.g = 0) :
    (leftReduce Real.sqrt m n i Y).scale * (leftReduce Real.sqrt m n i Y).g =
      -(if Y.u i i ≥ 0 then 1 else -1) * Real.sqrt (sumUp i m (fun k => Y.u k i ^ 2)) := by
  unfold leftReduce
  rw [whenever_eq, if_pos him, block_cons, block_cons, block_nil]
  obtain ⟨o1, e1⟩ := colScale_spec i m Y
  rw [e1, whenever_eq]
  clear e1
  have hnn : ∀ k, i ≤ k → k < m → 0 ≤ |Y.u k i| := fun _ _ _ => abs_nonneg _
  by_cases hsc : sumUp i m (fun k => |Y.u k i|) = 0
  · rw [if_neg (by simp [h1, hsc])]
    have hz := sumUp_eq_zero hnn hsc
    have hsq : sumUp i m (fun k => Y.u k i ^ 2) = 0 :=
      sumUp_zero (fun k hk1 hk2 => by
        have := abs_eq_zero.mp (hz k hk1 hk2)
        rw [this]; ring)
    simp [h3, hsq]
  · have hpos : 0 < sumUp i m (fun k => |Y.u k i|) :=
      lt_of_le_of_ne (sumUp_nonneg hnn) (Ne.symm hsc)
    rw [if_pos (by simp [h1, hsc])]
    rw [block_cons]
    obtain ⟨o2, e2⟩ := colNorm_spec i m
      ({ Y with scale := Y.scale + sumUp i m (fun k => |Y.u k i|), oob := o1 } : St ℝ)
      (by simp [h1, hsc])
    rw [e2, block_cons, block_cons]
    clear e2
    obtain ⟨a1, a2⟩ := @leftTail_sameGS ℝ _ m n i _
    rw [a1, a2]
    have hN : 0 ≤ sumUp i m (fun k => Y.u k i ^ 2) :=
      sumUp_nonneg (fun _ _ _ => sq_nonneg _)
    have key := house_scale _ _ (Y.u i i) hpos hN
    rw [← sumUp_div_sq i m (fun k => Y.u k i) _ hsc] at key
    simp only [St.ckU, St.u, h1, h2, zero_add, true_and, le_refl, him, and_self, if_true] at key ⊢
    exact key

end LeftReduce

section LeftReduceClaim

/-- C14 (left-reduction result): in exact real arithmetic, for every step `i < m` of the
bidiagonalisation and every state at the start of the step, the value stored into `S(i)` is
`-σ·sqrt(Σ_{i ≤ k < m} U(k,i)²)`, the entries of `U` being those at the start of the step and
`σ = 1` if the pivot `U(i,i) ≥ 0`, `σ = -1` otherwise; hence `|S(i)|` is the Euclidean norm of
the sub-column, and `S(i) = 0` exactly when the sub-column is all zero. -/
theorem left_reduction_result (m n i : Int) (st : St ℝ) (him : i < m) :
    (bidiagStep Real.sqrt m n i st).w i =
      -(if st.u i i ≥ 0 then 1 else -1) * Real.sqrt (sumUp i m (fun k => st.u k i ^ 2)) ∧
    |(bidiagStep Real.sqrt m n i st).w i| = Real.sqrt (sumUp i m (fun k => st.u k i ^ 2)) ∧
    ((bidiagStep Real.sqrt m n i st).w i = 0 ↔ ∀ k, i ≤ k → k < m → st.u k i = 0) := by
  have hval : (bidiagStep Real.sqrt m n i st).w i =
      -(if st.u i i ≥ 0 then 1 else -1) * Real.sqrt (sumUp i m (fun k => st.u k i ^ 2)) := by
    unfold bidiagStep
    simp only [block_cons, block_nil]
    have hl := leftReduce_val m n i
      ({ ({ st with l := i + 1 } : St ℝ).wrR i (st.scale * st.g) with
          g := 0, s := 0, scale := 0 }) him rfl rfl rfl
    simp only [St.w, St.ckS, St.ckR]
    rw [@rightReduce_sameS ℝ _ Real.sqrt m n i _]
    simp only [St.wrS, St.ckS, Mat.set, and_self, if_true]
    exact hl
  have hN : 0 ≤ sumUp i m (fun k => st.u k i ^ 2) :=
    sumUp_nonneg (fun _ _ _ => sq_nonneg _)
  refine ⟨hval, ?_, ?_⟩
  · rw [hval]
    split
    · simp [abs_of_nonneg (Real.sqrt_nonneg _)]
    · simp [abs_of_nonneg (Real.sqrt_nonneg _)]
  · rw [hval]
    constructor
    · intro h
      have h0 : Real.sqrt (sumUp i m (fun k => st.u k i ^ 2)) = 0 := by
        split at h
        · simpa using h
        · simpa using h
      have h1 := (Real.sqrt_eq_zero hN).mp h0
      intro k hk1 hk2
      have := sumUp_eq_zero (fun _ _ _ => sq_nonneg _) h1 k hk1 hk2
      exact pow_eq_zero_iff (two_ne_zero) |>.mp this
    · intro h
      have : sumUp i m (fun k => st.u k i ^ 2) = 0 :=
        sumUp_zero (fun k hk1 hk2 => by rw [h k hk1 hk2]; ring)
      rw [this]
      simp

theorem left_reduction_result_witness :
    (0 : Int) < 2 ∧
    (bidiagStep Real.sqrt 2 1 0
      (St.mk (Mat.mk 2 1 (fun i _ => if i = 0 then 3 else 4)) (Mat.mk 1 1 (fun _ _ => 0))
        (Mat.mk 1 1 (fun _ _ => 0)) (Mat.mk 1 1 (fun _ _ => 0))
        0 0 0 0 0 0 0 0 0 0 0 0 0 false false [] 0 [] : St ℝ)).w 0 = -5 := by
  refine ⟨by decide, ?_⟩
  rw [(left_reduction_result 2 1 0 _ (by decide)).1]
  have e : sumUp (0 : Int) 2 (fun k => (St.mk (Mat.mk 2 1 (fun i _ => if i = 0 then 3 else 4))
      (Mat.mk 1 1 (fun _ _ => 0)) (Mat.mk 1 1 (fun _ _ => 0)) (Mat.mk 1 1 (fun _ _ => 0))
      0 0 0 0 0 0 0 0 0 0 0 0 0 false false [] 0 [] : St ℝ).u k 0 ^ 2) = 5 ^ 2 := by
    have e2 : ((2 : Int) - 0).toNat = 2 := by decide
    simp only [sumUp, e2, Finset.sum_range_succ, Finset.sum_range_zero, St.u]
    norm_num
  rw [e, Real.sqrt_sq (by norm_num)]
  simp [St.u]

end LeftReduceClaim

section CombOn

variable {σ : Type} {I : σ → Prop} {R : σ → σ → Prop}

theorem PresOn_of_Pres {f : σ → σ} (h : Pres R f) : PresOn I R f := fun s _ => h s

theorem PresOn_nil (hR : PreOrd R) : PresOn I R (block ([] : List (σ → σ))) := fun s _ => by
  rw [block_nil]; exact hR.refl s

theorem PresOn_cons (hR : PreOrd R) (hI : Stable I R) {f : σ → σ} {l : List (σ → σ)}
    (hf : PresOn I R f) (hl : PresOn I R (block l)) : PresOn I R (block (f :: l)) :=
  fun s hs => by
    rw [block_cons]
    exact hR.trans _ _ _ (hf s hs) (hl (f s) (hI s _ hs (hf s hs)))

theorem PresOn_whenever (hR : PreOrd R) {c : σ → Prop} [DecidablePred c] {t : σ → σ}
    (ht : PresOn I R t) : PresOn I R (whenever c t) := by
  intro s hs
  rw [whenever_eq]
  split
  · exact ht s hs
  · exact hR.refl s

theorem PresOn_cond {c : σ → Prop} [DecidablePred c] {t e : σ → σ}
    (ht : PresOn I R t) (he : PresOn I R e) : PresOn I R (cond c t e) := by
  intro s hs
  rw [cond_eq]
  split
  · exact ht s hs
  · exact he s hs

/-- Loop rule: the body may use that the loop index is not below the lower bound `L`. -/
theorem PresOn_loopUp (hR : PreOrd R) (hI : Stable I R) {lo hi : σ → Int} {body : Int → σ → σ}
    (L : Int) (hlo : ∀ s, I s → L ≤ lo s) (hb : ∀ k, L ≤ k → PresOn I R (body k)) :
    PresOn I R (loopUp lo hi body) := by
  intro s hs
  rw [loopUp_eq]
  by_cases hle : hi s ≤ lo s
  · rw [forUp_of_le hle]
    exact hR.refl s
  · have := forUp_inv (le_of_lt (not_le.mp hle)) body (fun _ t => R s t ∧ I t) s
      ⟨hR.refl s, hs⟩
      (fun i t h0 _ hst =>
        have h1 := hb i (le_trans (hlo s hs) h0) t hst.2
        ⟨hR.trans _ _ _ hst.1 h1, hI t _ hst.2 h1⟩)
    exact this.1

/-- Loop rule without a bound on the index. -/
theorem PresOn_loopUp_any (hR : PreOrd R) (hI : Stable I R) {lo hi : σ → Int}
    {body : Int → σ → σ} (hb : ∀ k, PresOn I R (body k)) :
    PresOn I R (loopUp lo hi body) := by
  intro s hs
  rw [loopUp_eq]
  by_cases hle : hi s ≤ lo s
  · rw [forUp_of_le hle]
    exact hR.refl s
  · have := forUp_inv (le_of_lt (not_le.mp hle)) body (fun _ t => R s t ∧ I t) s
      ⟨hR.refl s, hs⟩
      (fun i t _ _ hst =>
        have h1 := hb i t hst.2
        ⟨hR.trans _ _ _ hst.1 h1, hI t _ hst.2 h1⟩)
    exact this.1

/-- Guard rule: the guarded statement may use the guard together with `I`. -/
theorem PresOn_whenever_guard (hR : PreOrd R) {c : σ → Prop} [DecidablePred c] {t : σ → σ}
    (ht : PresOn (fun s => I s ∧ c s) R t) : PresOn I R (whenever c t) := by
  intro s hs
  rw [whenever_eq]
  split
  · exact ht s ⟨hs, ‹_›⟩
  · exact hR.refl s

/-- Sequencing with an intermediate assertion `Q` on the state after the first statement. -/
theorem block_step {P : σ → Prop} {f : σ → σ} {l : List (σ → σ)} {s : σ} (Q : σ → Prop)
    (hf : Q (f s)) (hl : ∀ t, Q t → P (block l t)) : P (block (f :: l) s) := by
  rw [block_cons]
  exact hl _ hf

/-- Sequencing with an intermediate assertion on the state after the first two statements. -/
theorem block_step2 {P : σ → Prop} {f g : σ → σ} {l : List (σ → σ)} {s : σ} (Q : σ → Prop)
    (hf : Q (block [f, g] s)) (hl : ∀ t, Q t → P (block l t)) : P (block (f :: g :: l) s) := by
  rw [block_cons, block_cons]
  rw [block_cons, block_cons, block_nil] at hf
  exact hl _ hf

/-- Loop rule: the body may use that the loop index lies between the bounds `L` and `H`. -/
theorem PresOn_loopUp_in (hR : PreOrd R) (hI : Stable I R) {lo hi : σ → Int}
    {body : Int → σ → σ} (L H : Int) (hlo : ∀ s, I s → L ≤ lo s) (hhi : ∀ s, I s → hi s ≤ H)
    (hb : ∀ k, L ≤ k → k < H → PresOn I R (body k)) :
    PresOn I R (loopUp lo hi body) := by
  intro s hs
  rw [loopUp_eq]
  by_cases hle : hi s ≤ lo s
  · rw [forUp_of_le hle]
    exact hR.refl s
  · have := forUp_inv (le_of_lt (not_le.mp hle)) body (fun _ t => R s t ∧ I t) s
      ⟨hR.refl s, hs⟩
      (fun i t h0 h1 hst =>
        have h2 := hb i (le_trans (hlo s hs) h0) (lt_of_lt_of_le h1 (hhi s hs)) t hst.2
        ⟨hR.trans _ _ _ hst.1 h2, hI t _ hst.2 h2⟩)
    exact this.1

end CombOn

section HouseFrames

variable {α : Type} [LinearOrderedField α]

theorem HRel_preOrd (rb cb : Int) : PreOrd (HRel rb cb : St α → St α → Prop) where
  refl := fun _ => ⟨rfl, rfl, rfl, rfl, rfl, fun _ => rfl, fun _ _ _ => rfl, fun _ _ _ => rfl,
    fun _ _ => rfl⟩
  trans := fun a b c h1 h2 => by
    obtain ⟨a1, a2, a3, a4, a5, a6, a7, a8, a9⟩ := h1
    obtain ⟨b1, b2, b3, b4, b5, b6, b7, b8, b9⟩ := h2
    refine ⟨b1.trans a1, b2.trans a2, b3.trans a3, b4.trans a4, b5.trans a5, ?_, ?_, ?_, ?_⟩
    · intro h
      rw [b6 (by rw [a1]; exact h), a6 h]
    · intro x y hx
      rw [b7 x y hx, a7 x y hx]
    · intro x y hy
      rw [b8 x y hy, a8 x y hy]
    · intro x hx
      rw [b9 x hx, a9 x hx]

theorem HRel_stable (rb cb L : Int) :
    Stable (fun st : St α => st.l = L) (HRel rb cb) :=
  fun _ _ hs hr => hr.2.2.2.2.1.trans hs

/-- The loop that applies the left-hand reflection of step `i` to the columns `j ≥ l`
(lines 97–104), with `l = i + 1`: it touches only the rows `≥ i` and the columns `≥ i + 1` of
`U`, and records no division by zero when `h` is not zero. -/
theorem leftApply_hrel (m n i : Int) :
    PresOn (fun st : St α => st.l = i + 1) (HRel i (i + 1))
      (loopUp (fun st => st.l) (fun _ => n) (fun j => block [
        fun st => { st with s := 0 },
        loopUp (fun _ => i) (fun _ => m) (fun k st =>
          { (st.ckU k i).ckU k j with s := st.s + st.u k i * st.u k j }),
        fun st => { st.dv st.h with f := st.s / st.h },
        loopUp (fun _ => i) (fun _ => m) (fun k st =>
          (st.ckU k i).wrU k j (st.u k j + st.f * st.u k i))])) := by
  apply PresOn_loopUp (HRel_preOrd i (i + 1)) (HRel_stable i (i + 1) (i + 1)) (i + 1)
    (fun s hs => by rw [hs])
  intro j hj
  apply PresOn_cons (HRel_preOrd i (i + 1)) (HRel_stable i (i + 1) (i + 1))
  · intro st _
    exact ⟨rfl, rfl, rfl, rfl, rfl, fun _ => rfl, fun _ _ _ => rfl, fun _ _ _ => rfl,
      fun _ _ => rfl⟩
  apply PresOn_cons (HRel_preOrd i (i + 1)) (HRel_stable i (i + 1) (i + 1))
  · apply PresOn_loopUp (HRel_preOrd i (i + 1)) (HRel_stable i (i + 1) (i + 1)) i
      (fun _ _ => le_refl i)
    intro k _ st _
    exact ⟨rfl, rfl, rfl, rfl, rfl, fun _ => rfl, fun _ _ _ => rfl, fun _ _ _ => rfl,
      fun _ _ => rfl⟩
  apply PresOn_cons (HRel_preOrd i (i + 1)) (HRel_stable i (i + 1) (i + 1))
  · intro st _
    refine ⟨rfl, rfl, rfl, rfl, rfl, fun h => ?_, fun _ _ _ => rfl, fun _ _ _ => rfl,
      fun _ _ => rfl⟩
    simp [St.dv, h]
  apply PresOn_cons (HRel_preOrd i (i + 1)) (HRel_stable i (i + 1) (i + 1))
  · apply PresOn_loopUp (HRel_preOrd i (i + 1)) (HRel_stable i (i + 1) (i + 1)) i
      (fun _ _ => le_refl i)
    intro k hk st _
    refine ⟨rfl, rfl, rfl, rfl, rfl, fun _ => rfl, fun a c ha => ?_, fun a c hc => ?_,
      fun _ _ => rfl⟩
    · have : ¬ (a = k ∧ c = j) := fun h => by omega
      simp [St.wrU, St.ckU, St.u, Mat.set, this]
    · have : ¬ (a = k ∧ c = j) := fun h => by omega
      simp [St.wrU, St.ckU, St.u, Mat.set, this]
  · exact PresOn_nil (HRel_preOrd i (i + 1))

/-- The loop that multiplies a column of `U` by `scale` (lines 106–107). -/
theorem colRescale_spec (i m : Int) (st : St α) :
    ∃ o, loopUp (fun _ => i) (fun _ => m)
        (fun k (st : St α) => st.wrU k i (st.u k i * st.scale)) st =
      { st with
        U := { st.U with val := fun a b =>
                if b = i ∧ i ≤ a ∧ a < m then st.U.val a b * st.scale else st.U.val a b },
        oob := o } := by
  rw [loopUp_eq]
  by_cases hle : m ≤ i
  · rw [forUp_of_le hle]
    refine ⟨st.oob, ?_⟩
    have e : (fun a b => if b = i ∧ i ≤ a ∧ a < m then st.U.val a b * st.scale
        else st.U.val a b) = st.U.val := by
      funext a b
      rw [if_neg (by omega)]
    rw [e]
  · have h := forUp_inv (le_of_lt (not_le.mp hle))
      (fun k (st : St α) => st.wrU k i (st.u k i * st.scale))
      (fun k t => ∃ o, t = { st with
        U := { st.U with val := fun a b =>
                if b = i ∧ i ≤ a ∧ a < k then st.U.val a b * st.scale else st.U.val a b },
        oob := o })
      st ⟨st.oob, by
        have e : (fun a b => if b = i ∧ i ≤ a ∧ a < i then st.U.val a b * st.scale
            else st.U.val a b) = st.U.val := by
          funext a b
          rw [if_neg (by omega)]
        rw [e]⟩
      (by
        rintro k t h0 - ⟨o, rfl⟩
        refine ⟨o || !st.U.inb k i, ?_⟩
        simp only [St.wrU, St.ckU, St.u, Mat.set, Mat.inb]
        have hk : ¬ (k < k) := lt_irrefl k
        simp only [hk, and_false, if_false]
        congr 2
        funext a b
        by_cases hab : a = k ∧ b = i
        · obtain ⟨rfl, rfl⟩ := hab
          simp [h0]
        · rw [if_neg hab]
          by_cases hb : b = i ∧ i ≤ a ∧ a < k
          · rw [if_pos hb, if_pos ⟨hb.1, hb.2.1, by omega⟩]
          · rw [if_neg hb, if_neg]
            rintro ⟨h1, h2, h3⟩
            have : a ≠ k := fun e => hab ⟨e, h1⟩
            exact hb ⟨h1, h2, by omega⟩)
    exact h

theorem leftReduce_sameS (sqrt : α → α) (m n i : Int) :
    Pres SameS (leftReduce sqrt m n i) := by
  unfold leftReduce
  repeat' first
    | apply Pres_nil SameS_preOrd
    | apply Pres_cons SameS_preOrd
    | apply Pres_whenever SameS_preOrd
    | apply Pres_loopUp SameS_preOrd
    | (intro st; simp [SameS, St.ckU, St.wrU, St.dv]; done)
    | intro _

end HouseFrames

section HouseScalars

/-- The Householder scalars: with `s > 0`, `g = -SIGN(sqrt s, f)` gives `f - g ≠ 0` and
`h = f·g - s < 0`. -/
theorem house_scalars (f s : ℝ) (hs : 0 < s) :
    f - -SIGN (Real.sqrt s) f ≠ 0 ∧ f * -SIGN (Real.sqrt s) f - s < 0 := by
  have hq : 0 < Real.sqrt s := Real.sqrt_pos.mpr hs
  constructor
  · rw [sub_neg_eq_add]
    exact sign_add_ne f _ hq
  · unfold SIGN
    rw [abs_of_pos hq]
    split
    · rename_i h
      have : 0 ≤ f * Real.sqrt s := mul_nonneg h hq.le
      linarith
    · rename_i h
      have hf : f < 0 := not_le.mp h
      have : 0 < f * -Real.sqrt s := mul_pos_of_neg_of_neg hf (by linarith)
      nlinarith

/-- The sum of squares of the scaled entries is positive when the sum of the absolute values
is not zero. -/
theorem scaled_sumsq_pos (lo hi : Int) (f : Int → ℝ)
    (hsc : sumUp lo hi (fun k => |f k|) ≠ 0) :
    0 < sumUp lo hi (fun k => f k / sumUp lo hi (fun k => |f k|) *
      (f k / sumUp lo hi (fun k => |f k|))) := by
  rw [sumUp_div_sq lo hi f _ hsc]
  have hN : 0 ≤ sumUp lo hi (fun k => f k ^ 2) := sumUp_nonneg (fun _ _ _ => sq_nonneg _)
  have hN0 : sumUp lo hi (fun k => f k ^ 2) ≠ 0 := by
    intro h0
    apply hsc
    apply sumUp_zero
    intro k hk1 hk2
    have := sumUp_eq_zero (fun _ _ _ => sq_nonneg _) h0 k hk1 hk2
    rw [pow_eq_zero_iff two_ne_zero |>.mp this]
    simp
  have : 0 < sumUp lo hi (fun k => f k ^ 2) := lt_of_le_of_ne hN (Ne.symm hN0)
  positivity

end HouseScalars

section LeftKeeps

/-- The statements of the left-hand reduction after the assignment of `g` (lines 93–107), run
from a state with `l = i + 1`, `i < m` and `f·g - s ≠ 0`: no division by zero is recorded, the
rows of `U` above `i` are not assigned, and the pivot becomes `(f - g)·scale`. -/
theorem leftTail_keeps (m n i : Int) (X : St ℝ) (hl : X.l = i + 1) (him : i < m)
    (hh : X.f * X.g - X.s ≠ 0) :
    (block [
      (fun st => { st with h := st.f * st.g - st.s } : St ℝ → St ℝ),
      fun st => st.wrU i i (st.f - st.g),
      whenever (fun _ => i ≠ n - 1) (
        loopUp (fun st => st.l) (fun _ => n) (fun j => block [
          fun st => { st with s := 0 },
          loopUp (fun _ => i) (fun _ => m) (fun k st =>
            { (st.ckU k i).ckU k j with s := st.s + st.u k i * st.u k j }),
          fun st => { st.dv st.h with f := st.s / st.h },
          loopUp (fun _ => i) (fun _ => m) (fun k st =>
            (st.ckU k i).wrU k j (st.u k j + st.f * st.u k i))])),
      loopUp (fun _ => i) (fun _ => m) (fun k st => st.wrU k i (st.u k i * st.scale))] X).dz
        = X.dz ∧
    (∀ a b, a < i → (block [
      (fun st => { st with h := st.f * st.g - st.s } : St ℝ → St ℝ),
      fun st => st.wrU i i (st.f - st.g),
      whenever (fun _ => i ≠ n - 1) (
        loopUp (fun st => st.l) (fun _ => n) (fun j => block [
          fun st => { st with s := 0 },
          loopUp (fun _ => i) (fun _ => m) (fun k st =>
            { (st.ckU k i).ckU k j with s := st.s + st.u k i * st.u k j }),
          fun st => { st.dv st.h with f := st.s / st.h },
          loopUp (fun _ => i) (fun _ => m) (fun k st =>
            (st.ckU k i).wrU k j (st.u k j + st.f * st.u k i))])),
      loopUp (fun _ => i) (fun _ => m) (fun k st => st.wrU k i (st.u k i * st.scale))] X).u a b
        = X.u a b) ∧
    (block [
      (fun st => { st with h := st.f * st.g - st.s } : St ℝ → St ℝ),
      fun st => st.wrU i i (st.f - st.g),
      whenever (fun _ => i ≠ n - 1) (
        loopUp (fun st => st.l) (fun _ => n) (fun j => block [
          fun st => { st with s := 0 },
          loopUp (fun _ => i) (fun _ => m) (fun k st =>
            { (st.ckU k i).ckU k j with s := st.s + st.u k i * st.u k j }),
          fun st => { st.dv st.h with f := st.s / st.h },
          loopUp (fun _ => i) (fun _ => m) (fun k st =>
            (st.ckU k i).wrU k j (st.u k j + st.f * st.u k i))])),
      loopUp (fun _ => i) (fun _ => m) (fun k st => st.wrU k i (st.u k i * st.scale))] X).u i i
        = (X.f - X.g) * X.scale := by
  rw [block_cons, block_cons, block_cons]
  have hJ := @PresOn_whenever (St ℝ) _ _ (HRel_preOrd i (i + 1))
    (fun _ : St ℝ => i ≠ n - 1) _ _ (@leftApply_hrel ℝ _ m n i)
    (({ X with h := X.f * X.g - X.s } : St ℝ).wrU i i (X.f - X.g)) hl
  obtain ⟨b1, b2, b3, b4, b5, b6, b7, b8, b9⟩ := hJ
  generalize whenever (fun _ : St ℝ => i ≠ n - 1) _
    (({ X with h := X.f * X.g - X.s } : St ℝ).wrU i i (X.f - X.g)) = X4 at *
  rw [block_cons, block_nil]
  obtain ⟨o, e⟩ := colRescale_spec i m X4
  rw [e]
  clear e
  simp only [St.wrU, St.ckU, St.u, Mat.set] at *
  refine ⟨?_, ?_, ?_⟩
  · exact b6 hh
  · intro a b ha
    rw [if_neg (by omega), b7 a b ha, if_neg (by omega)]
  · rw [if_pos (by simp [him]), b8 i i (by omega), b2]
    simp

/-- The scale loop of the left-hand reduction, by its effect on the fields. -/
theorem colScale_facts (i m : Int) (Y : St ℝ) :
    ∃ T, loopUp (fun _ => i) (fun _ => m)
        (fun k (st : St ℝ) => { st.ckU k i with scale := st.scale + |st.u k i| }) Y = T ∧
      T.scale = Y.scale + sumUp i m (fun k => |Y.u k i|) ∧ T.U = Y.U ∧ T.s = Y.s ∧
      T.g = Y.g ∧ T.l = Y.l ∧ T.dz = Y.dz := by
  obtain ⟨o, e⟩ := colScale_spec i m Y
  exact ⟨_, e, rfl, rfl, rfl, rfl, rfl, rfl⟩

/-- The normalisation loop of the left-hand reduction, by its effect on the fields. -/
theorem colNorm_facts (i m : Int) (T : St ℝ) (hsc : T.scale ≠ 0) :
    ∃ T2, loopUp (fun _ => i) (fun _ => m) (fun k => block [
          fun (st : St ℝ) => (st.dv st.scale).wrU k i (st.u k i / st.scale),
          fun (st : St ℝ) => { st.ckU k i with s := st.s + st.u k i * st.u k i }]) T = T2 ∧
      T2.s = T.s + sumUp i m (fun k => (T.u k i / T.scale) * (T.u k i / T.scale)) ∧
      T2.scale = T.scale ∧ T2.g = T.g ∧ T2.l = T.l ∧ T2.dz = T.dz ∧
      ∀ a b, T2.u a b = if b = i ∧ i ≤ a ∧ a < m then T.u a b / T.scale else T.u a b := by
  obtain ⟨o, e⟩ := colNorm_spec i m T hsc
  exact ⟨_, e, rfl, rfl, rfl, rfl, rfl, fun _ _ => rfl⟩

/-- The statements of the left-hand reduction after the normalisation loop (lines 91–107). -/
theorem leftTail2_keeps (m n i : Int) (T : St ℝ) (hl : T.l = i + 1) (him : i < m)
    (hh : T.u i i * -SIGN (Real.sqrt T.s) (T.u i i) - T.s ≠ 0) :
    (block [
      (fun st => { st.ckU i i with f := st.u i i } : St ℝ → St ℝ),
      fun st => { st with g := -SIGN (Real.sqrt st.s) st.f },
      fun st => { st with h := st.f * st.g - st.s },
      fun st => st.wrU i i (st.f - st.g),
      whenever (fun _ => i ≠ n - 1) (
        loopUp (fun st => st.l) (fun _ => n) (fun j => block [
          fun st => { st with s := 0 },
          loopUp (fun _ => i) (fun _ => m) (fun k st =>
            { (st.ckU k i).ckU k j with s := st.s + st.u k i * st.u k j }),
          fun st => { st.dv st.h with f := st.s / st.h },
          loopUp (fun _ => i) (fun _ => m) (fun k st =>
            (st.ckU k i).wrU k j (st.u k j + st.f * st.u k i))])),
      loopUp (fun _ => i) (fun _ => m) (fun k st => st.wrU k i (st.u k i * st.scale))] T).dz
        = T.dz ∧
    (∀ a b, a < i → (block [
      (fun st => { st.ckU i i with f := st.u i i } : St ℝ → St ℝ),
      fun st => { st with g := -SIGN (Real.sqrt st.s) st.f },
      fun st => { st with h := st.f * st.g - st.s },
      fun st => st.wrU i i (st.f - st.g),
      whenever (fun _ => i ≠ n - 1) (
        loopUp (fun st => st.l) (fun _ => n) (fun j => block [
          fun st => { st with s := 0 },
          loopUp (fun _ => i) (fun _ => m) (fun k st =>
            { (st.ckU k i).ckU k j with s := st.s + st.u k i * st.u k j }),
          fun st => { st.dv st.h with f := st.s / st.h },
          loopUp (fun _ => i) (fun _ => m) (fun k st =>
            (st.ckU k i).wrU k j (st.u k j + st.f * st.u k i))])),
      loopUp (fun _ => i) (fun _ => m) (fun k st => st.wrU k i (st.u k i * st.scale))] T).u a b
        = T.u a b) ∧
    (block [
      (fun st => { st.ckU i i with f := st.u i i } : St ℝ → St ℝ),
      fun st => { st with g := -SIGN (Real.sqrt st.s) st.f },
      fun st => { st with h := st.f * st.g - st.s },
      fun st => st.wrU i i (st.f - st.g),
      whenever (fun _ => i ≠ n - 1) (
        loopUp (fun st => st.l) (fun _ => n) (fun j => block [
          fun st => { st with s := 0 },
          loopUp (fun _ => i) (fun _ => m) (fun k st =>
            { (st.ckU k i).ckU k j with s := st.s + st.u k i * st.u k j }),
          fun st => { st.dv st.h with f := st.s / st.h },
          loopUp (fun _ => i) (fun _ => m) (fun k st =>
            (st.ckU k i).wrU k j (st.u k j + st.f * st.u k i))])),
      loopUp (fun _ => i) (fun _ => m) (fun k st => st.wrU k i (st.u k i * st.scale))] T).u i i
        = (T.u i i - -SIGN (Real.sqrt T.s) (T.u i i)) * T.scale := by
  rw [block_cons, block_cons]
  obtain ⟨c1, c2, c3⟩ := leftTail_keeps m n i
    ({ ({ T.ckU i i with f := T.u i i } : St ℝ) with
        g := -SIGN (Real.sqrt T.s) (T.u i i) }) hl him hh
  exact ⟨c1, c2, c3⟩

/-- The left-hand reduction of step `i`, started with `scale = s = g = 0` and `l = i + 1`:
no division by zero is recorded, the rows of `U` above `i` are not assigned, and the pivot
`U(i,i)` is not zero when `scale·g` is not zero. -/
theorem leftReduce_keeps (m n i : Int) (Y : St ℝ) (hl : Y.l = i + 1) (h1 : Y.scale = 0)
    (h2 : Y.s = 0) (h3 : Y.g = 0) :
    (leftReduce Real.sqrt m n i Y).dz = Y.dz ∧
    (∀ a b, a < i → (leftReduce Real.sqrt m n i Y).u a b = Y.u a b) ∧
    ((leftReduce Real.sqrt m n i Y).scale * (leftReduce Real.sqrt m n i Y).g ≠ 0 →
      (leftReduce Real.sqrt m n i Y).u i i ≠ 0) := by
  unfold leftReduce
  rw [whenever_eq]
  by_cases him : i < m
  · rw [if_pos him, block_cons, block_cons, block_nil]
    obtain ⟨T, eT, t1, t2, t3, t4, t5, t6⟩ := colScale_facts i m Y
    rw [eT, whenever_eq]
    have hu : ∀ a b, T.u a b = Y.u a b := fun a b => by simp only [St.u, t2]
    by_cases hsc : sumUp i m (fun k => |Y.u k i|) = 0
    · rw [if_neg (by simp [t1, h1, hsc])]
      exact ⟨t6, fun a b _ => hu a b, by simp [t4, h3]⟩
    · have hT : T.scale ≠ 0 := by simp [t1, h1, hsc]
      rw [if_pos hT, block_cons]
      obtain ⟨T2, eT2, u1, u2, u3, u4, u5, u6⟩ := colNorm_facts i m T hT
      rw [eT2]
      have hsT : T.scale = sumUp i m (fun k => |Y.u k i|) := by rw [t1, h1, zero_add]
      have hs2 : T2.s = sumUp i m (fun k => Y.u k i / sumUp i m (fun k => |Y.u k i|) *
          (Y.u k i / sumUp i m (fun k => |Y.u k i|))) := by
        rw [u1, t3, h2, zero_add, hsT]
        exact sumUp_congr (fun k _ _ => by rw [hu])
      have hp := scaled_sumsq_pos i m (fun k => Y.u k i) hsc
      rw [← hs2] at hp
      have hs := house_scalars (T2.u i i) T2.s hp
      obtain ⟨c1, c2, c3⟩ := leftTail2_keeps m n i T2 (by rw [u4, t5, hl]) him hs.2.ne
      refine ⟨by rw [c1, u5, t6], ?_, ?_⟩
      · intro a b ha
        rw [c2 a b ha, u6, if_neg (by omega), hu]
      · intro _
        rw [c3]
        exact mul_ne_zero hs.1 (by rw [u2]; exact hT)
  · rw [if_neg him]
    exact ⟨rfl, fun _ _ _ => rfl, by simp [h1]⟩

end LeftKeeps

section RightLoops

variable {α : Type} [LinearOrderedField α]

/-- The loop that divides a row of `U` by `scale` and accumulates the sum of the squares of the
new entries (lines 120–124). -/
theorem rowNorm_spec (i n : Int) (st : St α) (hsc : st.scale ≠ 0) :
    ∃ o, loopUp (fun st => st.l) (fun _ => n) (fun k => block [
          fun (st : St α) => (st.dv st.scale).wrU i k (st.u i k / st.scale),
          fun (st : St α) => { st.ckU i k with s := st.s + st.u i k * st.u i k }]) st =
      { st with
        U := { st.U with val := fun a b =>
                if a = i ∧ st.l ≤ b ∧ b < n then st.U.val a b / st.scale else st.U.val a b },
        s := st.s + sumUp st.l n (fun k => (st.u i k / st.scale) * (st.u i k / st.scale)),
        oob := o } := by
  rw [loopUp_eq]
  by_cases hle : n ≤ st.l
  · rw [forUp_of_le hle, sumUp_of_le hle, add_zero]
    refine ⟨st.oob, ?_⟩
    have e : (fun a b => if a = i ∧ st.l ≤ b ∧ b < n then st.U.val a b / st.scale
        else st.U.val a b) = st.U.val := by
      funext a b
      rw [if_neg (by omega)]
    rw [e]
  · have h := forUp_inv (le_of_lt (not_le.mp hle))
      (fun k => block [
          fun (st : St α) => (st.dv st.scale).wrU i k (st.u i k / st.scale),
          fun (st : St α) => { st.ckU i k with s := st.s + st.u i k * st.u i k }])
      (fun k t => ∃ o, t = { st with
        U := { st.U with val := fun a b =>
                if a = i ∧ st.l ≤ b ∧ b < k then st.U.val a b / st.scale else st.U.val a b },
        s := st.s + sumUp st.l k (fun k => (st.u i k / st.scale) * (st.u i k / st.scale)),
        oob := o })
      st ⟨st.oob, by
        rw [sumUp_of_le (le_refl st.l), add_zero]
        have e : (fun a b => if a = i ∧ st.l ≤ b ∧ b < st.l then st.U.val a b / st.scale
            else st.U.val a b) = st.U.val := by
          funext a b
          rw [if_neg (by omega)]
        rw [e]⟩
      (by
        rintro k t h0 - ⟨o, rfl⟩
        refine ⟨(o || !st.U.inb i k) || !st.U.inb i k, ?_⟩
        rw [sumUp_succ h0]
        simp only [block_cons, block_nil, St.dv, St.wrU, St.ckU, St.u, Mat.set, Mat.inb,
          decide_eq_false hsc, Bool.or_false]
        have hk : ¬ (k < k) := lt_irrefl k
        simp only [hk, and_false, if_false, and_self, if_true, add_assoc]
        congr 2
        funext a b
        by_cases hab : a = i ∧ b = k
        · obtain ⟨rfl, rfl⟩ := hab
          simp [h0]
        · rw [if_neg hab]
          by_cases hb : a = i ∧ st.l ≤ b ∧ b < k
          · rw [if_pos hb, if_pos ⟨hb.1, hb.2.1, by omega⟩]
          · rw [if_neg hb, if_neg]
            rintro ⟨h1, h2, h3⟩
            have : b ≠ k := fun e => hab ⟨h1, e⟩
            exact hb ⟨h1, h2, by omega⟩)
    exact h

/-- The loop that multiplies a row of `U` by `scale` (lines 141–142). -/
theorem rowRescale_spec (i n : Int) (st : St α) :
    ∃ o, loopUp (fun st => st.l) (fun _ => n)
        (fun k (st : St α) => st.wrU i k (st.u i k * st.scale)) st =
      { st with
        U := { st.U with val := fun a b =>
                if a = i ∧ st.l ≤ b ∧ b < n then st.U.val a b * st.scale else st.U.val a b },
        oob := o } := by
  rw [loopUp_eq]
  by_cases hle : n ≤ st.l
  · rw [forUp_of_le hle]
    refine ⟨st.oob, ?_⟩
    have e : (fun a b => if a = i ∧ st.l ≤ b ∧ b < n then st.U.val a b * st.scale
        else st.U.val a b) = st.U.val := by
      funext a b
      rw [if_neg (by omega)]
    rw [e]
  · have h := forUp_inv (le_of_lt (not_le.mp hle))
      (fun k (st : St α) => st.wrU i k (st.u i k * st.scale))
      (fun k t => ∃ o, t = { st with
        U := { st.U with val := fun a b =>
                if a = i ∧ st.l ≤ b ∧ b < k then st.U.val a b * st.scale else st.U.val a b },
        oob := o })
      st ⟨st.oob, by
        have e : (fun a b => if a = i ∧ st.l ≤ b ∧ b < st.l then st.U.val a b * st.scale
            else st.U.val a b) = st.U.val := by
          funext a b
          rw [if_neg (by omega)]
        rw [e]⟩
      (by
        rintro k t h0 - ⟨o, rfl⟩
        refine ⟨o || !st.U.inb i k, ?_⟩
        simp only [St.wrU, St.ckU, St.u, Mat.set, Mat.inb]
        have hk : ¬ (k < k) := lt_irrefl k
        simp only [hk, and_false, if_false]
        congr 2
        funext a b
        by_cases hab : a = i ∧ b = k
        · obtain ⟨rfl, rfl⟩ := hab
          simp [h0]
        · rw [if_neg hab]
          by_cases hb : a = i ∧ st.l ≤ b ∧ b < k
          · rw [if_pos hb, if_pos ⟨hb.1, hb.2.1, by omega⟩]
          · rw [if_neg hb, if_neg]
            rintro ⟨h1, h2, h3⟩
            have : b ≠ k := fun e => hab ⟨h1, e⟩
            exact hb ⟨h1, h2, by omega⟩)
    exact h

/-- The loops that store the scaled row into `rv1` and apply the right-hand reflection of step
`i` to the rows `j ≥ l` (lines 129–140), with `l = i + 1`: they touch only the rows and the
columns `≥ i + 1` of `U` and the entries `≥ i + 1` of `rv1`, and record no division by zero
when `h` is not zero. -/
theorem rightApply_hrel (m n i : Int) :
    PresOn (fun st : St α => st.l = i + 1) (HRel (i + 1) (i + 1))
      (block [
        loopUp (fun st => st.l) (fun _ => n) (fun k st =>
          ((st.dv st.h).ckU i k).wrR k (st.u i k / st.h)),
        whenever (fun _ => i ≠ m - 1) (
          loopUp (fun st => st.l) (fun _ => m) (fun j => block [
            fun st => { st with s := 0 },
            loopUp (fun st => st.l) (fun _ => n) (fun k st =>
              { (st.ckU j k).ckU i k with s := st.s + st.u j k * st.u i k }),
            loopUp (fun st => st.l) (fun _ => n) (fun k st =>
              (st.ckR k).wrU j k (st.u j k + st.s * st.r k))]))]) := by
  have hR := @HRel_preOrd α _ (i + 1) (i + 1)
  have hI := @HRel_stable α _ (i + 1) (i + 1) (i + 1)
  apply PresOn_cons hR hI
  · apply PresOn_loopUp hR hI (i + 1) (fun s hs => by rw [hs])
    intro k hk st _
    refine ⟨rfl, rfl, rfl, rfl, rfl, fun h => ?_, fun _ _ _ => rfl, fun _ _ _ => rfl,
      fun a ha => ?_⟩
    · simp [St.dv, St.wrR, St.ckR, St.ckU, h]
    · have : ¬ (a = k) := by omega
      simp [St.wrR, St.ckR, St.ckU, St.dv, St.r, Mat.set, this]
  apply PresOn_cons hR hI
  · apply PresOn_whenever hR
    apply PresOn_loopUp hR hI (i + 1) (fun s hs => by rw [hs])
    intro j hj
    apply PresOn_cons hR hI
    · intro st _
      exact ⟨rfl, rfl, rfl, rfl, rfl, fun _ => rfl, fun _ _ _ => rfl, fun _ _ _ => rfl,
        fun _ _ => rfl⟩
    apply PresOn_cons hR hI
    · apply PresOn_loopUp hR hI (i + 1) (fun s hs => by rw [hs])
      intro k _ st _
      exact ⟨rfl, rfl, rfl, rfl, rfl, fun _ => rfl, fun _ _ _ => rfl, fun _ _ _ => rfl,
        fun _ _ => rfl⟩
    apply PresOn_cons hR hI
    · apply PresOn_loopUp hR hI (i + 1) (fun s hs => by rw [hs])
      intro k hk st _
      refine ⟨rfl, rfl, rfl, rfl, rfl, fun _ => rfl, fun a c ha => ?_, fun a c hc => ?_,
        fun _ _ => rfl⟩
      · have : ¬ (a = j ∧ c = k) := fun h => by omega
        simp [St.wrU, St.ckU, St.ckR, St.u, Mat.set, this]
      · have : ¬ (a = j ∧ c = k) := fun h => by omega
        simp [St.wrU, St.ckU, St.ckR, St.u, Mat.set, this]
    · exact PresOn_nil hR
  · exact PresOn_nil hR

end RightLoops

section RightKeeps

/-- The statements of the right-hand reduction after the assignment of `g` (lines 127–142),
run from a state with `l = i + 1 < n` and `f·g - s ≠ 0`: no division by zero is recorded, the
rows of `U` above `i`, the columns of `U` up to `i` and the entries of `rv1` up to `i` are not
assigned, and the pivot `U(i,l)` becomes `(f - g)·scale`. -/
theorem rightTail_keeps (m n i : Int) (X : St ℝ) (hl : X.l = i + 1) (hin : i + 1 < n)
    (hh : X.f * X.g - X.s ≠ 0) :
    (block [
      (fun st => { st with h := st.f * st.g - st.s } : St ℝ → St ℝ),
      fun st => st.wrU i st.l (st.f - st.g),
      loopUp (fun st => st.l) (fun _ => n) (fun k st =>
        ((st.dv st.h).ckU i k).wrR k (st.u i k / st.h)),
      whenever (fun _ => i ≠ m - 1) (
        loopUp (fun st => st.l) (fun _ => m) (fun j => block [
          fun st => { st with s := 0 },
          loopUp (fun st => st.l) (fun _ => n) (fun k st =>
            { (st.ckU j k).ckU i k with s := st.s + st.u j k * st.u i k }),
          loopUp (fun st => st.l) (fun _ => n) (fun k st =>
            (st.ckR k).wrU j k (st.u j k + st.s * st.r k))])),
      loopUp (fun st => st.l) (fun _ => n) (fun k st => st.wrU i k (st.u i k * st.scale))] X).dz = X.dz ∧
    (∀ a b, a < i → (block [
      (fun st => { st with h := st.f * st.g - st.s } : St ℝ → St ℝ),
      fun st => st.wrU i st.l (st.f - st.g),
      loopUp (fun st => st.l) (fun _ => n) (fun k st =>
        ((st.dv st.h).ckU i k).wrR k (st.u i k / st.h)),
      whenever (fun _ => i ≠ m - 1) (
        loopUp (fun st => st.l) (fun _ => m) (fun j => block [
          fun st => { st with s := 0 },
          loopUp (fun st => st.l) (fun _ => n) (fun k st =>
            { (st.ckU j k).ckU i k with s := st.s + st.u j k * st.u i k }),
          loopUp (fun st => st.l) (fun _ => n) (fun k st =>
            (st.ckR k).wrU j k (st.u j k + st.s * st.r k))])),
      loopUp (fun st => st.l) (fun _ => n) (fun k st => st.wrU i k (st.u i k * st.scale))] X).u a b = X.u a b) ∧
    (∀ a b, b < i + 1 → (block [
      (fun st => { st with h := st.f * st.g - st.s } : St ℝ → St ℝ),
      fun st => st.wrU i st.l (st.f - st.g),
      loopUp (fun st => st.l) (fun _ => n) (fun k st =>
        ((st.dv st.h).ckU i k).wrR k (st.u i k / st.h)),
      whenever (fun _ => i ≠ m - 1) (
        loopUp (fun st => st.l) (fun _ => m) (fun j => block [
          fun st => { st with s := 0 },
          loopUp (fun st => st.l) (fun _ => n) (fun k st =>
            { (st.ckU j k).ckU i k with s := st.s + st.u j k * st.u i k }),
          loopUp (fun st => st.l) (fun _ => n) (fun k st =>
            (st.ckR k).wrU j k (st.u j k + st.s * st.r k))])),
      loopUp (fun st => st.l) (fun _ => n) (fun k st => st.wrU i k (st.u i k * st.scale))] X).u a b = X.u a b) ∧
    (∀ a, a < i + 1 → (block [
      (fun st => { st with h := st.f * st.g - st.s } : St ℝ → St ℝ),
      fun st => st.wrU i st.l (st.f - st.g),
      loopUp (fun st => st.l) (fun _ => n) (fun k st =>
        ((st.dv st.h).ckU i k).wrR k (st.u i k / st.h)),
      whenever (fun _ => i ≠ m - 1) (
        loopUp (fun st => st.l) (fun _ => m) (fun j => block [
          fun st => { st with s := 0 },
          loopUp (fun st => st.l) (fun _ => n) (fun k st =>
            { (st.ckU j k).ckU i k with s := st.s + st.u j k * st.u i k }),
          loopUp (fun st => st.l) (fun _ => n) (fun k st =>
            (st.ckR k).wrU j k (st.u j k + st.s * st.r k))])),
      loopUp (fun st => st.l) (fun _ => n) (fun k st => st.wrU i k (st.u i k * st.scale))] X).r a = X.r a) ∧
    (block [
      (fun st => { st with h := st.f * st.g - st.s } : St ℝ → St ℝ),
      fun st => st.wrU i st.l (st.f - st.g),
      loopUp (fun st => st.l) (fun _ => n) (fun k st =>
        ((st.dv st.h).ckU i k).wrR k (st.u i k / st.h)),
      whenever (fun _ => i ≠ m - 1) (
        loopUp (fun st => st.l) (fun _ => m) (fun j => block [
          fun st => { st with s := 0 },
          loopUp (fun st => st.l) (fun _ => n) (fun k st =>
            { (st.ckU j k).ckU i k with s := st.s + st.u j k * st.u i k }),
          loopUp (fun st => st.l) (fun _ => n) (fun k st =>
            (st.ckR k).wrU j k (st.u j k + st.s * st.r k))])),
      loopUp (fun st => st.l) (fun _ => n) (fun k st => st.wrU i k (st.u i k * st.scale))] X).u i (i + 1) = (X.f - X.g) * X.scale := by
  rw [block_cons, block_cons]
  have hA := @rightApply_hrel ℝ _ m n i
    (({ X with h := X.f * X.g - X.s } : St ℝ).wrU i X.l (X.f - X.g)) hl
  rw [block_cons, block_cons, block_nil] at hA
  rw [block_cons, block_cons]
  obtain ⟨b1, b2, b3, b4, b5, b6, b7, b8, b9⟩ := hA
  generalize whenever (fun _ : St ℝ => i ≠ m - 1) _ (loopUp (fun st : St ℝ => st.l) _ _
    (({ X with h := X.f * X.g - X.s } : St ℝ).wrU i X.l (X.f - X.g))) = X4 at *
  rw [block_cons, block_nil]
  obtain ⟨o, e⟩ := rowRescale_spec i n X4
  rw [e]
  clear e
  simp only [St.wrU, St.ckU, St.u, St.r, Mat.set] at *
  rw [b5, hl]
  rw [hl] at b7 b8
  refine ⟨b6 hh, ?_, ?_, ?_, ?_⟩
  · intro a b ha
    rw [if_neg (by omega), b7 a b (by omega), if_neg (by omega)]
  · intro a b hb
    rw [if_neg (by omega), b8 a b hb, if_neg (by omega)]
  · intro a ha
    exact b9 a ha
  · rw [if_pos (by simp [hin]), b7 i (i + 1) (by omega), b2]
    simp

/-- The statements of the right-hand reduction after the normalisation loop (lines
125–142). -/
theorem rightTail2_keeps (m n i : Int) (T : St ℝ) (hl : T.l = i + 1) (hin : i + 1 < n)
    (hh : T.u i T.l * -SIGN (Real.sqrt T.s) (T.u i T.l) - T.s ≠ 0) :
    (block [
      (fun st => { st.ckU i st.l with f := st.u i st.l } : St ℝ → St ℝ),
      fun st => { st with g := -SIGN (Real.sqrt st.s) st.f },
      fun st => { st with h := st.f * st.g - st.s },
      fun st => st.wrU i st.l (st.f - st.g),
      loopUp (fun st => st.l) (fun _ => n) (fun k st =>
        ((st.dv st.h).ckU i k).wrR k (st.u i k / st.h)),
      whenever (fun _ => i ≠ m - 1) (
        loopUp (fun st => st.l) (fun _ => m) (fun j => block [
          fun st => { st with s := 0 },
          loopUp (fun st => st.l) (fun _ => n) (fun k st =>
            { (st.ckU j k).ckU i k with s := st.s + st.u j k * st.u i k }),
          loopUp (fun st => st.l) (fun _ => n) (fun k st =>
            (st.ckR k).wrU j k (st.u j k + st.s * st.r k))])),
      loopUp (fun st => st.l) (fun _ => n) (fun k st => st.wrU i k (st.u i k * st.scale))] T).dz = T.dz ∧
    (∀ a b, a < i → (block [
      (fun st => { st.ckU i st.l with f := st.u i st.l } : St ℝ → St ℝ),
      fun st => { st with g := -SIGN (Real.sqrt st.s) st.f },
      fun st => { st with h := st.f * st.g - st.s },
      fun st => st.wrU i st.l (st.f - st.g),
      loopUp (fun st => st.l) (fun _ => n) (fun k st =>
        ((st.dv st.h).ckU i k).wrR k (st.u i k / st.h)),
      whenever (fun _ => i ≠ m - 1) (
        loopUp (fun st => st.l) (fun _ => m) (fun j => block [
          fun st => { st with s := 0 },
          loopUp (fun st => st.l) (fun _ => n) (fun k st =>
            { (st.ckU j k).ckU i k with s := st.s + st.u j k * st.u i k }),
          loopUp (fun st => st.l) (fun _ => n) (fun k st =>
            (st.ckR k).wrU j k (st.u j k + st.s * st.r k))])),
      loopUp (fun st => st.l) (fun _ => n) (fun k st => st.wrU i k (st.u i k * st.scale))] T).u a b = T.u a b) ∧
    (∀ a b, b < i + 1 → (block [
      (fun st => { st.ckU i st.l with f := st.u i st.l } : St ℝ → St ℝ),
      fun st => { st with g := -SIGN (Real.sqrt st.s) st.f },
      fun st => { st with h := st.f * st.g - st.s },
      fun st => st.wrU i st.l (st.f - st.g),
      loopUp (fun st => st.l) (fun _ => n) (fun k st =>
        ((st.dv st.h).ckU i k).wrR k (st.u i k / st.h)),
      whenever (fun _ => i ≠ m - 1) (
        loopUp (fun st => st.l) (fun _ => m) (fun j => block [
          fun st => { st with s := 0 },
          loopUp (fun st => st.l) (fun _ => n) (fun k st =>
            { (st.ckU j k).ckU i k with s := st.s + st.u j k * st.u i k }),
          loopUp (fun st => st.l) (fun _ => n) (fun k st =>
            (st.ckR k).wrU j k (st.u j k + st.s * st.r k))])),
      loopUp (fun st => st.l) (fun _ => n) (fun k st => st.wrU i k (st.u i k * st.scale))] T).u a b = T.u a b) ∧
    (∀ a, a < i + 1 → (block [
      (fun st => { st.ckU i st.l with f := st.u i st.l } : St ℝ → St ℝ),
      fun st => { st with g := -SIGN (Real.sqrt st.s) st.f },
      fun st => { st with h := st.f * st.g - st.s },
      fun st => st.wrU i st.l (st.f - st.g),
      loopUp (fun st => st.l) (fun _ => n) (fun k st =>
        ((st.dv st.h).ckU i k).wrR k (st.u i k / st.h)),
      whenever (fun _ => i ≠ m - 1) (
        loopUp (fun st => st.l) (fun _ => m) (fun j => block [
          fun st => { st with s := 0 },
          loopUp (fun st => st.l) (fun _ => n) (fun k st =>
            { (st.ckU j k).ckU i k with s := st.s + st.u j k * st.u i k }),
          loopUp (fun st => st.l) (fun _ => n) (fun k st =>
            (st.ckR k).wrU j k (st.u j k + st.s * st.r k))])),
      loopUp (fun st => st.l) (fun _ => n) (fun k st => st.wrU i k (st.u i k * st.scale))] T).r a = T.r a) ∧
    (block [
      (fun st => { st.ckU i st.l with f := st.u i st.l } : St ℝ → St ℝ),
      fun st => { st with g := -SIGN (Real.sqrt st.s) st.f },
      fun st => { st with h := st.f * st.g - st.s },
      fun st => st.wrU i st.l (st.f - st.g),
      loopUp (fun st => st.l) (fun _ => n) (fun k st =>
        ((st.dv st.h).ckU i k).wrR k (st.u i k / st.h)),
      whenever (fun _ => i ≠ m - 1) (
        loopUp (fun st => st.l) (fun _ => m) (fun j => block [
          fun st => { st with s := 0 },
          loopUp (fun st => st.l) (fun _ => n) (fun k st =>
            { (st.ckU j k).ckU i k with s := st.s + st.u j k * st.u i k }),
          loopUp (fun st => st.l) (fun _ => n) (fun k st =>
            (st.ckR k).wrU j k (st.u j k + st.s * st.r k))])),
      loopUp (fun st => st.l) (fun _ => n) (fun k st => st.wrU i k (st.u i k * st.scale))] T).u i (i + 1) = (T.u i T.l - -SIGN (Real.sqrt T.s) (T.u i T.l)) * T.scale := by
  rw [block_cons, block_cons]
  obtain ⟨c1, c2, c3, c4, c5⟩ := rightTail_keeps m n i
    ({ ({ T.ckU i T.l with f := T.u i T.l } : St ℝ) with
        g := -SIGN (Real.sqrt T.s) (T.u i T.l) }) hl hin hh
  exact ⟨c1, c2, c3, c4, c5⟩

/-- The scale loop of the right-hand reduction, by its effect on the fields. -/
theorem rowScale_facts (i n : Int) (Y : St ℝ) :
    ∃ T, loopUp (fun st => st.l) (fun _ => n)
        (fun k (st : St ℝ) => { st.ckU i k with scale := st.scale + |st.u i k| }) Y = T ∧
      T.scale = Y.scale + sumUp Y.l n (fun k => |Y.u i k|) ∧ T.U = Y.U ∧ T.s = Y.s ∧
      T.g = Y.g ∧ T.l = Y.l ∧ T.dz = Y.dz ∧ T.rv1 = Y.rv1 := by
  obtain ⟨o, e⟩ := rowScale_spec i n Y
  exact ⟨_, e, rfl, rfl, rfl, rfl, rfl, rfl, rfl⟩

/-- The normalisation loop of the right-hand reduction, by its effect on the fields. -/
theorem rowNorm_facts (i n : Int) (T : St ℝ) (hsc : T.scale ≠ 0) :
    ∃ T2, loopUp (fun st => st.l) (fun _ => n) (fun k => block [
          fun (st : St ℝ) => (st.dv st.scale).wrU i k (st.u i k / st.scale),
          fun (st : St ℝ) => { st.ckU i k with s := st.s + st.u i k * st.u i k }]) T = T2 ∧
      T2.s = T.s + sumUp T.l n (fun k => (T.u i k / T.scale) * (T.u i k / T.scale)) ∧
      T2.scale = T.scale ∧ T2.g = T.g ∧ T2.l = T.l ∧ T2.dz = T.dz ∧ T2.rv1 = T.rv1 ∧
      ∀ a b, T2.u a b = if a = i ∧ T.l ≤ b ∧ b < n then T.u a b / T.scale else T.u a b := by
  obtain ⟨o, e⟩ := rowNorm_spec i n T hsc
  exact ⟨_, e, rfl, rfl, rfl, rfl, rfl, rfl, fun _ _ => rfl⟩

/-- The right-hand reduction of step `i < n`, started with `scale = s = g = 0` and
`l = i + 1`: no division by zero is recorded, the rows of `U` above `i`, the columns of `U` up
to `i` and the entries of `rv1` up to `i` are not assigned, and the pivot `U(i,i+1)` is not
zero when `scale·g` is not zero. -/
theorem rightReduce_keeps (m n i : Int) (Y : St ℝ) (hl : Y.l = i + 1) (hin : i < n)
    (h1 : Y.scale = 0) (h2 : Y.s = 0) (h3 : Y.g = 0) :
    (rightReduce Real.sqrt m n i Y).dz = Y.dz ∧
    (∀ a b, a < i → (rightReduce Real.sqrt m n i Y).u a b = Y.u a b) ∧
    (∀ a b, b < i + 1 → (rightReduce Real.sqrt m n i Y).u a b = Y.u a b) ∧
    (∀ a, a < i + 1 → (rightReduce Real.sqrt m n i Y).r a = Y.r a) ∧
    ((rightReduce Real.sqrt m n i Y).scale * (rightReduce Real.sqrt m n i Y).g ≠ 0 →
      (rightReduce Real.sqrt m n i Y).u i (i + 1) ≠ 0) := by
  unfold rightReduce
  rw [whenever_eq]
  by_cases hg : i < m ∧ i ≠ n - 1
  · have hin1 : i + 1 < n := by omega
    rw [if_pos hg, block_cons, block_cons, block_nil]
    obtain ⟨T, eT, t1, t2, t3, t4, t5, t6, t7⟩ := rowScale_facts i n Y
    rw [eT, whenever_eq]
    have hu : ∀ a b, T.u a b = Y.u a b := fun a b => by simp only [St.u, t2]
    have hr : ∀ a, T.r a = Y.r a := fun a => by simp only [St.r, t7]
    by_cases hsc : sumUp (i + 1) n (fun k => |Y.u i k|) = 0
    · rw [if_neg (by simp [t1, h1, hl, hsc])]
      exact ⟨t6, fun a b _ => hu a b, fun a b _ => hu a b, fun a _ => hr a, by simp [t4, h3]⟩
    · have hT : T.scale ≠ 0 := by simp [t1, h1, hl, hsc]
      rw [if_pos hT, block_cons]
      obtain ⟨T2, eT2, u1, u2, u3, u4, u5, u7, u6⟩ := rowNorm_facts i n T hT
      rw [eT2]
      have hsT : T.scale = sumUp (i + 1) n (fun k => |Y.u i k|) := by
        rw [t1, h1, zero_add, hl]
      have hs2 : T2.s = sumUp (i + 1) n (fun k => Y.u i k /
          sumUp (i + 1) n (fun k => |Y.u i k|) *
          (Y.u i k / sumUp (i + 1) n (fun k => |Y.u i k|))) := by
        rw [u1, t3, h2, zero_add, hsT, t5, hl]
        exact sumUp_congr (fun k _ _ => by rw [hu])
      have hp := scaled_sumsq_pos (i + 1) n (fun k => Y.u i k) hsc
      rw [← hs2] at hp
      have hs := house_scalars (T2.u i T2.l) T2.s hp
      obtain ⟨c1, c2, c3, c4, c5⟩ :=
        rightTail2_keeps m n i T2 (by rw [u4, t5, hl]) hin1 hs.2.ne
      refine ⟨by rw [c1, u5, t6], ?_, ?_, ?_, ?_⟩
      · intro a b ha
        rw [c2 a b ha, u6, if_neg (by omega), hu]
      · intro a b hb
        rw [c3 a b hb, u6, if_neg (by rw [t5, hl]; omega), hu]
      · intro a ha
        rw [c4 a ha]
        simp only [St.r, u7, t7]
      · intro _
        rw [c5]
        exact mul_ne_zero hs.1 (by rw [u2]; exact hT)
  · rw [if_neg hg]
    exact ⟨rfl, fun _ _ _ => rfl, fun _ _ _ => rfl, fun _ _ => rfl, by simp [h1]⟩

end RightKeeps

section HouseholderScalar

/-- The left-hand reduction of step `i`, started with `scale = s = 0` and `l = i + 1`: when the
scale it leaves is not zero, the Householder scalar `h = f·g - s` it leaves is negative. -/
theorem leftReduce_h (m n i : Int) (Y : St ℝ) (hl : Y.l = i + 1) (h1 : Y.scale = 0)
    (h2 : Y.s = 0) :
    (leftReduce Real.sqrt m n i Y).scale ≠ 0 → (leftReduce Real.sqrt m n i Y).h < 0 := by
  obtain ⟨P, hP⟩ : ∃ P : St ℝ → Prop, P = fun T => T.scale ≠ 0 → T.h < 0 := ⟨_, rfl⟩
  have key : P (leftReduce Real.sqrt m n i Y) := by
    unfold leftReduce
    rw [whenever_eq]
    by_cases him : i < m
    · rw [if_pos him, block_cons, block_cons, block_nil]
      obtain ⟨T, eT, t1, t2, t3, t4, t5, t6⟩ := colScale_facts i m Y
      rw [eT, whenever_eq]
      have hu : ∀ a b, T.u a b = Y.u a b := fun a b => by simp only [St.u, t2]
      by_cases hsc : sumUp i m (fun k => |Y.u k i|) = 0
      · rw [if_neg (by simp [t1, h1, hsc]), hP]
        intro hne
        exact absurd (by rw [t1, h1, hsc, zero_add]) hne
      · have hT : T.scale ≠ 0 := by simp [t1, h1, hsc]
        rw [if_pos hT, block_cons]
        obtain ⟨T2, eT2, u1, u2, u3, u4, u5, u6⟩ := colNorm_facts i m T hT
        rw [eT2]
        have hsT : T.scale = sumUp i m (fun k => |Y.u k i|) := by rw [t1, h1, zero_add]
        have hs2 : T2.s = sumUp i m (fun k => Y.u k i / sumUp i m (fun k => |Y.u k i|) *
            (Y.u k i / sumUp i m (fun k => |Y.u k i|))) := by
          rw [u1, t3, h2, zero_add, hsT]
          exact sumUp_congr (fun k _ _ => by rw [hu])
        have hp := scaled_sumsq_pos i m (fun k => Y.u k i) hsc
        rw [← hs2] at hp
        have hs := house_scalars (T2.u i i) T2.s hp
        apply block_step (fun X : St ℝ => X = { T2.ckU i i with f := T2.u i i })
        · rfl
        rintro X rfl
        apply block_step (fun X : St ℝ => X.l = i + 1 ∧ X.s = T2.s ∧ X.f = T2.u i i ∧
          X.g = -SIGN (Real.sqrt T2.s) (T2.u i i))
        · refine ⟨?_, ?_, ?_, ?_⟩
          · simp only [St.ckU]
            rw [u4, t5, hl]
          · simp only [St.ckU]
          · simp only [St.ckU]
          · simp only [St.ckU]
        rintro X ⟨x1, x2, x3, x4⟩
        apply block_step (fun X1 : St ℝ => X1.l = i + 1 ∧ X1.h < 0)
        · refine ⟨x1, ?_⟩
          simp only
          rw [x2, x3, x4]
          exact hs.2
        rintro X1 ⟨y1, y2⟩
        apply block_step (fun X2 : St ℝ => X2.l = i + 1 ∧ X2.h < 0)
        · refine ⟨?_, ?_⟩
          · simp only [St.wrU, St.ckU]
            exact y1
          · simp only [St.wrU, St.ckU]
            exact y2
        rintro X2 ⟨z1, z2⟩
        apply block_step (fun X3 : St ℝ => HRel i (i + 1) X2 X3)
        · exact PresOn_whenever (HRel_preOrd i (i + 1)) (leftApply_hrel m n i) X2 z1
        rintro X3 ⟨w1, -⟩
        apply block_step (fun X4 : St ℝ => X4.h = X3.h)
        · obtain ⟨o, e⟩ := colRescale_spec i m X3
          rw [e]
        rintro X4 v1
        rw [block_nil, hP]
        intro _
        rw [v1, w1]
        exact z2
    · rw [if_neg him, hP]
      intro hne
      exact absurd h1 hne
  rw [hP] at key
  exact key

/-- The right-hand reduction of step `i`, started with `scale = s = 0` and `l = i + 1`: when
the scale it leaves is not zero, the Householder scalar `h = f·g - s` it leaves is negative. -/
theorem rightReduce_h (m n i : Int) (Y : St ℝ) (hl : Y.l = i + 1) (h1 : Y.scale = 0)
    (h2 : Y.s = 0) :
    (rightReduce Real.sqrt m n i Y).scale ≠ 0 → (rightReduce Real.sqrt m n i Y).h < 0 := by
  obtain ⟨P, hP⟩ : ∃ P : St ℝ → Prop, P = fun T => T.scale ≠ 0 → T.h < 0 := ⟨_, rfl⟩
  have key : P (rightReduce Real.sqrt m n i Y) := by
    unfold rightReduce
    rw [whenever_eq]
    by_cases hg : i < m ∧ i ≠ n - 1
    · rw [if_pos hg, block_cons, block_cons, block_nil]
      obtain ⟨T, eT, t1, t2, t3, t4, t5, t6, t7⟩ := rowScale_facts i n Y
      rw [eT, whenever_eq]
      have hu : ∀ a b, T.u a b = Y.u a b := fun a b => by simp only [St.u, t2]
      by_cases hsc : sumUp (i + 1) n (fun k => |Y.u i k|) = 0
      · rw [if_neg (by simp [t1, h1, hl, hsc]), hP]
        intro hne
        exact absurd (by rw [t1, h1, hl, hsc, zero_add]) hne
      · have hT : T.scale ≠ 0 := by simp [t1, h1, hl, hsc]
        rw [if_pos hT, block_cons]
        obtain ⟨T2, eT2, u1, u2, u3, u4, u5, u7, u6⟩ := rowNorm_facts i n T hT
        rw [eT2]
        have hsT : T.scale = sumUp (i + 1) n (fun k => |Y.u i k|) := by
          rw [t1, h1, zero_add, hl]
        have hs2 : T2.s = sumUp (i + 1) n (fun k => Y.u i k /
            sumUp (i + 1) n (fun k => |Y.u i k|) *
            (Y.u i k / sumUp (i + 1) n (fun k => |Y.u i k|))) := by
          rw [u1, t3, h2, zero_add, hsT, t5, hl]
          exact sumUp_congr (fun k _ _ => by rw [hu])
        have hp := scaled_sumsq_pos (i + 1) n (fun k => Y.u i k) hsc
        rw [← hs2] at hp
        have hs := house_scalars (T2.u i T2.l) T2.s hp
        apply block_step (fun X : St ℝ => X = { T2.ckU i T2.l with f := T2.u i T2.l })
        · rfl
        rintro X rfl
        apply block_step (fun X : St ℝ => X.l = i + 1 ∧ X.s = T2.s ∧ X.f = T2.u i T2.l ∧
          X.g = -SIGN (Real.sqrt T2.s) (T2.u i T2.l))
        · refine ⟨?_, ?_, ?_, ?_⟩
          · simp only [St.ckU]
            rw [u4, t5, hl]
          · simp only [St.ckU]
          · simp only [St.ckU]
          · simp only [St.ckU]
        rintro X ⟨x1, x2, x3, x4⟩
        apply block_step (fun X1 : St ℝ => X1.l = i + 1 ∧ X1.h < 0)
        · refine ⟨x1, ?_⟩
          simp only
          rw [x2, x3, x4]
          exact hs.2
        rintro X1 ⟨y1, y2⟩
        apply block_step (fun X2 : St ℝ => X2.l = i + 1 ∧ X2.h < 0)
        · refine ⟨?_, ?_⟩
          · simp only [St.wrU, St.ckU]
            exact y1
          · simp only [St.wrU, St.ckU]
            exact y2
        rintro X2 ⟨z1, z2⟩
        apply block_step2 (fun X3 : St ℝ => HRel (i + 1) (i + 1) X2 X3)
        · exact rightApply_hrel m n i X2 z1
        rintro X3 ⟨w1, -⟩
        apply block_step (fun X4 : St ℝ => X4.h = X3.h)
        · obtain ⟨o, e⟩ := rowRescale_spec i n X3
          rw [e]
        rintro X4 v1
        rw [block_nil, hP]
        intro _
        rw [v1, w1]
        exact z2
    · rw [if_neg hg, hP]
      intro hne
      exact absurd h1 hne
  rw [hP] at key
  exact key

end HouseholderScalar

section Phase1

set_option maxHeartbeats 2000000 in
/-- Step `i < n` of the bidiagonalisation: no division by zero is recorded; the rows of `U`
above `i`, the entries of `S` other than `S(i)` and the entries of `rv1` before `i` are not
assigned; `rv1(i)` receives `scale·g`; the pivot `U(i,i)` is not zero when `S(i)` is not zero,
and the pivot `U(i,i+1)` is not zero when the final `scale·g` is not zero. -/
theorem bidiagStep_keeps (m n i : Int) (st : St ℝ) (hin : i < n) :
    (bidiagStep Real.sqrt m n i st).dz = st.dz ∧
    (∀ a b, a < i → (bidiagStep Real.sqrt m n i st).u a b = st.u a b) ∧
    (∀ a, a ≠ i → (bidiagStep Real.sqrt m n i st).w a = st.w a) ∧
    (∀ a, a < i → (bidiagStep Real.sqrt m n i st).r a = st.r a) ∧
    (bidiagStep Real.sqrt m n i st).r i = st.scale * st.g ∧
    ((bidiagStep Real.sqrt m n i st).w i ≠ 0 → (bidiagStep Real.sqrt m n i st).u i i ≠ 0) ∧
    ((bidiagStep Real.sqrt m n i st).scale * (bidiagStep Real.sqrt m n i st).g ≠ 0 →
      (bidiagStep Real.sqrt m n i st).u i (i + 1) ≠ 0) := by
  unfold bidiagStep
  simp only [block_cons, block_nil]
  have hY1 : ({ ({ st with l := i + 1 } : St ℝ).wrR i (st.scale * st.g) with
        g := 0, s := 0, scale := 0 } : St ℝ).l = i + 1 := by simp only [St.wrR, St.ckR]
  have hY2 : ({ ({ st with l := i + 1 } : St ℝ).wrR i (st.scale * st.g) with
        g := 0, s := 0, scale := 0 } : St ℝ).scale = 0 := by simp only
  have hY3 : ({ ({ st with l := i + 1 } : St ℝ).wrR i (st.scale * st.g) with
        g := 0, s := 0, scale := 0 } : St ℝ).s = 0 := by simp only
  have hY4 : ({ ({ st with l := i + 1 } : St ℝ).wrR i (st.scale * st.g) with
        g := 0, s := 0, scale := 0 } : St ℝ).g = 0 := by simp only
  obtain ⟨a1, a2, a3⟩ := leftReduce_keeps m n i _ hY1 hY2 hY3 hY4
  clear hY1 hY2 hY3 hY4
  have a4 := @leftReduce_sameS ℝ _ Real.sqrt m n i
    ({ ({ st with l := i + 1 } : St ℝ).wrR i (st.scale * st.g) with
        g := 0, s := 0, scale := 0 })
  obtain ⟨a5, a6⟩ := @leftReduce_sameRL ℝ _ Real.sqrt m n i
    ({ ({ st with l := i + 1 } : St ℝ).wrR i (st.scale * st.g) with
        g := 0, s := 0, scale := 0 })
  generalize leftReduce Real.sqrt m n i
    ({ ({ st with l := i + 1 } : St ℝ).wrR i (st.scale * st.g) with
        g := 0, s := 0, scale := 0 }) = Z at a1 a2 a3 a4 a5 a6 ⊢
  have hZ1 : ({ Z.wrS i (Z.scale * Z.g) with g := 0, s := 0, scale := 0 } : St ℝ).l = i + 1 := by
    simp only [St.wrS, St.ckS]
    exact a6
  have hZ2 : ({ Z.wrS i (Z.scale * Z.g) with g := 0, s := 0, scale := 0 } : St ℝ).scale = 0 := by
    simp only
  have hZ3 : ({ Z.wrS i (Z.scale * Z.g) with g := 0, s := 0, scale := 0 } : St ℝ).s = 0 := by
    simp only
  have hZ4 : ({ Z.wrS i (Z.scale * Z.g) with g := 0, s := 0, scale := 0 } : St ℝ).g = 0 := by
    simp only
  obtain ⟨b1, b2, b3, b4, b5⟩ := rightReduce_keeps m n i _ hZ1 hin hZ2 hZ3 hZ4
  clear hZ1 hZ2 hZ3 hZ4
  have b6 := @rightReduce_sameS ℝ _ Real.sqrt m n i
    ({ Z.wrS i (Z.scale * Z.g) with g := 0, s := 0, scale := 0 })
  generalize rightReduce Real.sqrt m n i
    ({ Z.wrS i (Z.scale * Z.g) with g := 0, s := 0, scale := 0 }) = Z2 at b1 b2 b3 b4 b5 b6 ⊢
  simp only [SameS, St.wrS, St.wrR, St.ckS, St.ckR, St.u, St.w, St.r, Mat.set] at *
  refine ⟨by rw [b1, a1], ?_, ?_, ?_, ?_, ?_, ?_⟩
  · intro a b ha
    rw [b2 a b ha, a2 a b ha]
  · intro a ha
    rw [b6]
    simp only [ha, false_and, if_false]
    rw [a4]
  · intro a ha
    rw [b4 a (by omega), a5]
    have : ¬ (a = i) := by omega
    simp [this]
  · rw [b4 i (by omega), a5]
    simp
  · rw [b6, b3 i i (by omega)]
    simp only [and_self, if_true]
    exact a3
  · exact b5

/-- Phase 1 records no division by zero, and leaves every pivot that phases 2 and 3 divide by
different from zero: `U(a,a)` when `S(a)` is not zero, and `U(a,a+1)` when `rv1(a+1)` is not
zero. -/
theorem bidiagonalize_keeps (m n : Int) (st : St ℝ) :
    (bidiagonalize Real.sqrt m n st).dz = st.dz ∧
    (∀ a, 0 ≤ a → a < n → (bidiagonalize Real.sqrt m n st).w a ≠ 0 →
      (bidiagonalize Real.sqrt m n st).u a a ≠ 0) ∧
    (∀ a, 0 ≤ a → a + 1 < n → (bidiagonalize Real.sqrt m n st).r (a + 1) ≠ 0 →
      (bidiagonalize Real.sqrt m n st).u a (a + 1) ≠ 0) := by
  unfold bidiagonalize
  rw [loopUp_eq]
  by_cases hn : n ≤ 0
  · rw [forUp_of_le hn]
    exact ⟨rfl, fun a h0 h1 => by omega, fun a h0 h1 => by omega⟩
  · have h := forUp_inv (le_of_lt (not_le.mp hn)) (bidiagStep Real.sqrt m n)
      (fun i s => s.dz = st.dz ∧
        (∀ a, 0 ≤ a → a < i → s.w a ≠ 0 → s.u a a ≠ 0) ∧
        (∀ a, 0 ≤ a → a + 1 < i → s.r (a + 1) ≠ 0 → s.u a (a + 1) ≠ 0) ∧
        (1 ≤ i → s.scale * s.g ≠ 0 → s.u (i - 1) i ≠ 0))
      st ⟨rfl, fun a h0 h1 => by omega, fun a h0 h1 => by omega, fun h => by omega⟩
      (by
        rintro i s h0 h1 ⟨p1, p2, p3, p4⟩
        obtain ⟨q1, q2, q3, q4, q5, q6, q7⟩ := bidiagStep_keeps m n i s h1
        generalize bidiagStep Real.sqrt m n i s = t at q1 q2 q3 q4 q5 q6 q7 ⊢
        refine ⟨q1.trans p1, ?_, ?_, ?_⟩
        · intro a ha0 ha1
          by_cases e : a = i
          · rw [e]
            exact q6
          · rw [q3 a e, q2 a a (by omega)]
            exact p2 a ha0 (by omega)
        · intro a ha0 ha1
          by_cases e : a + 1 = i
          · rw [e, q5, q2 a i (by omega)]
            intro hne
            have h5 := p4 (by omega) hne
            have e2 : i - 1 = a := by omega
            rw [e2] at h5
            exact h5
          · rw [q4 (a + 1) (by omega), q2 a (a + 1) (by omega)]
            exact p3 a ha0 (by omega)
        · intro _
          rw [add_sub_cancel_right]
          exact q7)
    exact ⟨h.1, h.2.1, h.2.2.1⟩

end Phase1

section Phase2

variable {α : Type} [LinearOrderedField α]

theorem ARel_preOrd (i : Int) : PreOrd (ARel i : St α → St α → Prop) where
  refl := fun _ => ⟨rfl, rfl, rfl, rfl, rfl, fun _ => rfl⟩
  trans := fun a b c h1 h2 => by
    obtain ⟨a1, a2, a3, a4, a5, a6⟩ := h1
    obtain ⟨b1, b2, b3, b4, b5, b6⟩ := h2
    refine ⟨b1.trans a1, b2.trans a2, b3.trans a3, b4.trans a4, b5.trans a5, fun h => ?_⟩
    rw [b6 (by simp only [St.u] at h ⊢; rw [a1, a4, a5]; exact h), a6 h]

set_option maxHeartbeats 400000 in
/-- The guarded part of step `i` of the right-hand accumulation (lines 153–168) assigns only
`V`, `s` and the bounds record, and records no division by zero when the pivot `U(i,l)` is not
zero whenever `g` is not zero. -/
theorem accumRightGuard_arel (n i : Int) :
    Pres (ARel i) (whenever (fun _ => i < n - 1) (block [
      whenever (fun st => st.g ≠ 0) (block [
        loopUp (fun st => st.l) (fun _ => n) (fun j st =>
          ((((st.ckU i j).ckU i st.l).dv (st.u i st.l)).dv st.g).wrV j i
            ((st.u i j / st.u i st.l) / st.g)),
        loopUp (fun st => st.l) (fun _ => n) (fun j => block [
          fun st => { st with s := 0 },
          loopUp (fun st => st.l) (fun _ => n) (fun k st =>
            { (st.ckU i k).ckV k j with s := st.s + st.u i k * st.v k j }),
          loopUp (fun st => st.l) (fun _ => n) (fun k st =>
            (st.ckV k i).wrV k j (st.v k j + st.s * st.v k i))])]),
      loopUp (fun st => st.l) (fun _ => n) (fun j st => (st.wrV j i 0).wrV i j 0)]) :
      St α → St α) := by
  apply Pres_whenever (ARel_preOrd i)
  apply Pres_cons (ARel_preOrd i)
  · intro s
    have h : PresOn (fun _ : St α => True) (ARel i) (whenever (fun st : St α => st.g ≠ 0)
        (block [
        loopUp (fun st => st.l) (fun _ => n) (fun j st =>
          ((((st.ckU i j).ckU i st.l).dv (st.u i st.l)).dv st.g).wrV j i
            ((st.u i j / st.u i st.l) / st.g)),
        loopUp (fun st => st.l) (fun _ => n) (fun j => block [
          fun st => { st with s := 0 },
          loopUp (fun st => st.l) (fun _ => n) (fun k st =>
            { (st.ckU i k).ckV k j with s := st.s + st.u i k * st.v k j }),
          loopUp (fun st => st.l) (fun _ => n) (fun k st =>
            (st.ckV k i).wrV k j (st.v k j + st.s * st.v k i))])])) := by
      have hI : Stable (fun s : St α => True ∧ s.g ≠ 0) (ARel i) :=
        fun _ _ hs hr => ⟨trivial, by rw [hr.2.2.2.1]; exact hs.2⟩
      apply PresOn_whenever_guard (ARel_preOrd i)
      apply PresOn_cons (ARel_preOrd i) hI
      · apply PresOn_loopUp_any (ARel_preOrd i) hI
        intro j st hst
        have h3 := hst.2
        refine ⟨?_, ?_, ?_, ?_, ?_, fun h => ?_⟩
        · simp only [St.wrV, St.ckV, St.ckU, St.dv]
        · simp only [St.wrV, St.ckV, St.ckU, St.dv]
        · simp only [St.wrV, St.ckV, St.ckU, St.dv]
        · simp only [St.wrV, St.ckV, St.ckU, St.dv]
        · simp only [St.wrV, St.ckV, St.ckU, St.dv]
        · have h2 := h h3
          simp only [St.u] at h2
          simp [St.wrV, St.ckV, St.ckU, St.dv, St.u, h2, h3]
      apply PresOn_cons (ARel_preOrd i) hI
      · apply PresOn_loopUp_any (ARel_preOrd i) hI
        intro j
        apply PresOn_cons (ARel_preOrd i) hI
        · intro st _
          exact ⟨rfl, rfl, rfl, rfl, rfl, fun _ => rfl⟩
        apply PresOn_cons (ARel_preOrd i) hI
        · apply PresOn_loopUp_any (ARel_preOrd i) hI
          intro k st _
          exact ⟨rfl, rfl, rfl, rfl, rfl, fun _ => rfl⟩
        apply PresOn_cons (ARel_preOrd i) hI
        · apply PresOn_loopUp_any (ARel_preOrd i) hI
          intro k st _
          exact ⟨rfl, rfl, rfl, rfl, rfl, fun _ => rfl⟩
        exact PresOn_nil (ARel_preOrd i)
      exact PresOn_nil (ARel_preOrd i)
    exact h s trivial
  apply Pres_cons (ARel_preOrd i)
  · apply Pres_loopUp (ARel_preOrd i)
    intro j st
    exact ⟨rfl, rfl, rfl, rfl, rfl, fun _ => rfl⟩
  exact Pres_nil (ARel_preOrd i)

/-- Step `i` of the right-hand accumulation (lines 151–171): `U`, `S` and `rv1` are not
assigned, `g` and `l` leave as `rv1(i)` and `i`, and no division by zero is recorded when the
pivot `U(i,l)` is not zero whenever `g` is not zero. -/
theorem accumRightStep_keeps (n i : Int) (st : St α)
    (h : i < n - 1 → st.g ≠ 0 → st.u i st.l ≠ 0) :
    (accumRightStep n i st).U = st.U ∧ (accumRightStep n i st).S = st.S ∧
    (accumRightStep n i st).rv1 = st.rv1 ∧ (accumRightStep n i st).dz = st.dz ∧
    (accumRightStep n i st).g = st.r i ∧ (accumRightStep n i st).l = i := by
  unfold accumRightStep
  rw [block_cons]
  by_cases e : i < n - 1
  · obtain ⟨a1, a2, a3, a4, a5, a6⟩ := accumRightGuard_arel n i st
    have a7 := a6 (h e)
    clear a6
    generalize whenever (fun _ => i < n - 1) _ st = T at a1 a2 a3 a4 a5 a7 ⊢
    simp only [block_cons, block_nil, St.wrV, St.ckV, St.ckR, St.r]
    exact ⟨a1, a2, a3, a7, by rw [a3], trivial⟩
  · rw [whenever_eq, if_neg e]
    simp only [block_cons, block_nil, St.wrV, St.ckV, St.ckR, St.r]
    exact ⟨trivial, trivial, trivial, trivial, trivial, trivial⟩

/-- Phase 2 records no division by zero when every pivot `U(a,a+1)` with `rv1(a+1)` not zero
is not zero; it does not assign `U` and `S`. -/
theorem accumRight_keeps (n : Int) (st : St α)
    (h : ∀ a, 0 ≤ a → a + 1 < n → st.r (a + 1) ≠ 0 → st.u a (a + 1) ≠ 0) :
    (accumRight n st).U = st.U ∧ (accumRight n st).S = st.S ∧
    (accumRight n st).dz = st.dz := by
  unfold accumRight
  rw [loopDown_eq]
  by_cases hn : n - 1 < 0
  · rw [forDown_of_lt hn]
    exact ⟨rfl, rfl, rfl⟩
  · have hinv := forDown_inv (show (0 : Int) ≤ n - 1 + 1 by omega) (accumRightStep n)
      (fun i s => s.U = st.U ∧ s.S = st.S ∧ s.rv1 = st.rv1 ∧ s.dz = st.dz ∧
        (i < n - 1 → s.g = s.r (i + 1) ∧ s.l = i + 1))
      st ⟨rfl, rfl, rfl, rfl, fun hlt => absurd hlt (lt_irrefl _)⟩
      (by
        rintro i s h0 h1 ⟨p1, p2, p3, p4, p5⟩
        have hp : i < n - 1 → s.g ≠ 0 → s.u i s.l ≠ 0 := by
          intro e hg
          obtain ⟨e1, e2⟩ := p5 e
          rw [e2]
          rw [e1] at hg
          simp only [St.u, St.r] at hg ⊢
          rw [p1]
          rw [p3] at hg
          exact h i h0 (by omega) hg
        obtain ⟨q1, q2, q3, q4, q5, q6⟩ := accumRightStep_keeps n i s hp
        refine ⟨q1.trans p1, q2.trans p2, q3.trans p3, q4.trans p4, fun _ => ?_⟩
        rw [q5, q6, sub_add_cancel]
        refine ⟨?_, rfl⟩
        simp only [St.r]
        rw [q3])
    exact ⟨hinv.1, hinv.2.1, hinv.2.2.2.1⟩

end Phase2

section Phase3

variable {α : Type} [LinearOrderedField α]

theorem LRel_preOrd (i : Int) : PreOrd (LRel i : St α → St α → Prop) where
  refl := fun _ => ⟨rfl, rfl, rfl, fun _ _ _ => rfl, rfl, fun _ => rfl⟩
  trans := fun a b c h1 h2 => by
    obtain ⟨a1, a2, a3, a4, a5, a6⟩ := h1
    obtain ⟨b1, b2, b3, b4, b5, b6⟩ := h2
    refine ⟨b1.trans a1, b2.trans a2, b3.trans a3, fun x y hx => ?_, b5.trans a5, fun h => ?_⟩
    · rw [b4 x y hx, a4 x y hx]
    · rw [b6 (by rw [a5]; exact h), a6 h]

theorem LRel_stable (i L : Int) : Stable (fun st : St α => st.l = L) (LRel i) :=
  fun _ _ hs hr => hr.2.1.trans hs

theorem PRel_preOrd (i : Int) : PreOrd (PRel i : St α → St α → Prop) where
  refl := fun _ => ⟨rfl, rfl, fun _ _ _ => rfl⟩
  trans := fun a b c h1 h2 => by
    obtain ⟨a1, a2, a3⟩ := h1
    obtain ⟨b1, b2, b3⟩ := h2
    refine ⟨b1.trans a1, b2.trans a2, fun x y hx => ?_⟩
    rw [b3 x y hx, a3 x y hx]

theorem PRel_stable (i : Int) : Stable (fun _ : St α => True) (PRel i) :=
  fun _ _ _ _ => trivial

/-- The loop of line 180, which clears row `i` of `U` right of the diagonal. -/
theorem zeroRow_lrel (n i : Int) :
    PresOn (fun st : St α => st.l = i + 1) (LRel i)
      (whenever (fun _ => i < n - 1) (
        loopUp (fun st => st.l) (fun _ => n) (fun j st => st.wrU i j 0))) := by
  apply PresOn_whenever (LRel_preOrd i)
  apply PresOn_loopUp (LRel_preOrd i) (LRel_stable i (i + 1)) (i + 1) (fun s hs => by rw [hs])
  intro j hj st _
  refine ⟨?_, ?_, ?_, fun a c ha => ?_, ?_, fun _ => ?_⟩
  · simp only [St.wrU, St.ckU]
  · simp only [St.wrU, St.ckU]
  · simp only [St.wrU, St.ckU]
  · have : ¬ (a = i ∧ c = j) := fun h => by omega
    simp [St.wrU, St.ckU, St.u, Mat.set, this]
  · have : ¬ (i = j) := fun h => by omega
    simp [St.wrU, St.ckU, St.u, Mat.set, this]
  · simp only [St.wrU, St.ckU]

/-- The loop of lines 185–194, which applies the reflection of step `i` to the columns right
of the diagonal: it divides by the pivot `U(i,i)` only, and does not assign it. -/
theorem leftAccApply_lrel (m n i : Int) :
    PresOn (fun st : St α => st.l = i + 1) (LRel i)
      (whenever (fun _ => i ≠ n - 1) (
          loopUp (fun st => st.l) (fun _ => n) (fun j => block [
            fun st => { st with s := 0 },
            loopUp (fun st => st.l) (fun _ => m) (fun k st =>
              { (st.ckU k i).ckU k j with s := st.s + st.u k i * st.u k j }),
            fun st => { (st.ckU i i).dv (st.u i i) with f := (st.s / st.u i i) * st.g },
            loopUp (fun _ => i) (fun _ => m) (fun k st =>
              (st.ckU k i).wrU k j (st.u k j + st.f * st.u k i))]))) := by
  apply PresOn_whenever (LRel_preOrd i)
  apply PresOn_loopUp (LRel_preOrd i) (LRel_stable i (i + 1)) (i + 1) (fun s hs => by rw [hs])
  intro j hj
  apply PresOn_cons (LRel_preOrd i) (LRel_stable i (i + 1))
  · intro st _
    exact ⟨rfl, rfl, rfl, fun _ _ _ => rfl, rfl, fun _ => rfl⟩
  apply PresOn_cons (LRel_preOrd i) (LRel_stable i (i + 1))
  · apply PresOn_loopUp_any (LRel_preOrd i) (LRel_stable i (i + 1))
    intro k st _
    refine ⟨?_, ?_, ?_, fun a c ha => ?_, ?_, fun _ => ?_⟩ <;> simp only [St.ckU, St.u]
  apply PresOn_cons (LRel_preOrd i) (LRel_stable i (i + 1))
  · intro st _
    refine ⟨?_, ?_, ?_, fun a c ha => ?_, ?_, fun h => ?_⟩
    · simp only [St.ckU, St.dv]
    · simp only [St.ckU, St.dv]
    · simp only [St.ckU, St.dv]
    · simp only [St.ckU, St.dv, St.u]
    · simp only [St.ckU, St.dv, St.u]
    · simp only [St.u] at h
      simp [St.ckU, St.dv, St.u, h]
  apply PresOn_cons (LRel_preOrd i) (LRel_stable i (i + 1))
  · apply PresOn_loopUp (LRel_preOrd i) (LRel_stable i (i + 1)) i (fun _ _ => le_refl i)
    intro k hk st _
    refine ⟨?_, ?_, ?_, fun a c ha => ?_, ?_, fun _ => ?_⟩
    · simp only [St.wrU, St.ckU]
    · simp only [St.wrU, St.ckU]
    · simp only [St.wrU, St.ckU]
    · have : ¬ (a = k ∧ c = j) := fun h => by omega
      simp [St.wrU, St.ckU, St.u, Mat.set, this]
    · have : ¬ (i = k ∧ i = j) := fun h => by omega
      simp [St.wrU, St.ckU, St.u, Mat.set, this]
    · simp only [St.wrU, St.ckU]
  · exact PresOn_nil (LRel_preOrd i)

/-- The loop of line 195, which scales column `i` of `U` from the diagonal down. -/
theorem scaleCol_prel (m i : Int) :
    PresOn (fun _ : St α => True) (PRel i)
      (loopUp (fun _ => i) (fun _ => m) (fun j st => st.wrU j i (st.u j i * st.g))) := by
  apply PresOn_loopUp (PRel_preOrd i) (PRel_stable i) i (fun _ _ => le_refl i)
  intro j hj st _
  refine ⟨?_, ?_, fun a c ha => ?_⟩
  · simp only [St.wrU, St.ckU]
  · simp only [St.wrU, St.ckU]
  · have : ¬ (a = j ∧ c = i) := fun h => by omega
    simp [St.wrU, St.ckU, St.u, Mat.set, this]

/-- The loop of line 198, which clears column `i` of `U` from the diagonal down. -/
theorem zeroCol_prel (m i : Int) :
    PresOn (fun _ : St α => True) (PRel i)
      (loopUp (fun _ => i) (fun _ => m) (fun j st => st.wrU j i 0)) := by
  apply PresOn_loopUp (PRel_preOrd i) (PRel_stable i) i (fun _ _ => le_refl i)
  intro j hj st _
  refine ⟨?_, ?_, fun a c ha => ?_⟩
  · simp only [St.wrU, St.ckU]
  · simp only [St.wrU, St.ckU]
  · have : ¬ (a = j ∧ c = i) := fun h => by omega
    simp [St.wrU, St.ckU, St.u, Mat.set, this]

/-- The loop of line 180 records no division. -/
theorem zeroRow_dz (n i : Int) (st : St α) :
    (whenever (fun _ => i < n - 1) (
        loopUp (fun st => st.l) (fun _ => n) (fun j (st : St α) => st.wrU i j 0)) st).dz =
      st.dz := by
  have h : PresOn (fun _ : St α => True) (PRel i)
      (whenever (fun _ => i < n - 1) (
        loopUp (fun st => st.l) (fun _ => n) (fun j (st : St α) => st.wrU i j 0))) := by
    apply PresOn_whenever (PRel_preOrd i)
    apply PresOn_loopUp_any (PRel_preOrd i) (PRel_stable i)
    intro j st _
    refine ⟨?_, ?_, fun a c ha => ?_⟩
    · simp only [St.wrU, St.ckU]
    · simp only [St.wrU, St.ckU]
    · have : ¬ (a = i ∧ c = j) := fun h => by omega
      simp [St.wrU, St.ckU, St.u, Mat.set, this]
  exact (h st trivial).2.1

/-- Step `i` of the left-hand accumulation (lines 177–204), in continuation form: when the
pivot `U(i,i)` is not zero whenever `S(i)` is not zero, the step records no division by zero; it
does not assign `S` nor the rows of `U` above `i`. -/
theorem accumLeftStep_post (m n i : Int) (st : St α) (h : st.w i ≠ 0 → st.u i i ≠ 0)
    (P : St α → Prop)
    (hP : ∀ T : St α, T.dz = st.dz → T.S = st.S → (∀ a c, a < i → T.u a c = st.u a c) → P T) :
    P (accumLeftStep m n i st) := by
  unfold accumLeftStep
  apply block_step (fun t : St α => t = { st with l := i + 1 })
  · rfl
  rintro t rfl
  apply block_step (fun t : St α => t.l = i + 1 ∧ t.g = st.w i ∧ t.S = st.S ∧ t.dz = st.dz ∧
    ∀ a c, t.u a c = st.u a c)
  · exact ⟨rfl, rfl, rfl, rfl, fun _ _ => rfl⟩
  rintro t ⟨t1, t2, t3, t4, t5⟩
  apply block_step (fun Z : St α => LRel i t Z ∧ Z.dz = t.dz)
  · exact ⟨zeroRow_lrel n i t t1, zeroRow_dz n i t⟩
  rintro Z ⟨⟨z1, z2, z3, z4, z5, -⟩, z6⟩
  have hpiv : Z.g ≠ 0 → Z.u i i ≠ 0 := by
    rw [z3, t2, z5, t5]
    exact h
  obtain ⟨Q, hQ⟩ : ∃ Q : St α → Prop, Q = fun W => PRel i Z W := ⟨_, rfl⟩
  apply block_step Q
  · rw [cond_eq]
    by_cases hg : Z.g ≠ 0
    · rw [if_pos hg]
      apply block_step (fun T : St α => T.l = i + 1 ∧ T.S = Z.S ∧ T.dz = Z.dz ∧
        ∀ a c, T.u a c = Z.u a c)
      · refine ⟨?_, ?_, ?_, fun _ _ => ?_⟩
        · simp only [St.dv]
          rw [z2, t1]
        · simp only [St.dv]
        · simp [St.dv, hg]
        · simp only [St.dv, St.u]
      rintro T ⟨u1, u2, u3, u4⟩
      apply block_step (fun T2 : St α => LRel i T T2)
      · exact leftAccApply_lrel m n i T u1
      rintro T2 ⟨v1, v2, v3, v4, v5, v6⟩
      apply block_step (fun T3 : St α => PRel i T2 T3)
      · exact scaleCol_prel m i T2 trivial
      rintro T3 ⟨w1, w2, w3⟩
      rw [block_nil, hQ]
      refine ⟨by rw [w1, v1, u2], ?_, fun a c ha => ?_⟩
      · rw [w2, v6 (by rw [u4]; exact hpiv hg), u3]
      · rw [w3 a c ha, v4 a c ha, u4]
    · rw [if_neg hg, hQ]
      exact zeroCol_prel m i Z trivial
  intro W hW
  rw [hQ] at hW
  obtain ⟨x1, x2, x3⟩ := hW
  apply block_step (fun T : St α => T.dz = st.dz ∧ T.S = st.S ∧
    ∀ a c, a < i → T.u a c = st.u a c)
  · refine ⟨?_, ?_, fun a c ha => ?_⟩
    · simp only [St.wrU, St.ckU]
      rw [x2, z6, t4]
    · simp only [St.wrU, St.ckU]
      rw [x1, z1, t3]
    · have : ¬ (a = i ∧ c = i) := fun h => by omega
      simp only [St.wrU, St.ckU, St.u, Mat.set, this, if_false]
      have e1 := x3 a c ha
      have e2 := z4 a c ha
      have e3 := t5 a c
      simp only [St.u] at e1 e2 e3
      rw [e1, e2, e3]
  rintro T ⟨y1, y2, y3⟩
  rw [block_nil]
  exact hP T y1 y2 y3

/-- Step `i` of the left-hand accumulation (lines 177–204): when the pivot `U(i,i)` is not
zero whenever `S(i)` is not zero, the step records no division by zero; it does not assign `S`
nor the rows of `U` above `i`. -/
theorem accumLeftStep_keeps (m n i : Int) (st : St α) (h : st.w i ≠ 0 → st.u i i ≠ 0) :
    (accumLeftStep m n i st).dz = st.dz ∧ (accumLeftStep m n i st).S = st.S ∧
    ∀ a c, a < i → (accumLeftStep m n i st).u a c = st.u a c :=
  accumLeftStep_post m n i st h
    (fun T => T.dz = st.dz ∧ T.S = st.S ∧ ∀ a c, a < i → T.u a c = st.u a c)
    (fun _ h1 h2 h3 => ⟨h1, h2, h3⟩)

/-- Phase 3 records no division by zero when every pivot `U(a,a)` with `S(a)` not zero is not
zero. -/
theorem accumLeft_keeps (m n : Int) (st : St α)
    (h : ∀ a, 0 ≤ a → a < n → st.w a ≠ 0 → st.u a a ≠ 0) :
    (accumLeft m n st).dz = st.dz := by
  unfold accumLeft
  rw [loopDown_eq]
  by_cases hn : n - 1 < 0
  · rw [forDown_of_lt hn]
  · have hinv := forDown_inv (show (0 : Int) ≤ n - 1 + 1 by omega) (accumLeftStep m n)
      (fun i s => s.dz = st.dz ∧ s.S = st.S ∧ ∀ a c, a ≤ i → s.u a c = st.u a c)
      st ⟨rfl, rfl, fun _ _ _ => rfl⟩
      (by
        rintro i s h0 h1 ⟨p1, p2, p3⟩
        have hp : s.w i ≠ 0 → s.u i i ≠ 0 := by
          rw [p3 i i (le_refl i)]
          simp only [St.w]
          rw [p2]
          exact h i h0 (by omega)
        obtain ⟨q1, q2, q3⟩ := accumLeftStep_keeps m n i s hp
        refine ⟨q1.trans p1, q2.trans p2, fun a c ha => ?_⟩
        rw [q3 a c (by omega), p3 a c (by omega)])
    exact hinv.1

end Phase3

section PhasesClaim

/-- C13 (no division by zero in phases 1–3): over the reals, the bidiagonalization and the two
accumulation phases of a call record no division by zero, whatever the shape of the input (so
in particular for `m ≥ n ≥ 1`).  The reasons are stated with it.  Entered as in the loop body,
with `scale = s = 0` and `l = i + 1`, the left-hand and the right-hand reduction leave a
Householder scalar `h = f·g - s < 0` whenever the `scale` they leave is not zero.  Phase 1
records no division by zero from any state, and leaves the pivot `U(a,a)` different from zero
when `S(a)` is not zero and the pivot `U(a,a+1)` different from zero when `rv1(a+1)` is not
zero.  Phase 2, which divides by `U(i,l)` and `g = rv1(l)` when `g` is not zero, and phase 3,
which divides by `g = S(i)` and `U(i,i)` when `g` is not zero, record no division by zero from
a state with such pivots. -/
theorem phases_divisions (m n : Int) :
    (∀ (A S V : Mat ℝ) (R : Int → Int → ℝ),
      (block [bidiagonalize Real.sqrt A.rows A.cols, accumRight A.cols,
        accumLeft A.rows A.cols] (svdInit A S V R)).dz = false) ∧
    (∀ (i : Int) (Y : St ℝ), Y.l = i + 1 → Y.scale = 0 → Y.s = 0 →
      ((leftReduce Real.sqrt m n i Y).scale ≠ 0 → (leftReduce Real.sqrt m n i Y).h < 0) ∧
      ((rightReduce Real.sqrt m n i Y).scale ≠ 0 → (rightReduce Real.sqrt m n i Y).h < 0)) ∧
    (∀ st : St ℝ, (bidiagonalize Real.sqrt m n st).dz = st.dz ∧
      (∀ a, 0 ≤ a → a < n → (bidiagonalize Real.sqrt m n st).w a ≠ 0 →
        (bidiagonalize Real.sqrt m n st).u a a ≠ 0) ∧
      (∀ a, 0 ≤ a → a + 1 < n → (bidiagonalize Real.sqrt m n st).r (a + 1) ≠ 0 →
        (bidiagonalize Real.sqrt m n st).u a (a + 1) ≠ 0)) ∧
    (∀ st : St ℝ, (∀ a, 0 ≤ a → a + 1 < n → st.r (a + 1) ≠ 0 → st.u a (a + 1) ≠ 0) →
      (accumRight n st).dz = st.dz) ∧
    (∀ st : St ℝ, (∀ a, 0 ≤ a → a < n → st.w a ≠ 0 → st.u a a ≠ 0) →
      (accumLeft m n st).dz = st.dz) := by
  refine ⟨fun A S V R => ?_, fun i Y hl h1 h2 => ⟨leftReduce_h m n i Y hl h1 h2,
    rightReduce_h m n i Y hl h1 h2⟩, fun st => bidiagonalize_keeps m n st,
    fun st h => (accumRight_keeps n st h).2.2, fun st h => accumLeft_keeps m n st h⟩
  rw [block_cons, block_cons, block_cons, block_nil]
  obtain ⟨a1, a2, a3⟩ := bidiagonalize_keeps A.rows A.cols (svdInit A S V R)
  generalize bidiagonalize Real.sqrt A.rows A.cols (svdInit A S V R) = s1 at a1 a2 a3 ⊢
  obtain ⟨b1, b2, b3⟩ := accumRight_keeps A.cols s1 a3
  generalize accumRight (A.cols : Int) s1 = s2 at b1 b2 b3 ⊢
  have c := accumLeft_keeps A.rows A.cols s2 (by
    intro a h0 h1
    simp only [St.w, St.u]
    rw [b1, b2]
    exact a2 a h0 h1)
  rw [c, b3, a1]
  rfl

end PhasesClaim

section DiagonalLoops

variable {α : Type} [LinearOrderedField α]

/-- A sum with at most one nonzero term. -/
theorem sumUp_single {lo hi : Int} (j : Int) (f : Int → α) (h1 : lo ≤ j) (h2 : j < hi)
    (h : ∀ k, lo ≤ k → k < hi → k ≠ j → f k = 0) : sumUp lo hi f = f j := by
  unfold sumUp
  rw [Finset.sum_eq_single (j - lo).toNat]
  · congr 1
    omega
  · intro t ht hne
    rw [Finset.mem_range] at ht
    exact h _ (by omega) (by omega) (by omega)
  · intro hn
    exact absurd (Finset.mem_range.mpr (by omega)) hn

omit [LinearOrderedField α] in
/-- Writing the value that is already there changes nothing. -/
theorem Mat.set_self (M : Mat α) (i j : Int) : M.set i j (M.val i j) = M := by
  unfold Mat.set
  have e : (fun a b => if a = i ∧ b = j then M.val i j else M.val a b) = M.val := by
    funext a b
    split
    · rename_i h
      rw [h.1, h.2]
    · rfl
  rw [e]

omit [LinearOrderedField α] in
theorem KeepAll_preOrd : PreOrd (KeepAll : St α → St α → Prop) where
  refl := fun _ => ⟨rfl, rfl, rfl, rfl, rfl, rfl, rfl, rfl, rfl, rfl⟩
  trans := fun a b c h1 h2 => by
    obtain ⟨a1, a2, a3, a4, a5, a6, a7, a8, a9, a10⟩ := h1
    obtain ⟨b1, b2, b3, b4, b5, b6, b7, b8, b9, b10⟩ := h2
    exact ⟨b1.trans a1, b2.trans a2, b3.trans a3, b4.trans a4, b5.trans a5, b6.trans a6,
      b7.trans a7, b8.trans a8, b9.trans a9, b10.trans a10⟩

/-- The loop that accumulates in `s` the product of the columns `i` and `j` of `U`
(lines 99–100 and 187–188). -/
theorem dotCol_spec (lo hi : St α → Int) (i j : Int) (st : St α) :
    ∃ o, loopUp lo hi (fun k (st : St α) =>
        { (st.ckU k i).ckU k j with s := st.s + st.u k i * st.u k j }) st =
      { st with s := st.s + sumUp (lo st) (hi st) (fun k => st.u k i * st.u k j), oob := o } := by
  rw [loopUp_eq]
  by_cases hle : hi st ≤ lo st
  · rw [forUp_of_le hle, sumUp_of_le hle, add_zero]
    exact ⟨st.oob, rfl⟩
  · exact forUp_inv (le_of_lt (not_le.mp hle))
      (fun k (st : St α) => { (st.ckU k i).ckU k j with s := st.s + st.u k i * st.u k j })
      (fun k t => ∃ o,
        t = { st with s := st.s + sumUp (lo st) k (fun k => st.u k i * st.u k j), oob := o })
      st ⟨st.oob, by rw [sumUp_of_le (le_refl _), add_zero]⟩
      (by
        rintro k t h0 - ⟨o, rfl⟩
        refine ⟨(o || !st.U.inb k i) || !st.U.inb k j, ?_⟩
        rw [sumUp_succ h0]
        simp only [St.ckU, St.u, add_assoc])

/-- The loop that adds `f` times column `i` of `U` to column `j` (lines 102–103 and 190–191)
changes no value when `f` is zero. -/
theorem addCol_zero (lo hi : St α → Int) (i j : Int) (st : St α) (hf : st.f = 0) :
    ∃ o, loopUp lo hi (fun k (st : St α) =>
        (st.ckU k i).wrU k j (st.u k j + st.f * st.u k i)) st = { st with oob := o } := by
  rw [loopUp_eq]
  by_cases hle : hi st ≤ lo st
  · rw [forUp_of_le hle]
    exact ⟨st.oob, rfl⟩
  · exact forUp_inv (le_of_lt (not_le.mp hle))
      (fun k (st : St α) => (st.ckU k i).wrU k j (st.u k j + st.f * st.u k i))
      (fun _ t => ∃ o, t = { st with oob := o })
      st ⟨st.oob, rfl⟩
      (by
        rintro k t - - ⟨o, rfl⟩
        refine ⟨(o || !st.U.inb k i) || !st.U.inb k j, ?_⟩
        simp only [St.wrU, St.ckU, St.u, hf, zero_mul, add_zero, Mat.set_self, Mat.inb])

end DiagonalLoops

section DiagonalPhase1

variable {α : Type} [LinearOrderedField α]

omit [LinearOrderedField α] in
theorem SameV_preOrd : PreOrd (SameV : St α → St α → Prop) where
  refl := fun _ => rfl
  trans := fun _ _ _ h1 h2 => Eq.trans h2 h1

theorem leftReduce_sameV (sqrt : α → α) (m n i : Int) :
    Pres SameV (leftReduce sqrt m n i) := by
  unfold leftReduce
  repeat' first
    | apply Pres_nil SameV_preOrd
    | apply Pres_cons SameV_preOrd
    | apply Pres_whenever SameV_preOrd
    | apply Pres_loopUp SameV_preOrd
    | (intro st; simp [SameV, St.ckU, St.wrU, St.dv]; done)
    | intro _

/-- The scalars of a reduction step on a column whose only nonzero entry is `x`. -/
theorem diag_scalars (sqrt : α → α) (hs1 : sqrt 1 = 1) (x : α) (hx : x ≠ 0) :
    x / |x| * (x / |x|) = 1 ∧ -SIGN (sqrt 1) (x / |x|) = -(x / |x|) ∧
    (x / |x| - -(x / |x|)) * |x| = 2 * x ∧ |x| * -(x / |x|) = -x ∧
    x / |x| * -(x / |x|) - 1 ≠ 0 := by
  rcases lt_or_gt_of_ne hx with h | h
  · have e : x / |x| = -1 := by
      rw [abs_of_neg h, div_neg, div_self hx]
    rw [e, hs1, abs_of_neg h]
    refine ⟨by ring, ?_, by ring, by ring, by norm_num⟩
    unfold SIGN
    rw [if_neg (by norm_num), abs_one]
  · have e : x / |x| = 1 := by
      rw [abs_of_pos h, div_self hx]
    rw [e, hs1, abs_of_pos h]
    refine ⟨by ring, ?_, by ring, by ring, by norm_num⟩
    unfold SIGN
    rw [if_pos (by norm_num), abs_one]

theorem IsDiag_congr {p : Int} {e e' : Int → α} {M : Mat α}
    (h : ∀ a, 0 ≤ a → a < p → e a = e' a) (hM : IsDiag p e M) : IsDiag p e' M := by
  intro a b h1 h2 h3 h4
  rw [hM a b h1 h2 h3 h4, h a h1 h2]

/-- The loop of lines 97–104 on a state whose `U` is diagonal inside the square: it assigns at
most `s`, `f` and entries of `U` with the value they have. -/
theorem leftApply_diag (p i : Int) (e : Int → α) (h0 : 0 ≤ i) :
    PresOn (fun st : St α => st.l = i + 1 ∧ st.h ≠ 0 ∧ IsDiag p e st.U) KeepAll
      (loopUp (fun st => st.l) (fun _ => p) (fun j => block [
        fun st => { st with s := 0 },
        loopUp (fun _ => i) (fun _ => p) (fun k st =>
          { (st.ckU k i).ckU k j with s := st.s + st.u k i * st.u k j }),
        fun st => { st.dv st.h with f := st.s / st.h },
        loopUp (fun _ => i) (fun _ => p) (fun k st =>
          (st.ckU k i).wrU k j (st.u k j + st.f * st.u k i))])) := by
  have hI : Stable (fun st : St α => st.l = i + 1 ∧ st.h ≠ 0 ∧ IsDiag p e st.U) KeepAll := by
    rintro s t ⟨s1, s2, s3⟩ ⟨a1, -, -, -, -, -, -, a8, a9, -⟩
    exact ⟨a9.trans s1, by rw [a8]; exact s2, by rw [a1]; exact s3⟩
  apply PresOn_loopUp_in KeepAll_preOrd hI (i + 1) p (fun s hs => by rw [hs.1])
    (fun _ _ => le_refl p)
  rintro j hj1 hj2 s ⟨s1, s2, s3⟩
  rw [block_cons, block_cons]
  obtain ⟨o, e1⟩ := dotCol_spec (fun _ => i) (fun _ => p) i j ({ s with s := 0 } : St α)
  rw [e1, block_cons, block_cons, block_nil]
  have hsum : sumUp i p (fun k => s.u k i * s.u k j) = 0 := by
    apply sumUp_zero
    intro k hk1 hk2
    simp only [St.u]
    by_cases hki : k = i
    · rw [hki, s3 i j h0 (by omega) (by omega) hj2, if_neg (by omega), mul_zero]
    · rw [s3 k i (by omega) hk2 h0 (by omega), if_neg hki, zero_mul]
  obtain ⟨o2, e2⟩ := addCol_zero (fun _ => i) (fun _ => p) i j
    ({ (({ ({ s with s := 0 } : St α) with
        s := 0 + sumUp i p (fun k => s.u k i * s.u k j), oob := o } : St α).dv s.h) with
      f := (0 + sumUp i p (fun k => s.u k i * s.u k j)) / s.h } : St α)
    (by simp only [hsum, add_zero, zero_div])
  simp only [St.u] at e2 ⊢
  rw [e2]
  refine ⟨?_, ?_, ?_, ?_, ?_, ?_, ?_, ?_, ?_, ?_⟩ <;> simp [St.dv, s2]

theorem IsDiag_diag {p : Int} {e : Int → α} {M : Mat α} (hM : IsDiag p e M) (a : Int)
    (h1 : 0 ≤ a) (h2 : a < p) : M.val a a = e a := by
  rw [hM a a h1 h2 h1 h2, if_pos rfl]

theorem IsDiag_off {p : Int} {e : Int → α} {M : Mat α} (hM : IsDiag p e M) (a b : Int)
    (h1 : 0 ≤ a) (h2 : a < p) (h3 : 0 ≤ b) (h4 : b < p) (hab : a ≠ b) : M.val a b = 0 := by
  rw [hM a b h1 h2 h3 h4, if_neg hab]

/-- A map `φ` with `φ 0 = 0` applied to the part of column `i` from the diagonal down. -/
theorem IsDiag_mapCol {p : Int} {e : Int → α} {M : Mat α} (i m : Int) (hm : p ≤ m)
    (φ : α → α) (hφ : φ 0 = 0) (hM : IsDiag p e M) (e' : Int → α) (he : e' i = φ (e i))
    (hne : ∀ a, a ≠ i → e' a = e a) :
    IsDiag p e' { M with val := fun a b =>
      if b = i ∧ i ≤ a ∧ a < m then φ (M.val a b) else M.val a b } := by
  intro a b h1 h2 h3 h4
  simp only
  by_cases hab : a = b
  · rw [if_pos hab, ← hab, IsDiag_diag hM a h1 h2]
    by_cases hai : a = i
    · rw [hai, he]
      split
      · rfl
      · rename_i hn
        exact absurd ⟨rfl, le_refl i, by omega⟩ hn
    · rw [if_neg (fun h => hai h.1), hne a hai]
  · rw [if_neg hab, IsDiag_off hM a b h1 h2 h3 h4 hab]
    split
    · exact hφ
    · rfl

/-- The assignment of the diagonal entry `(i, i)`. -/
theorem IsDiag_set {p : Int} {e : Int → α} {M : Mat α} (i : Int) (v : α)
    (hM : IsDiag p e M) (e' : Int → α) (he : e' i = v) (hne : ∀ a, a ≠ i → e' a = e a) :
    IsDiag p e' (M.set i i v) := by
  intro a b h1 h2 h3 h4
  simp only [Mat.set]
  by_cases hab : a = b
  · rw [if_pos hab, ← hab]
    by_cases hai : a = i
    · rw [if_pos ⟨hai, hai⟩, hai, he]
    · rw [if_neg (fun h => hai h.1), hne a hai, IsDiag_diag hM a h1 h2]
  · rw [if_neg hab, if_neg (fun h => hab (h.1.trans h.2.symm)),
      IsDiag_off hM a b h1 h2 h3 h4 hab]

/-- The left-hand reduction of step `i` on a state whose `U` is diagonal inside the square,
with diagonal `2·d` before `i` and `d` from `i` on: the diagonal entry `i` becomes `2·d i`,
`scale·g` becomes `-d i`, and no division by zero is recorded. -/
theorem leftReduce_diag (sqrt : α → α) (hs1 : sqrt 1 = 1) (p i : Int) (d : Int → α) (Y : St α)
    (h0 : 0 ≤ i) (h1 : i < p) (hl : Y.l = i + 1) (hsc : Y.scale = 0) (hs : Y.s = 0)
    (hg : Y.g = 0) (hU : IsDiag p (fun a => if a < i then 2 * d a else d a) Y.U) :
    IsDiag p (fun a => if a < i + 1 then 2 * d a else d a) (leftReduce sqrt p p i Y).U ∧
    (leftReduce sqrt p p i Y).scale * (leftReduce sqrt p p i Y).g = -d i ∧
    (leftReduce sqrt p p i Y).dz = Y.dz := by
  obtain ⟨P, hP⟩ : ∃ P : St α → Prop, P = fun T =>
    IsDiag p (fun a => if a < i + 1 then 2 * d a else d a) T.U ∧ T.scale * T.g = -d i ∧
      T.dz = Y.dz := ⟨_, rfl⟩
  have hii : Y.U.val i i = d i := by
    rw [IsDiag_diag hU i h0 h1]
    simp only [lt_self_iff_false, if_false]
  have hki : ∀ k, i ≤ k → k < p → k ≠ i → Y.U.val k i = 0 := fun k hk1 hk2 hne =>
    IsDiag_off hU k i (by omega) hk2 h0 h1 hne
  have key : P (leftReduce sqrt p p i Y) := by
    unfold leftReduce
    rw [whenever_eq, if_pos h1]
    apply block_step (fun T : St α => T.scale = |d i| ∧ T.U = Y.U ∧ T.s = 0 ∧ T.g = 0 ∧
      T.l = i + 1 ∧ T.dz = Y.dz)
    · obtain ⟨o, e⟩ := colScale_spec i p Y
      rw [e]
      refine ⟨?_, rfl, hs, hg, hl, rfl⟩
      simp only
      rw [hsc, zero_add, sumUp_single i _ (le_refl i) h1 ?_]
      · simp only [St.u]
        rw [hii]
      · intro k hk1 hk2 hne
        simp only [St.u]
        rw [hki k hk1 hk2 hne, abs_zero]
    rintro T ⟨t1, t2, t3, t4, t5, t6⟩
    apply block_step P
    · rw [whenever_eq]
      by_cases hd : d i = 0
      · rw [if_neg (by rw [t1, hd, abs_zero]; exact fun h => h rfl), hP]
        refine ⟨?_, by rw [t4, mul_zero, hd, neg_zero], t6⟩
        rw [t2]
        refine IsDiag_congr (fun a ha1 ha2 => ?_) hU
        by_cases hai : a = i
        · rw [hai, if_neg (lt_irrefl i), if_pos (by omega), hd, mul_zero]
        · by_cases hlt : a < i
          · rw [if_pos hlt, if_pos (by omega)]
          · rw [if_neg hlt, if_neg (by omega)]
      · have hT : T.scale ≠ 0 := by
          rw [t1]
          exact abs_ne_zero.mpr hd
        rw [if_pos hT]
        obtain ⟨c1, c2, c3, c4, c5⟩ := diag_scalars sqrt hs1 (d i) hd
        apply block_step (fun T2 : St α => T2.scale = |d i| ∧ T2.s = 1 ∧ T2.l = i + 1 ∧
          T2.dz = Y.dz ∧
          IsDiag p (fun a => if a = i then d i / |d i| else if a < i then 2 * d a else d a) T2.U)
        · obtain ⟨o, e⟩ := colNorm_spec i p T hT
          rw [e]
          refine ⟨t1, ?_, t5, t6, ?_⟩
          · simp only
            rw [t3, zero_add, sumUp_single i _ (le_refl i) h1 ?_]
            · simp only [St.u]
              rw [t2, hii, t1]
              exact c1
            · intro k hk1 hk2 hne
              simp only [St.u]
              rw [t2, hki k hk1 hk2 hne, zero_div, mul_zero]
          · simp only
            rw [t2, t1]
            refine IsDiag_mapCol i p (le_refl p) (fun x => x / |d i|) (zero_div _) hU _ ?_ ?_
            · simp only [if_true, lt_self_iff_false, if_false]
            · intro a hai
              simp only [hai, if_false]
        rintro T2 ⟨u1, u2, u3, u4, u5⟩
        have hf : T2.u i i = d i / |d i| := by
          simp only [St.u]
          rw [IsDiag_diag u5 i h0 h1]
          simp only [if_true]
        apply block_step (fun X : St α => X = { T2.ckU i i with f := T2.u i i })
        · rfl
        rintro X rfl
        apply block_step (fun X : St α => X.scale = |d i| ∧ X.s = 1 ∧ X.l = i + 1 ∧
          X.dz = Y.dz ∧ X.U = T2.U ∧ X.f = d i / |d i| ∧ X.g = -(d i / |d i|))
        · refine ⟨?_, ?_, ?_, ?_, ?_, ?_, ?_⟩
          · simp only [St.ckU]
            exact u1
          · simp only [St.ckU]
            exact u2
          · simp only [St.ckU]
            exact u3
          · simp only [St.ckU]
            exact u4
          · simp only [St.ckU]
          · simp only [St.ckU]
            exact hf
          · simp only [St.ckU]
            rw [u2, hf]
            exact c2
        rintro X ⟨x1, x2, x3, x4, x5, x6, x7⟩
        apply block_step (fun X1 : St α => X1.scale = |d i| ∧ X1.l = i + 1 ∧
          X1.dz = Y.dz ∧ X1.U = T2.U ∧ X1.f = d i / |d i| ∧ X1.g = -(d i / |d i|) ∧ X1.h ≠ 0)
        · refine ⟨x1, x3, x4, x5, x6, x7, ?_⟩
          simp only
          rw [x2, x6, x7]
          exact c5
        rintro X1 ⟨y1, y3, y4, y5, y6, y7, y8⟩
        apply block_step (fun X2 : St α => X2.scale = |d i| ∧ X2.l = i + 1 ∧
          X2.dz = Y.dz ∧ X2.g = -(d i / |d i|) ∧ X2.h ≠ 0 ∧
          IsDiag p (fun a => if a = i then d i / |d i| - -(d i / |d i|)
            else if a < i then 2 * d a else d a) X2.U)
        · refine ⟨?_, ?_, ?_, ?_, ?_, ?_⟩
          · simp only [St.wrU, St.ckU]
            exact y1
          · simp only [St.wrU, St.ckU]
            exact y3
          · simp only [St.wrU, St.ckU]
            exact y4
          · simp only [St.wrU, St.ckU]
            exact y7
          · simp only [St.wrU, St.ckU]
            exact y8
          · simp only [St.wrU, St.ckU]
            rw [y5, y6, y7]
            refine IsDiag_set i _ u5 _ ?_ ?_
            · simp only [if_true]
            · intro a hai
              simp only [hai, if_false]
        rintro X2 ⟨z1, z3, z4, z7, z8, z5⟩
        apply block_step (fun X3 : St α => KeepAll X2 X3)
        · exact PresOn_whenever KeepAll_preOrd (leftApply_diag p i _ h0) X2 ⟨z3, z8, z5⟩
        rintro X3 ⟨w1, -, -, -, -, w6, w7, -, -, w10⟩
        apply block_step P
        · obtain ⟨o, e⟩ := colRescale_spec i p X3
          rw [e, hP]
          refine ⟨?_, ?_, ?_⟩
          · simp only
            rw [w1, w7, z1]
            refine IsDiag_mapCol i p (le_refl p) (fun x => x * |d i|) (zero_mul _) z5 _ ?_ ?_
            · simp only [if_true, lt_add_one]
              exact c3.symm
            · intro a hai
              simp only [hai, if_false]
              by_cases hlt : a < i
              · rw [if_pos hlt, if_pos (by omega)]
              · rw [if_neg hlt, if_neg (by omega)]
          · simp only
            rw [w7, w6, z1, z7]
            exact c4
          · simp only
            rw [w10, z4]
        intro X4 hX4
        rw [block_nil]
        exact hX4
    intro T3 hT3
    rw [block_nil]
    exact hT3
  rw [hP] at key
  exact key

/-- The right-hand reduction of step `i` on a state whose `U` is diagonal inside the square,
entered with `scale = 0`: the row has no entry right of the diagonal, so nothing is assigned. -/
theorem rightReduce_diag (sqrt : α → α) (p i : Int) (e : Int → α) (Y : St α)
    (h0 : 0 ≤ i) (hl : Y.l = i + 1) (hsc : Y.scale = 0) (hU : IsDiag p e Y.U) :
    ∃ o, rightReduce sqrt p p i Y = { Y with oob := o } := by
  unfold rightReduce
  rw [whenever_eq]
  by_cases hg : i < p ∧ i ≠ p - 1
  · rw [if_pos hg, block_cons, block_cons, block_nil]
    obtain ⟨o, e1⟩ := rowScale_spec i p Y
    have hsum : sumUp Y.l p (fun k => |Y.u i k|) = 0 := by
      apply sumUp_zero
      intro k hk1 hk2
      simp only [St.u]
      rw [IsDiag_off hU i k h0 hg.1 (by omega) hk2 (by omega), abs_zero]
    rw [e1, hsum, add_zero, whenever_eq, if_neg (fun h => h hsc)]
    exact ⟨o, rfl⟩
  · rw [if_neg hg]
    exact ⟨Y.oob, rfl⟩

/-- Step `i` of the bidiagonalization on a state whose `U` is diagonal inside the square, with
diagonal `2·d` before `i` and `d` from `i` on. -/
theorem bidiagStep_diag (sqrt : α → α) (hs1 : sqrt 1 = 1) (p i : Int) (d : Int → α)
    (st : St α) (h0 : 0 ≤ i) (h1 : i < p)
    (hU : IsDiag p (fun a => if a < i then 2 * d a else d a) st.U)
    (hsg : st.scale * st.g = 0) :
    IsDiag p (fun a => if a < i + 1 then 2 * d a else d a) (bidiagStep sqrt p p i st).U ∧
    (bidiagStep sqrt p p i st).w i = -d i ∧
    (∀ a, a ≠ i → (bidiagStep sqrt p p i st).w a = st.w a) ∧
    (bidiagStep sqrt p p i st).r i = 0 ∧
    (∀ a, a ≠ i → (bidiagStep sqrt p p i st).r a = st.r a) ∧
    (bidiagStep sqrt p p i st).scale * (bidiagStep sqrt p p i st).g = 0 ∧
    (bidiagStep sqrt p p i st).V = st.V ∧ (bidiagStep sqrt p p i st).dz = st.dz := by
  obtain ⟨P, hP⟩ : ∃ P : St α → Prop, P = fun T =>
    IsDiag p (fun a => if a < i + 1 then 2 * d a else d a) T.U ∧ T.w i = -d i ∧
    (∀ a, a ≠ i → T.w a = st.w a) ∧ T.r i = 0 ∧ (∀ a, a ≠ i → T.r a = st.r a) ∧
    T.scale * T.g = 0 ∧ T.V = st.V ∧ T.dz = st.dz := ⟨_, rfl⟩
  have key : P (bidiagStep sqrt p p i st) := by
    unfold bidiagStep
    apply block_step (fun t : St α => t = { st with l := i + 1 })
    · rfl
    rintro t rfl
    apply block_step (fun t : St α => t.l = i + 1 ∧ t.U = st.U ∧ t.S = st.S ∧ t.V = st.V ∧
      t.dz = st.dz ∧ t.r i = 0 ∧ ∀ a, a ≠ i → t.r a = st.r a)
    · refine ⟨?_, ?_, ?_, ?_, ?_, ?_, fun a ha => ?_⟩
      · simp only [St.wrR, St.ckR]
      · simp only [St.wrR, St.ckR]
      · simp only [St.wrR, St.ckR]
      · simp only [St.wrR, St.ckR]
      · simp only [St.wrR, St.ckR]
      · simp only [St.wrR, St.ckR, St.r, Mat.set, and_self, if_true]
        exact hsg
      · simp only [St.wrR, St.ckR, St.r, Mat.set, ha, false_and, if_false]
    rintro t ⟨t1, t2, t3, t4, t5, t6, t7⟩
    apply block_step (fun Y : St α => Y.l = i + 1 ∧ Y.U = st.U ∧ Y.S = st.S ∧ Y.V = st.V ∧
      Y.dz = st.dz ∧ Y.rv1 = t.rv1 ∧ Y.scale = 0 ∧ Y.s = 0 ∧ Y.g = 0)
    · exact ⟨t1, t2, t3, t4, t5, rfl, rfl, rfl, rfl⟩
    rintro Y ⟨y1, y2, y3, y4, y5, y6, y7, y8, y9⟩
    apply block_step (fun Z : St α =>
      IsDiag p (fun a => if a < i + 1 then 2 * d a else d a) Z.U ∧ Z.scale * Z.g = -d i ∧
      Z.dz = st.dz ∧ Z.S = st.S ∧ Z.V = st.V ∧ Z.rv1 = t.rv1 ∧ Z.l = i + 1)
    · obtain ⟨a1, a2, a3⟩ := leftReduce_diag sqrt hs1 p i d Y h0 h1 y1 y7 y8 y9
        (by rw [y2]; exact hU)
      have a4 := leftReduce_sameS sqrt p p i Y
      have a5 := leftReduce_sameV sqrt p p i Y
      obtain ⟨a6, a7⟩ := leftReduce_sameRL sqrt p p i Y
      exact ⟨a1, a2, a3.trans y5, a4.trans y3, a5.trans y4, a6.trans y6, a7.trans y1⟩
    rintro Z ⟨z1, z2, z3, z4, z5, z6, z7⟩
    apply block_step (fun W : St α => W.l = i + 1 ∧ W.U = Z.U ∧ W.V = st.V ∧
      W.dz = st.dz ∧ W.rv1 = t.rv1 ∧ W.scale = Z.scale ∧ W.g = Z.g ∧ W.w i = -d i ∧
      ∀ a, a ≠ i → W.w a = st.w a)
    · refine ⟨?_, ?_, ?_, ?_, ?_, ?_, ?_, ?_, fun a ha => ?_⟩
      · simp only [St.wrS, St.ckS]
        exact z7
      · simp only [St.wrS, St.ckS]
      · simp only [St.wrS, St.ckS]
        exact z5
      · simp only [St.wrS, St.ckS]
        exact z3
      · simp only [St.wrS, St.ckS]
        exact z6
      · simp only [St.wrS, St.ckS]
      · simp only [St.wrS, St.ckS]
      · simp only [St.wrS, St.ckS, St.w, Mat.set, and_self, if_true]
        exact z2
      · simp only [St.wrS, St.ckS, St.w, Mat.set, ha, false_and, if_false]
        rw [z4]
    rintro W ⟨w1, w2, w3, w4, w5, -, -, w8, w9⟩
    apply block_step (fun W2 : St α => W2.l = i + 1 ∧ W2.U = Z.U ∧ W2.V = st.V ∧
      W2.dz = st.dz ∧ W2.rv1 = t.rv1 ∧ W2.scale = 0 ∧ W2.g = 0 ∧ W2.w i = -d i ∧
      ∀ a, a ≠ i → W2.w a = st.w a)
    · exact ⟨w1, w2, w3, w4, w5, rfl, rfl, w8, w9⟩
    rintro W2 ⟨v1, v2, v3, v4, v5, v6, v7, v8, v9⟩
    apply block_step (fun W3 : St α => ∃ o, W3 = { W2 with oob := o })
    · exact rightReduce_diag sqrt p i _ W2 h0 v1 v6 (by rw [v2]; exact z1)
    rintro W3 ⟨o, rfl⟩
    apply block_step P
    · rw [hP]
      refine ⟨?_, ?_, fun a ha => ?_, ?_, fun a ha => ?_, ?_, ?_, ?_⟩
      · simp only [St.ckS, St.ckR]
        rw [v2]
        exact z1
      · simp only [St.ckS, St.ckR, St.w]
        exact v8
      · simp only [St.ckS, St.ckR, St.w]
        exact v9 a ha
      · simp only [St.ckS, St.ckR, St.r]
        rw [v5]
        exact t6
      · simp only [St.ckS, St.ckR, St.r]
        rw [v5]
        exact t7 a ha
      · simp only [St.ckS, St.ckR]
        rw [v6, zero_mul]
      · simp only [St.ckS, St.ckR]
        exact v3
      · simp only [St.ckS, St.ckR]
        exact v4
    intro T hT
    rw [block_nil]
    exact hT
  rw [hP] at key
  exact key

/-- Phase 1 on a diagonal input `diag(d)`: it leaves `U = diag(2·d)`, `S = -d` and `rv1 = 0`
inside the square, does not assign `V` and records no division by zero. -/
theorem bidiagonalize_diag (sqrt : α → α) (hs1 : sqrt 1 = 1) (p : Int) (d : Int → α)
    (st : St α) (hU : IsDiag p d st.U) (hsg : st.scale * st.g = 0) :
    IsDiag p (fun a => 2 * d a) (bidiagonalize sqrt p p st).U ∧
    (∀ a, 0 ≤ a → a < p → (bidiagonalize sqrt p p st).w a = -d a) ∧
    (∀ a, 0 ≤ a → a < p → (bidiagonalize sqrt p p st).r a = 0) ∧
    (bidiagonalize sqrt p p st).V = st.V ∧ (bidiagonalize sqrt p p st).dz = st.dz := by
  unfold bidiagonalize
  rw [loopUp_eq]
  by_cases hp : p ≤ 0
  · rw [forUp_of_le hp]
    exact ⟨fun a b h1 h2 _ _ => by omega, fun a h1 h2 => by omega, fun a h1 h2 => by omega,
      rfl, rfl⟩
  · have h := forUp_inv (le_of_lt (not_le.mp hp)) (bidiagStep sqrt p p)
      (fun i s => IsDiag p (fun a => if a < i then 2 * d a else d a) s.U ∧
        (∀ a, 0 ≤ a → a < i → s.w a = -d a) ∧ (∀ a, 0 ≤ a → a < i → s.r a = 0) ∧
        s.scale * s.g = 0 ∧ s.V = st.V ∧ s.dz = st.dz)
      st ⟨IsDiag_congr (fun a h1 _ => by rw [if_neg (by omega)]) hU,
        fun a h1 h2 => by omega, fun a h1 h2 => by omega, hsg, rfl, rfl⟩
      (by
        rintro i s h0 h1 ⟨p1, p2, p3, p4, p5, p6⟩
        obtain ⟨q1, q2, q3, q4, q5, q6, q7, q8⟩ := bidiagStep_diag sqrt hs1 p i d s h0 h1 p1 p4
        refine ⟨q1, fun a ha1 ha2 => ?_, fun a ha1 ha2 => ?_, q6, q7.trans p5, q8.trans p6⟩
        · by_cases hai : a = i
          · rw [hai]
            exact q2
          · rw [q3 a hai]
            exact p2 a ha1 (by omega)
        · by_cases hai : a = i
          · rw [hai]
            exact q4
          · rw [q5 a hai]
            exact p3 a ha1 (by omega))
    obtain ⟨r1, r2, r3, -, r5, r6⟩ := h
    exact ⟨IsDiag_congr (fun a _ h2 => by rw [if_pos h2]) r1, r2, r3, r5, r6⟩

end DiagonalPhase1

section DiagonalPhase2

variable {α : Type} [LinearOrderedField α]

/-- The loop of lines 166–167, which clears row `i` and column `i` of `V` from index `l` on. -/
theorem zeroCross_facts (n i : Int) (st : St α) :
    ∃ T, loopUp (fun st => st.l) (fun _ => n)
        (fun j (st : St α) => (st.wrV j i 0).wrV i j 0) st = T ∧
      T.U = st.U ∧ T.S = st.S ∧ T.rv1 = st.rv1 ∧ T.dz = st.dz ∧ T.g = st.g ∧ T.l = st.l ∧
      ∀ a b, T.v a b = if (b = i ∧ st.l ≤ a ∧ a < n) ∨ (a = i ∧ st.l ≤ b ∧ b < n) then 0
        else st.v a b := by
  refine ⟨_, rfl, ?_⟩
  rw [loopUp_eq]
  by_cases hle : n ≤ st.l
  · rw [forUp_of_le hle]
    refine ⟨rfl, rfl, rfl, rfl, rfl, rfl, fun a b => ?_⟩
    rw [if_neg (by omega)]
  · have h := forUp_inv (le_of_lt (not_le.mp hle))
      (fun j (st : St α) => (st.wrV j i 0).wrV i j 0)
      (fun k T => T.U = st.U ∧ T.S = st.S ∧ T.rv1 = st.rv1 ∧ T.dz = st.dz ∧ T.g = st.g ∧
        T.l = st.l ∧
        ∀ a b, T.v a b = if (b = i ∧ st.l ≤ a ∧ a < k) ∨ (a = i ∧ st.l ≤ b ∧ b < k) then 0
          else st.v a b)
      st ⟨rfl, rfl, rfl, rfl, rfl, rfl, fun a b => by rw [if_neg (by omega)]⟩
      (by
        rintro k t hk1 hk2 ⟨a1, a2, a3, a4, a5, a6, a7⟩
        refine ⟨?_, ?_, ?_, ?_, ?_, ?_, fun a b => ?_⟩
        · simp only [St.wrV, St.ckV]
          exact a1
        · simp only [St.wrV, St.ckV]
          exact a2
        · simp only [St.wrV, St.ckV]
          exact a3
        · simp only [St.wrV, St.ckV]
          exact a4
        · simp only [St.wrV, St.ckV]
          exact a5
        · simp only [St.wrV, St.ckV]
          exact a6
        · have hv := a7 a b
          simp only [St.wrV, St.ckV, St.v, Mat.set] at hv ⊢
          rw [hv]
          by_cases c1 : a = i ∧ b = k
          · rw [if_pos c1, if_pos (by omega)]
          · rw [if_neg c1]
            by_cases c2 : a = k ∧ b = i
            · rw [if_pos c2, if_pos (by omega)]
            · rw [if_neg c2]
              by_cases c3 : (b = i ∧ st.l ≤ a ∧ a < k) ∨ (a = i ∧ st.l ≤ b ∧ b < k)
              · rw [if_pos c3, if_pos (by omega)]
              · rw [if_neg c3, if_neg (by omega)])
    exact h

/-- Step `i` of the right-hand accumulation when `rv1` is zero: column and row `i` of `V`
become those of the identity from the diagonal on. -/
theorem accumRightStep_diag (p i : Int) (st : St α) (h1 : i < p)
    (hg : i < p - 1 → st.g = 0 ∧ st.l = i + 1) (hr : st.r i = 0)
    (hV : ∀ a b, i < a → a < p → i < b → b < p → st.v a b = if a = b then 1 else 0) :
    (accumRightStep p i st).U = st.U ∧ (accumRightStep p i st).S = st.S ∧
    (accumRightStep p i st).rv1 = st.rv1 ∧ (accumRightStep p i st).dz = st.dz ∧
    (accumRightStep p i st).g = 0 ∧ (accumRightStep p i st).l = i ∧
    ∀ a b, i ≤ a → a < p → i ≤ b → b < p →
      (accumRightStep p i st).v a b = if a = b then 1 else 0 := by
  obtain ⟨P, hP⟩ : ∃ P : St α → Prop, P = fun T =>
    T.U = st.U ∧ T.S = st.S ∧ T.rv1 = st.rv1 ∧ T.dz = st.dz ∧ T.g = 0 ∧ T.l = i ∧
    ∀ a b, i ≤ a → a < p → i ≤ b → b < p → T.v a b = if a = b then 1 else 0 := ⟨_, rfl⟩
  have key : P (accumRightStep p i st) := by
    unfold accumRightStep
    apply block_step (fun X : St α => X.U = st.U ∧ X.S = st.S ∧ X.rv1 = st.rv1 ∧
      X.dz = st.dz ∧ ∀ a b, i ≤ a → a < p → i ≤ b → b < p → (a ≠ i ∨ b ≠ i) →
        X.v a b = if a = b then 1 else 0)
    · rw [whenever_eq]
      by_cases hi : i < p - 1
      · obtain ⟨g0, l0⟩ := hg hi
        rw [if_pos hi, block_cons, whenever_eq, if_neg (fun h => h g0), block_cons, block_nil]
        obtain ⟨T, eT, a1, a2, a3, a4, -, -, a7⟩ := zeroCross_facts p i st
        rw [eT]
        refine ⟨a1, a2, a3, a4, fun a b ha1 ha2 hb1 hb2 hab => ?_⟩
        rw [a7 a b, l0]
        by_cases c : (b = i ∧ i + 1 ≤ a ∧ a < p) ∨ (a = i ∧ i + 1 ≤ b ∧ b < p)
        · rw [if_pos c, if_neg (by omega)]
        · rw [if_neg c]
          exact hV a b (by omega) ha2 (by omega) hb2
      · rw [if_neg hi]
        refine ⟨rfl, rfl, rfl, rfl, fun a b ha1 ha2 hb1 hb2 hab => ?_⟩
        omega
    rintro X ⟨x1, x2, x3, x4, x5⟩
    apply block_step (fun X1 : St α => X1.U = st.U ∧ X1.S = st.S ∧ X1.rv1 = st.rv1 ∧
      X1.dz = st.dz ∧ ∀ a b, i ≤ a → a < p → i ≤ b → b < p →
        X1.v a b = if a = b then 1 else 0)
    · refine ⟨?_, ?_, ?_, ?_, fun a b ha1 ha2 hb1 hb2 => ?_⟩
      · simp only [St.wrV, St.ckV]
        exact x1
      · simp only [St.wrV, St.ckV]
        exact x2
      · simp only [St.wrV, St.ckV]
        exact x3
      · simp only [St.wrV, St.ckV]
        exact x4
      · simp only [St.wrV, St.ckV, St.v, Mat.set]
        by_cases c : a = i ∧ b = i
        · rw [if_pos c, if_pos (by omega)]
        · rw [if_neg c]
          have := x5 a b ha1 ha2 hb1 hb2 (by omega)
          simp only [St.v] at this
          exact this
    rintro X1 ⟨y1, y2, y3, y4, y5⟩
    apply block_step (fun X2 : St α => X2.U = st.U ∧ X2.S = st.S ∧ X2.rv1 = st.rv1 ∧
      X2.dz = st.dz ∧ X2.g = 0 ∧ ∀ a b, i ≤ a → a < p → i ≤ b → b < p →
        X2.v a b = if a = b then 1 else 0)
    · refine ⟨?_, ?_, ?_, ?_, ?_, ?_⟩
      · simp only [St.ckR]
        exact y1
      · simp only [St.ckR]
        exact y2
      · simp only [St.ckR]
        exact y3
      · simp only [St.ckR]
        exact y4
      · simp only [St.ckR, St.r]
        rw [y3]
        exact hr
      · simp only [St.ckR, St.v]
        exact y5
    rintro X2 ⟨z1, z2, z3, z4, z5, z6⟩
    apply block_step P
    · rw [hP]
      exact ⟨z1, z2, z3, z4, z5, rfl, z6⟩
    intro T hT
    rw [block_nil]
    exact hT
  rw [hP] at key
  exact key

/-- Phase 2 when `rv1` is zero inside the square: `V` becomes the identity there, `U`, `S` and
`rv1` are not assigned and no division is recorded. -/
theorem accumRight_diag (p : Int) (st : St α) (hr : ∀ a, 0 ≤ a → a < p → st.r a = 0) :
    (accumRight p st).U = st.U ∧ (accumRight p st).S = st.S ∧
    (accumRight p st).rv1 = st.rv1 ∧ (accumRight p st).dz = st.dz ∧
    ∀ a b, 0 ≤ a → a < p → 0 ≤ b → b < p →
      (accumRight p st).v a b = if a = b then 1 else 0 := by
  unfold accumRight
  rw [loopDown_eq]
  by_cases hn : p - 1 < 0
  · rw [forDown_of_lt hn]
    exact ⟨rfl, rfl, rfl, rfl, fun a b h1 h2 _ _ => by omega⟩
  · have hinv := forDown_inv (show (0 : Int) ≤ p - 1 + 1 by omega) (accumRightStep p)
      (fun i s => s.U = st.U ∧ s.S = st.S ∧ s.rv1 = st.rv1 ∧ s.dz = st.dz ∧
        (i < p - 1 → s.g = 0 ∧ s.l = i + 1) ∧
        ∀ a b, i < a → a < p → i < b → b < p → s.v a b = if a = b then 1 else 0)
      st ⟨rfl, rfl, rfl, rfl, fun hlt => absurd hlt (lt_irrefl _),
        fun a b h1 h2 _ _ => by omega⟩
      (by
        rintro i s h0 h1 ⟨p1, p2, p3, p4, p5, p6⟩
        have hri : s.r i = 0 := by
          simp only [St.r]
          rw [p3]
          exact hr i h0 (by omega)
        obtain ⟨q1, q2, q3, q4, q5, q6, q7⟩ :=
          accumRightStep_diag p i s (by omega) p5 hri p6
        refine ⟨q1.trans p1, q2.trans p2, q3.trans p3, q4.trans p4, fun _ => ?_,
          fun a b ha1 ha2 hb1 hb2 => q7 a b (by omega) ha2 (by omega) hb2⟩
        rw [q5, q6, sub_add_cancel]
        exact ⟨rfl, rfl⟩)
    obtain ⟨r1, r2, r3, r4, -, r6⟩ := hinv
    refine ⟨r1, r2, r3, r4, fun a b ha1 ha2 hb1 hb2 => r6 a b (by omega) ha2 (by omega) hb2⟩

end DiagonalPhase2

section DiagonalPhase3

variable {α : Type} [LinearOrderedField α]

omit [LinearOrderedField α] in
theorem SameSVR_preOrd : PreOrd (SameSVR : St α → St α → Prop) where
  refl := fun _ => ⟨rfl, rfl, rfl⟩
  trans := fun _ _ _ h1 h2 => ⟨h2.1.trans h1.1, h2.2.1.trans h1.2.1, h2.2.2.trans h1.2.2⟩

theorem accumLeftStep_sameSVR (m n i : Int) :
    Pres SameSVR (accumLeftStep m n i : St α → St α) := by
  unfold accumLeftStep
  repeat' first
    | apply Pres_nil SameSVR_preOrd
    | apply Pres_cons SameSVR_preOrd
    | apply Pres_whenever SameSVR_preOrd
    | apply Pres_cond
    | apply Pres_loopUp SameSVR_preOrd
    | (intro st; simp [SameSVR, St.ckU, St.wrU, St.ckS, St.dv]; done)
    | intro _

/-- The loop of line 180 on a row that is already zero right of the diagonal. -/
theorem zeroRow_noop (n i : Int) (st : St α)
    (h : ∀ j, st.l ≤ j → j < n → st.U.val i j = 0) :
    ∃ o, loopUp (fun st => st.l) (fun _ => n) (fun j (st : St α) => st.wrU i j 0) st =
      { st with oob := o } := by
  rw [loopUp_eq]
  by_cases hle : n ≤ st.l
  · rw [forUp_of_le hle]
    exact ⟨st.oob, rfl⟩
  · exact forUp_inv (le_of_lt (not_le.mp hle)) (fun j (st : St α) => st.wrU i j 0)
      (fun _ t => ∃ o, t = { st with oob := o }) st ⟨st.oob, rfl⟩
      (by
        rintro k t hk1 hk2 ⟨o, rfl⟩
        refine ⟨o || !st.U.inb i k, ?_⟩
        simp only [St.wrU, St.ckU, Mat.inb]
        rw [← h k hk1 hk2, Mat.set_self])

/-- The loop of line 198 on a column that is already zero from the diagonal down. -/
theorem zeroCol_noop (m i : Int) (st : St α)
    (h : ∀ j, i ≤ j → j < m → st.U.val j i = 0) :
    ∃ o, loopUp (fun _ => i) (fun _ => m) (fun j (st : St α) => st.wrU j i 0) st =
      { st with oob := o } := by
  rw [loopUp_eq]
  by_cases hle : m ≤ i
  · rw [forUp_of_le hle]
    exact ⟨st.oob, rfl⟩
  · exact forUp_inv (le_of_lt (not_le.mp hle)) (fun j (st : St α) => st.wrU j i 0)
      (fun _ t => ∃ o, t = { st with oob := o }) st ⟨st.oob, rfl⟩
      (by
        rintro k t hk1 hk2 ⟨o, rfl⟩
        refine ⟨o || !st.U.inb k i, ?_⟩
        simp only [St.wrU, St.ckU, Mat.inb]
        rw [← h k hk1 hk2, Mat.set_self])

/-- The loop that multiplies column `i` of `U` by `g` from the diagonal down (line 195). -/
theorem colTimesG_spec (i m : Int) (st : St α) :
    ∃ o, loopUp (fun _ => i) (fun _ => m)
        (fun k (st : St α) => st.wrU k i (st.u k i * st.g)) st =
      { st with
        U := { st.U with val := fun a b =>
                if b = i ∧ i ≤ a ∧ a < m then st.U.val a b * st.g else st.U.val a b },
        oob := o } := by
  rw [loopUp_eq]
  by_cases hle : m ≤ i
  · rw [forUp_of_le hle]
    refine ⟨st.oob, ?_⟩
    have e : (fun a b => if b = i ∧ i ≤ a ∧ a < m then st.U.val a b * st.g
        else st.U.val a b) = st.U.val := by
      funext a b
      rw [if_neg (by omega)]
    rw [e]
  · have h := forUp_inv (le_of_lt (not_le.mp hle))
      (fun k (st : St α) => st.wrU k i (st.u k i * st.g))
      (fun k t => ∃ o, t = { st with
        U := { st.U with val := fun a b =>
                if b = i ∧ i ≤ a ∧ a < k then st.U.val a b * st.g else st.U.val a b },
        oob := o })
      st ⟨st.oob, by
        have e : (fun a b => if b = i ∧ i ≤ a ∧ a < i then st.U.val a b * st.g
            else st.U.val a b) = st.U.val := by
          funext a b
          rw [if_neg (by omega)]
        rw [e]⟩
      (by
        rintro k t h0 - ⟨o, rfl⟩
        refine ⟨o || !st.U.inb k i, ?_⟩
        simp only [St.wrU, St.ckU, St.u, Mat.set, Mat.inb]
        have hk : ¬ (k < k) := lt_irrefl k
        simp only [hk, and_false, if_false]
        congr 2
        funext a b
        by_cases hab : a = k ∧ b = i
        · obtain ⟨rfl, rfl⟩ := hab
          simp [h0]
        · rw [if_neg hab]
          by_cases hb : b = i ∧ i ≤ a ∧ a < k
          · rw [if_pos hb, if_pos ⟨hb.1, hb.2.1, by omega⟩]
          · rw [if_neg hb, if_neg]
            rintro ⟨h1, h2, h3⟩
            have : a ≠ k := fun e => hab ⟨e, h1⟩
            exact hb ⟨h1, h2, by omega⟩)
    exact h

/-- The loop of lines 185–192 on a state whose `U` is diagonal inside the square with a
nonzero pivot `U(i,i)`: it assigns at most `s`, `f` and entries of `U` with the value they
have. -/
theorem leftAccApply_diag (p i : Int) (e : Int → α) (h0 : 0 ≤ i) (h1 : i < p) :
    PresOn (fun st : St α => st.l = i + 1 ∧ IsDiag p e st.U ∧ e i ≠ 0) KeepAll
      (loopUp (fun st => st.l) (fun _ => p) (fun j => block [
            fun st => { st with s := 0 },
            loopUp (fun st => st.l) (fun _ => p) (fun k st =>
              { (st.ckU k i).ckU k j with s := st.s + st.u k i * st.u k j }),
            fun st => { (st.ckU i i).dv (st.u i i) with f := (st.s / st.u i i) * st.g },
            loopUp (fun _ => i) (fun _ => p) (fun k st =>
              (st.ckU k i).wrU k j (st.u k j + st.f * st.u k i))])) := by
  have hI : Stable (fun st : St α => st.l = i + 1 ∧ IsDiag p e st.U ∧ e i ≠ 0) KeepAll := by
    rintro s t ⟨s1, s2, s3⟩ ⟨a1, -, -, -, -, -, -, -, a9, -⟩
    exact ⟨a9.trans s1, by rw [a1]; exact s2, s3⟩
  apply PresOn_loopUp_in KeepAll_preOrd hI (i + 1) p (fun s hs => by rw [hs.1])
    (fun _ _ => le_refl p)
  rintro j hj1 hj2 s ⟨s1, s2, s3⟩
  rw [block_cons, block_cons]
  obtain ⟨o, e1⟩ := dotCol_spec (fun st => st.l) (fun _ => p) i j ({ s with s := 0 } : St α)
  rw [e1, block_cons, block_cons, block_nil]
  have hsum : sumUp s.l p (fun k => s.u k i * s.u k j) = 0 := by
    apply sumUp_zero
    intro k hk1 hk2
    simp only [St.u]
    rw [IsDiag_off s2 k i (by omega) hk2 h0 h1 (by omega), zero_mul]
  have hpiv : s.U.val i i ≠ 0 := by
    rw [IsDiag_diag s2 i h0 h1]
    exact s3
  obtain ⟨o2, e2⟩ := addCol_zero (fun _ => i) (fun _ => p) i j
    ({ ((({ ({ s with s := 0 } : St α) with
        s := 0 + sumUp s.l p (fun k => s.u k i * s.u k j), oob := o } : St α).ckU i i).dv
          (s.u i i)) with
      f := ((0 + sumUp s.l p (fun k => s.u k i * s.u k j)) / s.u i i) * s.g } : St α)
    (by simp only [hsum, add_zero, zero_div, zero_mul])
  simp only [St.u] at e2 ⊢
  rw [e2]
  refine ⟨?_, ?_, ?_, ?_, ?_, ?_, ?_, ?_, ?_, ?_⟩ <;> simp [St.dv, St.ckU, hpiv]

/-- Step `i` of the left-hand accumulation on a state whose `U` is diagonal inside the square,
with diagonal `2·d` up to `i`, and whose `S(i)` is `-d i`: the diagonal entry `i` becomes `-1`,
or `1` when `d i` is zero, and no division by zero is recorded. -/
theorem accumLeftStep_diag (p i : Int) (d : Int → α) (st : St α) (h0 : 0 ≤ i) (h1 : i < p)
    (hw : st.w i = -d i)
    (hU : IsDiag p (fun a => if a ≤ i then 2 * d a else if d a = 0 then 1 else -1) st.U) :
    IsDiag p (fun a => if a ≤ i - 1 then 2 * d a else if d a = 0 then 1 else -1)
      (accumLeftStep p p i st).U ∧
    (accumLeftStep p p i st).dz = st.dz := by
  obtain ⟨P, hP⟩ : ∃ P : St α → Prop, P = fun T =>
    IsDiag p (fun a => if a ≤ i - 1 then 2 * d a else if d a = 0 then 1 else -1) T.U ∧
    T.dz = st.dz := ⟨_, rfl⟩
  obtain ⟨Q, hQ⟩ : ∃ Q : St α → Prop, Q = fun W =>
    IsDiag p (fun a => if a = i then (if d i = 0 then 0 else -2)
      else if a ≤ i then 2 * d a else if d a = 0 then 1 else -1) W.U ∧
    W.dz = st.dz := ⟨_, rfl⟩
  have hii : st.U.val i i = 2 * d i := by
    rw [IsDiag_diag hU i h0 h1]
    simp only [le_refl, if_true]
  have key : P (accumLeftStep p p i st) := by
    unfold accumLeftStep
    apply block_step (fun t : St α => t = { st with l := i + 1 })
    · rfl
    rintro t rfl
    apply block_step (fun t : St α => t.l = i + 1 ∧ t.g = -d i ∧ t.U = st.U ∧ t.dz = st.dz)
    · refine ⟨?_, ?_, ?_, ?_⟩
      · simp only [St.ckS]
      · simp only [St.ckS, St.w]
        exact hw
      · simp only [St.ckS]
      · simp only [St.ckS]
    rintro t ⟨t1, t2, t3, t4⟩
    apply block_step (fun X : St α => X.l = i + 1 ∧ X.g = -d i ∧ X.U = st.U ∧ X.dz = st.dz)
    · rw [whenever_eq]
      split
      · obtain ⟨o, e⟩ := zeroRow_noop p i t (fun j hj1 hj2 => by
          rw [t3]
          exact IsDiag_off hU i j h0 h1 (by omega) hj2 (by omega))
        rw [e]
        exact ⟨t1, t2, t3, t4⟩
      · exact ⟨t1, t2, t3, t4⟩
    rintro X ⟨x1, x2, x3, x4⟩
    apply block_step Q
    · rw [cond_eq]
      by_cases hd : d i = 0
      · rw [if_neg (by rw [x2, hd, neg_zero]; exact fun h => h rfl)]
        obtain ⟨o, e⟩ := zeroCol_noop p i X (fun j hj1 hj2 => by
          rw [x3]
          by_cases hji : j = i
          · rw [hji, hii, hd, mul_zero]
          · exact IsDiag_off hU j i (by omega) hj2 h0 h1 hji)
        rw [e, hQ]
        refine ⟨?_, x4⟩
        simp only
        rw [x3]
        refine IsDiag_congr (fun a ha1 ha2 => ?_) hU
        by_cases hai : a = i
        · rw [hai, if_pos (le_refl i), if_pos rfl, if_pos hd, hd, mul_zero]
        · rw [if_neg hai]
      · have hg : X.g ≠ 0 := by
          rw [x2]
          exact neg_ne_zero.mpr hd
        rw [if_pos hg]
        apply block_step (fun X1 : St α => X1.l = i + 1 ∧ X1.g = 1 / -d i ∧ X1.U = st.U ∧
          X1.dz = st.dz)
        · refine ⟨?_, ?_, ?_, ?_⟩
          · simp only [St.dv]
            exact x1
          · simp only [St.dv]
            rw [x2]
          · simp only [St.dv]
            exact x3
          · simp only [St.dv, decide_eq_false hg, Bool.or_false]
            exact x4
        rintro X1 ⟨y1, y2, y3, y4⟩
        apply block_step (fun X2 : St α => KeepAll X1 X2)
        · refine PresOn_whenever KeepAll_preOrd (leftAccApply_diag p i _ h0 h1) X1
            ⟨y1, by rw [y3]; exact hU, ?_⟩
          simp only [le_refl, if_true]
          exact mul_ne_zero two_ne_zero hd
        rintro X2 ⟨z1, -, -, -, -, z6, -, -, -, z10⟩
        apply block_step Q
        · obtain ⟨o, e⟩ := colTimesG_spec i p X2
          rw [e, hQ]
          refine ⟨?_, by simp only; rw [z10, y4]⟩
          simp only
          rw [z1, y3, z6, y2]
          refine IsDiag_mapCol i p (le_refl p) (fun x => x * (1 / -d i)) (zero_mul _) hU _ ?_ ?_
          · simp only [if_true, le_refl, if_neg hd]
            rw [mul_one_div, div_neg, mul_div_assoc, div_self hd, mul_one]
          · intro a hai
            simp only [hai, if_false]
        intro W hW
        rw [block_nil]
        exact hW
    intro W hW
    rw [hQ] at hW
    obtain ⟨w1, w2⟩ := hW
    apply block_step P
    · rw [hP]
      refine ⟨?_, by simp only [St.wrU, St.ckU]; exact w2⟩
      simp only [St.wrU, St.ckU, St.u]
      refine IsDiag_set i _ w1 _ ?_ ?_
      · rw [IsDiag_diag w1 i h0 h1]
        simp only [if_true]
        rw [if_neg (by omega)]
        by_cases hd : d i = 0
        · rw [if_pos hd, if_pos hd, zero_add]
        · rw [if_neg hd, if_neg hd]
          norm_num
      · intro a hai
        simp only [hai, if_false]
        by_cases hle : a ≤ i
        · rw [if_pos hle, if_pos (by omega)]
        · rw [if_neg hle, if_neg (by omega)]
    intro T hT
    rw [block_nil]
    exact hT
  rw [hP] at key
  exact key

/-- Phase 3 on a state with `U = diag(2·d)` and `S = -d` inside the square: `U` becomes the
diagonal matrix with entries `-1`, or `1` where `d` is zero; `S`, `V` and `rv1` are not
assigned and no division by zero is recorded. -/
theorem accumLeft_diag (p : Int) (d : Int → α) (st : St α)
    (hU : IsDiag p (fun a => 2 * d a) st.U) (hw : ∀ a, 0 ≤ a → a < p → st.w a = -d a) :
    IsDiag p (fun a => if d a = 0 then 1 else -1) (accumLeft p p st).U ∧
    (accumLeft p p st).dz = st.dz ∧ SameSVR st (accumLeft p p st) := by
  unfold accumLeft
  rw [loopDown_eq]
  by_cases hn : p - 1 < 0
  · rw [forDown_of_lt hn]
    exact ⟨fun a b h1 h2 _ _ => by omega, rfl, rfl, rfl, rfl⟩
  · have hinv := forDown_inv (show (0 : Int) ≤ p - 1 + 1 by omega) (accumLeftStep p p)
      (fun i s => IsDiag p (fun a => if a ≤ i then 2 * d a else if d a = 0 then 1 else -1) s.U ∧
        s.dz = st.dz ∧ SameSVR st s)
      st ⟨IsDiag_congr (fun a _ h2 => by rw [if_pos (by omega)]) hU, rfl, rfl, rfl, rfl⟩
      (by
        rintro i s h0 h1 ⟨p1, p2, p3⟩
        have hwi : s.w i = -d i := by
          simp only [St.w]
          rw [p3.1]
          exact hw i h0 (by omega)
        obtain ⟨q1, q2⟩ := accumLeftStep_diag p i d s h0 (by omega) hwi p1
        exact ⟨q1, q2.trans p2, SameSVR_preOrd.trans _ _ _ p3 (accumLeftStep_sameSVR p p i s)⟩)
    obtain ⟨r1, r2, r3⟩ := hinv
    exact ⟨IsDiag_congr (fun a h1 _ => by rw [if_neg (by omega)]) r1, r2, r3⟩

end DiagonalPhase3

section DiagonalPhase4

variable {α : Type} [LinearOrderedField α]

/-- The head of an iteration for an index `k` with `rv1(k) = 0`: the scan stops at `l = k`
with `flag` cleared, the cancellation sweep is skipped, and `z` receives `S(k)`. -/
theorem iterHead_zero (sqrt : α → α) (m k : Int) (s : St α) (hk : 0 ≤ k) (hr : s.r k = 0) :
    (iterHead sqrt m k s).l = k ∧ (iterHead sqrt m k s).z = s.w k ∧
    (iterHead sqrt m k s).U = s.U ∧ (iterHead sqrt m k s).S = s.S ∧
    (iterHead sqrt m k s).V = s.V ∧ (iterHead sqrt m k s).rv1 = s.rv1 ∧
    (iterHead sqrt m k s).dz = s.dz := by
  have e : (k + 1).toNat = k.toNat + 1 := by omega
  have h0 : |s.rv1.val k 0| + s.anorm = s.anorm := by
    simp only [St.r] at hr
    rw [hr, abs_zero, zero_add]
  rw [iterHead_eq, e]
  simp only [scan, St.ckR, St.r, if_pos h0, whenever_eq, ne_eq, not_true_eq_false, if_false,
    St.ckS, St.w]
  exact ⟨trivial, trivial, trivial, trivial, trivial, trivial, trivial⟩

/-- The iteration loop of an index `k` with `rv1(k) = 0`: it converges in its first round,
replaces `S(k)` by its absolute value and negates column `k` of `V` when `S(k)` was negative. -/
theorem itsLoop_zero (sqrt : α → α) (m n k : Int) (s : St α) (hk : 0 ≤ k) (hr : s.r k = 0) :
    ∃ T, itsLoop sqrt m n k 30 0 s = (T, none) ∧ T.U = s.U ∧ T.rv1 = s.rv1 ∧ T.dz = s.dz ∧
      (∀ a, T.w a = if a = k then |s.w k| else s.w a) ∧
      ∀ a b, T.v a b = if (b = k ∧ 0 ≤ a ∧ a < n) ∧ s.w k < 0 then -s.v a b else s.v a b := by
  obtain ⟨a1, a2, a3, a4, a5, a6, a7⟩ := iterHead_zero sqrt m k s hk hr
  have e : itsLoop sqrt m n k 30 0 s = (signFix n k (iterHead sqrt m k s), none) := by
    rw [show (30 : Nat) = 29 + 1 from rfl, itsLoop]
    simp only [iterBody, if_pos a1]
  refine ⟨_, e, ?_⟩
  generalize iterHead sqrt m k s = H at a1 a2 a3 a4 a5 a6 a7
  have b1 := (signFix_sameRL n k H).1
  have b2 : (signFix n k H).dz = H.dz := signFix_sameDz n k H
  by_cases hz : H.z < 0
  · obtain ⟨c1, c2, c3⟩ := signFix_neg n k H hz
    rw [a2] at hz
    refine ⟨c1.trans a3, b1.trans a6, b2.trans a7, fun a => ?_, fun a b => ?_⟩
    · rw [c2 a, a2]
      simp only [St.w]
      rw [a4]
      by_cases hak : a = k
      · rw [if_pos hak, if_pos hak]
        simp only [St.w] at hz
        rw [abs_of_neg hz]
      · rw [if_neg hak, if_neg hak]
    · rw [c3 a b]
      simp only [St.v]
      rw [a5]
      by_cases hb : b = k ∧ 0 ≤ a ∧ a < n
      · rw [if_pos hb, if_pos ⟨hb, hz⟩]
      · rw [if_neg hb, if_neg (fun h => hb h.1)]
  · have e2 : signFix n k H = H := by
      unfold signFix
      rw [whenever_eq, if_neg hz]
    rw [e2]
    rw [a2] at hz
    refine ⟨a3, a6, a7, fun a => ?_, fun a b => ?_⟩
    · simp only [St.w]
      rw [a4]
      by_cases hak : a = k
      · rw [if_pos hak, hak]
        simp only [St.w] at hz
        rw [abs_of_nonneg (not_lt.mp hz)]
      · rw [if_neg hak]
    · simp only [St.v]
      rw [a5, if_neg (fun h => hz h.2)]

/-- The diagonalisation loops from index `k` down on a state with `rv1 = 0` inside the
square: every index converges in its first round. -/
theorem diagLoop_zero (sqrt : α → α) (m n : Int) (t : Nat) (k : Int) (s : St α)
    (hk : k + 1 = t) (hr : ∀ a, 0 ≤ a → a ≤ k → s.r a = 0) :
    ∃ T, diagLoop sqrt m n t k s = (T, none) ∧ T.U = s.U ∧ T.dz = s.dz ∧
      (∀ a, T.w a = if 0 ≤ a ∧ a ≤ k then |s.w a| else s.w a) ∧
      ∀ a b, T.v a b =
        if (0 ≤ b ∧ b ≤ k) ∧ (0 ≤ a ∧ a < n) ∧ s.w b < 0 then -s.v a b else s.v a b := by
  induction t generalizing k s with
  | zero =>
    refine ⟨s, rfl, rfl, rfl, fun a => ?_, fun a b => ?_⟩
    · rw [if_neg (by push_cast at hk; omega)]
    · rw [if_neg (by push_cast at hk; omega)]
  | succ t ih =>
    have hk0 : 0 ≤ k := by push_cast at hk; omega
    obtain ⟨T1, e1, a1, a2, a3, a4, a5⟩ := itsLoop_zero sqrt m n k s hk0 (hr k hk0 (le_refl k))
    have hr1 : ∀ a, 0 ≤ a → a ≤ k - 1 → T1.r a = 0 := by
      intro a h1 h2
      simp only [St.r]
      rw [a2]
      exact hr a h1 (by omega)
    obtain ⟨T, e2, b1, b3, b4, b5⟩ := ih (k - 1) T1 (by push_cast at hk ⊢; omega) hr1
    refine ⟨T, ?_, b1.trans a1, b3.trans a3, fun a => ?_, fun a b => ?_⟩
    · rw [diagLoop, e1]
      exact e2
    · rw [b4 a, a4 a]
      by_cases hak : a = k
      · rw [if_neg (by omega), if_pos hak, if_pos (by omega), hak]
      · rw [if_neg hak]
        by_cases c : 0 ≤ a ∧ a ≤ k - 1
        · rw [if_pos c, if_pos (by omega)]
        · rw [if_neg c, if_neg (by omega)]
    · rw [b5 a b, a5 a b, a4 b]
      by_cases hbk : b = k
      · have h1 : ¬ ((0 ≤ b ∧ b ≤ k - 1) ∧ (0 ≤ a ∧ a < n) ∧ |s.w k| < 0) :=
          fun h => by omega
        rw [if_pos hbk, if_neg h1, hbk]
        by_cases c : (0 ≤ a ∧ a < n) ∧ s.w k < 0
        · rw [if_pos ⟨⟨rfl, c.1⟩, c.2⟩, if_pos ⟨⟨hk0, le_refl k⟩, c.1, c.2⟩]
        · rw [if_neg (fun h => c ⟨h.1.2, h.2⟩), if_neg (fun h => c ⟨h.2.1, h.2.2⟩)]
      · have h2 : ¬ ((b = k ∧ 0 ≤ a ∧ a < n) ∧ s.w k < 0) := fun h => hbk h.1.1
        rw [if_neg hbk, if_neg h2]
        by_cases c : (0 ≤ b ∧ b ≤ k - 1) ∧ (0 ≤ a ∧ a < n) ∧ s.w b < 0
        · rw [if_pos c, if_pos ⟨⟨c.1.1, by omega⟩, c.2⟩]
        · rw [if_neg c, if_neg]
          rintro ⟨h3, h4⟩
          exact c ⟨⟨h3.1, by omega⟩, h4⟩

end DiagonalPhase4

section DiagonalCall

variable {α : Type} [LinearOrderedField α]

/-- A call on a square input that is diagonal inside its shape, `diag(d)`, with a square root
that is exact at `1`: on return `S(a) = |d a|`, `U` is diagonal with entries `-1` (or `1` where
`d a = 0`), `V` is diagonal with entries `-1` where `d a > 0` and `1` elsewhere, and no division
by zero has been recorded. -/
theorem svd_diag_aux (sqrt : α → α) (hs1 : sqrt 1 = 1) (A S V : Mat α) (R : Int → Int → α)
    (d : Int → α) (hsq : A.rows = A.cols) (hA : IsDiag A.cols d A) :
    (∀ a : Int, 0 ≤ a → a < A.cols → (svd sqrt A S V R).out.w a = |d a|) ∧
    IsDiag A.cols (fun a => if d a = 0 then 1 else -1) (svd sqrt A S V R).out.U ∧
    IsDiag A.cols (fun a => if 0 < d a then -1 else 1) (svd sqrt A S V R).out.V ∧
    (svd sqrt A S V R).out.dz = false := by
  rw [svd_out_eq, hsq, block_cons, block_cons, block_cons, block_nil]
  have hU0 : IsDiag A.cols d (svdInit A S V R).U := hA
  obtain ⟨a1, a2, a3, -, a5⟩ := bidiagonalize_diag sqrt hs1 A.cols d (svdInit A S V R) hU0
    (by simp [svdInit])
  have a6 : (svdInit A S V R).dz = false := rfl
  rw [a6] at a5
  generalize bidiagonalize sqrt (A.cols : Int) A.cols (svdInit A S V R) = s1 at a1 a2 a3 a5 ⊢
  obtain ⟨b1, b2, b3, b4, b5⟩ := accumRight_diag (A.cols : Int) s1 a3
  generalize accumRight (A.cols : Int) s1 = s2 at b1 b2 b3 b4 b5 ⊢
  have hw2 : ∀ a, 0 ≤ a → a < (A.cols : Int) → s2.w a = -d a := by
    intro a h1 h2
    simp only [St.w]
    rw [b2]
    exact a2 a h1 h2
  obtain ⟨c1, c2, c3, c4, c5⟩ := accumLeft_diag (A.cols : Int) d s2 (by rw [b1]; exact a1) hw2
  generalize accumLeft (A.cols : Int) A.cols s2 = s3 at c1 c2 c3 c4 c5 ⊢
  have hr3 : ∀ a, 0 ≤ a → a ≤ (A.cols : Int) - 1 → s3.r a = 0 := by
    intro a h1 h2
    simp only [St.r]
    rw [c5, b3]
    exact a3 a h1 (by omega)
  unfold diagonalize
  obtain ⟨T, e, d1, d2, d3, d4⟩ := diagLoop_zero sqrt (A.cols : Int) A.cols
    (A.cols : Int).toNat ((A.cols : Int) - 1) s3 (by simp) hr3
  rw [e]
  simp only
  have hw3 : ∀ a, 0 ≤ a → a < (A.cols : Int) → s3.w a = -d a := by
    intro a h1 h2
    simp only [St.w]
    rw [c3]
    exact hw2 a h1 h2
  refine ⟨fun a h1 h2 => ?_, by rw [d1]; exact c1, fun a b h1 h2 h3 h4 => ?_,
    by rw [d2, c2, b4, a5]⟩
  · rw [d3 a, if_pos ⟨h1, by omega⟩, hw3 a h1 h2, abs_neg]
  · show T.V.val a b = if a = b then (if 0 < d a then -1 else 1) else 0
    have hv := d4 a b
    simp only [St.v] at hv
    have hv2 := b5 a b h1 h2 h3 h4
    simp only [St.v] at hv2
    rw [hv, c4, hv2, hw3 b h3 h4]
    by_cases hab : a = b
    · rw [if_pos hab, if_pos hab, hab]
      by_cases hd : 0 < d b
      · rw [if_pos ⟨⟨h3, by omega⟩, ⟨h3, h4⟩, by linarith⟩, if_pos hd]
      · rw [if_neg (fun h => hd (by linarith [h.2.2])), if_neg hd]
    · rw [if_neg hab, if_neg hab]
      split
      · exact neg_zero
      · rfl

end DiagonalCall

section DiagonalClaims

variable {α : Type} [LinearOrderedField α]

/-- C8 (identity input): over an ordered field, with a square root that is exact at `1`, a call
on the `p×p` identity returns the status `0`, `S(i) = 1` for every `i`, and `U = V = -I`: a
signed permutation of the identity, every row and column having the single nonzero entry `-1`,
on the diagonal.  (Every value of this run is `0`, `±1` or `±2`.) -/
theorem svd_identity (sqrt : α → α) (hs1 : sqrt 1 = 1) (A S V : Mat α) (R : Int → Int → α)
    (hsq : A.rows = A.cols)
    (hA : ∀ i j : Int, 0 ≤ i → i < A.cols → 0 ≤ j → j < A.cols →
      A.val i j = if i = j then 1 else 0) :
    (svd sqrt A S V R).code = 0 ∧
    (∀ i : Int, 0 ≤ i → i < A.cols → (svd sqrt A S V R).out.w i = 1) ∧
    (∀ i j : Int, 0 ≤ i → i < A.cols → 0 ≤ j → j < A.cols →
      (svd sqrt A S V R).out.u i j = if i = j then -1 else 0) ∧
    (∀ i j : Int, 0 ≤ i → i < A.cols → 0 ≤ j → j < A.cols →
      (svd sqrt A S V R).out.v i j = if i = j then -1 else 0) := by
  obtain ⟨h1, h2, h3, -⟩ := svd_diag_aux sqrt hs1 A S V R (fun _ => 1) hsq hA
  refine ⟨(svd_frame sqrt A S V R).2, fun i a b => ?_, fun i j a b c e => ?_,
    fun i j a b c e => ?_⟩
  · rw [h1 i a b, abs_one]
  · simp only [St.u]
    rw [h2 i j a b c e]
    simp only [one_ne_zero, if_false]
  · simp only [St.v]
    rw [h3 i j a b c e]
    simp only [zero_lt_one, if_true]

theorem svd_identity_witness :
    (svd Real.sqrt (Mat.mk 2 2 (fun i j => if i = j then 1 else 0))
      (Mat.mk 0 0 (fun _ _ => 0)) (Mat.mk 0 0 (fun _ _ => 0)) (fun _ _ => 0)).out.w 1 = 1 ∧
    (svd Real.sqrt (Mat.mk 2 2 (fun i j => if i = j then 1 else 0))
      (Mat.mk 0 0 (fun _ _ => 0)) (Mat.mk 0 0 (fun _ _ => 0)) (fun _ _ => 0)).out.u 1 1 = -1 := by
  obtain ⟨-, h1, h2, -⟩ := svd_identity Real.sqrt Real.sqrt_one
    (Mat.mk 2 2 (fun i j => if i = j then 1 else 0))
    (Mat.mk 0 0 (fun _ _ => 0)) (Mat.mk 0 0 (fun _ _ => 0)) (fun _ _ => 0)
    rfl (fun _ _ _ _ _ _ => rfl)
  have a := h1 1 (by norm_num) (by norm_num)
  have b := h2 1 1 (by norm_num) (by norm_num) (by norm_num) (by norm_num)
  norm_num at b
  exact ⟨a, b⟩

end DiagonalClaims

section SumAlgebra

variable {α : Type} [LinearOrderedField α]

theorem sumUp_add (lo hi : Int) (f g : Int → α) :
    sumUp lo hi (fun k => f k + g k) = sumUp lo hi f + sumUp lo hi g := by
  unfold sumUp
  rw [Finset.sum_add_distrib]

theorem sumUp_mul_right (lo hi : Int) (c : α) (f : Int → α) :
    sumUp lo hi (fun k => f k * c) = sumUp lo hi f * c := by
  unfold sumUp
  rw [Finset.sum_mul]

theorem sumUp_comm (lo hi lo' hi' : Int) (F : Int → Int → α) :
    sumUp lo hi (fun k => sumUp lo' hi' (fun r => F k r)) =
      sumUp lo' hi' (fun r => sumUp lo hi (fun k => F k r)) := by
  unfold sumUp
  rw [Finset.sum_comm]

theorem sumUp_first {lo hi : Int} (h : lo < hi) (f : Int → α) :
    sumUp lo hi f = f lo + sumUp (lo + 1) hi f := by
  have e : (hi - lo).toNat = (hi - (lo + 1)).toNat + 1 := by omega
  unfold sumUp
  rw [e, Finset.sum_range_succ']
  simp only [Nat.cast_zero, add_zero, Nat.cast_add, Nat.cast_one]
  rw [add_comm]
  congr 1
  apply Finset.sum_congr rfl
  intro t _
  congr 1
  ring

end SumAlgebra

section Reflections

variable {α : Type} [LinearOrderedField α]

theorem hhL_in (lo hi : Int) (u : Int → α) (M : Int → Int → α) (k j : Int)
    (h : lo ≤ k ∧ k < hi) :
    hhL lo hi u M k j = M k j + (-2 / sumUp lo hi (fun r => u r * u r)) * u k *
      sumUp lo hi (fun r => u r * M r j) := by
  unfold hhL
  rw [if_pos h]

theorem hhL_out (lo hi : Int) (u : Int → α) (M : Int → Int → α) (k j : Int)
    (h : ¬ (lo ≤ k ∧ k < hi)) : hhL lo hi u M k j = M k j := by
  unfold hhL
  rw [if_neg h]

theorem hhR_in (lo hi : Int) (v : Int → α) (M : Int → Int → α) (k j : Int)
    (h : lo ≤ j ∧ j < hi) :
    hhR lo hi v M k j = M k j + (-2 / sumUp lo hi (fun c => v c * v c)) * v j *
      sumUp lo hi (fun c => M k c * v c) := by
  unfold hhR
  rw [if_pos h]

theorem hhR_out (lo hi : Int) (v : Int → α) (M : Int → Int → α) (k j : Int)
    (h : ¬ (lo ≤ j ∧ j < hi)) : hhR lo hi v M k j = M k j := by
  unfold hhR
  rw [if_neg h]

/-- The inner sum of a reflection applied to an already reflected matrix. -/
theorem hhL_inner (lo hi : Int) (u : Int → α) (M : Int → Int → α) (j : Int) :
    sumUp lo hi (fun r => u r * hhL lo hi u M r j) =
      sumUp lo hi (fun r => u r * M r j) +
        (-2 / sumUp lo hi (fun r => u r * u r)) * sumUp lo hi (fun r => u r * u r) *
          sumUp lo hi (fun r => u r * M r j) := by
  have e : sumUp lo hi (fun r => u r * hhL lo hi u M r j) =
      sumUp lo hi (fun r => u r * M r j +
        (-2 / sumUp lo hi (fun r => u r * u r)) * sumUp lo hi (fun r => u r * M r j) *
          (u r * u r)) := by
    apply sumUp_congr
    intro r h1 h2
    rw [hhL_in lo hi u M r j ⟨h1, h2⟩]
    ring
  rw [e, sumUp_add, sumUp_mul_left]
  ring

/-- A Householder reflection is an involution. -/
theorem hhL_invol (lo hi : Int) (u : Int → α) (M : Int → Int → α) :
    hhL lo hi u (hhL lo hi u M) = M := by
  funext k j
  by_cases hk : lo ≤ k ∧ k < hi
  · rw [hhL_in lo hi u _ k j hk, hhL_inner, hhL_in lo hi u M k j hk]
    by_cases hN : sumUp lo hi (fun r => u r * u r) = 0
    · rw [hN]
      simp
    · field_simp
      ring
  · rw [hhL_out lo hi u _ k j hk, hhL_out lo hi u M k j hk]

theorem hhR_inner (lo hi : Int) (v : Int → α) (M : Int → Int → α) (k : Int) :
    sumUp lo hi (fun c => hhR lo hi v M k c * v c) =
      sumUp lo hi (fun c => M k c * v c) +
        (-2 / sumUp lo hi (fun c => v c * v c)) * sumUp lo hi (fun c => v c * v c) *
          sumUp lo hi (fun c => M k c * v c) := by
  have e : sumUp lo hi (fun c => hhR lo hi v M k c * v c) =
      sumUp lo hi (fun c => M k c * v c +
        (-2 / sumUp lo hi (fun c => v c * v c)) * sumUp lo hi (fun c => M k c * v c) *
          (v c * v c)) := by
    apply sumUp_congr
    intro c h1 h2
    rw [hhR_in lo hi v M k c ⟨h1, h2⟩]
    ring
  rw [e, sumUp_add, sumUp_mul_left]
  ring

theorem hhR_invol (lo hi : Int) (v : Int → α) (M : Int → Int → α) :
    hhR lo hi v (hhR lo hi v M) = M := by
  funext k j
  by_cases hj : lo ≤ j ∧ j < hi
  · rw [hhR_in lo hi v _ k j hj, hhR_inner, hhR_in lo hi v M k j hj]
    by_cases hN : sumUp lo hi (fun c => v c * v c) = 0
    · rw [hN]
      simp
    · field_simp
      ring
  · rw [hhR_out lo hi v _ k j hj, hhR_out lo hi v M k j hj]

/-- The bilinear form is linear in its first argument: a reflection of the rows of `X` is a
reflection of the rows of the form. -/
theorem bil_hhL_left (lo n : Int) (w : Int → α) (sh : Int) (lo' hi' : Int) (u : Int → α)
    (X Y : Int → Int → α) :
    bil lo n w sh (hhL lo' hi' u X) Y = hhL lo' hi' u (bil lo n w sh X Y) := by
  funext a b
  by_cases ha : lo' ≤ a ∧ a < hi'
  · rw [hhL_in lo' hi' u _ a b ha]
    unfold bil
    have e : sumUp lo n (fun t => hhL lo' hi' u X a (t - sh) * w t * Y b t) =
        sumUp lo n (fun t => X a (t - sh) * w t * Y b t +
          (-2 / sumUp lo' hi' (fun r => u r * u r)) * u a *
            sumUp lo' hi' (fun r => u r * (X r (t - sh) * w t * Y b t))) := by
      apply sumUp_congr
      intro t _ _
      have e3 : sumUp lo' hi' (fun r => u r * (X r (t - sh) * w t * Y b t)) =
          sumUp lo' hi' (fun r => u r * X r (t - sh)) * (w t * Y b t) := by
        rw [← sumUp_mul_right]
        apply sumUp_congr
        intro r _ _
        ring
      rw [hhL_in lo' hi' u X a (t - sh) ha, e3]
      ring
    rw [e, sumUp_add, sumUp_mul_left, sumUp_comm]
    congr 2
    apply sumUp_congr
    intro r _ _
    rw [sumUp_mul_left]
  · rw [hhL_out lo' hi' u _ a b ha]
    unfold bil
    apply sumUp_congr
    intro t _ _
    rw [hhL_out lo' hi' u X a (t - sh) ha]

/-- The bilinear form is linear in its second argument: a reflection of the rows of `Y` is a
reflection of the columns of the form. -/
theorem bil_hhL_right (lo n : Int) (w : Int → α) (sh : Int) (lo' hi' : Int) (v : Int → α)
    (X Y : Int → Int → α) :
    bil lo n w sh X (hhL lo' hi' v Y) = hhR lo' hi' v (bil lo n w sh X Y) := by
  funext a b
  by_cases hb : lo' ≤ b ∧ b < hi'
  · rw [hhR_in lo' hi' v _ a b hb]
    unfold bil
    have e : sumUp lo n (fun t => X a (t - sh) * w t * hhL lo' hi' v Y b t) =
        sumUp lo n (fun t => X a (t - sh) * w t * Y b t +
          (-2 / sumUp lo' hi' (fun c => v c * v c)) * v b *
            sumUp lo' hi' (fun c => X a (t - sh) * w t * Y c t * v c)) := by
      apply sumUp_congr
      intro t _ _
      have e3 : sumUp lo' hi' (fun c => X a (t - sh) * w t * Y c t * v c) =
          (X a (t - sh) * w t) * sumUp lo' hi' (fun c => v c * Y c t) := by
        rw [← sumUp_mul_left]
        apply sumUp_congr
        intro c _ _
        ring
      rw [hhL_in lo' hi' v Y b t hb, e3]
      ring
    rw [e, sumUp_add, sumUp_mul_left, sumUp_comm]
    congr 2
    apply sumUp_congr
    intro c _ _
    rw [sumUp_mul_right]
  · rw [hhR_out lo' hi' v _ a b hb]
    unfold bil
    apply sumUp_congr
    intro t _ _
    rw [hhL_out lo' hi' v Y b t hb]

end Reflections

section ReflectorLoops

variable {α : Type} [LinearOrderedField α]

/-- The loop that adds `f` times column `i` of `U` to another column `j` (lines 102–103 and
190–191), by its effect on the fields. -/
theorem addCol_facts (lo hi : St α → Int) (i j : Int) (st : St α) (hij : i ≠ j) :
    ∃ T, loopUp lo hi (fun k (st : St α) =>
        (st.ckU k i).wrU k j (st.u k j + st.f * st.u k i)) st = T ∧
      (∀ a b, T.u a b = if b = j ∧ lo st ≤ a ∧ a < hi st then st.u a b + st.f * st.u a i
        else st.u a b) ∧
      T.S = st.S ∧ T.V = st.V ∧ T.rv1 = st.rv1 ∧ T.g = st.g ∧ T.scale = st.scale ∧
      T.h = st.h ∧ T.l = st.l ∧ T.dz = st.dz := by
  refine ⟨_, rfl, ?_⟩
  rw [loopUp_eq]
  by_cases hle : hi st ≤ lo st
  · rw [forUp_of_le hle]
    refine ⟨fun a b => ?_, rfl, rfl, rfl, rfl, rfl, rfl, rfl, rfl⟩
    rw [if_neg (by omega)]
  · have h := forUp_inv (le_of_lt (not_le.mp hle))
      (fun k (st : St α) => (st.ckU k i).wrU k j (st.u k j + st.f * st.u k i))
      (fun k T => (∀ a b, T.u a b = if b = j ∧ lo st ≤ a ∧ a < k then
          st.u a b + st.f * st.u a i else st.u a b) ∧
        T.S = st.S ∧ T.V = st.V ∧ T.rv1 = st.rv1 ∧ T.g = st.g ∧ T.scale = st.scale ∧
        T.h = st.h ∧ T.l = st.l ∧ T.dz = st.dz ∧ T.f = st.f)
      st ⟨fun a b => by rw [if_neg (by omega)], rfl, rfl, rfl, rfl, rfl, rfl, rfl, rfl, rfl⟩
      (by
        rintro k t hk1 hk2 ⟨a1, a2, a3, a4, a5, a6, a7, a8, a9, a10⟩
        refine ⟨fun a b => ?_, ?_, ?_, ?_, ?_, ?_, ?_, ?_, ?_, ?_⟩
        · have hkj : t.U.val k j = st.U.val k j := by
            have := a1 k j
            unfold St.u at this
            rw [this, if_neg (by omega)]
          have hki : t.U.val k i = st.U.val k i := by
            have := a1 k i
            unfold St.u at this
            rw [this, if_neg (fun h => hij h.1)]
          have hab := a1 a b
          unfold St.u at hab
          unfold St.wrU St.ckU St.u Mat.set
          simp only
          rw [hkj, hki, a10]
          by_cases c1 : a = k ∧ b = j
          · rw [if_pos c1, if_pos ⟨c1.2, by omega, by omega⟩, c1.1, c1.2]
          · rw [if_neg c1, hab]
            by_cases c2 : b = j ∧ lo st ≤ a ∧ a < k
            · rw [if_pos c2, if_pos ⟨c2.1, c2.2.1, by omega⟩]
            · rw [if_neg c2, if_neg (by omega)]
        · simp only [St.wrU, St.ckU]
          exact a2
        · simp only [St.wrU, St.ckU]
          exact a3
        · simp only [St.wrU, St.ckU]
          exact a4
        · simp only [St.wrU, St.ckU]
          exact a5
        · simp only [St.wrU, St.ckU]
          exact a6
        · simp only [St.wrU, St.ckU]
          exact a7
        · simp only [St.wrU, St.ckU]
          exact a8
        · simp only [St.wrU, St.ckU]
          exact a9
        · simp only [St.wrU, St.ckU]
          exact a10)
    exact ⟨h.1, h.2.1, h.2.2.1, h.2.2.2.1, h.2.2.2.2.1, h.2.2.2.2.2.1, h.2.2.2.2.2.2.1,
      h.2.2.2.2.2.2.2.1, h.2.2.2.2.2.2.2.2.1⟩

/-- One round of the loop of lines 97–104: column `j` of `U` receives, in the rows `[i, m)`,
the multiple `(Σ_r U(r,i)·U(r,j))/h` of column `i`. -/
theorem leftApply_body (m i j : Int) (t : St α) (hij : i ≠ j) :
    ∃ T, block [
        fun st => { st with s := 0 },
        loopUp (fun _ => i) (fun _ => m) (fun k st =>
          { (st.ckU k i).ckU k j with s := st.s + st.u k i * st.u k j }),
        fun st => { st.dv st.h with f := st.s / st.h },
        loopUp (fun _ => i) (fun _ => m) (fun k st =>
          (st.ckU k i).wrU k j (st.u k j + st.f * st.u k i))] t = T ∧
      (∀ a b, T.u a b = if b = j ∧ i ≤ a ∧ a < m then
          t.u a b + sumUp i m (fun r => t.u r i * t.u r j) / t.h * t.u a i else t.u a b) ∧
      T.h = t.h ∧ T.l = t.l := by
  refine ⟨_, rfl, ?_⟩
  rw [block_cons, block_cons]
  obtain ⟨o, e1⟩ := dotCol_spec (fun _ => i) (fun _ => m) i j ({ t with s := 0 } : St α)
  rw [e1, block_cons, block_cons, block_nil]
  obtain ⟨T, eT, b1, -, -, -, -, -, b7, b8, -⟩ := addCol_facts (fun _ => i) (fun _ => m) i j
    ({ (({ ({ t with s := 0 } : St α) with
        s := 0 + sumUp i m (fun r => t.u r i * t.u r j), oob := o } : St α).dv t.h) with
      f := (0 + sumUp i m (fun r => t.u r i * t.u r j)) / t.h } : St α) hij
  simp only [St.u] at eT b1 ⊢
  rw [eT]
  refine ⟨fun a b => ?_, b7, b8⟩
  rw [b1 a b, zero_add]
  simp only [St.dv]

/-- The loop of lines 97–104, which applies the left-hand reflection of step `i` to the
columns `j ≥ l = i + 1`, by the values it leaves in `U`. -/
theorem leftApply_val (m n i : Int) (X : St α) (hl : X.l = i + 1) :
    ∃ T, loopUp (fun st => st.l) (fun _ => n) (fun j => block [
        fun st => { st with s := 0 },
        loopUp (fun _ => i) (fun _ => m) (fun k st =>
          { (st.ckU k i).ckU k j with s := st.s + st.u k i * st.u k j }),
        fun st => { st.dv st.h with f := st.s / st.h },
        loopUp (fun _ => i) (fun _ => m) (fun k st =>
          (st.ckU k i).wrU k j (st.u k j + st.f * st.u k i))]) X = T ∧
      ∀ a b, T.u a b = if (i ≤ a ∧ a < m) ∧ (i + 1 ≤ b ∧ b < n) then
          X.u a b + sumUp i m (fun r => X.u r i * X.u r b) / X.h * X.u a i else X.u a b := by
  refine ⟨_, rfl, ?_⟩
  rw [loopUp_eq, hl]
  by_cases hle : n ≤ i + 1
  · rw [forUp_of_le hle]
    intro a b
    rw [if_neg (by omega)]
  · have h := forUp_inv (le_of_lt (not_le.mp hle))
      (fun j => block [
        fun st => { st with s := 0 },
        loopUp (fun _ => i) (fun _ => m) (fun k st =>
          { (st.ckU k i).ckU k j with s := st.s + st.u k i * st.u k j }),
        fun st => { st.dv st.h with f := st.s / st.h },
        loopUp (fun _ => i) (fun _ => m) (fun k (st : St α) =>
          (st.ckU k i).wrU k j (st.u k j + st.f * st.u k i))])
      (fun j0 t => t.h = X.h ∧ ∀ a b, t.u a b =
        if (i ≤ a ∧ a < m) ∧ (i + 1 ≤ b ∧ b < j0) then
          X.u a b + sumUp i m (fun r => X.u r i * X.u r b) / X.h * X.u a i else X.u a b)
      X ⟨rfl, fun a b => by rw [if_neg (by omega)]⟩
      (by
        rintro j0 t hj1 hj2 ⟨a1, a2⟩
        obtain ⟨T, eT, b1, b2, -⟩ := leftApply_body m i j0 t (by omega)
        beta_reduce
        rw [eT]
        refine ⟨b2.trans a1, fun a b => ?_⟩
        have hcol : ∀ r, t.u r i = X.u r i := fun r => by
          rw [a2 r i, if_neg (by omega)]
        have hj0 : ∀ r, t.u r j0 = X.u r j0 := fun r => by
          rw [a2 r j0, if_neg (by omega)]
        rw [b1 a b, a1, hcol a]
        have es : sumUp i m (fun r => t.u r i * t.u r j0) =
            sumUp i m (fun r => X.u r i * X.u r j0) :=
          sumUp_congr (fun r _ _ => by rw [hcol r, hj0 r])
        rw [es]
        by_cases c1 : b = j0 ∧ i ≤ a ∧ a < m
        · rw [if_pos c1, if_pos ⟨c1.2, by omega, by omega⟩, c1.1, hj0 a]
        · rw [if_neg c1, a2 a b]
          by_cases c2 : (i ≤ a ∧ a < m) ∧ (i + 1 ≤ b ∧ b < j0)
          · rw [if_pos c2, if_pos ⟨c2.1, c2.2.1, by omega⟩]
          · rw [if_neg c2, if_neg (by omega)])
    exact h.2

end ReflectorLoops

section LeftAlgebra

/-- The algebra of the left-hand Householder vector: `x` is the sub-column before the step,
`u` the stored vector, `sc` the scale, `f = x i / sc`, `s` the sum of the squares of the scaled
entries, `g² = s` and `h = f·g - s`. -/
theorem house_vec_algebra (i m : Int) (x u : Int → ℝ) (sc f g s h : ℝ) (him : i < m)
    (hsc : sc ≠ 0) (hf : x i = f * sc)
    (hs : s = sumUp i m (fun r => x r / sc * (x r / sc)))
    (hg : g * g = s) (hh : h = f * g - s)
    (hui : u i = (f - g) * sc) (hur : ∀ r, i < r → r < m → u r = x r) :
    sumUp i m (fun r => u r * u r) = -2 * (sc * sc * h) ∧
    sumUp i m (fun r => u r * x r) = -(sc * sc * h) := by
  have hq : sumUp (i + 1) m (fun r => x r * x r) = sc * sc * (s - f * f) := by
    rw [hs, sumUp_first him]
    have e : sumUp (i + 1) m (fun r => x r / sc * (x r / sc)) =
        sumUp (i + 1) m (fun r => x r * x r) * (1 / (sc * sc)) := by
      rw [← sumUp_mul_right]
      apply sumUp_congr
      intro r _ _
      field_simp
    rw [e, hf]
    field_simp
    ring
  have e1 : sumUp (i + 1) m (fun r => u r * u r) = sumUp (i + 1) m (fun r => x r * x r) :=
    sumUp_congr (fun r h1 h2 => by rw [hur r (by omega) h2])
  have e2 : sumUp (i + 1) m (fun r => u r * x r) = sumUp (i + 1) m (fun r => x r * x r) :=
    sumUp_congr (fun r h1 h2 => by rw [hur r (by omega) h2])
  constructor
  · rw [sumUp_first him, e1, hq, hui, hh, ← hg]
    ring
  · rw [sumUp_first him, e2, hq, hui, hf, hh, ← hg]
    ring

/-- The square of `-SIGN(sqrt s, f)` is `s`, for `s ≥ 0`. -/
theorem sign_sqrt_sq (s f : ℝ) (hs : 0 ≤ s) :
    -SIGN (Real.sqrt s) f * -SIGN (Real.sqrt s) f = s := by
  unfold SIGN
  rw [abs_of_nonneg (Real.sqrt_nonneg s)]
  split
  · rw [neg_mul_neg, Real.mul_self_sqrt hs]
  · rw [neg_neg, Real.mul_self_sqrt hs]

/-- The left-hand reduction of step `i` (lines 80–109), started with `scale = s = g = 0` and
`l = i + 1`, as a Householder reflection: it assigns `U` only in the rows `[i, m)` of the
columns `[i, n)`; the columns after `i` receive the reflection with the vector left in column
`i`; this reflection maps the old column `i` to `scale·g` times the unit vector; and
`scale·g·U(i,i)` is minus half the squared norm of the vector. -/
theorem leftReduce_full (m n i : Int) (Y : St ℝ) (him : i < m) (hin : i < n)
    (hl : Y.l = i + 1) (h1 : Y.scale = 0) (h2 : Y.s = 0) (h3 : Y.g = 0) :
    (∀ a b, ¬ ((i ≤ a ∧ a < m) ∧ (i ≤ b ∧ b < n)) →
      (leftReduce Real.sqrt m n i Y).u a b = Y.u a b) ∧
    (∀ a b, (i ≤ a ∧ a < m) → (i + 1 ≤ b ∧ b < n) →
      (leftReduce Real.sqrt m n i Y).u a b =
        hhL i m (fun r => (leftReduce Real.sqrt m n i Y).u r i) Y.u a b) ∧
    (∀ a, i ≤ a → a < m →
      hhL i m (fun r => (leftReduce Real.sqrt m n i Y).u r i) Y.u a i =
        if a = i then (leftReduce Real.sqrt m n i Y).scale * (leftReduce Real.sqrt m n i Y).g
        else 0) ∧
    (leftReduce Real.sqrt m n i Y).scale * (leftReduce Real.sqrt m n i Y).g *
        (leftReduce Real.sqrt m n i Y).u i i =
      -(sumUp i m (fun r => (leftReduce Real.sqrt m n i Y).u r i *
        (leftReduce Real.sqrt m n i Y).u r i)) / 2 := by
  obtain ⟨P, hP⟩ : ∃ P : St ℝ → Prop, P = fun Z =>
    (∀ a b, ¬ ((i ≤ a ∧ a < m) ∧ (i ≤ b ∧ b < n)) → Z.u a b = Y.u a b) ∧
    (∀ a b, (i ≤ a ∧ a < m) → (i + 1 ≤ b ∧ b < n) →
      Z.u a b = hhL i m (fun r => Z.u r i) Y.u a b) ∧
    (∀ a, i ≤ a → a < m →
      hhL i m (fun r => Z.u r i) Y.u a i = if a = i then Z.scale * Z.g else 0) ∧
    Z.scale * Z.g * Z.u i i = -(sumUp i m (fun r => Z.u r i * Z.u r i)) / 2 := ⟨_, rfl⟩
  have key : P (leftReduce Real.sqrt m n i Y) := by
    unfold leftReduce
    rw [whenever_eq, if_pos him]
    apply block_step (fun T : St ℝ => T.scale = sumUp i m (fun r => |Y.u r i|) ∧ T.U = Y.U ∧
      T.s = 0 ∧ T.g = 0 ∧ T.l = i + 1)
    · obtain ⟨o, e⟩ := colScale_spec i m Y
      rw [e]
      refine ⟨?_, rfl, h2, h3, hl⟩
      simp only
      rw [h1, zero_add]
    rintro T ⟨t1, t2, t3, t4, t5⟩
    have hTu : ∀ a b, T.u a b = Y.u a b := fun a b => by simp only [St.u, t2]
    apply block_step P
    · rw [whenever_eq]
      by_cases hsc : sumUp i m (fun r => |Y.u r i|) = 0
      · rw [if_neg (by rw [t1, hsc]; exact fun h => h rfl), hP]
        have hx : ∀ r, i ≤ r → r < m → Y.u r i = 0 := fun r hr1 hr2 =>
          abs_eq_zero.mp (sumUp_eq_zero (fun _ _ _ => abs_nonneg _) hsc r hr1 hr2)
        refine ⟨fun a b _ => hTu a b, fun a b ha hb => ?_, fun a ha1 ha2 => ?_, ?_⟩
        · rw [hhL_in i m _ _ a b ha, hTu a i, hx a ha.1 ha.2, mul_zero, zero_mul, add_zero,
            hTu a b]
        · rw [hhL_in i m _ _ a i ⟨ha1, ha2⟩, hTu a i, hx a ha1 ha2, mul_zero, zero_mul,
            add_zero, t4, mul_zero]
          simp
        · rw [t4, mul_zero, zero_mul]
          have : sumUp i m (fun r => T.u r i * T.u r i) = 0 :=
            sumUp_zero (fun r hr1 hr2 => by rw [hTu r i, hx r hr1 hr2, mul_zero])
          rw [this]
          simp
      · have hT : T.scale ≠ 0 := by
          rw [t1]
          exact hsc
        rw [if_pos hT]
        obtain ⟨sc, hsc'⟩ : ∃ sc, sc = sumUp i m (fun r => |Y.u r i|) := ⟨_, rfl⟩
        have hp := scaled_sumsq_pos i m (fun k => Y.u k i) hsc
        rw [← hsc'] at t1 hsc hp
        apply block_step (fun T2 : St ℝ => T2.scale = sc ∧ T2.g = 0 ∧ T2.l = i + 1 ∧
          T2.s = sumUp i m (fun r => Y.u r i / sc * (Y.u r i / sc)) ∧
          ∀ a b, T2.u a b = if b = i ∧ i ≤ a ∧ a < m then Y.u a b / sc else Y.u a b)
        · obtain ⟨o, e⟩ := colNorm_spec i m T hT
          rw [e]
          refine ⟨t1, t4, t5, ?_, fun a b => ?_⟩
          · simp only
            rw [t3, zero_add, t1]
            exact sumUp_congr (fun r _ _ => by rw [hTu])
          · simp only [St.u]
            rw [t2, t1]
        rintro T2 ⟨u1, u2, u3, u4, u5⟩
        obtain ⟨f, hf⟩ : ∃ f, f = Y.u i i / sc := ⟨_, rfl⟩
        obtain ⟨s, hs⟩ : ∃ s, s = sumUp i m (fun r => Y.u r i / sc * (Y.u r i / sc)) :=
          ⟨_, rfl⟩
        rw [← hs] at u4 hp
        obtain ⟨g, hg⟩ : ∃ g, g = -SIGN (Real.sqrt s) f := ⟨_, rfl⟩
        have hgg : g * g = s := by
          rw [hg]
          exact sign_sqrt_sq s f hp.le
        have hh0 : f * g - s ≠ 0 := by
          rw [hg]
          exact (house_scalars f s hp).2.ne
        have hT2ii : T2.u i i = f := by
          rw [u5 i i, if_pos ⟨rfl, le_refl i, him⟩, hf]
        apply block_step (fun X : St ℝ => X = { T2.ckU i i with f := T2.u i i })
        · rfl
        rintro X rfl
        apply block_step (fun X : St ℝ => X.scale = sc ∧ X.l = i + 1 ∧ X.s = s ∧ X.f = f ∧
          X.g = g ∧ X.U = T2.U)
        · refine ⟨?_, ?_, ?_, ?_, ?_, ?_⟩
          · simp only [St.ckU]
            exact u1
          · simp only [St.ckU]
            exact u3
          · simp only [St.ckU]
            exact u4
          · simp only [St.ckU]
            exact hT2ii
          · simp only [St.ckU]
            rw [u4, hT2ii, hg]
          · simp only [St.ckU]
        rintro X ⟨x1, x2, x3, x4, x5, x6⟩
        apply block_step (fun X1 : St ℝ => X1.scale = sc ∧ X1.l = i + 1 ∧ X1.f = f ∧
          X1.g = g ∧ X1.U = T2.U ∧ X1.h = f * g - s)
        · refine ⟨x1, x2, x4, x5, x6, ?_⟩
          simp only
          rw [x3, x4, x5]
        rintro X1 ⟨y1, y2, y4, y5, y6, y7⟩
        apply block_step (fun X2 : St ℝ => X2.scale = sc ∧ X2.l = i + 1 ∧ X2.g = g ∧
          X2.h = f * g - s ∧ ∀ a b, X2.u a b = if a = i ∧ b = i then f - g else T2.u a b)
        · refine ⟨?_, ?_, ?_, ?_, fun a b => ?_⟩
          · simp only [St.wrU, St.ckU]
            exact y1
          · simp only [St.wrU, St.ckU]
            exact y2
          · simp only [St.wrU, St.ckU]
            exact y5
          · simp only [St.wrU, St.ckU]
            exact y7
          · simp only [St.wrU, St.ckU, St.u, Mat.set]
            rw [y4, y5, y6]
        rintro X2 ⟨z1, z2, z3, z4, z5⟩
        apply block_step (fun X3 : St ℝ => X3.scale = sc ∧ X3.g = g ∧
          ∀ a b, X3.u a b = if (i ≤ a ∧ a < m) ∧ (i + 1 ≤ b ∧ b < n) then
            X2.u a b + sumUp i m (fun r => X2.u r i * X2.u r b) / X2.h * X2.u a i
            else X2.u a b)
        · obtain ⟨-, r2, r3, -⟩ := @PresOn_whenever (St ℝ) _ _ (HRel_preOrd i (i + 1))
            (fun _ : St ℝ => i ≠ n - 1) _ _ (@leftApply_hrel ℝ _ m n i) X2 z2
          refine ⟨r2.trans z1, r3.trans z3, ?_⟩
          rw [whenever_eq]
          by_cases hne : i ≠ n - 1
          · rw [if_pos hne]
            obtain ⟨T', eT', v⟩ := leftApply_val m n i X2 z2
            rw [eT']
            exact v
          · rw [if_neg hne]
            intro a b
            rw [if_neg (by omega)]
        rintro X3 ⟨w1, w2, w3⟩
        apply block_step P
        · have hZ : ∃ Z, loopUp (fun _ => i) (fun _ => m)
              (fun k (st : St ℝ) => st.wrU k i (st.u k i * st.scale)) X3 = Z ∧
              Z.scale = sc ∧ Z.g = g ∧ ∀ a b, Z.u a b =
                if b = i ∧ i ≤ a ∧ a < m then X3.u a b * sc else X3.u a b := by
            obtain ⟨o, e⟩ := colRescale_spec i m X3
            refine ⟨_, e, w1, w2, fun a b => ?_⟩
            simp only [St.u]
            rw [w1]
          obtain ⟨Z, eZ, q1, q2, q3⟩ := hZ
          rw [eZ, hP]
          have hx2i : ∀ r, i ≤ r → r < m → X2.u r i =
              (if r = i then f - g else Y.u r i / sc) := by
            intro r hr1 hr2
            by_cases hri : r = i
            · rw [z5 r i, if_pos ⟨hri, rfl⟩, if_pos hri]
            · rw [z5 r i, if_neg (fun h => hri h.1), u5 r i, if_pos ⟨rfl, hr1, hr2⟩,
                if_neg hri]
          have hx2b : ∀ a b, b ≠ i → X2.u a b = Y.u a b := by
            intro a b hb
            rw [z5 a b, if_neg (fun h => hb h.2), u5 a b, if_neg (fun h => hb h.1)]
          have hcol : ∀ r, i ≤ r → r < m →
              Z.u r i = (if r = i then (f - g) * sc else Y.u r i) := by
            intro r hr1 hr2
            rw [q3 r i, if_pos ⟨rfl, hr1, hr2⟩, w3 r i, if_neg (by omega), hx2i r hr1 hr2]
            by_cases hri : r = i
            · rw [if_pos hri, if_pos hri]
            · rw [if_neg hri, if_neg hri]
              field_simp
          have hcol2 : ∀ r, i ≤ r → r < m → X2.u r i = Z.u r i / sc := by
            intro r hr1 hr2
            rw [hcol r hr1 hr2, hx2i r hr1 hr2]
            by_cases hri : r = i
            · rw [if_pos hri, if_pos hri]
              field_simp
            · rw [if_neg hri, if_neg hri]
          obtain ⟨n1, n2⟩ := house_vec_algebra i m (fun r => Y.u r i)
            (fun r => Z.u r i) sc f g s (f * g - s) him hsc
            (by beta_reduce; rw [hf]; field_simp) hs hgg rfl
            (by beta_reduce; rw [hcol i (le_refl i) him, if_pos rfl])
            (fun r hr1 hr2 => by
              beta_reduce
              rw [hcol r (by omega) hr2, if_neg (by omega)])
          refine ⟨fun a b hab => ?_, fun a b ha hb => ?_, fun a ha1 ha2 => ?_, ?_⟩
          · have c1 : ¬ (b = i ∧ i ≤ a ∧ a < m) := by
              clear * - hab hin
              omega
            have c2 : ¬ ((i ≤ a ∧ a < m) ∧ (i + 1 ≤ b ∧ b < n)) := by
              clear * - hab
              omega
            have c3 : ¬ (a = i ∧ b = i) := by
              clear * - hab him hin
              omega
            rw [q3 a b, if_neg c1, w3 a b, if_neg c2, z5 a b, if_neg c3, u5 a b, if_neg c1]
          · rw [hhL_in i m _ _ a b ha, n1, q3 a b, if_neg (by omega), w3 a b,
              if_pos ⟨ha, hb⟩, hx2b a b (by omega), z4, hcol2 a ha.1 ha.2]
            have e1 : sumUp i m (fun r => X2.u r i * X2.u r b) =
                sumUp i m (fun r => Z.u r i * Y.u r b) * (1 / sc) := by
              rw [← sumUp_mul_right]
              apply sumUp_congr
              intro r hr1 hr2
              rw [hcol2 r hr1 hr2, hx2b r b (by omega)]
              ring
            rw [e1]
            field_simp
            ring
          · rw [hhL_in i m _ _ a i ⟨ha1, ha2⟩, n1, n2, q1, q2, hcol a ha1 ha2]
            by_cases hai : a = i
            · rw [if_pos hai, if_pos hai, hai]
              have : Y.u i i = f * sc := by
                rw [hf]
                field_simp
              rw [this]
              field_simp
              ring
            · rw [if_neg hai, if_neg hai]
              field_simp
              ring
          · rw [n1, q1, q2, hcol i (le_refl i) him, if_pos rfl, ← hgg]
            ring
        intro X4 hX4
        rw [block_nil]
        exact hX4
    intro Z hZ
    rw [block_nil]
    exact hZ
  rw [hP] at key
  exact key

end LeftAlgebra

section RightReflectorLoops

variable {α : Type} [LinearOrderedField α]

/-- The loop that stores the scaled row `i` of `U`, divided by `h`, into `rv1` (lines
129–130), by its effect on the fields. -/
theorem rvFill_facts (i n : Int) (X : St α) :
    ∃ T, loopUp (fun st => st.l) (fun _ => n) (fun k (st : St α) =>
        ((st.dv st.h).ckU i k).wrR k (st.u i k / st.h)) X = T ∧
      T.U = X.U ∧ (∀ a, T.r a = if X.l ≤ a ∧ a < n then X.u i a / X.h else X.r a) ∧
      T.S = X.S ∧ T.g = X.g ∧ T.scale = X.scale ∧ T.h = X.h ∧ T.l = X.l := by
  refine ⟨_, rfl, ?_⟩
  rw [loopUp_eq]
  by_cases hle : n ≤ X.l
  · rw [forUp_of_le hle]
    refine ⟨rfl, fun a => ?_, rfl, rfl, rfl, rfl, rfl⟩
    rw [if_neg (by omega)]
  · exact forUp_inv (le_of_lt (not_le.mp hle))
      (fun k (st : St α) => ((st.dv st.h).ckU i k).wrR k (st.u i k / st.h))
      (fun k T => T.U = X.U ∧
        (∀ a, T.r a = if X.l ≤ a ∧ a < k then X.u i a / X.h else X.r a) ∧
        T.S = X.S ∧ T.g = X.g ∧ T.scale = X.scale ∧ T.h = X.h ∧ T.l = X.l)
      X ⟨rfl, fun a => by rw [if_neg (by omega)], rfl, rfl, rfl, rfl, rfl⟩
      (by
        rintro k t hk1 hk2 ⟨a1, a2, a3, a4, a5, a6, a7⟩
        refine ⟨?_, fun a => ?_, ?_, ?_, ?_, ?_, ?_⟩
        · simp only [St.wrR, St.ckR, St.ckU, St.dv]
          exact a1
        · have hab := a2 a
          unfold St.r St.u at hab
          unfold St.wrR St.ckR St.ckU St.dv St.r St.u Mat.set
          simp only
          rw [a1, a6]
          by_cases c1 : a = k
          · rw [if_pos ⟨c1, trivial⟩, if_pos ⟨by omega, by omega⟩, c1]
          · rw [if_neg (fun h => c1 h.1), hab]
            by_cases c2 : X.l ≤ a ∧ a < k
            · rw [if_pos c2, if_pos ⟨c2.1, by omega⟩]
            · rw [if_neg c2, if_neg (by omega)]
        · simp only [St.wrR, St.ckR, St.ckU, St.dv]
          exact a3
        · simp only [St.wrR, St.ckR, St.ckU, St.dv]
          exact a4
        · simp only [St.wrR, St.ckR, St.ckU, St.dv]
          exact a5
        · simp only [St.wrR, St.ckR, St.ckU, St.dv]
          exact a6
        · simp only [St.wrR, St.ckR, St.ckU, St.dv]
          exact a7)

/-- The loop that accumulates in `s` the product of the rows `j` and `i` of `U`
(lines 135–136). -/
theorem dotRow_spec (lo hi : St α → Int) (j i : Int) (st : St α) :
    ∃ o, loopUp lo hi (fun k (st : St α) =>
        { (st.ckU j k).ckU i k with s := st.s + st.u j k * st.u i k }) st =
      { st with s := st.s + sumUp (lo st) (hi st) (fun k => st.u j k * st.u i k), oob := o } := by
  rw [loopUp_eq]
  by_cases hle : hi st ≤ lo st
  · rw [forUp_of_le hle, sumUp_of_le hle, add_zero]
    exact ⟨st.oob, rfl⟩
  · exact forUp_inv (le_of_lt (not_le.mp hle))
      (fun k (st : St α) => { (st.ckU j k).ckU i k with s := st.s + st.u j k * st.u i k })
      (fun k t => ∃ o,
        t = { st with s := st.s + sumUp (lo st) k (fun k => st.u j k * st.u i k), oob := o })
      st ⟨st.oob, by rw [sumUp_of_le (le_refl _), add_zero]⟩
      (by
        rintro k t h0 - ⟨o, rfl⟩
        refine ⟨(o || !st.U.inb j k) || !st.U.inb i k, ?_⟩
        rw [sumUp_succ h0]
        simp only [St.ckU, St.u, add_assoc])

/-- The loop that adds `s` times `rv1` to row `j` of `U` (lines 137–138), by its effect on the
fields. -/
theorem addRow_facts (lo hi : St α → Int) (j : Int) (st : St α) :
    ∃ T, loopUp lo hi (fun k (st : St α) =>
        (st.ckR k).wrU j k (st.u j k + st.s * st.r k)) st = T ∧
      (∀ a b, T.u a b = if a = j ∧ lo st ≤ b ∧ b < hi st then st.u a b + st.s * st.r b
        else st.u a b) ∧
      T.S = st.S ∧ T.rv1 = st.rv1 ∧ T.g = st.g ∧ T.scale = st.scale ∧
      T.h = st.h ∧ T.l = st.l := by
  refine ⟨_, rfl, ?_⟩
  rw [loopUp_eq]
  by_cases hle : hi st ≤ lo st
  · rw [forUp_of_le hle]
    refine ⟨fun a b => ?_, rfl, rfl, rfl, rfl, rfl, rfl⟩
    rw [if_neg (by omega)]
  · have h := forUp_inv (le_of_lt (not_le.mp hle))
      (fun k (st : St α) => (st.ckR k).wrU j k (st.u j k + st.s * st.r k))
      (fun k T => (∀ a b, T.u a b = if a = j ∧ lo st ≤ b ∧ b < k then
          st.u a b + st.s * st.r b else st.u a b) ∧
        T.S = st.S ∧ T.rv1 = st.rv1 ∧ T.g = st.g ∧ T.scale = st.scale ∧
        T.h = st.h ∧ T.l = st.l ∧ T.s = st.s)
      st ⟨fun a b => by rw [if_neg (by omega)], rfl, rfl, rfl, rfl, rfl, rfl, rfl⟩
      (by
        rintro k t hk1 hk2 ⟨a1, a2, a3, a4, a5, a6, a7, a8⟩
        refine ⟨fun a b => ?_, ?_, ?_, ?_, ?_, ?_, ?_, ?_⟩
        · have hjk : t.U.val j k = st.U.val j k := by
            have := a1 j k
            unfold St.u at this
            rw [this, if_neg (by omega)]
          have hab := a1 a b
          unfold St.u St.r at hab
          unfold St.wrU St.ckU St.ckR St.u St.r Mat.set
          simp only
          rw [hjk, a3, a8]
          by_cases c1 : a = j ∧ b = k
          · rw [if_pos c1, if_pos ⟨c1.1, by omega, by omega⟩, c1.1, c1.2]
          · rw [if_neg c1, hab]
            by_cases c2 : a = j ∧ lo st ≤ b ∧ b < k
            · rw [if_pos c2, if_pos ⟨c2.1, c2.2.1, by omega⟩]
            · rw [if_neg c2, if_neg (by omega)]
        · simp only [St.wrU, St.ckU, St.ckR]
          exact a2
        · simp only [St.wrU, St.ckU, St.ckR]
          exact a3
        · simp only [St.wrU, St.ckU, St.ckR]
          exact a4
        · simp only [St.wrU, St.ckU, St.ckR]
          exact a5
        · simp only [St.wrU, St.ckU, St.ckR]
          exact a6
        · simp only [St.wrU, St.ckU, St.ckR]
          exact a7
        · simp only [St.wrU, St.ckU, St.ckR]
          exact a8)
    exact ⟨h.1, h.2.1, h.2.2.1, h.2.2.2.1, h.2.2.2.2.1, h.2.2.2.2.2.1, h.2.2.2.2.2.2.1⟩

/-- One round of the loop of lines 133–139: row `j` of `U` receives, in the columns `[l, n)`,
the multiple `Σ_c U(j,c)·U(i,c)` of `rv1`. -/
theorem rightApply_body (n i j : Int) (t : St α) :
    ∃ T, block [
        fun st => { st with s := 0 },
        loopUp (fun st => st.l) (fun _ => n) (fun k st =>
          { (st.ckU j k).ckU i k with s := st.s + st.u j k * st.u i k }),
        loopUp (fun st => st.l) (fun _ => n) (fun k st =>
          (st.ckR k).wrU j k (st.u j k + st.s * st.r k))] t = T ∧
      (∀ a b, T.u a b = if a = j ∧ t.l ≤ b ∧ b < n then
          t.u a b + sumUp t.l n (fun c => t.u j c * t.u i c) * t.r b else t.u a b) ∧
      T.rv1 = t.rv1 ∧ T.l = t.l ∧ T.g = t.g ∧ T.scale = t.scale := by
  refine ⟨_, rfl, ?_⟩
  rw [block_cons, block_cons]
  obtain ⟨o, e1⟩ := dotRow_spec (fun st => st.l) (fun _ => n) j i ({ t with s := 0 } : St α)
  rw [e1, block_cons, block_nil]
  obtain ⟨T, eT, b1, -, b3, b4, b5, -, b7⟩ := addRow_facts (fun st => st.l) (fun _ => n) j
    ({ ({ t with s := 0 } : St α) with
        s := 0 + sumUp t.l n (fun c => t.u j c * t.u i c), oob := o } : St α)
  simp only [St.u] at eT b1 ⊢
  rw [eT]
  refine ⟨fun a b => ?_, b3, b7, b4, b5⟩
  rw [b1 a b, zero_add]
  rfl

/-- The loop of lines 133–139, which applies the right-hand reflection of step `i` to the
rows `j ≥ l = i + 1`, by the values it leaves in `U`. -/
theorem rightApply_val (m n i : Int) (X : St α) (hl : X.l = i + 1) :
    ∃ T, loopUp (fun st => st.l) (fun _ => m) (fun j => block [
        fun st => { st with s := 0 },
        loopUp (fun st => st.l) (fun _ => n) (fun k st =>
          { (st.ckU j k).ckU i k with s := st.s + st.u j k * st.u i k }),
        loopUp (fun st => st.l) (fun _ => n) (fun k st =>
          (st.ckR k).wrU j k (st.u j k + st.s * st.r k))]) X = T ∧
      T.scale = X.scale ∧ T.g = X.g ∧ T.l = i + 1 ∧
      ∀ a b, T.u a b = if (i + 1 ≤ a ∧ a < m) ∧ (i + 1 ≤ b ∧ b < n) then
          X.u a b + sumUp (i + 1) n (fun c => X.u a c * X.u i c) * X.r b else X.u a b := by
  refine ⟨_, rfl, ?_⟩
  rw [loopUp_eq, hl]
  by_cases hle : m ≤ i + 1
  · rw [forUp_of_le hle]
    refine ⟨rfl, rfl, hl, fun a b => ?_⟩
    rw [if_neg (by omega)]
  · have h := forUp_inv (le_of_lt (not_le.mp hle))
      (fun j => block [
        fun st => { st with s := 0 },
        loopUp (fun st => st.l) (fun _ => n) (fun k st =>
          { (st.ckU j k).ckU i k with s := st.s + st.u j k * st.u i k }),
        loopUp (fun st => st.l) (fun _ => n) (fun k (st : St α) =>
          (st.ckR k).wrU j k (st.u j k + st.s * st.r k))])
      (fun j0 t => t.rv1 = X.rv1 ∧ t.l = i + 1 ∧ t.scale = X.scale ∧ t.g = X.g ∧
        ∀ a b, t.u a b =
        if (i + 1 ≤ a ∧ a < j0) ∧ (i + 1 ≤ b ∧ b < n) then
          X.u a b + sumUp (i + 1) n (fun c => X.u a c * X.u i c) * X.r b else X.u a b)
      X ⟨rfl, hl, rfl, rfl, fun a b => by rw [if_neg (by omega)]⟩
      (by
        rintro j0 t hj1 hj2 ⟨a1, a0, a3, a4, a2⟩
        obtain ⟨T, eT, b1, b2, b3, b4, b5⟩ := rightApply_body n i j0 t
        beta_reduce
        rw [eT]
        refine ⟨b2.trans a1, b3.trans a0, b5.trans a3, b4.trans a4, fun a b => ?_⟩
        have hrow : ∀ c, t.u i c = X.u i c := fun c => by
          rw [a2 i c, if_neg (by omega)]
        have hj0 : ∀ c, t.u j0 c = X.u j0 c := fun c => by
          rw [a2 j0 c, if_neg (by omega)]
        have hr : t.r b = X.r b := by
          unfold St.r
          rw [a1]
        rw [b1 a b, a0, hr]
        have es : sumUp (i + 1) n (fun c => t.u j0 c * t.u i c) =
            sumUp (i + 1) n (fun c => X.u j0 c * X.u i c) :=
          sumUp_congr (fun c _ _ => by rw [hrow c, hj0 c])
        rw [es]
        by_cases c1 : a = j0 ∧ i + 1 ≤ b ∧ b < n
        · rw [if_pos c1, if_pos ⟨by omega, c1.2⟩, c1.1, hj0 b]
        · rw [if_neg c1, a2 a b]
          by_cases c2 : (i + 1 ≤ a ∧ a < j0) ∧ (i + 1 ≤ b ∧ b < n)
          · rw [if_pos c2, if_pos ⟨⟨c2.1.1, by omega⟩, c2.2⟩]
          · rw [if_neg c2, if_neg (by omega)])
    exact ⟨h.2.2.1, h.2.2.2.1, h.2.1, h.2.2.2.2⟩

end RightReflectorLoops

section RightAlgebra

/-- The right-hand reduction of step `i` (lines 114–144), started with `scale = s = g = 0` and
`l = i + 1`, as a Householder reflection: it assigns `U` only in the rows `[i, m)` of the
columns `[i + 1, n)`; the rows after `i` receive the reflection with the vector left in row
`i`; this reflection maps the old row `i` to `scale·g` times the unit vector; and
`scale·g·U(i,i+1)` is minus half the squared norm of the vector. -/
theorem rightReduce_full (m n i : Int) (Y : St ℝ) (him : i < m) (hin : i < n)
    (hl : Y.l = i + 1) (h1 : Y.scale = 0) (h2 : Y.s = 0) (h3 : Y.g = 0) :
    (∀ a b, ¬ ((i ≤ a ∧ a < m) ∧ (i + 1 ≤ b ∧ b < n)) →
      (rightReduce Real.sqrt m n i Y).u a b = Y.u a b) ∧
    (∀ a b, (i + 1 ≤ a ∧ a < m) → (i + 1 ≤ b ∧ b < n) →
      (rightReduce Real.sqrt m n i Y).u a b =
        hhR (i + 1) n (fun c => (rightReduce Real.sqrt m n i Y).u i c) Y.u a b) ∧
    (∀ b, i + 1 ≤ b → b < n →
      hhR (i + 1) n (fun c => (rightReduce Real.sqrt m n i Y).u i c) Y.u i b =
        if b = i + 1 then
          (rightReduce Real.sqrt m n i Y).scale * (rightReduce Real.sqrt m n i Y).g
        else 0) ∧
    (rightReduce Real.sqrt m n i Y).scale * (rightReduce Real.sqrt m n i Y).g *
        (rightReduce Real.sqrt m n i Y).u i (i + 1) =
      -(sumUp (i + 1) n (fun c => (rightReduce Real.sqrt m n i Y).u i c *
        (rightReduce Real.sqrt m n i Y).u i c)) / 2 := by
  obtain ⟨P, hP⟩ : ∃ P : St ℝ → Prop, P = fun Z =>
    (∀ a b, ¬ ((i ≤ a ∧ a < m) ∧ (i + 1 ≤ b ∧ b < n)) → Z.u a b = Y.u a b) ∧
    (∀ a b, (i + 1 ≤ a ∧ a < m) → (i + 1 ≤ b ∧ b < n) →
      Z.u a b = hhR (i + 1) n (fun c => Z.u i c) Y.u a b) ∧
    (∀ b, i + 1 ≤ b → b < n →
      hhR (i + 1) n (fun c => Z.u i c) Y.u i b = if b = i + 1 then Z.scale * Z.g else 0) ∧
    Z.scale * Z.g * Z.u i (i + 1) =
      -(sumUp (i + 1) n (fun c => Z.u i c * Z.u i c)) / 2 := ⟨_, rfl⟩
  have key : P (rightReduce Real.sqrt m n i Y) := by
    unfold rightReduce
    rw [whenever_eq]
    by_cases hg : i < m ∧ i ≠ n - 1
    swap
    · rw [if_neg hg, hP]
      have hni : n ≤ i + 1 := by
        by_contra hc
        exact hg ⟨him, by omega⟩
      refine ⟨fun a b _ => rfl, fun a b _ hb => ?_, fun b hb1 hb2 => ?_, ?_⟩
      · omega
      · omega
      · rw [h1, zero_mul, zero_mul, sumUp_of_le hni]
        simp
    have hin1 : i + 1 < n := by omega
    rw [if_pos hg]
    apply block_step (fun T : St ℝ => T.scale = sumUp (i + 1) n (fun c => |Y.u i c|) ∧
      T.U = Y.U ∧ T.s = 0 ∧ T.g = 0 ∧ T.l = i + 1)
    · obtain ⟨T, eT, t1, t2, t3, t4, t5, -, -⟩ := rowScale_facts i n Y
      rw [eT]
      refine ⟨?_, t2, t3.trans h2, t4.trans h3, t5.trans hl⟩
      rw [t1, h1, zero_add, hl]
    rintro T ⟨t1, t2, t3, t4, t5⟩
    have hTu : ∀ a b, T.u a b = Y.u a b := fun a b => by simp only [St.u, t2]
    apply block_step P
    · rw [whenever_eq]
      by_cases hsc : sumUp (i + 1) n (fun c => |Y.u i c|) = 0
      · rw [if_neg (by rw [t1, hsc]; exact fun h => h rfl), hP]
        have hx : ∀ c, i + 1 ≤ c → c < n → Y.u i c = 0 := fun c hc1 hc2 =>
          abs_eq_zero.mp (sumUp_eq_zero (fun _ _ _ => abs_nonneg _) hsc c hc1 hc2)
        refine ⟨fun a b _ => hTu a b, fun a b ha hb => ?_, fun b hb1 hb2 => ?_, ?_⟩
        · rw [hhR_in (i + 1) n _ _ a b hb, hTu i b, hx b hb.1 hb.2, mul_zero, zero_mul,
            add_zero, hTu a b]
        · rw [hhR_in (i + 1) n _ _ i b ⟨hb1, hb2⟩, hTu i b, hx b hb1 hb2, mul_zero, zero_mul,
            add_zero, t4, mul_zero]
          simp
        · rw [t4, mul_zero, zero_mul]
          have : sumUp (i + 1) n (fun c => T.u i c * T.u i c) = 0 :=
            sumUp_zero (fun c hc1 hc2 => by rw [hTu i c, hx c hc1 hc2, mul_zero])
          rw [this]
          simp
      · have hT : T.scale ≠ 0 := by
          rw [t1]
          exact hsc
        rw [if_pos hT]
        obtain ⟨sc, hsc'⟩ : ∃ sc, sc = sumUp (i + 1) n (fun c => |Y.u i c|) := ⟨_, rfl⟩
        have hp := scaled_sumsq_pos (i + 1) n (fun k => Y.u i k) hsc
        rw [← hsc'] at t1 hsc hp
        apply block_step (fun T2 : St ℝ => T2.scale = sc ∧ T2.g = 0 ∧ T2.l = i + 1 ∧
          T2.s = sumUp (i + 1) n (fun c => Y.u i c / sc * (Y.u i c / sc)) ∧
          ∀ a b, T2.u a b = if a = i ∧ i + 1 ≤ b ∧ b < n then Y.u a b / sc else Y.u a b)
        · obtain ⟨T2, eT2, u1, u2, u3, u4, -, -, u6⟩ := rowNorm_facts i n T hT
          rw [eT2]
          refine ⟨u2.trans t1, u3.trans t4, u4.trans t5, ?_, fun a b => ?_⟩
          · rw [u1, t3, zero_add, t1, t5]
            exact sumUp_congr (fun r _ _ => by rw [hTu])
          · rw [u6 a b, t5, t1, hTu a b]
        rintro T2 ⟨u1, u2, u3, u4, u5⟩
        obtain ⟨f, hf⟩ : ∃ f, f = Y.u i (i + 1) / sc := ⟨_, rfl⟩
        obtain ⟨s, hs⟩ : ∃ s, s = sumUp (i + 1) n (fun c => Y.u i c / sc * (Y.u i c / sc)) :=
          ⟨_, rfl⟩
        rw [← hs] at u4 hp
        obtain ⟨g, hg⟩ : ∃ g, g = -SIGN (Real.sqrt s) f := ⟨_, rfl⟩
        have hgg : g * g = s := by
          rw [hg]
          exact sign_sqrt_sq s f hp.le
        have hh0 : f * g - s ≠ 0 := by
          rw [hg]
          exact (house_scalars f s hp).2.ne
        have hT2il : T2.u i T2.l = f := by
          rw [u3, u5 i (i + 1), if_pos ⟨rfl, le_refl _, hin1⟩, hf]
        apply block_step (fun X : St ℝ => X = { T2.ckU i T2.l with f := T2.u i T2.l })
        · rfl
        rintro X rfl
        apply block_step (fun X : St ℝ => X.scale = sc ∧ X.l = i + 1 ∧ X.s = s ∧ X.f = f ∧
          X.g = g ∧ X.U = T2.U)
        · refine ⟨?_, ?_, ?_, ?_, ?_, ?_⟩
          · simp only [St.ckU]
            exact u1
          · simp only [St.ckU]
            exact u3
          · simp only [St.ckU]
            exact u4
          · simp only [St.ckU]
            exact hT2il
          · simp only [St.ckU]
            rw [u4, hT2il, hg]
          · simp only [St.ckU]
        rintro X ⟨x1, x2, x3, x4, x5, x6⟩
        apply block_step (fun X1 : St ℝ => X1.scale = sc ∧ X1.l = i + 1 ∧ X1.f = f ∧
          X1.g = g ∧ X1.U = T2.U ∧ X1.h = f * g - s)
        · refine ⟨x1, x2, x4, x5, x6, ?_⟩
          simp only
          rw [x3, x4, x5]
        rintro X1 ⟨y1, y2, y4, y5, y6, y7⟩
        apply block_step (fun X2 : St ℝ => X2.scale = sc ∧ X2.l = i + 1 ∧ X2.g = g ∧
          X2.h = f * g - s ∧
          ∀ a b, X2.u a b = if a = i ∧ b = i + 1 then f - g else T2.u a b)
        · refine ⟨?_, ?_, ?_, ?_, fun a b => ?_⟩
          · simp only [St.wrU, St.ckU]
            exact y1
          · simp only [St.wrU, St.ckU]
            exact y2
          · simp only [St.wrU, St.ckU]
            exact y5
          · simp only [St.wrU, St.ckU]
            exact y7
          · simp only [St.wrU, St.ckU, St.u, Mat.set]
            rw [y2, y4, y5, y6]
        rintro X2 ⟨z1, z2, z3, z4, z5⟩
        apply block_step (fun X2r : St ℝ => X2r.scale = sc ∧ X2r.l = i + 1 ∧ X2r.g = g ∧
          (∀ a b, X2r.u a b = X2.u a b) ∧
          ∀ b, i + 1 ≤ b → b < n → X2r.r b = X2.u i b / (f * g - s))
        · obtain ⟨T', eT', v1, v2, -, v4, v5, -, v7⟩ := rvFill_facts i n X2
          rw [eT']
          refine ⟨v5.trans z1, v7.trans z2, v4.trans z3, fun a b => ?_, fun b hb1 hb2 => ?_⟩
          · simp only [St.u, v1]
          · rw [v2 b, if_pos ⟨by omega, hb2⟩, z4]
        rintro X2r ⟨r1, r2, r3, r4, r5⟩
        apply block_step (fun X3 : St ℝ => X3.scale = sc ∧ X3.g = g ∧ X3.l = i + 1 ∧
          ∀ a b, X3.u a b = if (i + 1 ≤ a ∧ a < m) ∧ (i + 1 ≤ b ∧ b < n) then
            X2.u a b + sumUp (i + 1) n (fun c => X2.u a c * X2.u i c) *
              (X2.u i b / (f * g - s))
            else X2.u a b)
        · rw [whenever_eq]
          by_cases hne : i ≠ m - 1
          · rw [if_pos hne]
            obtain ⟨T', eT', v1, v2, hlT, v3⟩ := rightApply_val m n i X2r r2
            rw [eT']
            refine ⟨v1.trans r1, v2.trans r3, hlT, fun a b => ?_⟩
            rw [v3 a b]
            by_cases c1 : (i + 1 ≤ a ∧ a < m) ∧ (i + 1 ≤ b ∧ b < n)
            · rw [if_pos c1, if_pos c1, r4 a b, r5 b c1.2.1 c1.2.2]
              congr 2
              exact sumUp_congr (fun c _ _ => by rw [r4 a c, r4 i c])
            · rw [if_neg c1, if_neg c1, r4 a b]
          · rw [if_neg hne]
            refine ⟨r1, r3, r2, fun a b => ?_⟩
            rw [if_neg (by omega), r4 a b]
        rintro X3 ⟨w1, w2, w0, w3⟩
        apply block_step P
        · have hZ : ∃ Z, loopUp (fun st => st.l) (fun _ => n)
              (fun k (st : St ℝ) => st.wrU i k (st.u i k * st.scale)) X3 = Z ∧
              Z.scale = sc ∧ Z.g = g ∧ ∀ a b, Z.u a b =
                if a = i ∧ i + 1 ≤ b ∧ b < n then X3.u a b * sc else X3.u a b := by
            obtain ⟨o, e⟩ := rowRescale_spec i n X3
            refine ⟨_, e, w1, w2, fun a b => ?_⟩
            simp only [St.u]
            rw [w1, w0]
          obtain ⟨Z, eZ, q1, q2, q3⟩ := hZ
          rw [eZ, hP]
          have hx2i : ∀ c, i + 1 ≤ c → c < n → X2.u i c =
              (if c = i + 1 then f - g else Y.u i c / sc) := by
            intro c hc1 hc2
            by_cases hci : c = i + 1
            · rw [z5 i c, if_pos ⟨rfl, hci⟩, if_pos hci]
            · rw [z5 i c, if_neg (fun h => hci h.2), u5 i c, if_pos ⟨rfl, hc1, hc2⟩,
                if_neg hci]
          have hx2b : ∀ a b, a ≠ i → X2.u a b = Y.u a b := by
            intro a b ha
            rw [z5 a b, if_neg (fun h => ha h.1), u5 a b, if_neg (fun h => ha h.1)]
          have hrow : ∀ c, i + 1 ≤ c → c < n →
              Z.u i c = (if c = i + 1 then (f - g) * sc else Y.u i c) := by
            intro c hc1 hc2
            have c0 : ¬ ((i + 1 ≤ i ∧ i < m) ∧ (i + 1 ≤ c ∧ c < n)) := by omega
            rw [q3 i c, if_pos ⟨rfl, hc1, hc2⟩, w3 i c, if_neg c0, hx2i c hc1 hc2]
            by_cases hci : c = i + 1
            · rw [if_pos hci, if_pos hci]
            · rw [if_neg hci, if_neg hci]
              field_simp
          have hrow2 : ∀ c, i + 1 ≤ c → c < n → X2.u i c = Z.u i c / sc := by
            intro c hc1 hc2
            rw [hrow c hc1 hc2, hx2i c hc1 hc2]
            by_cases hci : c = i + 1
            · rw [if_pos hci, if_pos hci]
              field_simp
            · rw [if_neg hci, if_neg hci]
          obtain ⟨n1, n2⟩ := house_vec_algebra (i + 1) n (fun c => Y.u i c)
            (fun c => Z.u i c) sc f g s (f * g - s) hin1 hsc
            (by beta_reduce; rw [hf]; field_simp) hs hgg rfl
            (by beta_reduce; rw [hrow (i + 1) (le_refl _) hin1, if_pos rfl])
            (fun c hc1 hc2 => by
              beta_reduce
              have c0 : c ≠ i + 1 := by omega
              rw [hrow c hc1.le hc2, if_neg c0])
          have n3 : sumUp (i + 1) n (fun c => Y.u i c * Z.u i c) =
              -(sc * sc * (f * g - s)) := by
            rw [← n2]
            exact sumUp_congr (fun c _ _ => mul_comm _ _)
          refine ⟨fun a b hab => ?_, fun a b ha hb => ?_, fun b hb1 hb2 => ?_, ?_⟩
          · have c1 : ¬ (a = i ∧ i + 1 ≤ b ∧ b < n) := by
              clear * - hab him
              omega
            have c2 : ¬ ((i + 1 ≤ a ∧ a < m) ∧ (i + 1 ≤ b ∧ b < n)) := by
              clear * - hab
              omega
            have c3 : ¬ (a = i ∧ b = i + 1) := by
              clear * - hab him hin1
              omega
            rw [q3 a b, if_neg c1, w3 a b, if_neg c2, z5 a b, if_neg c3, u5 a b, if_neg c1]
          · have c1 : ¬ (a = i ∧ i + 1 ≤ b ∧ b < n) := by omega
            have c2 : a ≠ i := by omega
            rw [hhR_in (i + 1) n _ _ a b hb, n1, q3 a b, if_neg c1, w3 a b,
              if_pos ⟨ha, hb⟩, hx2b a b c2, hrow2 b hb.1 hb.2]
            have e1 : sumUp (i + 1) n (fun c => X2.u a c * X2.u i c) =
                sumUp (i + 1) n (fun c => Y.u a c * Z.u i c) * (1 / sc) := by
              rw [← sumUp_mul_right]
              apply sumUp_congr
              intro c hc1 hc2
              rw [hrow2 c hc1 hc2, hx2b a c c2]
              ring
            rw [e1]
            field_simp
            ring
          · rw [hhR_in (i + 1) n _ _ i b ⟨hb1, hb2⟩, n1, n3, q1, q2, hrow b hb1 hb2]
            by_cases hbi : b = i + 1
            · rw [if_pos hbi, if_pos hbi, hbi]
              have : Y.u i (i + 1) = f * sc := by
                rw [hf]
                field_simp
              rw [this]
              field_simp
              ring
            · rw [if_neg hbi, if_neg hbi]
              field_simp
              ring
          · rw [n1, q1, q2, hrow (i + 1) (le_refl _) hin1, if_pos rfl, ← hgg]
            ring
        intro X4 hX4
        rw [block_nil]
        exact hX4
    intro Z hZ
    rw [block_nil]
    exact hZ
  rw [hP] at key
  exact key

end RightAlgebra

section StepReflections

/-- Step `i` of the bidiagonalisation as two Householder reflections.  With `Zu` the contents
of `U` between the two reductions: the left-hand reduction assigns only the box
`[i, m) × [i, n)`, applies to the columns after `i` the reflection with the vector left in
column `i`, and this reflection maps the old column `i` to `S(i)` times the unit vector; the
right-hand reduction assigns only the box `[i, m) × [i + 1, n)`, applies to the rows after `i`
the reflection with the vector left in row `i`, and this reflection maps the old row `i` to
`scale·g` times the unit vector.  The products `S(i)·U(i,i)` and `scale·g·U(i,i+1)` are minus
half the squared norms of the two vectors. -/
theorem bidiagStep_full (m n i : Int) (st : St ℝ) (him : i < m) (hin : i < n) :
    ∃ Zu : Int → Int → ℝ,
      (∀ a b, ¬ ((i ≤ a ∧ a < m) ∧ (i ≤ b ∧ b < n)) → Zu a b = st.u a b) ∧
      (∀ a b, (i ≤ a ∧ a < m) → (i + 1 ≤ b ∧ b < n) →
        Zu a b = hhL i m (fun r => (bidiagStep Real.sqrt m n i st).u r i) st.u a b) ∧
      (∀ a, i ≤ a → a < m →
        hhL i m (fun r => (bidiagStep Real.sqrt m n i st).u r i) st.u a i =
          if a = i then (bidiagStep Real.sqrt m n i st).w i else 0) ∧
      (bidiagStep Real.sqrt m n i st).w i * (bidiagStep Real.sqrt m n i st).u i i =
        -(sumUp i m (fun r => (bidiagStep Real.sqrt m n i st).u r i *
          (bidiagStep Real.sqrt m n i st).u r i)) / 2 ∧
      (∀ a b, ¬ ((i ≤ a ∧ a < m) ∧ (i + 1 ≤ b ∧ b < n)) →
        (bidiagStep Real.sqrt m n i st).u a b = Zu a b) ∧
      (∀ a b, (i + 1 ≤ a ∧ a < m) → (i + 1 ≤ b ∧ b < n) →
        (bidiagStep Real.sqrt m n i st).u a b =
          hhR (i + 1) n (fun c => (bidiagStep Real.sqrt m n i st).u i c) Zu a b) ∧
      (∀ b, i + 1 ≤ b → b < n →
        hhR (i + 1) n (fun c => (bidiagStep Real.sqrt m n i st).u i c) Zu i b =
          if b = i + 1 then
            (bidiagStep Real.sqrt m n i st).scale * (bidiagStep Real.sqrt m n i st).g
          else 0) ∧
      (bidiagStep Real.sqrt m n i st).scale * (bidiagStep Real.sqrt m n i st).g *
          (bidiagStep Real.sqrt m n i st).u i (i + 1) =
        -(sumUp (i + 1) n (fun c => (bidiagStep Real.sqrt m n i st).u i c *
          (bidiagStep Real.sqrt m n i st).u i c)) / 2 := by
  obtain ⟨P, hP⟩ : ∃ P : St ℝ → Prop, P = fun T => ∃ Zu : Int → Int → ℝ,
      (∀ a b, ¬ ((i ≤ a ∧ a < m) ∧ (i ≤ b ∧ b < n)) → Zu a b = st.u a b) ∧
      (∀ a b, (i ≤ a ∧ a < m) → (i + 1 ≤ b ∧ b < n) →
        Zu a b = hhL i m (fun r => T.u r i) st.u a b) ∧
      (∀ a, i ≤ a → a < m →
        hhL i m (fun r => T.u r i) st.u a i = if a = i then T.w i else 0) ∧
      T.w i * T.u i i = -(sumUp i m (fun r => T.u r i * T.u r i)) / 2 ∧
      (∀ a b, ¬ ((i ≤ a ∧ a < m) ∧ (i + 1 ≤ b ∧ b < n)) → T.u a b = Zu a b) ∧
      (∀ a b, (i + 1 ≤ a ∧ a < m) → (i + 1 ≤ b ∧ b < n) →
        T.u a b = hhR (i + 1) n (fun c => T.u i c) Zu a b) ∧
      (∀ b, i + 1 ≤ b → b < n →
        hhR (i + 1) n (fun c => T.u i c) Zu i b =
          if b = i + 1 then T.scale * T.g else 0) ∧
      T.scale * T.g * T.u i (i + 1) =
        -(sumUp (i + 1) n (fun c => T.u i c * T.u i c)) / 2 := ⟨_, rfl⟩
  have key : P (bidiagStep Real.sqrt m n i st) := by
    unfold bidiagStep
    apply block_step (fun Y : St ℝ => Y.l = i + 1 ∧ Y.U = st.U)
    · exact ⟨rfl, rfl⟩
    rintro Y0 ⟨e1, e2⟩
    apply block_step (fun Y : St ℝ => Y.l = i + 1 ∧ Y.U = st.U)
    · simp only [St.wrR, St.ckR]
      exact ⟨e1, e2⟩
    rintro Y1 ⟨e3, e4⟩
    apply block_step (fun Y : St ℝ => Y.l = i + 1 ∧ Y.U = st.U ∧ Y.scale = 0 ∧ Y.s = 0 ∧
      Y.g = 0)
    · exact ⟨e3, e4, rfl, rfl, rfl⟩
    rintro Y ⟨y1, y2, y3, y4, y5⟩
    have hYu : Y.u = st.u := by
      funext a b
      simp only [St.u, y2]
    apply block_step (fun Z : St ℝ => Z.l = i + 1 ∧
      (∀ a b, ¬ ((i ≤ a ∧ a < m) ∧ (i ≤ b ∧ b < n)) → Z.u a b = st.u a b) ∧
      (∀ a b, (i ≤ a ∧ a < m) → (i + 1 ≤ b ∧ b < n) →
        Z.u a b = hhL i m (fun r => Z.u r i) st.u a b) ∧
      (∀ a, i ≤ a → a < m →
        hhL i m (fun r => Z.u r i) st.u a i = if a = i then Z.scale * Z.g else 0) ∧
      Z.scale * Z.g * Z.u i i = -(sumUp i m (fun r => Z.u r i * Z.u r i)) / 2)
    · obtain ⟨a1, a2, a3, a4⟩ := leftReduce_full m n i Y him hin y1 y3 y4 y5
      obtain ⟨-, a6⟩ := leftReduce_sameRL Real.sqrt m n i Y
      rw [hYu] at a1 a2 a3
      exact ⟨a6.trans y1, a1, a2, a3, a4⟩
    rintro Z ⟨z0, z1, z2, z3, z4⟩
    apply block_step (fun Y2 : St ℝ => Y2.l = i + 1 ∧ Y2.U = Z.U ∧ Y2.w i = Z.scale * Z.g)
    · refine ⟨?_, ?_, ?_⟩
      · simp only [St.wrS, St.ckS]
        exact z0
      · simp only [St.wrS, St.ckS]
      · simp only [St.wrS, St.ckS, St.w, Mat.set, and_self, if_true]
    rintro Y2 ⟨f1, f2, f3⟩
    apply block_step (fun Y3 : St ℝ => Y3.l = i + 1 ∧ Y3.U = Z.U ∧ Y3.w i = Z.scale * Z.g ∧
      Y3.scale = 0 ∧ Y3.s = 0 ∧ Y3.g = 0)
    · exact ⟨f1, f2, f3, rfl, rfl, rfl⟩
    rintro Y3 ⟨g1, g2, g3, g4, g5, g6⟩
    have hY3u : Y3.u = Z.u := by
      funext a b
      simp only [St.u, g2]
    apply block_step (fun Z2 : St ℝ => Z2.w i = Z.scale * Z.g ∧
      (∀ a b, ¬ ((i ≤ a ∧ a < m) ∧ (i + 1 ≤ b ∧ b < n)) → Z2.u a b = Z.u a b) ∧
      (∀ a b, (i + 1 ≤ a ∧ a < m) → (i + 1 ≤ b ∧ b < n) →
        Z2.u a b = hhR (i + 1) n (fun c => Z2.u i c) Z.u a b) ∧
      (∀ b, i + 1 ≤ b → b < n →
        hhR (i + 1) n (fun c => Z2.u i c) Z.u i b =
          if b = i + 1 then Z2.scale * Z2.g else 0) ∧
      Z2.scale * Z2.g * Z2.u i (i + 1) =
        -(sumUp (i + 1) n (fun c => Z2.u i c * Z2.u i c)) / 2)
    · obtain ⟨a1, a2, a3, a4⟩ := rightReduce_full m n i Y3 him hin g1 g4 g5 g6
      have a5 := @rightReduce_sameS ℝ _ Real.sqrt m n i Y3
      rw [hY3u] at a1 a2 a3
      refine ⟨?_, a1, a2, a3, a4⟩
      unfold SameS at a5
      unfold St.w
      rw [a5]
      exact g3
    rintro Z2 ⟨r0, r1, r2, r3, r4⟩
    apply block_step (fun T : St ℝ => T.U = Z2.U ∧ T.S = Z2.S ∧ T.scale = Z2.scale ∧
      T.g = Z2.g)
    · exact ⟨rfl, rfl, rfl, rfl⟩
    rintro T ⟨t1, t2, t3, t4⟩
    rw [block_nil, hP]
    have hTu : T.u = Z2.u := by
      funext a b
      simp only [St.u, t1]
    have hTw : T.w i = Z.scale * Z.g := by
      unfold St.w
      rw [t2]
      exact r0
    have hcol : (fun r => Z.u r i) = (fun r => Z2.u r i) := by
      funext r
      have c0 : ¬ ((i ≤ r ∧ r < m) ∧ (i + 1 ≤ i ∧ i < n)) := by
        clear * -
        omega
      rw [r1 r i c0]
    rw [hcol] at z2 z3
    have hc : ∀ r, Z2.u r i = Z.u r i := fun r => (congrFun hcol r).symm
    have es : sumUp i m (fun r => Z2.u r i * Z2.u r i) =
        sumUp i m (fun r => Z.u r i * Z.u r i) :=
      sumUp_congr (fun r _ _ => by rw [hc r])
    beta_reduce
    refine ⟨Z.u, z1, ?_, ?_, ?_, ?_, ?_, ?_, ?_⟩
    · rw [hTu]
      exact z2
    · rw [hTu, hTw]
      exact z3
    · rw [hTu, hTw, hc i, es]
      exact z4
    · rw [hTu]
      exact r1
    · rw [hTu]
      exact r2
    · rw [hTu, t3, t4]
      exact r3
    · rw [hTu, t3, t4]
      exact r4
  rw [hP] at key
  exact key

end StepReflections

section CompletedMatrix

variable {α : Type} [LinearOrderedField α]

theorem Wbar_out (m n : Int) (s : St α) (i k j : Int)
    (h : ¬ (0 ≤ k ∧ k < m ∧ 0 ≤ j ∧ j < n)) : Wbar m n s i k j = 0 := by
  unfold Wbar
  rw [if_neg h]

theorem Wbar_box (m n : Int) (s : St α) (i k j : Int)
    (h : 0 ≤ k ∧ k < m ∧ 0 ≤ j ∧ j < n) (h2 : ¬ (k < i ∨ j < i)) :
    Wbar m n s i k j = s.u k j := by
  unfold Wbar
  rw [if_pos h, if_neg h2]

theorem Wbar_band (m n : Int) (s : St α) (i k j : Int)
    (h : 0 ≤ k ∧ k < m ∧ 0 ≤ j ∧ j < n) (h2 : k < i ∨ j < i) :
    Wbar m n s i k j =
      if j = k then s.w k
      else if j = k + 1 then (if j = i then s.scale * s.g else s.r j)
      else 0 := by
  unfold Wbar
  rw [if_pos h, if_pos h2]

/-- An entry of the completed matrix off the two diagonals with a row or column index before
`i`, or outside the shape, is zero. -/
theorem Wbar_zero (m n : Int) (s : St α) (i k j : Int)
    (h : ¬ (0 ≤ k ∧ k < m ∧ 0 ≤ j ∧ j < n) ∨ ((k < i ∨ j < i) ∧ j ≠ k ∧ j ≠ k + 1)) :
    Wbar m n s i k j = 0 := by
  by_cases hs : 0 ≤ k ∧ k < m ∧ 0 ≤ j ∧ j < n
  · rcases h with h | ⟨h1, h2, h3⟩
    · exact absurd hs h
    · rw [Wbar_band m n s i k j hs h1, if_neg h2, if_neg h3]
  · exact Wbar_out m n s i k j hs

/-- The left-hand reflection of step `i` acts on the completed matrix inside the box
`[i, m) × [i, n)` only, and there as on `U`. -/
theorem hhL_Wbar (m n i : Int) (s : St α) (u : Int → α) (hi0 : 0 ≤ i) (k c : Int) :
    hhL i m u (Wbar m n s i) k c =
      if (i ≤ k ∧ k < m) ∧ (i ≤ c ∧ c < n) then hhL i m u s.u k c else Wbar m n s i k c := by
  by_cases hk : i ≤ k ∧ k < m
  · by_cases hc : i ≤ c ∧ c < n
    · rw [if_pos ⟨hk, hc⟩, hhL_in i m u _ k c hk, hhL_in i m u _ k c hk]
      have e0 : Wbar m n s i k c = s.u k c :=
        Wbar_box m n s i k c (by omega) (by omega)
      have e1 : sumUp i m (fun r => u r * Wbar m n s i r c) =
          sumUp i m (fun r => u r * s.u r c) :=
        sumUp_congr (fun r h1 h2 => by
          rw [Wbar_box m n s i r c (by omega) (by omega)])
      rw [e0, e1]
    · rw [if_neg (fun h => hc h.2), hhL_in i m u _ k c hk]
      have e1 : sumUp i m (fun r => u r * Wbar m n s i r c) = 0 :=
        sumUp_zero (fun r h1 h2 => by
          rw [Wbar_zero m n s i r c (by omega), mul_zero])
      rw [e1, mul_zero, add_zero]
  · rw [if_neg (fun h => hk h.1), hhL_out i m u _ k c hk]

end CompletedMatrix

section WbarStep

/-- The completed matrix after step `i` is the completed matrix before it, reflected from the
left and from the right by the two Householder reflections of the step. -/
theorem Wbar_step (m n i : Int) (st T : St ℝ) (Zu : Int → Int → ℝ) (hi0 : 0 ≤ i)
    (him : i < m) (hin : i < n)
    (l2 : ∀ a b, (i ≤ a ∧ a < m) → (i + 1 ≤ b ∧ b < n) →
      Zu a b = hhL i m (fun r => T.u r i) st.u a b)
    (l3 : ∀ a, i ≤ a → a < m →
      hhL i m (fun r => T.u r i) st.u a i = if a = i then T.w i else 0)
    (r2 : ∀ a b, (i + 1 ≤ a ∧ a < m) → (i + 1 ≤ b ∧ b < n) →
      T.u a b = hhR (i + 1) n (fun c => T.u i c) Zu a b)
    (r3 : ∀ b, i + 1 ≤ b → b < n →
      hhR (i + 1) n (fun c => T.u i c) Zu i b = if b = i + 1 then T.scale * T.g else 0)
    (hw : ∀ a, a ≠ i → T.w a = st.w a) (hr : ∀ a, a < i → T.r a = st.r a)
    (hri : T.r i = st.scale * st.g) :
    Wbar m n T (i + 1) =
      hhR (i + 1) n (fun c => T.u i c) (hhL i m (fun r => T.u r i) (Wbar m n st i)) := by
  funext k j
  by_cases hj : i + 1 ≤ j ∧ j < n
  · rw [hhR_in (i + 1) n _ _ k j hj]
    by_cases hk : i ≤ k ∧ k < m
    · have e1 : ∀ c, i + 1 ≤ c → c < n →
          hhL i m (fun r => T.u r i) (Wbar m n st i) k c = Zu k c := by
        intro c hc1 hc2
        rw [hhL_Wbar m n i st _ hi0 k c, if_pos ⟨hk, by omega, hc2⟩, l2 k c hk ⟨hc1, hc2⟩]
      have e2 : sumUp (i + 1) n
          (fun c => hhL i m (fun r => T.u r i) (Wbar m n st i) k c * T.u i c) =
          sumUp (i + 1) n (fun c => Zu k c * T.u i c) :=
        sumUp_congr (fun c h1 h2 => by rw [e1 c h1 h2])
      rw [e1 j hj.1 hj.2, e2, ← hhR_in (i + 1) n (fun c => T.u i c) Zu k j hj]
      by_cases hki : k = i
      · rw [hki, r3 j hj.1 hj.2, Wbar_band m n T (i + 1) i j (by omega) (by omega),
          if_neg (by omega)]
        by_cases hji : j = i + 1
        · rw [if_pos hji, if_pos hji, if_pos hji]
        · rw [if_neg hji, if_neg hji]
      · rw [← r2 k j (by omega) hj, Wbar_box m n T (i + 1) k j (by omega) (by omega)]
    · have e1 : ∀ c, i + 1 ≤ c → c < n →
          hhL i m (fun r => T.u r i) (Wbar m n st i) k c = 0 := by
        intro c hc1 hc2
        rw [hhL_Wbar m n i st _ hi0 k c, if_neg (fun h => hk h.1),
          Wbar_zero m n st i k c (by omega)]
      have e2 : sumUp (i + 1) n
          (fun c => hhL i m (fun r => T.u r i) (Wbar m n st i) k c * T.u i c) = 0 :=
        sumUp_zero (fun c h1 h2 => by rw [e1 c h1 h2, zero_mul])
      rw [e1 j hj.1 hj.2, e2, mul_zero, add_zero, Wbar_zero m n T (i + 1) k j (by omega)]
  · rw [hhR_out (i + 1) n _ _ k j hj, hhL_Wbar m n i st _ hi0 k j]
    by_cases hbox : (i ≤ k ∧ k < m) ∧ (i ≤ j ∧ j < n)
    · have hji : j = i := by omega
      rw [if_pos hbox, hji, l3 k hbox.1.1 hbox.1.2,
        Wbar_band m n T (i + 1) k i (by omega) (by omega)]
      by_cases hki : k = i
      · rw [if_pos hki, if_pos hki.symm, hki]
      · rw [if_neg hki, if_neg (fun h => hki h.symm), if_neg (by omega)]
    · rw [if_neg hbox]
      by_cases hs : 0 ≤ k ∧ k < m ∧ 0 ≤ j ∧ j < n
      · have hlt : k < i ∨ j < i := by omega
        rw [Wbar_band m n T (i + 1) k j hs (by omega), Wbar_band m n st i k j hs hlt]
        by_cases hjk : j = k
        · rw [if_pos hjk, if_pos hjk, hw k (by omega)]
        · rw [if_neg hjk, if_neg hjk]
          by_cases hjk1 : j = k + 1
          · rw [if_pos hjk1, if_pos hjk1, if_neg (by omega)]
            by_cases hji : j = i
            · rw [if_pos hji, hji, hri]
            · rw [if_neg hji, hr j (by omega)]
          · rw [if_neg hjk1, if_neg hjk1]
      · rw [Wbar_out m n T (i + 1) k j hs, Wbar_out m n st i k j hs]

end WbarStep

section Conjugation

variable {α : Type} [LinearOrderedField α]

/-- The reflections of the steps before `i` depend only on the columns and rows of `U` before
`i`. -/
theorem conjH_congr (m n : Int) (s t : St α) (i : Nat)
    (h1 : ∀ a : Int, a < i → ∀ r, t.u r a = s.u r a)
    (h2 : ∀ a : Int, a < i → ∀ c, t.u a c = s.u a c) (M : Int → Int → α) :
    conjH m n t i M = conjH m n s i M := by
  induction i generalizing M with
  | zero => rfl
  | succ i ih =>
    unfold conjH
    have e1 : (fun r => t.u r (i : Int)) = (fun r => s.u r (i : Int)) :=
      funext (fun r => h1 i (by push_cast; omega) r)
    have e2 : (fun c => t.u (i : Int) c) = (fun c => s.u (i : Int) c) :=
      funext (fun c => h2 i (by push_cast; omega) c)
    rw [e1, e2]
    exact ih (fun a ha => h1 a (by push_cast; omega)) (fun a ha => h2 a (by push_cast; omega)) _

theorem conjH_succ (m n : Int) (s : St α) (i : Int) (hi : 0 ≤ i) (M : Int → Int → α) :
    conjH m n s (i + 1).toNat M =
      conjH m n s i.toNat (hhL i m (fun r => s.u r i) (hhR (i + 1) n (fun c => s.u i c) M)) := by
  have e : (i + 1).toNat = i.toNat + 1 := by omega
  have e2 : ((i.toNat : Nat) : Int) = i := by omega
  rw [e]
  conv_lhs => unfold conjH
  rw [e2]

end Conjugation

section PhaseOne

/-- The state after the bidiagonalisation of an `m × n` matrix with `n ≤ m`: the input is
the bidiagonal form (the diagonal in `S`, the superdiagonal in `rv1`) surrounded by the
Householder reflections stored in `U`, and the pivots `U(a,a)` and `U(a,a+1)` give the squared
norms of the Householder vectors. -/
theorem bidiagonalize_full (m n : Int) (st : St ℝ) (hn : 0 ≤ n) (hmn : n ≤ m) :
    Wbar m n st 0 =
      conjH m n (bidiagonalize Real.sqrt m n st) n.toNat
        (Wbar m n (bidiagonalize Real.sqrt m n st) n) ∧
    (∀ a, 0 ≤ a → a < n →
      (bidiagonalize Real.sqrt m n st).w a * (bidiagonalize Real.sqrt m n st).u a a =
        -(sumUp a m (fun r => (bidiagonalize Real.sqrt m n st).u r a *
          (bidiagonalize Real.sqrt m n st).u r a)) / 2) ∧
    (∀ a, 0 ≤ a → a + 1 < n →
      (bidiagonalize Real.sqrt m n st).r (a + 1) *
          (bidiagonalize Real.sqrt m n st).u a (a + 1) =
        -(sumUp (a + 1) n (fun c => (bidiagonalize Real.sqrt m n st).u a c *
          (bidiagonalize Real.sqrt m n st).u a c)) / 2) := by
  unfold bidiagonalize
  rw [loopUp_eq]
  have h := forUp_inv hn (bidiagStep Real.sqrt m n)
    (fun i s => Wbar m n st 0 = conjH m n s i.toNat (Wbar m n s i) ∧
      (∀ a, 0 ≤ a → a < i →
        s.w a * s.u a a = -(sumUp a m (fun r => s.u r a * s.u r a)) / 2) ∧
      (∀ a, 0 ≤ a → a < i →
        (if a + 1 = i then s.scale * s.g else s.r (a + 1)) * s.u a (a + 1) =
          -(sumUp (a + 1) n (fun c => s.u a c * s.u a c)) / 2))
    st ⟨rfl, fun a h0 h1 => by omega, fun a h0 h1 => by omega⟩
    (by
      rintro i s h0 h1 ⟨p1, p2, p3⟩
      obtain ⟨-, -, q3, q4, q5, -, -⟩ := bidiagStep_keeps m n i s h1
      obtain ⟨Zu, l1, l2, l3, l4, r1, r2, r3, r4⟩ :=
        bidiagStep_full m n i s (by omega) h1
      generalize bidiagStep Real.sqrt m n i s = T at q3 q4 q5 l2 l3 l4 r1 r2 r3 r4 ⊢
      have hfr : ∀ a b, ¬ ((i ≤ a ∧ a < m) ∧ (i ≤ b ∧ b < n)) → T.u a b = s.u a b := by
        intro a b hab
        rw [r1 a b (fun h => hab ⟨h.1, by omega, h.2.2⟩), l1 a b hab]
      have hstep := Wbar_step m n i s T Zu h0 (by omega) h1 l2 l3 r2 r3 q3 q4 q5
      have hback : Wbar m n s i =
          hhL i m (fun r => T.u r i) (hhR (i + 1) n (fun c => T.u i c) (Wbar m n T (i + 1))) := by
        rw [hstep, hhR_invol, hhL_invol]
      refine ⟨?_, ?_, ?_⟩
      · rw [conjH_succ m n T i h0, ← hback, p1]
        exact (conjH_congr m n s T i.toNat
          (fun a ha r => hfr r a (by omega)) (fun a ha c => hfr a c (by omega)) _).symm
      · intro a ha0 ha1
        by_cases hai : a = i
        · rw [hai]
          exact l4
        · have e1 : sumUp a m (fun r => T.u r a * T.u r a) =
              sumUp a m (fun r => s.u r a * s.u r a) :=
            sumUp_congr (fun r _ _ => by rw [hfr r a (by omega)])
          rw [q3 a hai, hfr a a (by omega), e1]
          exact p2 a ha0 (by omega)
      · intro a ha0 ha1
        by_cases hai : a = i
        · rw [hai, if_pos rfl]
          exact r4
        · have e1 : sumUp (a + 1) n (fun c => T.u a c * T.u a c) =
              sumUp (a + 1) n (fun c => s.u a c * s.u a c) :=
            sumUp_congr (fun c _ _ => by rw [hfr a c (by omega)])
          have p := p3 a ha0 (by omega)
          rw [if_neg (by omega), hfr a (a + 1) (by omega), e1]
          by_cases hai1 : a + 1 = i
          · rw [if_pos hai1] at p
            rw [hai1, q5]
            rw [hai1] at p
            exact p
          · rw [if_neg hai1] at p
            rw [q4 (a + 1) (by omega)]
            exact p)
  obtain ⟨h1, h2, h3⟩ := h
  refine ⟨h1, fun a ha0 ha1 => h2 a ha0 ha1, fun a ha0 ha1 => ?_⟩
  have := h3 a ha0 (by omega)
  rw [if_neg (by omega)] at this
  exact this

end PhaseOne

section RightAccumulationLoops

variable {α : Type} [LinearOrderedField α]

/-- The loop of lines 155–156, which stores the scaled Householder vector of row `i` in
column `i` of `V`, by its effect on the fields. -/
theorem vFill_facts (n i : Int) (st : St α) :
    ∃ T, loopUp (fun st => st.l) (fun _ => n) (fun j (st : St α) =>
        ((((st.ckU i j).ckU i st.l).dv (st.u i st.l)).dv st.g).wrV j i
          ((st.u i j / st.u i st.l) / st.g)) st = T ∧
      T.U = st.U ∧ T.S = st.S ∧ T.rv1 = st.rv1 ∧ T.g = st.g ∧ T.l = st.l ∧
      ∀ a b, T.v a b = if b = i ∧ st.l ≤ a ∧ a < n then (st.u i a / st.u i st.l) / st.g
        else st.v a b := by
  refine ⟨_, rfl, ?_⟩
  rw [loopUp_eq]
  by_cases hle : n ≤ st.l
  · rw [forUp_of_le hle]
    refine ⟨rfl, rfl, rfl, rfl, rfl, fun a b => ?_⟩
    rw [if_neg (by omega)]
  · exact forUp_inv (le_of_lt (not_le.mp hle))
      (fun j (st : St α) =>
        ((((st.ckU i j).ckU i st.l).dv (st.u i st.l)).dv st.g).wrV j i
          ((st.u i j / st.u i st.l) / st.g))
      (fun k T => T.U = st.U ∧ T.S = st.S ∧ T.rv1 = st.rv1 ∧ T.g = st.g ∧ T.l = st.l ∧
        ∀ a b, T.v a b = if b = i ∧ st.l ≤ a ∧ a < k then (st.u i a / st.u i st.l) / st.g
          else st.v a b)
      st ⟨rfl, rfl, rfl, rfl, rfl, fun a b => by rw [if_neg (by omega)]⟩
      (by
        rintro k t hk1 hk2 ⟨a1, a2, a3, a4, a5, a6⟩
        refine ⟨?_, ?_, ?_, ?_, ?_, fun a b => ?_⟩
        · simp only [St.wrV, St.ckV, St.ckU, St.dv]
          exact a1
        · simp only [St.wrV, St.ckV, St.ckU, St.dv]
          exact a2
        · simp only [St.wrV, St.ckV, St.ckU, St.dv]
          exact a3
        · simp only [St.wrV, St.ckV, St.ckU, St.dv]
          exact a4
        · simp only [St.wrV, St.ckV, St.ckU, St.dv]
          exact a5
        · have hab := a6 a b
          unfold St.v St.u at hab
          unfold St.wrV St.ckV St.ckU St.dv St.v St.u Mat.set
          simp only
          rw [a1, a4, a5]
          by_cases c1 : a = k ∧ b = i
          · rw [if_pos c1, if_pos ⟨c1.2, by omega, by omega⟩, c1.1]
          · rw [if_neg c1, hab]
            by_cases c2 : b = i ∧ st.l ≤ a ∧ a < k
            · rw [if_pos c2, if_pos ⟨c2.1, c2.2.1, by omega⟩]
            · rw [if_neg c2, if_neg (by omega)])

/-- The loop that accumulates in `s` the product of row `i` of `U` and column `j` of `V`
(lines 160–161). -/
theorem dotUV_spec (lo hi : St α → Int) (i j : Int) (st : St α) :
    ∃ o, loopUp lo hi (fun k (st : St α) =>
        { (st.ckU i k).ckV k j with s := st.s + st.u i k * st.v k j }) st =
      { st with s := st.s + sumUp (lo st) (hi st) (fun k => st.u i k * st.v k j), oob := o } := by
  rw [loopUp_eq]
  by_cases hle : hi st ≤ lo st
  · rw [forUp_of_le hle, sumUp_of_le hle, add_zero]
    exact ⟨st.oob, rfl⟩
  · exact forUp_inv (le_of_lt (not_le.mp hle))
      (fun k (st : St α) => { (st.ckU i k).ckV k j with s := st.s + st.u i k * st.v k j })
      (fun k t => ∃ o,
        t = { st with s := st.s + sumUp (lo st) k (fun k => st.u i k * st.v k j), oob := o })
      st ⟨st.oob, by rw [sumUp_of_le (le_refl _), add_zero]⟩
      (by
        rintro k t h0 - ⟨o, rfl⟩
        refine ⟨(o || !st.U.inb i k) || !st.V.inb k j, ?_⟩
        rw [sumUp_succ h0]
        simp only [St.ckU, St.ckV, St.u, St.v, add_assoc])

/-- The loop that adds `s` times column `i` of `V` to another column `j` (lines 162–163), by
its effect on the fields. -/
theorem addColV_facts (lo hi : St α → Int) (i j : Int) (st : St α) (hij : i ≠ j) :
    ∃ T, loopUp lo hi (fun k (st : St α) =>
        (st.ckV k i).wrV k j (st.v k j + st.s * st.v k i)) st = T ∧
      (∀ a b, T.v a b = if b = j ∧ lo st ≤ a ∧ a < hi st then st.v a b + st.s * st.v a i
        else st.v a b) ∧
      T.U = st.U ∧ T.S = st.S ∧ T.rv1 = st.rv1 ∧ T.g = st.g ∧ T.l = st.l := by
  refine ⟨_, rfl, ?_⟩
  rw [loopUp_eq]
  by_cases hle : hi st ≤ lo st
  · rw [forUp_of_le hle]
    refine ⟨fun a b => ?_, rfl, rfl, rfl, rfl, rfl⟩
    rw [if_neg (by omega)]
  · have h := forUp_inv (le_of_lt (not_le.mp hle))
      (fun k (st : St α) => (st.ckV k i).wrV k j (st.v k j + st.s * st.v k i))
      (fun k T => (∀ a b, T.v a b = if b = j ∧ lo st ≤ a ∧ a < k then
          st.v a b + st.s * st.v a i else st.v a b) ∧
        T.U = st.U ∧ T.S = st.S ∧ T.rv1 = st.rv1 ∧ T.g = st.g ∧ T.l = st.l ∧ T.s = st.s)
      st ⟨fun a b => by rw [if_neg (by omega)], rfl, rfl, rfl, rfl, rfl, rfl⟩
      (by
        rintro k t hk1 hk2 ⟨a1, a2, a3, a4, a5, a6, a7⟩
        refine ⟨fun a b => ?_, ?_, ?_, ?_, ?_, ?_, ?_⟩
        · have hkj : t.V.val k j = st.V.val k j := by
            have := a1 k j
            unfold St.v at this
            rw [this, if_neg (by omega)]
          have hki : t.V.val k i = st.V.val k i := by
            have := a1 k i
            unfold St.v at this
            rw [this, if_neg (fun h => hij h.1)]
          have hab := a1 a b
          unfold St.v at hab
          unfold St.wrV St.ckV St.v Mat.set
          simp only
          rw [hkj, hki, a7]
          by_cases c1 : a = k ∧ b = j
          · rw [if_pos c1, if_pos ⟨c1.2, by omega, by omega⟩, c1.1, c1.2]
          · rw [if_neg c1, hab]
            by_cases c2 : b = j ∧ lo st ≤ a ∧ a < k
            · rw [if_pos c2, if_pos ⟨c2.1, c2.2.1, by omega⟩]
            · rw [if_neg c2, if_neg (by omega)]
        · simp only [St.wrV, St.ckV]
          exact a2
        · simp only [St.wrV, St.ckV]
          exact a3
        · simp only [St.wrV, St.ckV]
          exact a4
        · simp only [St.wrV, St.ckV]
          exact a5
        · simp only [St.wrV, St.ckV]
          exact a6
        · simp only [St.wrV, St.ckV]
          exact a7)
    exact ⟨h.1, h.2.1, h.2.2.1, h.2.2.2.1, h.2.2.2.2.1, h.2.2.2.2.2.1⟩

/-- One round of the loop of lines 158–164: column `j` of `V` receives, in the rows `[l, n)`,
the multiple `Σ_k U(i,k)·V(k,j)` of column `i`. -/
theorem vApply_body (n i j : Int) (t : St α) (hij : i ≠ j) :
    ∃ T, block [
        fun st => { st with s := 0 },
        loopUp (fun st => st.l) (fun _ => n) (fun k st =>
          { (st.ckU i k).ckV k j with s := st.s + st.u i k * st.v k j }),
        loopUp (fun st => st.l) (fun _ => n) (fun k st =>
          (st.ckV k i).wrV k j (st.v k j + st.s * st.v k i))] t = T ∧
      (∀ a b, T.v a b = if b = j ∧ t.l ≤ a ∧ a < n then
          t.v a b + sumUp t.l n (fun k => t.u i k * t.v k j) * t.v a i else t.v a b) ∧
      T.U = t.U ∧ T.S = t.S ∧ T.rv1 = t.rv1 ∧ T.g = t.g ∧ T.l = t.l := by
  refine ⟨_, rfl, ?_⟩
  rw [block_cons, block_cons]
  obtain ⟨o, e1⟩ := dotUV_spec (fun st => st.l) (fun _ => n) i j ({ t with s := 0 } : St α)
  rw [e1, block_cons, block_nil]
  obtain ⟨T, eT, b1, b2, b3, b4, b5, b6⟩ := addColV_facts (fun st => st.l) (fun _ => n) i j
    ({ ({ t with s := 0 } : St α) with
        s := 0 + sumUp t.l n (fun k => t.u i k * t.v k j), oob := o } : St α) hij
  simp only [St.u, St.v] at eT b1 ⊢
  rw [eT]
  refine ⟨fun a b => ?_, b2, b3, b4, b5, b6⟩
  rw [b1 a b, zero_add]

/-- The loop of lines 158–164, which applies the right-hand reflection of step `i` to the
columns `j ≥ l = i + 1` of `V`, by the values it leaves in `V`. -/
theorem vApply_val (n i : Int) (X : St α) (hl : X.l = i + 1) :
    ∃ T, loopUp (fun st => st.l) (fun _ => n) (fun j => block [
        fun st => { st with s := 0 },
        loopUp (fun st => st.l) (fun _ => n) (fun k st =>
          { (st.ckU i k).ckV k j with s := st.s + st.u i k * st.v k j }),
        loopUp (fun st => st.l) (fun _ => n) (fun k st =>
          (st.ckV k i).wrV k j (st.v k j + st.s * st.v k i))]) X = T ∧
      T.U = X.U ∧ T.S = X.S ∧ T.rv1 = X.rv1 ∧ T.g = X.g ∧ T.l = i + 1 ∧
      ∀ a b, T.v a b = if (i + 1 ≤ a ∧ a < n) ∧ (i + 1 ≤ b ∧ b < n) then
          X.v a b + sumUp (i + 1) n (fun k => X.u i k * X.v k b) * X.v a i else X.v a b := by
  refine ⟨_, rfl, ?_⟩
  rw [loopUp_eq, hl]
  by_cases hle : n ≤ i + 1
  · rw [forUp_of_le hle]
    refine ⟨rfl, rfl, rfl, rfl, hl, fun a b => ?_⟩
    rw [if_neg (by omega)]
  · exact forUp_inv (le_of_lt (not_le.mp hle))
      (fun j => block [
        fun st => { st with s := 0 },
        loopUp (fun st => st.l) (fun _ => n) (fun k st =>
          { (st.ckU i k).ckV k j with s := st.s + st.u i k * st.v k j }),
        loopUp (fun st => st.l) (fun _ => n) (fun k (st : St α) =>
          (st.ckV k i).wrV k j (st.v k j + st.s * st.v k i))])
      (fun j0 t => t.U = X.U ∧ t.S = X.S ∧ t.rv1 = X.rv1 ∧ t.g = X.g ∧ t.l = i + 1 ∧
        ∀ a b, t.v a b = if (i + 1 ≤ a ∧ a < n) ∧ (i + 1 ≤ b ∧ b < j0) then
          X.v a b + sumUp (i + 1) n (fun k => X.u i k * X.v k b) * X.v a i else X.v a b)
      X ⟨rfl, rfl, rfl, rfl, hl, fun a b => by rw [if_neg (by omega)]⟩
      (by
        rintro j0 t hj1 hj2 ⟨a1, a2, a3, a4, a5, a6⟩
        obtain ⟨T, eT, b1, b2, b3, b4, b5, b6⟩ := vApply_body n i j0 t (by omega)
        beta_reduce
        rw [eT]
        refine ⟨b2.trans a1, b3.trans a2, b4.trans a3, b5.trans a4, b6.trans a5,
          fun a b => ?_⟩
        have hcol : ∀ r, t.v r i = X.v r i := fun r => by
          rw [a6 r i, if_neg (by omega)]
        have hj0 : ∀ r, t.v r j0 = X.v r j0 := fun r => by
          rw [a6 r j0, if_neg (by omega)]
        have hu : ∀ k, t.u i k = X.u i k := fun k => by
          unfold St.u
          rw [a1]
        rw [b1 a b, a5, hcol a]
        have es : sumUp (i + 1) n (fun k => t.u i k * t.v k j0) =
            sumUp (i + 1) n (fun k => X.u i k * X.v k j0) :=
          sumUp_congr (fun k _ _ => by rw [hu k, hj0 k])
        rw [es]
        by_cases c1 : b = j0 ∧ i + 1 ≤ a ∧ a < n
        · rw [if_pos c1, if_pos ⟨c1.2, by omega, by omega⟩, c1.1, hj0 a]
        · rw [if_neg c1, a6 a b]
          by_cases c2 : (i + 1 ≤ a ∧ a < n) ∧ (i + 1 ≤ b ∧ b < j0)
          · rw [if_pos c2, if_pos ⟨c2.1, c2.2.1, by omega⟩]
          · rw [if_neg c2, if_neg (by omega)])

end RightAccumulationLoops

section RightAccumulation

variable {α : Type} [LinearOrderedField α]

/-- The product of the last `t` right-hand reflections is the identity outside the rows and
columns `≥ n - t`. -/
theorem Vhat_low (n : Int) (st : St α) (t : Nat) (a b : Int)
    (h : a < n - t ∨ b < n - t) : Vhat n st t a b = Emat n a b := by
  induction t generalizing a b with
  | zero => rfl
  | succ t ih =>
    unfold Vhat
    have h' : a < n - t - 1 ∨ b < n - t - 1 := by
      push_cast at h
      omega
    by_cases ha : n - (t : Int) ≤ a ∧ a < n
    · rw [hhL_in _ _ _ _ a b ha]
      have hb : b < n - t - 1 := by omega
      have e1 : sumUp (n - (t : Int)) n
          (fun r => st.u (n - 1 - (t : Int)) r * Vhat n st t r b) = 0 :=
        sumUp_zero (fun r h1 h2 => by
          rw [ih r b (Or.inr (by omega))]
          unfold Emat
          rw [if_neg (by omega), mul_zero])
      rw [e1, mul_zero, add_zero]
      exact ih a b (Or.inr (by omega))
    · rw [hhL_out _ _ _ _ a b ha]
      exact ih a b (by omega)

theorem Vhat_step (n : Int) (st : St α) (i : Int) (hin : i < n) :
    Vhat n st (n - i).toNat =
      hhL (i + 1) n (fun c => st.u i c) (Vhat n st (n - 1 - i).toNat) := by
  have e : (n - i).toNat = (n - 1 - i).toNat + 1 := by omega
  have e1 : n - ((n - 1 - i).toNat : Int) = i + 1 := by omega
  have e2 : n - 1 - ((n - 1 - i).toNat : Int) = i := by omega
  rw [e]
  conv_lhs => unfold Vhat
  rw [e1, e2]

/-- Step `i` of the right-hand accumulation, by the values it leaves in the rows and columns
`[i, n)` of `V`: those of the reflection with the vector `U(i, i+1..n-1)` applied to a matrix
`Vp` that agrees with `V` in the rows and columns after `i` and that is the identity in row
and column `i`.  It is assumed that `g·U(i,i+1)` is minus half the squared norm of the
vector. -/
theorem accumRightStep_vals (n i : Int) (st : St α) (hin : i < n)
    (hl : i < n - 1 → st.l = i + 1)
    (hd : i < n - 1 →
      st.g * st.u i (i + 1) = -(sumUp (i + 1) n (fun c => st.u i c * st.u i c)) / 2)
    (Vp : Int → Int → α)
    (hV : ∀ a b, i + 1 ≤ a → a < n → i + 1 ≤ b → b < n → st.v a b = Vp a b)
    (hrow : ∀ b, i ≤ b → b < n → Vp i b = if b = i then 1 else 0)
    (hcol : ∀ a, i + 1 ≤ a → a < n → Vp a i = 0) :
    ∀ a b, i ≤ a → a < n → i ≤ b → b < n →
      (accumRightStep n i st).v a b = hhL (i + 1) n (fun c => st.u i c) Vp a b := by
  obtain ⟨P, hP⟩ : ∃ P : St α → Prop, P = fun T =>
    ∀ a b, i ≤ a → a < n → i ≤ b → b < n →
      T.v a b = hhL (i + 1) n (fun c => st.u i c) Vp a b := ⟨_, rfl⟩
  have key : P (accumRightStep n i st) := by
    unfold accumRightStep
    obtain ⟨Q, hQ⟩ : ∃ Q : St α → Prop, Q = fun X =>
      ∀ a b, i ≤ a → a < n → i ≤ b → b < n →
        (a ≠ i ∨ b ≠ i) → X.v a b = hhL (i + 1) n (fun c => st.u i c) Vp a b := ⟨_, rfl⟩
    apply block_step Q
    · rw [whenever_eq]
      by_cases hi : i < n - 1
      swap
      · rw [if_neg hi, hQ]
        intro a b ha1 ha2 hb1 hb2 hab
        omega
      have l0 := hl hi
      have d0 := hd hi
      rw [if_pos hi]
      apply block_step (fun X : St α => X.l = i + 1 ∧
        ∀ a b, i + 1 ≤ a → a < n → i + 1 ≤ b → b < n →
          X.v a b = hhL (i + 1) n (fun c => st.u i c) Vp a b)
      · rw [whenever_eq]
        by_cases hg : st.g ≠ 0
        · rw [if_pos hg, block_cons, block_cons, block_nil]
          obtain ⟨T1, eT1, a1, -, -, -, a5, a6⟩ := vFill_facts n i st
          rw [eT1]
          obtain ⟨T2, eT2, -, -, -, -, b5, b6⟩ := vApply_val n i T1 (a5.trans l0)
          rw [eT2]
          refine ⟨b5, fun a b ha1 ha2 hb1 hb2 => ?_⟩
          have hu : ∀ k, T1.u i k = st.u i k := fun k => by
            unfold St.u
            rw [a1]
          have hv : ∀ r c, i + 1 ≤ c → T1.v r c = st.v r c := fun r c hc => by
            rw [a6 r c, if_neg (by omega)]
          have es : sumUp (i + 1) n (fun k => T1.u i k * T1.v k b) =
              sumUp (i + 1) n (fun k => st.u i k * Vp k b) :=
            sumUp_congr (fun k h1 h2 => by
              rw [hu k, hv k b hb1, hV k b h1 h2 hb1 hb2])
          rw [b6 a b, if_pos ⟨⟨ha1, ha2⟩, hb1, hb2⟩, hv a b hb1, hV a b ha1 ha2 hb1 hb2, es,
            a6 a i, if_pos ⟨rfl, by omega, ha2⟩, l0, hhL_in _ _ _ _ a b ⟨ha1, ha2⟩]
          have ek : st.u i a / st.u i (i + 1) / st.g =
              -2 / sumUp (i + 1) n (fun c => st.u i c * st.u i c) * st.u i a := by
            by_cases hN : sumUp (i + 1) n (fun c => st.u i c * st.u i c) = 0
            · rw [hN, neg_zero, zero_div] at d0
              have hu0 : st.u i (i + 1) = 0 := by
                rcases mul_eq_zero.mp d0 with h | h
                · exact absurd h hg
                · exact h
              rw [hN, hu0, div_zero, div_zero, zero_div, zero_mul]
            · have hgu : st.u i (i + 1) * st.g ≠ 0 := by
                intro h0
                rw [mul_comm, h0] at d0
                apply hN
                have := d0.symm
                rw [div_eq_zero_iff] at this
                rcases this with h | h
                · exact neg_eq_zero.mp h
                · exact absurd h two_ne_zero
              have hN2 : sumUp (i + 1) n (fun c => st.u i c * st.u i c) =
                  -2 * (st.u i (i + 1) * st.g) := by
                rw [mul_comm (st.u i (i + 1)), d0]
                ring
              rw [hN2, div_div]
              field_simp
              ring
          rw [ek]
          ring
        · rw [if_neg hg]
          refine ⟨l0, fun a b ha1 ha2 hb1 hb2 => ?_⟩
          have hg0 : st.g = 0 := not_not.mp hg
          rw [hg0, zero_mul] at d0
          have hN : sumUp (i + 1) n (fun c => st.u i c * st.u i c) = 0 := by
            have := d0.symm
            rw [div_eq_zero_iff] at this
            rcases this with h | h
            · exact neg_eq_zero.mp h
            · exact absurd h two_ne_zero
          rw [hhL_in _ _ _ _ a b ⟨ha1, ha2⟩, hN, div_zero, zero_mul, zero_mul, add_zero]
          exact hV a b ha1 ha2 hb1 hb2
      rintro X ⟨x1, x2⟩
      rw [block_cons, block_nil]
      obtain ⟨T3, eT3, -, -, -, -, -, -, c7⟩ := zeroCross_facts n i X
      rw [eT3, hQ]
      intro a b ha1 ha2 hb1 hb2 hab
      rw [c7 a b, x1]
      by_cases hai : a = i
      · have c0 : (b = i ∧ i + 1 ≤ a ∧ a < n) ∨ (a = i ∧ i + 1 ≤ b ∧ b < n) := by omega
        rw [if_pos c0, hai, hhL_out _ _ _ _ i b (by omega), hrow b hb1 hb2, if_neg (by omega)]
      · by_cases hbi : b = i
        · have c0 : (b = i ∧ i + 1 ≤ a ∧ a < n) ∨ (a = i ∧ i + 1 ≤ b ∧ b < n) := by omega
          have e1 : sumUp (i + 1) n (fun r => st.u i r * Vp r i) = 0 :=
            sumUp_zero (fun r h1 h2 => by rw [hcol r h1 h2, mul_zero])
          rw [if_pos c0, hbi, hhL_in _ _ _ _ a i ⟨by omega, ha2⟩, e1, mul_zero, add_zero,
            hcol a (by omega) ha2]
        · have c0 : ¬ ((b = i ∧ i + 1 ≤ a ∧ a < n) ∨ (a = i ∧ i + 1 ≤ b ∧ b < n)) := by omega
          rw [if_neg c0]
          exact x2 a b (by omega) ha2 (by omega) hb2
    rintro X hX
    rw [hQ] at hX
    apply block_step (fun X1 : St α => ∀ a b, i ≤ a → a < n → i ≤ b → b < n →
      X1.v a b = hhL (i + 1) n (fun c => st.u i c) Vp a b)
    · intro a b ha1 ha2 hb1 hb2
      by_cases c : a = i ∧ b = i
      · simp only [St.wrV, St.ckV, St.v, Mat.set]
        rw [if_pos c, c.1, c.2, hhL_out _ _ _ _ i i (by omega), hrow i (le_refl i) hin,
          if_pos rfl]
      · have := hX a b ha1 ha2 hb1 hb2 (by omega)
        simp only [St.wrV, St.ckV, St.v, Mat.set] at this ⊢
        rw [if_neg c]
        exact this
    rintro X1 hX1
    apply block_step (fun X2 : St α => ∀ a b, i ≤ a → a < n → i ≤ b → b < n →
      X2.v a b = hhL (i + 1) n (fun c => st.u i c) Vp a b)
    · exact hX1
    rintro X2 hX2
    apply block_step P
    · rw [hP]
      exact hX2
    intro T hT
    rw [block_nil]
    exact hT
  rw [hP] at key
  exact key

/-- Phase 2, by the values it leaves in `V`: the product of the right-hand Householder
reflections stored in the rows of `U`.  It is assumed that each product `rv1(a+1)·U(a,a+1)` is
minus half the squared norm of the vector of row `a`, and that the pivot `U(a,a+1)` is not
zero when `rv1(a+1)` is not zero. -/
theorem accumRight_full (n : Int) (st : St α) (hn : 0 ≤ n)
    (hp : ∀ a, 0 ≤ a → a + 1 < n → st.r (a + 1) ≠ 0 → st.u a (a + 1) ≠ 0)
    (hd : ∀ a, 0 ≤ a → a + 1 < n →
      st.r (a + 1) * st.u a (a + 1) = -(sumUp (a + 1) n (fun c => st.u a c * st.u a c)) / 2) :
    (accumRight n st).U = st.U ∧ (accumRight n st).S = st.S ∧
    (accumRight n st).rv1 = st.rv1 ∧
    ∀ a b, 0 ≤ a → a < n → 0 ≤ b → b < n →
      (accumRight n st).v a b = Vhat n st n.toNat a b := by
  unfold accumRight
  rw [loopDown_eq]
  have hinv := forDown_inv (show (0 : Int) ≤ n - 1 + 1 by omega) (accumRightStep n)
    (fun i s => s.U = st.U ∧ s.S = st.S ∧ s.rv1 = st.rv1 ∧
      (i < n - 1 → s.g = st.r (i + 1) ∧ s.l = i + 1) ∧
      ∀ a b, i + 1 ≤ a → a < n → i + 1 ≤ b → b < n →
        s.v a b = Vhat n st (n - 1 - i).toNat a b)
    st ⟨rfl, rfl, rfl, fun hlt => absurd hlt (lt_irrefl _),
      fun a b h1 h2 _ _ => by omega⟩
    (by
      rintro i s h0 h1 ⟨p1, p2, p3, p4, p5⟩
      have hsu : ∀ a b, s.u a b = st.u a b := fun a b => by
        unfold St.u
        rw [p1]
      have hsr : ∀ a, s.r a = st.r a := fun a => by
        unfold St.r
        rw [p3]
      obtain ⟨q1, q2, q3, -, q5, q6⟩ := accumRightStep_keeps n i s (fun hi hg => by
        obtain ⟨g0, l0⟩ := p4 hi
        rw [l0, hsu]
        rw [g0] at hg
        exact hp i h0 (by omega) hg)
      have hv := accumRightStep_vals n i s (by omega) (fun hi => (p4 hi).2)
        (fun hi => by
          rw [(p4 hi).1, hsu]
          have e1 : sumUp (i + 1) n (fun c => s.u i c * s.u i c) =
              sumUp (i + 1) n (fun c => st.u i c * st.u i c) :=
            sumUp_congr (fun c _ _ => by rw [hsu])
          rw [e1]
          exact hd i h0 (by omega))
        (Vhat n st (n - 1 - i).toNat) p5
        (fun b hb1 hb2 => by
          rw [Vhat_low n st _ i b (Or.inl (by omega))]
          unfold Emat
          by_cases hbi : b = i
          · rw [if_pos hbi, if_pos ⟨hbi.symm, by omega, hb2⟩]
          · rw [if_neg hbi, if_neg (fun h => hbi h.1.symm)])
        (fun a ha1 ha2 => by
          rw [Vhat_low n st _ a i (Or.inr (by omega))]
          unfold Emat
          rw [if_neg (by omega)])
      refine ⟨q1.trans p1, q2.trans p2, q3.trans p3, fun _ => ?_,
        fun a b ha1 ha2 hb1 hb2 => ?_⟩
      · rw [q5, q6, sub_add_cancel, hsr]
        exact ⟨rfl, rfl⟩
      · have e1 : (n - 1 - (i - 1)).toNat = (n - i).toNat := by
          congr 1
          ring
        have e2 : (fun c => s.u i c) = (fun c => st.u i c) := funext (fun c => hsu i c)
        rw [e1, Vhat_step n st i (by omega), ← e2]
        exact hv a b (by omega) ha2 (by omega) hb2)
  obtain ⟨r1, r2, r3, -, r5⟩ := hinv
  refine ⟨r1, r2, r3, fun a b ha1 ha2 hb1 hb2 => ?_⟩
  have := r5 a b (by omega) ha2 (by omega) hb2
  have e : (n - 1 - (0 - 1)).toNat = n.toNat := by
    congr 1
    ring
  rw [e] at this
  exact this

end RightAccumulation

section LeftAccumulationLoops

variable {α : Type} [LinearOrderedField α]

/-- The loop of lines 180–181, which clears row `i` of `U` from column `l` on. -/
theorem zeroRow_spec (n i : Int) (st : St α) :
    ∃ o, loopUp (fun st => st.l) (fun _ => n) (fun j (st : St α) => st.wrU i j 0) st =
      { st with
        U := { st.U with val := fun a b =>
                if a = i ∧ st.l ≤ b ∧ b < n then 0 else st.U.val a b },
        oob := o } := by
  rw [loopUp_eq]
  by_cases hle : n ≤ st.l
  · rw [forUp_of_le hle]
    refine ⟨st.oob, ?_⟩
    have e : (fun a b => if a = i ∧ st.l ≤ b ∧ b < n then 0 else st.U.val a b) =
        st.U.val := by
      funext a b
      rw [if_neg (by omega)]
    rw [e]
  · have h := forUp_inv (le_of_lt (not_le.mp hle))
      (fun j (st : St α) => st.wrU i j 0)
      (fun k t => ∃ o, t = { st with
        U := { st.U with val := fun a b =>
                if a = i ∧ st.l ≤ b ∧ b < k then 0 else st.U.val a b },
        oob := o })
      st ⟨st.oob, by
        have e : (fun a b => if a = i ∧ st.l ≤ b ∧ b < st.l then 0 else st.U.val a b) =
            st.U.val := by
          funext a b
          rw [if_neg (by omega)]
        rw [e]⟩
      (by
        rintro k t h0 - ⟨o, rfl⟩
        refine ⟨o || !st.U.inb i k, ?_⟩
        simp only [St.wrU, St.ckU, Mat.set, Mat.inb]
        congr 2
        funext a b
        by_cases hab : a = i ∧ b = k
        · rw [if_pos hab, if_pos ⟨hab.1, by omega, by omega⟩]
        · rw [if_neg hab]
          by_cases hb : a = i ∧ st.l ≤ b ∧ b < k
          · rw [if_pos hb, if_pos ⟨hb.1, hb.2.1, by omega⟩]
          · rw [if_neg hb, if_neg]
            rintro ⟨h1, h2, h3⟩
            have : b ≠ k := fun e => hab ⟨h1, e⟩
            exact hb ⟨h1, h2, by omega⟩)
    exact h

/-- The loop of lines 201–202, which clears column `i` of `U` from row `i` on. -/
theorem zeroCol_spec (m i : Int) (st : St α) :
    ∃ o, loopUp (fun _ => i) (fun _ => m) (fun j (st : St α) => st.wrU j i 0) st =
      { st with
        U := { st.U with val := fun a b =>
                if b = i ∧ i ≤ a ∧ a < m then 0 else st.U.val a b },
        oob := o } := by
  rw [loopUp_eq]
  by_cases hle : m ≤ i
  · rw [forUp_of_le hle]
    refine ⟨st.oob, ?_⟩
    have e : (fun a b => if b = i ∧ i ≤ a ∧ a < m then 0 else st.U.val a b) =
        st.U.val := by
      funext a b
      rw [if_neg (by omega)]
    rw [e]
  · have h := forUp_inv (le_of_lt (not_le.mp hle))
      (fun j (st : St α) => st.wrU j i 0)
      (fun k t => ∃ o, t = { st with
        U := { st.U with val := fun a b =>
                if b = i ∧ i ≤ a ∧ a < k then 0 else st.U.val a b },
        oob := o })
      st ⟨st.oob, by
        have e : (fun a b => if b = i ∧ i ≤ a ∧ a < i then 0 else st.U.val a b) =
            st.U.val := by
          funext a b
          rw [if_neg (by omega)]
        rw [e]⟩
      (by
        rintro k t h0 - ⟨o, rfl⟩
        refine ⟨o || !st.U.inb k i, ?_⟩
        simp only [St.wrU, St.ckU, Mat.set, Mat.inb]
        congr 2
        funext a b
        by_cases hab : a = k ∧ b = i
        · rw [if_pos hab, if_pos ⟨hab.2, by omega, by omega⟩]
        · rw [if_neg hab]
          by_cases hb : b = i ∧ i ≤ a ∧ a < k
          · rw [if_pos hb, if_pos ⟨hb.1, hb.2.1, by omega⟩]
          · rw [if_neg hb, if_neg]
            rintro ⟨h1, h2, h3⟩
            have : a ≠ k := fun e => hab ⟨e, h1⟩
            exact hb ⟨h1, h2, by omega⟩)
    exact h

/-- One round of the loop of lines 187–194: column `j` of `U` receives, in the rows `[i, m)`,
the multiple `((Σ_{k ≥ l} U(k,i)·U(k,j))/U(i,i))·g` of column `i`. -/
theorem accApply_body (m i j : Int) (t : St α) (hij : i ≠ j) :
    ∃ T, block [
        fun st => { st with s := 0 },
        loopUp (fun st => st.l) (fun _ => m) (fun k st =>
          { (st.ckU k i).ckU k j with s := st.s + st.u k i * st.u k j }),
        fun st => { (st.ckU i i).dv (st.u i i) with f := (st.s / st.u i i) * st.g },
        loopUp (fun _ => i) (fun _ => m) (fun k st =>
          (st.ckU k i).wrU k j (st.u k j + st.f * st.u k i))] t = T ∧
      (∀ a b, T.u a b = if b = j ∧ i ≤ a ∧ a < m then
          t.u a b + sumUp t.l m (fun r => t.u r i * t.u r j) / t.u i i * t.g * t.u a i
        else t.u a b) ∧
      T.g = t.g ∧ T.l = t.l := by
  refine ⟨_, rfl, ?_⟩
  rw [block_cons, block_cons]
  obtain ⟨o, e1⟩ := dotCol_spec (fun st => st.l) (fun _ => m) i j ({ t with s := 0 } : St α)
  rw [e1, block_cons, block_cons, block_nil]
  obtain ⟨T, eT, b1, -, -, -, b5, -, -, b8, -⟩ := addCol_facts (fun _ => i) (fun _ => m) i j
    ({ ((({ ({ t with s := 0 } : St α) with
        s := 0 + sumUp t.l m (fun r => t.u r i * t.u r j), oob := o } : St α).ckU i i).dv
          (t.u i i)) with
      f := (0 + sumUp t.l m (fun r => t.u r i * t.u r j)) / t.u i i * t.g } : St α) hij
  simp only [St.u] at eT b1 ⊢
  rw [eT]
  refine ⟨fun a b => ?_, b5, b8⟩
  rw [b1 a b, zero_add]
  simp only [St.dv, St.ckU]

/-- The loop of lines 185–195, which applies the left-hand reflection of step `i` to the
columns `j ≥ l = i + 1` of `U`, by the values it leaves in `U`. -/
theorem accApply_val (m n i : Int) (X : St α) (hl : X.l = i + 1) :
    ∃ T, loopUp (fun st => st.l) (fun _ => n) (fun j => block [
        fun st => { st with s := 0 },
        loopUp (fun st => st.l) (fun _ => m) (fun k st =>
          { (st.ckU k i).ckU k j with s := st.s + st.u k i * st.u k j }),
        fun st => { (st.ckU i i).dv (st.u i i) with f := (st.s / st.u i i) * st.g },
        loopUp (fun _ => i) (fun _ => m) (fun k st =>
          (st.ckU k i).wrU k j (st.u k j + st.f * st.u k i))]) X = T ∧
      T.g = X.g ∧
      ∀ a b, T.u a b = if (i ≤ a ∧ a < m) ∧ (i + 1 ≤ b ∧ b < n) then
          X.u a b + sumUp (i + 1) m (fun r => X.u r i * X.u r b) / X.u i i * X.g * X.u a i
        else X.u a b := by
  refine ⟨_, rfl, ?_⟩
  rw [loopUp_eq, hl]
  by_cases hle : n ≤ i + 1
  · rw [forUp_of_le hle]
    refine ⟨rfl, fun a b => ?_⟩
    rw [if_neg (by omega)]
  · have h := forUp_inv (le_of_lt (not_le.mp hle))
      (fun j => block [
        fun st => { st with s := 0 },
        loopUp (fun st => st.l) (fun _ => m) (fun k st =>
          { (st.ckU k i).ckU k j with s := st.s + st.u k i * st.u k j }),
        fun st => { (st.ckU i i).dv (st.u i i) with f := (st.s / st.u i i) * st.g },
        loopUp (fun _ => i) (fun _ => m) (fun k (st : St α) =>
          (st.ckU k i).wrU k j (st.u k j + st.f * st.u k i))])
      (fun j0 t => t.g = X.g ∧ t.l = i + 1 ∧ ∀ a b, t.u a b =
        if (i ≤ a ∧ a < m) ∧ (i + 1 ≤ b ∧ b < j0) then
          X.u a b + sumUp (i + 1) m (fun r => X.u r i * X.u r b) / X.u i i * X.g * X.u a i
        else X.u a b)
      X ⟨rfl, hl, fun a b => by rw [if_neg (by omega)]⟩
      (by
        rintro j0 t hj1 hj2 ⟨a1, a0, a2⟩
        obtain ⟨T, eT, b1, b2, b3⟩ := accApply_body m i j0 t (by omega)
        beta_reduce
        rw [eT]
        refine ⟨b2.trans a1, b3.trans a0, fun a b => ?_⟩
        have hcol : ∀ r, t.u r i = X.u r i := fun r => by
          rw [a2 r i, if_neg (by omega)]
        have hj0 : ∀ r, t.u r j0 = X.u r j0 := fun r => by
          rw [a2 r j0, if_neg (by omega)]
        rw [b1 a b, a1, a0, hcol a, hcol i]
        have es : sumUp (i + 1) m (fun r => t.u r i * t.u r j0) =
            sumUp (i + 1) m (fun r => X.u r i * X.u r j0) :=
          sumUp_congr (fun r _ _ => by rw [hcol r, hj0 r])
        rw [es]
        by_cases c1 : b = j0 ∧ i ≤ a ∧ a < m
        · rw [if_pos c1, if_pos ⟨c1.2, by omega, by omega⟩, c1.1, hj0 a]
        · rw [if_neg c1, a2 a b]
          by_cases c2 : (i ≤ a ∧ a < m) ∧ (i + 1 ≤ b ∧ b < j0)
          · rw [if_pos c2, if_pos ⟨c2.1, c2.2.1, by omega⟩]
          · rw [if_neg c2, if_neg (by omega)])
    exact ⟨h.1, h.2.2⟩

end LeftAccumulationLoops

section LeftAccumulation

variable {α : Type} [LinearOrderedField α]

/-- The product of the last `t` left-hand reflections is the identity outside the rows and
columns `≥ n - t`. -/
theorem Uhat_low (m n : Int) (st : St α) (t : Nat) (a b : Int)
    (h : a < n - t ∨ b < n - t) : Uhat m n st t a b = Emat n a b := by
  induction t generalizing a b with
  | zero => rfl
  | succ t ih =>
    unfold Uhat
    have h' : a < n - t - 1 ∨ b < n - t - 1 := by
      push_cast at h
      omega
    by_cases ha : n - 1 - (t : Int) ≤ a ∧ a < m
    · rw [hhL_in _ _ _ _ a b ha]
      have hb : b < n - t - 1 := by omega
      have e1 : sumUp (n - 1 - (t : Int)) m
          (fun r => st.u r (n - 1 - (t : Int)) * Uhat m n st t r b) = 0 :=
        sumUp_zero (fun r h1 h2 => by
          rw [ih r b (Or.inr (by omega))]
          unfold Emat
          rw [if_neg (by omega), mul_zero])
      rw [e1, mul_zero, add_zero]
      exact ih a b (Or.inr (by omega))
    · rw [hhL_out _ _ _ _ a b ha]
      by_cases hb : b < n - t
      · exact ih a b (Or.inr hb)
      · by_cases ha2 : a < n - t
        · exact ih a b (Or.inl ha2)
        · have hma : m ≤ a := by omega
          have hb2 : b < n - t - 1 := by omega
          omega

theorem Uhat_step (m n : Int) (st : St α) (i : Int) (hin : i < n) :
    Uhat m n st (n - i).toNat =
      hhL i m (fun r => st.u r i) (Uhat m n st (n - 1 - i).toNat) := by
  have e : (n - i).toNat = (n - 1 - i).toNat + 1 := by omega
  have e2 : n - 1 - ((n - 1 - i).toNat : Int) = i := by omega
  rw [e]
  conv_lhs => unfold Uhat
  rw [e2]

/-- The coefficient of the accumulation loops: `x/p/w` is `-2/N·x` when `w·p = -N/2`. -/
theorem house_coeff (w p N x : α) (hw : w ≠ 0) (hd : w * p = -N / 2) :
    x / p * (1 / w) = -2 / N * x := by
  by_cases hN : N = 0
  · rw [hN, neg_zero, zero_div] at hd
    have hp : p = 0 := by
      rcases mul_eq_zero.mp hd with h | h
      · exact absurd h hw
      · exact h
    rw [hN, hp, div_zero, div_zero, zero_mul, zero_mul]
  · have hp : p ≠ 0 := by
      intro h0
      rw [h0, mul_zero] at hd
      apply hN
      have := hd.symm
      rw [div_eq_zero_iff] at this
      rcases this with h | h
      · exact neg_eq_zero.mp h
      · exact absurd h two_ne_zero
    have hN2 : N = -2 * (w * p) := by
      rw [hd]
      ring
    rw [hN2]
    field_simp
    ring

/-- Step `i` of the left-hand accumulation, by the values it leaves in `U`: inside the box
`[i, m) × [i, n)` those of the reflection with the vector `U(i..m-1, i)` applied to a matrix
`Up` that agrees with `U` in the rows and columns after `i` and that is the identity in row
and column `i`; outside the box nothing is assigned.  It is assumed that `S(i)·U(i,i)` is
minus half the squared norm of the vector. -/
theorem accumLeftStep_vals (m n i : Int) (st : St α) (him : i < m) (hin : i < n)
    (hd : st.w i * st.u i i = -(sumUp i m (fun r => st.u r i * st.u r i)) / 2)
    (Up : Int → Int → α)
    (hU : ∀ a b, i + 1 ≤ a → a < m → i + 1 ≤ b → b < n → st.u a b = Up a b)
    (hrow : ∀ b, i ≤ b → b < n → Up i b = if b = i then 1 else 0)
    (hcol : ∀ a, i + 1 ≤ a → a < m → Up a i = 0) :
    (∀ a b, (i ≤ a ∧ a < m) → (i ≤ b ∧ b < n) →
      (accumLeftStep m n i st).u a b = hhL i m (fun r => st.u r i) Up a b) ∧
    (∀ a b, ¬ ((i ≤ a ∧ a < m) ∧ (i ≤ b ∧ b < n)) →
      (accumLeftStep m n i st).u a b = st.u a b) := by
  obtain ⟨P, hP⟩ : ∃ P : St α → Prop, P = fun T =>
    (∀ a b, (i ≤ a ∧ a < m) → (i ≤ b ∧ b < n) →
      T.u a b = hhL i m (fun r => st.u r i) Up a b) ∧
    (∀ a b, ¬ ((i ≤ a ∧ a < m) ∧ (i ≤ b ∧ b < n)) → T.u a b = st.u a b) := ⟨_, rfl⟩
  -- the reflected matrix, entry by entry
  have hsum : ∀ b, i + 1 ≤ b → b < n →
      sumUp i m (fun r => st.u r i * Up r b) = sumUp (i + 1) m (fun r => st.u r i * Up r b) := by
    intro b hb1 hb2
    rw [sumUp_first him, hrow b (by omega) hb2, if_neg (by omega), mul_zero, zero_add]
  have hsumi : sumUp i m (fun r => st.u r i * Up r i) = st.u i i := by
    rw [sumUp_first him, hrow i (le_refl i) hin, if_pos rfl, mul_one]
    have : sumUp (i + 1) m (fun r => st.u r i * Up r i) = 0 :=
      sumUp_zero (fun r h1 h2 => by rw [hcol r h1 h2, mul_zero])
    rw [this, add_zero]
  have key : P (accumLeftStep m n i st) := by
    unfold accumLeftStep
    apply block_step (fun X : St α => X.l = i + 1 ∧ X.U = st.U ∧ X.S = st.S)
    · exact ⟨rfl, rfl, rfl⟩
    rintro X0 ⟨e1, e2, e3⟩
    apply block_step (fun X : St α => X.l = i + 1 ∧ X.U = st.U ∧ X.g = st.w i)
    · refine ⟨?_, ?_, ?_⟩
      · simp only [St.ckS]
        exact e1
      · simp only [St.ckS]
        exact e2
      · simp only [St.ckS, St.w]
        rw [e3]
    rintro X1 ⟨f1, f2, f3⟩
    apply block_step (fun X : St α => X.l = i + 1 ∧ X.g = st.w i ∧
      ∀ a b, X.u a b = if a = i ∧ i + 1 ≤ b ∧ b < n then 0 else st.u a b)
    · rw [whenever_eq]
      by_cases hi : i < n - 1
      · rw [if_pos hi]
        obtain ⟨o, e⟩ := zeroRow_spec n i X1
        rw [e]
        refine ⟨f1, f3, fun a b => ?_⟩
        simp only [St.u]
        rw [f1, f2]
      · rw [if_neg hi]
        refine ⟨f1, f3, fun a b => ?_⟩
        rw [if_neg (by omega)]
        simp only [St.u, f2]
    rintro X2 ⟨g1, g2, g3⟩
    have hX2col : ∀ r, X2.u r i = st.u r i := fun r => by
      rw [g3 r i, if_neg (by omega)]
    obtain ⟨Q, hQ⟩ : ∃ Q : St α → Prop, Q = fun X =>
      (∀ a b, (i ≤ a ∧ a < m) → (i ≤ b ∧ b < n) → ¬ (a = i ∧ b = i) →
        X.u a b = hhL i m (fun r => st.u r i) Up a b) ∧
      (X.u i i + 1 = hhL i m (fun r => st.u r i) Up i i) ∧
      (∀ a b, ¬ ((i ≤ a ∧ a < m) ∧ (i ≤ b ∧ b < n)) → X.u a b = st.u a b) := ⟨_, rfl⟩
    apply block_step Q
    · rw [cond_eq]
      by_cases hg : X2.g ≠ 0
      · rw [if_pos hg]
        have hw : st.w i ≠ 0 := by
          rw [← g2]
          exact hg
        apply block_step (fun X : St α => X.l = i + 1 ∧ X.g = 1 / st.w i ∧
          ∀ a b, X.u a b = if a = i ∧ i + 1 ≤ b ∧ b < n then 0 else st.u a b)
        · refine ⟨?_, ?_, ?_⟩
          · simp only [St.dv]
            exact g1
          · simp only [St.dv]
            rw [g2]
          · intro a b
            simp only [St.dv, St.u]
            exact g3 a b
        rintro X3 ⟨k1, k2, k3⟩
        have hX3col : ∀ r, X3.u r i = st.u r i := fun r => by
          rw [k3 r i, if_neg (by omega)]
        apply block_step (fun X : St α => X.g = 1 / st.w i ∧
          ∀ a b, X.u a b = if (i ≤ a ∧ a < m) ∧ (i + 1 ≤ b ∧ b < n) then
            X3.u a b + sumUp (i + 1) m (fun r => X3.u r i * X3.u r b) / X3.u i i * X3.g *
              X3.u a i
          else X3.u a b)
        · rw [whenever_eq]
          by_cases hne : i ≠ n - 1
          · rw [if_pos hne]
            obtain ⟨T, eT, v1, v2⟩ := accApply_val m n i X3 k1
            rw [eT]
            exact ⟨v1.trans k2, v2⟩
          · rw [if_neg hne]
            refine ⟨k2, fun a b => ?_⟩
            rw [if_neg (by omega)]
        rintro X4 ⟨w1, w2⟩
        rw [block_cons, block_nil]
        obtain ⟨o, e⟩ := colTimesG_spec i m X4
        rw [e, hQ]
        have hX5 : ∀ a b, ({ X4 with
            U := { X4.U with val := fun a b =>
                if b = i ∧ i ≤ a ∧ a < m then X4.U.val a b * X4.g else X4.U.val a b },
            oob := o } : St α).u a b =
            if b = i ∧ i ≤ a ∧ a < m then X4.u a b * (1 / st.w i) else X4.u a b := by
          intro a b
          simp only [St.u]
          rw [w1]
        have hX4col : ∀ r, X4.u r i = st.u r i := fun r => by
          rw [w2 r i, if_neg (by omega), hX3col r]
        refine ⟨fun a b ha hb hab => ?_, ?_, fun a b hab => ?_⟩
        · rw [hX5 a b]
          by_cases hbi : b = i
          · have hai : a ≠ i := fun h => hab ⟨h, hbi⟩
            rw [if_pos ⟨hbi, ha⟩, hbi, hX4col a, hhL_in _ _ _ _ a i ha, hsumi,
              hcol a (by omega) ha.2, zero_add]
            have := house_coeff (st.w i) (st.u i i) _ (st.u a i * st.u i i) hw hd
            rw [mul_assoc, ← this]
            by_cases hp : st.u i i = 0
            · rw [hp, mul_zero, zero_div, zero_mul]
              have hN : sumUp i m (fun r => st.u r i * st.u r i) = 0 := by
                rw [hp, mul_zero] at hd
                have := hd.symm
                rw [div_eq_zero_iff] at this
                rcases this with h | h
                · exact neg_eq_zero.mp h
                · exact absurd h two_ne_zero
              have := sumUp_eq_zero (fun r _ _ => mul_self_nonneg (st.u r i)) hN a ha.1 ha.2
              rw [mul_self_eq_zero.mp this, zero_mul]
            · field_simp
          · have c0 : ¬ (b = i ∧ i ≤ a ∧ a < m) := fun h => hbi h.1
            have hb1 : i + 1 ≤ b := by omega
            have es : sumUp (i + 1) m (fun r => X3.u r i * X3.u r b) =
                sumUp (i + 1) m (fun r => st.u r i * Up r b) :=
              sumUp_congr (fun r h1 h2 => by
                rw [hX3col r, k3 r b, if_neg (by omega), hU r b h1 h2 hb1 hb.2])
            rw [if_neg c0, w2 a b, if_pos ⟨ha, hb1, hb.2⟩, es, hX3col i, hX3col a, k2,
              hhL_in _ _ _ _ a b ha, hsum b hb1 hb.2, k3 a b]
            have hc := house_coeff (st.w i) (st.u i i) _
              (sumUp (i + 1) m (fun r => st.u r i * Up r b)) hw hd
            rw [hc]
            by_cases hai : a = i
            · rw [if_pos ⟨hai, hb1, hb.2⟩, hai, hrow b (by omega) hb.2, if_neg hbi]
              ring
            · rw [if_neg (fun h => hai h.1), hU a b (by omega) ha.2 hb1 hb.2]
              ring
        · rw [hX5 i i, if_pos ⟨rfl, le_refl i, him⟩, hX4col i,
            hhL_in _ _ _ _ i i ⟨le_refl i, him⟩, hsumi, hrow i (le_refl i) hin, if_pos rfl]
          have := house_coeff (st.w i) (st.u i i) _ (st.u i i * st.u i i) hw hd
          rw [mul_assoc, ← this]
          by_cases hp : st.u i i = 0
          · rw [hp]
            simp
          · field_simp
            ring
        · have c0 : ¬ (b = i ∧ i ≤ a ∧ a < m) := by
            clear * - hab hin
            omega
          have c1 : ¬ ((i ≤ a ∧ a < m) ∧ (i + 1 ≤ b ∧ b < n)) := by
            clear * - hab
            omega
          have c2 : ¬ (a = i ∧ i + 1 ≤ b ∧ b < n) := by
            clear * - hab him
            omega
          rw [hX5 a b, if_neg c0, w2 a b, if_neg c1, k3 a b, if_neg c2]
      · rw [if_neg hg]
        have hw : st.w i = 0 := by
          rw [← g2]
          exact not_not.mp hg
        have hN : sumUp i m (fun r => st.u r i * st.u r i) = 0 := by
          rw [hw, zero_mul] at hd
          have := hd.symm
          rw [div_eq_zero_iff] at this
          rcases this with h | h
          · exact neg_eq_zero.mp h
          · exact absurd h two_ne_zero
        have hid : ∀ a b, (i ≤ a ∧ a < m) →
            hhL i m (fun r => st.u r i) Up a b = Up a b := by
          intro a b ha
          rw [hhL_in _ _ _ _ a b ha, hN, div_zero, zero_mul, zero_mul, add_zero]
        obtain ⟨o, e⟩ := zeroCol_spec m i X2
        rw [e, hQ]
        have hX5 : ∀ a b, ({ X2 with
            U := { X2.U with val := fun a b =>
                if b = i ∧ i ≤ a ∧ a < m then 0 else X2.U.val a b },
            oob := o } : St α).u a b =
            if b = i ∧ i ≤ a ∧ a < m then 0 else X2.u a b := by
          intro a b
          simp only [St.u]
        refine ⟨fun a b ha hb hab => ?_, ?_, fun a b hab => ?_⟩
        · rw [hX5 a b, hid a b ha]
          by_cases hbi : b = i
          · have hai : a ≠ i := fun h => hab ⟨h, hbi⟩
            rw [if_pos ⟨hbi, ha⟩, hbi, hcol a (by omega) ha.2]
          · have c0 : ¬ (b = i ∧ i ≤ a ∧ a < m) := fun h => hbi h.1
            have hb1 : i + 1 ≤ b := by omega
            rw [if_neg c0, g3 a b]
            by_cases hai : a = i
            · rw [if_pos ⟨hai, hb1, hb.2⟩, hai, hrow b (by omega) hb.2, if_neg hbi]
            · rw [if_neg (fun h => hai h.1), hU a b (by omega) ha.2 hb1 hb.2]
        · rw [hX5 i i, if_pos ⟨rfl, le_refl i, him⟩, hid i i ⟨le_refl i, him⟩,
            hrow i (le_refl i) hin, if_pos rfl, zero_add]
        · have c0 : ¬ (b = i ∧ i ≤ a ∧ a < m) := by
            clear * - hab hin
            omega
          have c2 : ¬ (a = i ∧ i + 1 ≤ b ∧ b < n) := by
            clear * - hab him
            omega
          rw [hX5 a b, if_neg c0, g3 a b, if_neg c2]
    rintro X5 hX5
    rw [hQ] at hX5
    obtain ⟨x1, x2, x3⟩ := hX5
    apply block_step P
    · rw [hP]
      refine ⟨fun a b ha hb => ?_, fun a b hab => ?_⟩
      · by_cases c : a = i ∧ b = i
        · simp only [St.wrU, St.ckU, St.u, Mat.set]
          rw [if_pos c, c.1, c.2]
          exact x2
        · have := x1 a b ha hb c
          simp only [St.wrU, St.ckU, St.u, Mat.set] at this ⊢
          rw [if_neg c]
          exact this
      · have c : ¬ (a = i ∧ b = i) := by
          clear * - hab him hin
          omega
        have := x3 a b hab
        simp only [St.wrU, St.ckU, St.u, Mat.set] at this ⊢
        rw [if_neg c]
        exact this
    intro T hT
    rw [block_nil]
    exact hT
  rw [hP] at key
  exact key

/-- Phase 3, by the values it leaves in `U`: the first `n` columns of the product of the
left-hand Householder reflections stored in the columns of `U`; `S`, `V` and `rv1` are not
assigned.  It is assumed that each product `S(a)·U(a,a)` is minus half the squared norm of the
vector of column `a`. -/
theorem accumLeft_full (m n : Int) (st : St α) (hn : 0 ≤ n) (hmn : n ≤ m)
    (hd : ∀ a, 0 ≤ a → a < n →
      st.w a * st.u a a = -(sumUp a m (fun r => st.u r a * st.u r a)) / 2) :
    (accumLeft m n st).S = st.S ∧ (accumLeft m n st).V = st.V ∧
    (accumLeft m n st).rv1 = st.rv1 ∧
    ∀ a b, 0 ≤ a → a < m → 0 ≤ b → b < n →
      (accumLeft m n st).u a b = Uhat m n st n.toNat a b := by
  unfold accumLeft
  rw [loopDown_eq]
  have hinv := forDown_inv (show (0 : Int) ≤ n - 1 + 1 by omega) (accumLeftStep m n)
    (fun i s => s.S = st.S ∧ s.V = st.V ∧ s.rv1 = st.rv1 ∧
      (∀ a b, ¬ ((i + 1 ≤ a ∧ a < m) ∧ (i + 1 ≤ b ∧ b < n)) → s.u a b = st.u a b) ∧
      ∀ a b, (i + 1 ≤ a ∧ a < m) → (i + 1 ≤ b ∧ b < n) →
        s.u a b = Uhat m n st (n - 1 - i).toNat a b)
    st ⟨rfl, rfl, rfl, fun _ _ _ => rfl, fun a b _ hb => by omega⟩
    (by
      rintro i s h0 h1 ⟨p1, p2, p3, p4, p5⟩
      obtain ⟨q1, q2, q3⟩ := accumLeftStep_sameSVR m n i s
      have hcolu : ∀ r, s.u r i = st.u r i := fun r => p4 r i (by omega)
      have hsw : s.w i = st.w i := by
        unfold St.w
        rw [p1]
      have e1 : sumUp i m (fun r => s.u r i * s.u r i) =
          sumUp i m (fun r => st.u r i * st.u r i) :=
        sumUp_congr (fun r _ _ => by rw [hcolu r])
      obtain ⟨v1, v2⟩ := accumLeftStep_vals m n i s (by omega) (by omega)
        (by
          rw [hsw, hcolu i, e1]
          exact hd i h0 (by omega))
        (Uhat m n st (n - 1 - i).toNat)
        (fun a b ha1 ha2 hb1 hb2 => p5 a b ⟨ha1, ha2⟩ ⟨hb1, hb2⟩)
        (fun b hb1 hb2 => by
          rw [Uhat_low m n st _ i b (Or.inl (by omega))]
          unfold Emat
          by_cases hbi : b = i
          · rw [if_pos hbi, if_pos ⟨hbi.symm, by omega, hb2⟩]
          · rw [if_neg hbi, if_neg (fun h => hbi h.1.symm)])
        (fun a ha1 ha2 => by
          rw [Uhat_low m n st _ a i (Or.inr (by omega))]
          unfold Emat
          rw [if_neg (by omega)])
      refine ⟨q1.trans p1, q2.trans p2, q3.trans p3, fun a b hab => ?_,
        fun a b ha hb => ?_⟩
      · rw [v2 a b (by omega), p4 a b (by omega)]
      · have e2 : (n - 1 - (i - 1)).toNat = (n - i).toNat := by
          congr 1
          ring
        have e3 : (fun r => s.u r i) = (fun r => st.u r i) := funext hcolu
        rw [e2, Uhat_step m n st i (by omega), ← e3]
        exact v1 a b (by omega) (by omega))
  obtain ⟨r1, r2, r3, -, r5⟩ := hinv
  refine ⟨r1, r2, r3, fun a b ha1 ha2 hb1 hb2 => ?_⟩
  have := r5 a b (by omega) (by omega)
  have e : (n - 1 - (0 - 1)).toNat = n.toNat := by
    congr 1
    ring
  rw [e] at this
  exact this

end LeftAccumulation

section FactorisationAlgebra

variable {α : Type} [LinearOrderedField α]

theorem hhL_add (lo hi : Int) (u : Int → α) (M1 M2 : Int → Int → α) :
    hhL lo hi u (fun a b => M1 a b + M2 a b) =
      fun a b => hhL lo hi u M1 a b + hhL lo hi u M2 a b := by
  funext a b
  by_cases ha : lo ≤ a ∧ a < hi
  · rw [hhL_in _ _ _ _ a b ha, hhL_in _ _ _ _ a b ha, hhL_in _ _ _ _ a b ha]
    have e : sumUp lo hi (fun r => u r * (M1 r b + M2 r b)) =
        sumUp lo hi (fun r => u r * M1 r b) + sumUp lo hi (fun r => u r * M2 r b) := by
      rw [← sumUp_add]
      exact sumUp_congr (fun r _ _ => by ring)
    rw [e]
    ring
  · rw [hhL_out _ _ _ _ a b ha, hhL_out _ _ _ _ a b ha, hhL_out _ _ _ _ a b ha]

theorem hhR_add (lo hi : Int) (v : Int → α) (M1 M2 : Int → Int → α) :
    hhR lo hi v (fun a b => M1 a b + M2 a b) =
      fun a b => hhR lo hi v M1 a b + hhR lo hi v M2 a b := by
  funext a b
  by_cases hb : lo ≤ b ∧ b < hi
  · rw [hhR_in _ _ _ _ a b hb, hhR_in _ _ _ _ a b hb, hhR_in _ _ _ _ a b hb]
    have e : sumUp lo hi (fun c => (M1 a c + M2 a c) * v c) =
        sumUp lo hi (fun c => M1 a c * v c) + sumUp lo hi (fun c => M2 a c * v c) := by
      rw [← sumUp_add]
      exact sumUp_congr (fun c _ _ => by ring)
    rw [e]
    ring
  · rw [hhR_out _ _ _ _ a b hb, hhR_out _ _ _ _ a b hb, hhR_out _ _ _ _ a b hb]

/-- The products of reflections depend on the state through `U` only. -/
theorem Uhat_congr (m n : Int) (s t : St α) (h : s.U = t.U) (k : Nat) :
    Uhat m n s k = Uhat m n t k := by
  induction k with
  | zero => rfl
  | succ k ih =>
    unfold Uhat
    rw [ih]
    unfold St.u
    rw [h]

theorem Vhat_congr (n : Int) (s t : St α) (h : s.U = t.U) (k : Nat) :
    Vhat n s k = Vhat n t k := by
  induction k with
  | zero => rfl
  | succ k ih =>
    unfold Vhat
    rw [ih]
    unfold St.u
    rw [h]

/-- The product `Û·B·V̂ᵀ` of the accumulated reflections around the bidiagonal form is the
bidiagonal form surrounded by the reflections one by one. -/
theorem recon_conj (m n : Int) (st : St α) (N : Nat) (hN : (N : Int) = n) (w r : Int → α)
    (t : Nat) (ht : t ≤ N) :
    conjH m n st (N - t) (fun a b =>
        bil 0 n w 0 (Uhat m n st t) (Vhat n st t) a b +
          bil 1 n r 1 (Uhat m n st t) (Vhat n st t) a b) =
      conjH m n st N (fun a b =>
        bil 0 n w 0 (Emat n) (Emat n) a b + bil 1 n r 1 (Emat n) (Emat n) a b) := by
  induction t with
  | zero => rfl
  | succ t ih =>
    rw [← ih (by omega)]
    have e1 : N - t = ((n - 1 - (t : Int)) + 1).toNat := by omega
    have e2 : N - (t + 1) = (n - 1 - (t : Int)).toNat := by omega
    have e3 : n - (t : Int) = (n - 1 - (t : Int)) + 1 := by ring
    rw [e1, conjH_succ m n st (n - 1 - (t : Int)) (by omega), ← e2]
    conv_lhs => unfold Uhat Vhat
    rw [e3, bil_hhL_left, bil_hhL_right, bil_hhL_left, bil_hhL_right, hhR_add, hhL_add]

/-- The bidiagonal form as a product: `E·B·Eᵀ` is the completed matrix at the end of the
bidiagonalisation. -/
theorem recon_unit (m n : Int) (st : St α) (hmn : n ≤ m) :
    (fun a b => bil 0 n st.w 0 (Emat n) (Emat n) a b + bil 1 n st.r 1 (Emat n) (Emat n) a b) =
      Wbar m n st n := by
  funext a b
  have d1 : bil 0 n st.w 0 (Emat n) (Emat n) a b =
      if a = b ∧ 0 ≤ b ∧ b < n then st.w a else 0 := by
    unfold bil
    by_cases c : a = b ∧ 0 ≤ b ∧ b < n
    · rw [if_pos c, sumUp_single b _ c.2.1 c.2.2]
      · unfold Emat
        rw [if_pos ⟨by omega, by omega, by omega⟩, if_pos ⟨rfl, c.2.1, c.2.2⟩, c.1]
        ring
      · intro k hk1 hk2 hkb
        unfold Emat
        rw [if_neg (fun h : b = k ∧ 0 ≤ k ∧ k < n => hkb h.1.symm), mul_zero]
    · rw [if_neg c]
      apply sumUp_zero
      intro k hk1 hk2
      unfold Emat
      by_cases cb : b = k
      · rw [if_neg (fun h : a = k - 0 ∧ 0 ≤ k - 0 ∧ k - 0 < n => c (by omega)), zero_mul,
          zero_mul]
      · rw [if_neg (fun h : b = k ∧ 0 ≤ k ∧ k < n => cb h.1), mul_zero]
  have d2 : bil 1 n st.r 1 (Emat n) (Emat n) a b =
      if b = a + 1 ∧ 1 ≤ b ∧ b < n then st.r b else 0 := by
    unfold bil
    by_cases c : b = a + 1 ∧ 1 ≤ b ∧ b < n
    · rw [if_pos c, sumUp_single b _ c.2.1 c.2.2]
      · unfold Emat
        rw [if_pos ⟨by omega, by omega, by omega⟩, if_pos ⟨rfl, by omega, c.2.2⟩]
        ring
      · intro k hk1 hk2 hkb
        unfold Emat
        rw [if_neg (fun h : b = k ∧ 0 ≤ k ∧ k < n => hkb h.1.symm), mul_zero]
    · rw [if_neg c]
      apply sumUp_zero
      intro k hk1 hk2
      unfold Emat
      by_cases cb : b = k
      · rw [if_neg (fun h : a = k - 1 ∧ 0 ≤ k - 1 ∧ k - 1 < n => c (by omega)), zero_mul,
          zero_mul]
      · rw [if_neg (fun h : b = k ∧ 0 ≤ k ∧ k < n => cb h.1), mul_zero]
  rw [d1, d2]
  by_cases hs : 0 ≤ a ∧ a < m ∧ 0 ≤ b ∧ b < n
  · rw [Wbar_band m n st n a b hs (Or.inr hs.2.2.2)]
    by_cases hba : b = a
    · rw [if_pos hba, if_pos ⟨hba.symm, hs.2.2.1, hs.2.2.2⟩, if_neg (by omega), add_zero]
    · rw [if_neg hba, if_neg (fun h => hba h.1.symm), zero_add]
      by_cases hb1 : b = a + 1
      · rw [if_pos hb1, if_pos ⟨hb1, by omega, hs.2.2.2⟩, if_neg (by omega)]
      · rw [if_neg hb1, if_neg (fun h => hb1 h.1)]
  · rw [Wbar_out m n st n a b hs, if_neg (by omega), if_neg (by omega), add_zero]

end FactorisationAlgebra

section FactorisationClaim

/-- C11 (bidiagonal factorisation after phases 1–3): over the reals, for every input `A` with
`m ≥ n ≥ 1`, the state that the diagonalization loop starts from satisfies `A = U·B·Vᵀ`
entry by entry, where `B` is the `n × n` upper-bidiagonal matrix with the diagonal `S(0..n-1)`
and the superdiagonal `rv1(1..n-1)`, `U` is the `m × n` matrix left by the left-hand
accumulation and `V` the `n × n` matrix left by the right-hand accumulation. -/
theorem bidiagonal_factorisation (A S V : Mat ℝ) (R : Int → Int → ℝ)
    (hn : 1 ≤ A.cols) (hmn : A.cols ≤ A.rows) :
    ∀ a b : Int, 0 ≤ a → a < A.rows → 0 ≤ b → b < A.cols →
      bidiagRecon (block [bidiagonalize Real.sqrt A.rows A.cols, accumRight A.cols,
        accumLeft A.rows A.cols] (svdInit A S V R)) A.cols a b = A.val a b := by
  intro a b ha1 ha2 hb1 hb2
  rw [block_cons, block_cons, block_cons, block_nil]
  have hn0 : (0 : Int) ≤ A.cols := by omega
  have hmn' : (A.cols : Int) ≤ A.rows := by omega
  obtain ⟨p1, p2, p3⟩ := bidiagonalize_full A.rows A.cols (svdInit A S V R) hn0 hmn'
  obtain ⟨-, -, p4⟩ := bidiagonalize_keeps A.rows A.cols (svdInit A S V R)
  have hA : Wbar A.rows A.cols (svdInit A S V R) 0 a b = A.val a b :=
    Wbar_box _ _ _ 0 a b ⟨ha1, ha2, hb1, hb2⟩ (by omega)
  generalize bidiagonalize Real.sqrt A.rows A.cols (svdInit A S V R) = s1 at p1 p2 p3 p4 ⊢
  obtain ⟨q1, q2, q3, q4⟩ := accumRight_full A.cols s1 hn0 p4 p3
  generalize accumRight (A.cols : Int) s1 = s2 at q1 q2 q3 q4 ⊢
  have hu2 : ∀ x y, s2.u x y = s1.u x y := fun x y => by
    unfold St.u
    rw [q1]
  have hw2 : ∀ x, s2.w x = s1.w x := fun x => by
    unfold St.w
    rw [q2]
  obtain ⟨r1, r2, r3, r4⟩ := accumLeft_full A.rows A.cols s2 hn0 hmn' (by
    intro x hx1 hx2
    have e1 : sumUp x A.rows (fun r => s2.u r x * s2.u r x) =
        sumUp x A.rows (fun r => s1.u r x * s1.u r x) :=
      sumUp_congr (fun r _ _ => by rw [hu2])
    rw [hw2, hu2, e1]
    exact p2 x hx1 hx2)
  rw [Uhat_congr _ _ s2 s1 q1] at r4
  generalize accumLeft (A.rows : Int) A.cols s2 = s3 at r1 r2 r3 r4 ⊢
  have hw3 : s3.w = s1.w := by
    funext x
    unfold St.w
    rw [r1, q2]
  have hr3 : s3.r = s1.r := by
    funext x
    unfold St.r
    rw [r3, q3]
  have hv3 : ∀ x y, 0 ≤ x → x < (A.cols : Int) → 0 ≤ y → y < (A.cols : Int) →
      s3.v x y = Vhat A.cols s1 (A.cols : Int).toNat x y := by
    intro x y hx1 hx2 hy1 hy2
    unfold St.v
    rw [r2]
    exact q4 x y hx1 hx2 hy1 hy2
  have hN : (((A.cols : Int).toNat : Nat) : Int) = (A.cols : Int) := by omega
  have e0 : bil 0 A.cols s3.w 0 s3.u s3.v a b =
      bil 0 A.cols s1.w 0 (Uhat A.rows A.cols s1 (A.cols : Int).toNat)
        (Vhat A.cols s1 (A.cols : Int).toNat) a b := by
    unfold bil
    rw [hw3]
    exact sumUp_congr (fun t ht1 ht2 => by
      rw [r4 a (t - 0) ha1 ha2 (by omega) (by omega), hv3 b t hb1 hb2 (by omega) ht2])
  have e1 : bil 1 A.cols s3.r 1 s3.u s3.v a b =
      bil 1 A.cols s1.r 1 (Uhat A.rows A.cols s1 (A.cols : Int).toNat)
        (Vhat A.cols s1 (A.cols : Int).toNat) a b := by
    unfold bil
    rw [hr3]
    exact sumUp_congr (fun t ht1 ht2 => by
      rw [r4 a (t - 1) ha1 ha2 (by omega) (by omega), hv3 b t hb1 hb2 (by omega) ht2])
  have hc := recon_conj A.rows A.cols s1 (A.cols : Int).toNat hN s1.w s1.r
    (A.cols : Int).toNat (le_refl _)
  rw [Nat.sub_self, recon_unit A.rows A.cols s1 hmn', ← p1] at hc
  have hc2 := congrFun (congrFun hc a) b
  unfold bidiagRecon
  rw [e0, e1, ← hA, ← hc2]
  rfl

/-- The factorisation on the `2 × 2` input `[[3, 4], [0, 5]]`, at the entry `(0, 1)`. -/
theorem bidiagonal_factorisation_witness :
    (1 ≤ 2 ∧ 2 ≤ 2) ∧
    bidiagRecon (block [bidiagonalize Real.sqrt 2 2, accumRight 2, accumLeft 2 2]
      (svdInit (Mat.mk 2 2 (fun i j => if i = 0 then (if j = 0 then 3 else 4)
          else (if j = 0 then 0 else 5)))
        (Mat.mk 0 0 (fun _ _ => 0)) (Mat.mk 0 0 (fun _ _ => 0)) (fun _ _ => (0 : ℝ))))
      2 0 1 = 4 := by
  have h := bidiagonal_factorisation
    (Mat.mk 2 2 (fun i j => if i = 0 then (if j = 0 then 3 else 4)
      else (if j = 0 then 0 else 5)))
    (Mat.mk 0 0 (fun _ _ => 0)) (Mat.mk 0 0 (fun _ _ => 0)) (fun _ _ => 0)
    (by decide) (by decide) 0 1 (by norm_num) (by norm_num) (by norm_num) (by norm_num)
  refine ⟨⟨by decide, by decide⟩, ?_⟩
  simpa using h

end FactorisationClaim

end Susa
